import Mathlib

/-!
# Red-black tree of `s21_containers/tree/redblacktree.h`

The pointer structure of `s21::RedBlackTree<Key, Compare>` is embedded as an
inductive tree.  A `NodePtr` is the node it designates (`Node.nil` is
`nullptr`); every node carries the address of its allocation, so that two
pointers are equal exactly when they designate the same allocation.  The
`parent` back-references of the source are the list of ancestors (`Path`) that
accompanies a node while the code walks the tree: `x->parent.lock()` is the
head of that list, and `root_` is what one obtains by climbing to its end.
The comparator `comp_` is an explicit argument `comp : α → α → Bool`.
-/

namespace s21

/-- Colour of a node: `enum class Color { RED, BLACK }`. -/
inductive Color where
  | RED
  | BLACK
  deriving DecidableEq, Repr

/-- A `NodePtr` together with everything reachable from it through `left` and
`right`.  `nil` is the null pointer. -/
inductive Node (α : Type) where
  | nil : Node α
  | node (addr : Nat) (key : α) (color : Color) (left right : Node α) : Node α
  deriving DecidableEq, Repr

/-- One ancestor of a position, seen from below.  `L a k c r`: the position is
the `left` link of the node at address `a` (key `k`, colour `c`) whose `right`
link is `r`.  `R a k c l`: the position is the `right` link of that node, whose
`left` link is `l`. -/
inductive Frame (α : Type) where
  | L (addr : Nat) (key : α) (color : Color) (right : Node α) : Frame α
  | R (addr : Nat) (key : α) (color : Color) (left : Node α) : Frame α
  deriving DecidableEq, Repr

/-- The chain of `parent` links above a position, nearest ancestor first.  The
empty path is the position `root_`. -/
abbrev Path (α : Type) := List (Frame α)

/-- The tree handle: the fields `root_` and `size_` (a `std::size_t`, kept in
`[0, 2^64)` by the operations). -/
structure RedBlackTree (α : Type) where
  root_ : Node α
  size_ : Nat
  deriving DecidableEq, Repr

/-- Result of running code that may read a field of an absent node. -/
inductive Outcome (σ : Type) where
  | done (s : σ) : Outcome σ
  | nullDeref : Outcome σ
  | outOfFuel : Outcome σ
  deriving DecidableEq, Repr

variable {α : Type}

/-- The default constructor `RedBlackTree()`: no root, size zero. -/
def RedBlackTree.empty : RedBlackTree α := { root_ := Node.nil, size_ := 0 }

/-- The ancestor described by a frame, with `t` placed at the position. -/
def Frame.plug : Frame α → Node α → Node α
  | Frame.L a k c r, t => Node.node a k c t r
  | Frame.R a k c l, t => Node.node a k c l t

/-- Colour of the ancestor described by a frame. -/
def Frame.color : Frame α → Color
  | Frame.L _ _ c _ => c
  | Frame.R _ _ c _ => c

/-- Climb every `parent` link: the whole tree (what `root_` designates) when
the position reached through `path` holds `t`. -/
def zipUp (t : Node α) : Path α → Node α
  | [] => t
  | f :: up => zipUp (f.plug t) up

/-- The assignment `x->color = Color::BLACK` guarded by `if (x)`. -/
def setBlack : Node α → Node α
  | Node.nil => Node.nil
  | Node.node a k _ l r => Node.node a k Color.BLACK l r

/-- The test `y && y->color == Color::RED`. -/
def isRed : Node α → Bool
  | Node.node _ _ Color.RED _ _ => true
  | _ => false

/-- The test `!y || y->color == Color::BLACK`. -/
def isBlackOrNil : Node α → Bool
  | Node.node _ _ Color.RED _ _ => false
  | _ => true

/-- `rotateLeft(x)` on the subtree rooted at `x`: the right child `y` of `x`
takes the place of `x`, `x` becomes the left child of `y`, and the former left
subtree of `y` becomes the right subtree of `x`.  The link from the parent of
`x` (or `root_`) is the position at which the result is placed.  Reading
`x->right` of an absent node, or `y->left` of an absent `y`, is a null
dereference. -/
def rotateLeft : Node α → Outcome (Node α)
  | Node.node xa xk xc xl (Node.node ya yk yc yl yr) =>
      Outcome.done (Node.node ya yk yc (Node.node xa xk xc xl yl) yr)
  | _ => Outcome.nullDeref

/-- `rotateRight(y)` on the subtree rooted at `y`: mirror image of
`rotateLeft`. -/
def rotateRight : Node α → Outcome (Node α)
  | Node.node ya yk yc (Node.node xa xk xc xl xr) yr =>
      Outcome.done (Node.node xa xk xc xl (Node.node ya yk yc xr yr))
  | _ => Outcome.nullDeref

/-- The descent loop shared by `find` and `insert`:
`while (x != nullptr) { if comp_(key, x->key) x = x->left; else if
comp_(x->key, key) x = x->right; else return x; }`.  The result is the node at
which the loop stops (`nil` when it falls off the tree) and the ancestors of
that position; the nearest ancestor is the variable `y` of `insert`. -/
def descend (comp : α → α → Bool) (key : α) : Node α → Path α → Node α × Path α
  | Node.nil, path => (Node.nil, path)
  | Node.node a k c l r, path =>
      if comp key k then descend comp key l (Frame.L a k c r :: path)
      else if comp k key then descend comp key r (Frame.R a k c l :: path)
      else (Node.node a k c l r, path)

/-- The descent loop of `insert_mult`: left when `comp_(key, x->key)`, right
otherwise, until `x` is null. -/
def descendMult (comp : α → α → Bool) (key : α) : Node α → Path α → Path α
  | Node.nil, path => path
  | Node.node a k c l r, path =>
      if comp key k then descendMult comp key l (Frame.L a k c r :: path)
      else descendMult comp key r (Frame.R a k c l :: path)

/-- `find(key)`: the node found, `nil` for `nullptr`. -/
def find (comp : α → α → Bool) (key : α) (t : RedBlackTree α) : Node α :=
  (descend comp key t.root_ []).1

/-- The loop of `insertFixup(z)`.  `z` is the current node and `path` its
ancestors, so `parent` is the head of `path` and `grandParent` the frame after
it.  One unit of fuel is spent per iteration; `insertFixup` supplies
`path.length`, which is never exhausted because every iteration shortens the
path.  `z` always designates a node (the new node or one of its ancestors). -/
def insertFixupLoop : Nat → Node α → Path α → Node α × Path α
  | 0, z, path => (z, path)
  | _ + 1, z, [] => (z, [])
  | _ + 1, z, [p] => (z, [p])
  | fuel + 1, z, p :: g :: up =>
      match p.color with
      | Color.BLACK => (z, p :: g :: up)
      | Color.RED =>
        match g with
        | Frame.L ga gk _ y =>
          -- parent == grandParent->left, y = grandParent->right
          if isRed y then
            -- parent and uncle BLACK, grandParent RED, z = grandParent
            match p with
            | Frame.L pa pk _ pr =>
                insertFixupLoop fuel
                  (Node.node ga gk Color.RED (Node.node pa pk Color.BLACK z pr) (setBlack y)) up
            | Frame.R pa pk _ pl =>
                insertFixupLoop fuel
                  (Node.node ga gk Color.RED (Node.node pa pk Color.BLACK pl z) (setBlack y)) up
          else
            match p with
            | Frame.R pa pk _ pl =>
              -- z == parent->right: z = parent; rotateLeft(z); then the stale
              -- `parent` (now the left child of the old z) is made BLACK,
              -- grandParent RED, rotateRight(grandParent)
              match z with
              | Node.node za zk zc zl zr =>
                  insertFixupLoop fuel (Node.node pa pk Color.BLACK pl zl)
                    (Frame.L za zk zc (Node.node ga gk Color.RED zr y) :: up)
              | Node.nil => (z, p :: g :: up)
            | Frame.L pa pk _ pr =>
              -- parent BLACK, grandParent RED, rotateRight(grandParent)
              insertFixupLoop fuel z
                (Frame.L pa pk Color.BLACK (Node.node ga gk Color.RED pr y) :: up)
        | Frame.R ga gk _ y =>
          -- parent == grandParent->right, y = grandParent->left
          if isRed y then
            match p with
            | Frame.L pa pk _ pr =>
                insertFixupLoop fuel
                  (Node.node ga gk Color.RED (setBlack y) (Node.node pa pk Color.BLACK z pr)) up
            | Frame.R pa pk _ pl =>
                insertFixupLoop fuel
                  (Node.node ga gk Color.RED (setBlack y) (Node.node pa pk Color.BLACK pl z)) up
          else
            match p with
            | Frame.L pa pk _ pr =>
              -- z == parent->left: z = parent; rotateRight(z); stale `parent`
              -- BLACK, grandParent RED, rotateLeft(grandParent)
              match z with
              | Node.node za zk zc zl zr =>
                  insertFixupLoop fuel (Node.node pa pk Color.BLACK zr pr)
                    (Frame.R za zk zc (Node.node ga gk Color.RED y zl) :: up)
              | Node.nil => (z, p :: g :: up)
            | Frame.R pa pk _ pl =>
              insertFixupLoop fuel z
                (Frame.R pa pk Color.BLACK (Node.node ga gk Color.RED y pl) :: up)

/-- `insertFixup(z)`: the loop, then `root_->color = Color::BLACK`.  The result
is the new `root_`. -/
def insertFixup (z : Node α) (path : Path α) : Node α :=
  let s := insertFixupLoop path.length z path
  setBlack (zipUp s.1 s.2)

/-- `insert(key)`.  `addr` is the address `std::make_shared` returns for the
new node.  The result is the tree afterwards and the returned pair: the
address of the designated node and the flag. -/
def insert (comp : α → α → Bool) (key : α) (addr : Nat) (t : RedBlackTree α) :
    RedBlackTree α × Nat × Bool :=
  match descend comp key t.root_ [] with
  | (Node.node xa _ _ _ _, _) => (t, xa, false)
  | (Node.nil, y) =>
      ({ root_ := insertFixup (Node.node addr key Color.RED Node.nil Node.nil) y,
         size_ := (t.size_ + 1) % 2 ^ 64 }, addr, true)

/-- `insert_mult(key)`: as `insert`, without the test for an equal key. -/
def insert_mult (comp : α → α → Bool) (key : α) (addr : Nat) (t : RedBlackTree α) :
    RedBlackTree α × Nat × Bool :=
  ({ root_ := insertFixup (Node.node addr key Color.RED Node.nil Node.nil)
                (descendMult comp key t.root_ []),
     size_ := (t.size_ + 1) % 2 ^ 64 }, addr, true)

/-- `treeMinimum(x)`: follow `left` links while they exist.  The result is the
leftmost node below `x` with its ancestors. -/
def treeMinimum : Node α → Path α → Node α × Path α
  | Node.node a k c (Node.node la lk lc ll lr) r, path =>
      treeMinimum (Node.node la lk lc ll lr) (Frame.L a k c r :: path)
  | x, path => (x, path)

/-- The choice `y->left ? y->left : y->right` of `erase`. -/
def spliceChild : Node α → Node α → Node α
  | Node.nil, r => r
  | l, _ => l

/-- Sibling cases of `eraseFixup` for `x == x->parent->left`, entered with `w`
the current `x->parent->right` (after the red-sibling rotation, if it
happened).  `pa pk pc` are the fields of the parent and `up` the ancestors of
the parent.  The result is the next `x` with its ancestors; `x = root_` is the
whole tree with the empty path. -/
def eraseFixupLeft (x : Node α) (pa : Nat) (pk : α) (pc : Color) (w : Node α) (up : Path α) :
    Outcome (Node α × Path α) :=
  match w with
  | Node.nil => Outcome.nullDeref
  | Node.node wa wk _ wl wr =>
    if isBlackOrNil wl && isBlackOrNil wr then
      -- w->color = RED; x = x->parent
      Outcome.done (Node.node pa pk pc x (Node.node wa wk Color.RED wl wr), up)
    else if isBlackOrNil wr then
      -- w->left->color = BLACK; w->color = RED; rotateRight(w); w = x->parent->right;
      -- then w->color = parent colour; parent BLACK; w->right BLACK; rotateLeft(parent)
      match wl with
      | Node.nil => Outcome.nullDeref
      | Node.node la lk _ ll lr =>
          Outcome.done
            (zipUp (Node.node la lk pc (Node.node pa pk Color.BLACK x ll)
              (Node.node wa wk Color.BLACK lr wr)) up, [])
    else
      -- w->color = parent colour; parent BLACK; w->right BLACK; rotateLeft(parent); x = root_
      Outcome.done
        (zipUp (Node.node wa wk pc (Node.node pa pk Color.BLACK x wl) (setBlack wr)) up, [])

/-- Sibling cases of `eraseFixup` for `x == x->parent->right`, entered with
`w` the current `x->parent->left`: mirror image of `eraseFixupLeft`. -/
def eraseFixupRight (x : Node α) (pa : Nat) (pk : α) (pc : Color) (w : Node α) (up : Path α) :
    Outcome (Node α × Path α) :=
  match w with
  | Node.nil => Outcome.nullDeref
  | Node.node wa wk _ wl wr =>
    if isBlackOrNil wr && isBlackOrNil wl then
      Outcome.done (Node.node pa pk pc (Node.node wa wk Color.RED wl wr) x, up)
    else if isBlackOrNil wl then
      -- w->right->color = BLACK; w->color = RED; rotateLeft(w); w = x->parent->left;
      -- then w->color = parent colour; parent BLACK; w->left BLACK; rotateRight(parent)
      match wr with
      | Node.nil => Outcome.nullDeref
      | Node.node ra rk _ rl rr =>
          Outcome.done
            (zipUp (Node.node ra rk pc (Node.node wa wk Color.BLACK wl rl)
              (Node.node pa pk Color.BLACK rr x)) up, [])
    else
      Outcome.done
        (zipUp (Node.node wa wk pc (setBlack wl) (Node.node pa pk Color.BLACK wr x)) up, [])

/-- One iteration of the loop of `eraseFixup` for a real node `x` that is not
the root; `f` is its parent and `up` the ancestors of the parent. -/
def eraseFixupBody (x : Node α) : Frame α → Path α → Outcome (Node α × Path α)
  | Frame.L pa pk pc w, up =>
    -- x == x->parent->left, w = x->parent->right
    match w with
    | Node.nil => Outcome.nullDeref
    | Node.node wa wk Color.RED wl wr =>
        -- w BLACK, parent RED, rotateLeft(parent), w = x->parent->right
        eraseFixupLeft x pa pk Color.RED wl (Frame.L wa wk Color.BLACK wr :: up)
    | Node.node wa wk Color.BLACK wl wr =>
        eraseFixupLeft x pa pk pc (Node.node wa wk Color.BLACK wl wr) up
  | Frame.R pa pk pc w, up =>
    -- x == x->parent->right, w = x->parent->left
    match w with
    | Node.nil => Outcome.nullDeref
    | Node.node wa wk Color.RED wl wr =>
        -- w BLACK, parent RED, rotateRight(parent), w = x->parent->left
        eraseFixupRight x pa pk Color.RED wr (Frame.R wa wk Color.BLACK wl :: up)
    | Node.node wa wk Color.BLACK wl wr =>
        eraseFixupRight x pa pk pc (Node.node wa wk Color.BLACK wl wr) up

/-- The loop of `eraseFixup(x)`:
`while (x != root_ && (!x || x->color == Color::BLACK))`.  `x` is the node at
the position (`nil` when the position is empty) and `path` its ancestors.  One
unit of fuel is spent per iteration through the sibling cases. -/
def eraseFixupLoop : Nat → Node α → Path α → Outcome (Node α × Path α)
  | _, x, [] => Outcome.done (x, [])
  | _, Node.node a k Color.RED l r, f :: up => Outcome.done (Node.node a k Color.RED l r, f :: up)
  | _, Node.nil, f :: up =>
      -- x is nullptr: x = root_, which ends the loop
      Outcome.done (zipUp Node.nil (f :: up), [])
  | 0, Node.node _ _ Color.BLACK _ _, _ :: _ => Outcome.outOfFuel
  | fuel + 1, Node.node a k Color.BLACK l r, f :: up =>
      match eraseFixupBody (Node.node a k Color.BLACK l r) f up with
      | Outcome.done s => eraseFixupLoop fuel s.1 s.2
      | Outcome.nullDeref => Outcome.nullDeref
      | Outcome.outOfFuel => Outcome.outOfFuel

/-- `eraseFixup(x)`: the loop, then `if (x) x->color = Color::BLACK`.  The
result is the new `root_`. -/
def eraseFixup (x : Node α) (path : Path α) : Outcome (Node α) :=
  match eraseFixupLoop path.length x path with
  | Outcome.done s => Outcome.done (zipUp (setBlack s.1) s.2)
  | Outcome.nullDeref => Outcome.nullDeref
  | Outcome.outOfFuel => Outcome.outOfFuel

/-- The part of `erase` after `z` was found: the colour of the node `y` that is
unlinked, the node `x` that takes its place, and the ancestors of that place.
When `z` has two children `y = treeMinimum(z->right)` and the assignment
`z->key = y->key` is recorded in the frame of `z`. -/
def eraseSplice (za : Nat) (zc : Color) (zl zr : Node α) (pz : Path α) :
    Outcome (Color × Node α × Path α) :=
  match zl, zr with
  | Node.node la lk lc ll lr, Node.node ra rk rc rl rr =>
    match treeMinimum (Node.node ra rk rc rl rr) [] with
    | (Node.node _ yk yc yl yr, rel) =>
        Outcome.done (yc, spliceChild yl yr,
          rel ++ Frame.R za yk zc (Node.node la lk lc ll lr) :: pz)
    | (Node.nil, _) => Outcome.nullDeref
  | _, _ => Outcome.done (zc, spliceChild zl zr, pz)

/-- `erase(key)`. -/
def erase (comp : α → α → Bool) (key : α) (t : RedBlackTree α) : Outcome (RedBlackTree α) :=
  match descend comp key t.root_ [] with
  | (Node.nil, _) => Outcome.done t
  | (Node.node za _ zc zl zr, pz) =>
    match eraseSplice za zc zl zr pz with
    | Outcome.done (yc, x, path) =>
      match (match yc with
             | Color.BLACK => eraseFixup x path
             | Color.RED => Outcome.done (zipUp x path)) with
      | Outcome.done root =>
          Outcome.done { root_ := root, size_ := (t.size_ + 2 ^ 64 - 1) % 2 ^ 64 }
      | Outcome.nullDeref => Outcome.nullDeref
      | Outcome.outOfFuel => Outcome.outOfFuel
    | Outcome.nullDeref => Outcome.nullDeref
    | Outcome.outOfFuel => Outcome.outOfFuel

/-! ## Observations on trees: key sequence, node count, height, invariants -/

/-- The nodes in in-order, each as the pair of its address and key. -/
def entries : Node α → List (Nat × α)
  | Node.nil => []
  | Node.node a k _ l r => entries l ++ (a, k) :: entries r

/-- The in-order key list. -/
def keys (t : Node α) : List α := (entries t).map Prod.snd

/-- Number of nodes reachable from a node. -/
def count : Node α → Nat
  | Node.nil => 0
  | Node.node _ _ _ l r => count l + count r + 1

/-- Number of nodes on the longest path from a node down to an absent child. -/
def height : Node α → Nat
  | Node.nil => 0
  | Node.node _ _ _ l r => max (height l) (height r) + 1

/-- Invariant 2: the root, if present, is BLACK. -/
def rootBlack : Node α → Bool
  | Node.node _ _ Color.RED _ _ => false
  | _ => true

/-- Invariant 3: no RED node has a RED child. -/
def noRedRed : Node α → Bool
  | Node.nil => true
  | Node.node _ _ c l r =>
      (c == Color.BLACK || (!isRed l && !isRed r)) && noRedRed l && noRedRed r

/-- The number of BLACK nodes on every path from a node down to an absent
child, when that number is the same on all such paths; `none` otherwise. -/
def blackHeight : Node α → Option Nat
  | Node.nil => some 0
  | Node.node _ _ c l r =>
      match blackHeight l, blackHeight r with
      | some n, some m =>
          if n = m then some (n + (if c = Color.BLACK then 1 else 0)) else none
      | _, _ => none

/-- Invariant 4: every path from the root to an absent child has the same
number of BLACK nodes. -/
def blackBalanced (t : Node α) : Bool := (blackHeight t).isSome

/-- Invariant 6 in unique-key mode: every key of the left subtree is below the
key of the node, every key of the right subtree above it, at every node. -/
def BST (comp : α → α → Bool) : Node α → Prop
  | Node.nil => True
  | Node.node _ k _ l r =>
      (∀ x ∈ keys l, comp x k = true) ∧ (∀ x ∈ keys r, comp k x = true) ∧
        BST comp l ∧ BST comp r

/-- The validator `checkRedBlackProperties(node, blackCount, pathBlackCount)`
of `s21_tree_test.cc`.  `hasParent` is the value of `node->parent.lock()`
as a condition; the reference parameter `blackCount` is passed in and
returned. -/
def checkRedBlackProperties : Node α → Bool → Int → Int → Bool × Int
  | Node.nil, _, blackCount, pathBlackCount =>
      if blackCount = -1 then (true, pathBlackCount)
      else if blackCount ≠ pathBlackCount then (false, blackCount)
      else (true, blackCount)
  | Node.node _ _ c l r, hasParent, blackCount, pathBlackCount =>
      if !hasParent && c ≠ Color.BLACK then (false, blackCount)
      else if c = Color.RED && (isRed l || isRed r) then (false, blackCount)
      else
        let newBlackCount := pathBlackCount + (if c = Color.BLACK then 1 else 0)
        let rl := checkRedBlackProperties l true blackCount newBlackCount
        if rl.1 then checkRedBlackProperties r true rl.2 newBlackCount
        else (false, rl.2)

/-- The comparator is a strict total order. -/
structure StrictTotal (comp : α → α → Bool) : Prop where
  irrefl : ∀ a, comp a a = false
  trans : ∀ a b c, comp a b = true → comp b c = true → comp a c = true
  total : ∀ a b, comp a b = false → comp b a = false → a = b

/-- `std::less<Key>` on the natural numbers. -/
def natLess : Nat → Nat → Bool := fun a b => decide (a < b)

/-- The addresses of the nodes reachable from a node, in in-order. -/
def addrs (t : Node α) : List Nat := (entries t).map Prod.fst

/-- An address `std::make_shared` can return for a new node while the nodes
below `t` are alive: a non-null 64-bit address that none of them occupies. -/
def FreshAddr (a : Nat) (t : Node α) : Prop := 0 < a ∧ a < 2 ^ 64 ∧ a ∉ addrs t

/-- Trees reachable from the empty tree by `insert` and `erase` calls that
complete. -/
inductive ReachableU (comp : α → α → Bool) : RedBlackTree α → Prop where
  | empty : ReachableU comp RedBlackTree.empty
  | insert (key : α) (addr : Nat) {t : RedBlackTree α} :
      ReachableU comp t → FreshAddr addr t.root_ → ReachableU comp (insert comp key addr t).1
  | erase (key : α) {t t1 : RedBlackTree α} :
      ReachableU comp t → erase comp key t = Outcome.done t1 → ReachableU comp t1

/-- Trees reachable from the empty tree by `insert`, `insert_mult` and `erase`
calls that complete. -/
inductive Reachable (comp : α → α → Bool) : RedBlackTree α → Prop where
  | empty : Reachable comp RedBlackTree.empty
  | insert (key : α) (addr : Nat) {t : RedBlackTree α} :
      Reachable comp t → FreshAddr addr t.root_ → Reachable comp (insert comp key addr t).1
  | insert_mult (key : α) (addr : Nat) {t : RedBlackTree α} :
      Reachable comp t → FreshAddr addr t.root_ →
        Reachable comp (insert_mult comp key addr t).1
  | erase (key : α) {t t1 : RedBlackTree α} :
      Reachable comp t → erase comp key t = Outcome.done t1 → Reachable comp t1

/-- Insert the keys of a list in order into a tree; the `i`-th call is given
the address `next + i` for the node it may create. -/
def insertAll (comp : α → α → Bool) : List α → Nat → RedBlackTree α → RedBlackTree α
  | [], _, t => t
  | k :: ks, next, t => insertAll comp ks (next + 1) (insert comp k next t).1

/-- Entries of the ancestors that precede the position in in-order. -/
def pathBefore : Path α → List (Nat × α)
  | [] => []
  | Frame.L _ _ _ _ :: up => pathBefore up
  | Frame.R a k _ l :: up => pathBefore up ++ (entries l ++ [(a, k)])

/-- Entries of the ancestors that follow the position in in-order. -/
def pathAfter : Path α → List (Nat × α)
  | [] => []
  | Frame.L a k _ r :: up => (a, k) :: entries r ++ pathAfter up
  | Frame.R _ _ _ _ :: up => pathAfter up

/-- Keys of the ancestors (and their other subtrees) that precede the position
in in-order. -/
def keysBefore (p : Path α) : List α := (pathBefore p).map Prod.snd

/-- Keys of the ancestors (and their other subtrees) that follow the position
in in-order. -/
def keysAfter (p : Path α) : List α := (pathAfter p).map Prod.snd

/-- Whether the topmost ancestor of a position, the root, is BLACK (true for
the empty path). -/
def pathRootBlack : Path α → Bool
  | [] => true
  | [f] => f.color == Color.BLACK
  | _ :: g :: up => pathRootBlack (g :: up)

/-- The well-formedness that reachable trees enjoy: distinct, non-null 64-bit
addresses, and `size_` equal to the node count. -/
def Sized (t : RedBlackTree α) : Prop :=
  (addrs t.root_).Nodup ∧ (∀ a ∈ addrs t.root_, 0 < a ∧ a < 2 ^ 64) ∧ t.size_ = count t.root_

/-- The comparator `PairCompare` of `s21_map_iterator.h`: key-value pairs are
compared by their keys only. -/
def PairCompare {κ ν : Type} (comp : κ → κ → Bool) : κ × ν → κ × ν → Bool :=
  fun a b => comp a.1 b.1

/-- Number of iterations the loop of `eraseFixup` can still make from a
position: none when the loop condition is false or `x` is absent, otherwise at
most the number of ancestors. -/
def eraseFuel : Node α → Path α → Nat
  | Node.node _ _ Color.BLACK _ _, f :: up => (f :: up).length
  | _, _ => 0

/-! ## Iterators -/

/-- Result of an iterator operation: completion, the `std::runtime_error` the
operators throw, the read of a field through a null pointer, or exhaustion of
the loop bound of the model. -/
inductive IterOutcome (σ : Type) where
  | done (s : σ) : IterOutcome σ
  | runtimeError : IterOutcome σ
  | nullDeref : IterOutcome σ
  | outOfFuel : IterOutcome σ
  deriving DecidableEq, Repr

/-- The classes `Iterator` and `ConstIterator`, which have the same fields and
the same operator bodies.  `current` is the node designated (`nil` for
`nullptr`) and `path` the chain of its `parent` links; `tree` tells whether
the member `tree` is non-null, in which case it points to the tree the
iterator was obtained from. -/
structure Iterator (α : Type) where
  current : Node α
  path : Path α
  tree : Bool
  deriving DecidableEq, Repr

/-- The address held by a `NodePtr`, `none` for `nullptr`. -/
def Node.addrOpt : Node α → Option Nat
  | Node.nil => none
  | Node.node a _ _ _ _ => some a

/-- `operator==` of the iterators: `current == other.current`, a comparison of
the two addresses. -/
def Iterator.eq (a b : Iterator α) : Bool := a.current.addrOpt == b.current.addrOpt

/-- The loop `while (current->right) current = current->right` of
`operator--`, also in its guarded form `while (current && current->right)`:
the rightmost node below `x` with its ancestors. -/
def treeMaximum : Node α → Path α → Node α × Path α
  | Node.node a k c l (Node.node ra rk rc rl rr), path =>
      treeMaximum (Node.node ra rk rc rl rr) (Frame.R a k c l :: path)
  | x, path => (x, path)

/-- The climb of `operator++`:
`while (parent && current == parent->right) { current = parent; parent = current->parent.lock(); }
current = parent;`.  The result is `nil` when the climb runs past the root. -/
def climbFromRight : Node α → Path α → Node α × Path α
  | _, [] => (Node.nil, [])
  | cur, Frame.R a k c l :: up => climbFromRight (Node.node a k c l cur) up
  | cur, Frame.L a k c r :: up => (Node.node a k c cur r, up)

/-- The climb of `operator--`:
`while (parent && current == parent->left) { current = parent; parent = current->parent.lock(); }
current = parent;`. -/
def climbFromLeft : Node α → Path α → Node α × Path α
  | _, [] => (Node.nil, [])
  | cur, Frame.L a k c r :: up => climbFromLeft (Node.node a k c cur r) up
  | cur, Frame.R a k c l :: up => (Node.node a k c l cur, up)

/-- `operator*`: throws when `current` is null, otherwise `current->key`. -/
def Iterator.deref (it : Iterator α) : IterOutcome α :=
  match it.current with
  | Node.nil => IterOutcome.runtimeError
  | Node.node _ k _ _ _ => IterOutcome.done k

/-- `operator++`: throws when `current` is null; with a right child, the
leftmost node of the right subtree; otherwise the climb. -/
def Iterator.incr (it : Iterator α) : IterOutcome (Iterator α) :=
  match it.current with
  | Node.nil => IterOutcome.runtimeError
  | Node.node a k c l Node.nil =>
      let s := climbFromRight (Node.node a k c l Node.nil) it.path
      IterOutcome.done { current := s.1, path := s.2, tree := it.tree }
  | Node.node a k c l (Node.node ra rk rc rl rr) =>
      let s := treeMinimum (Node.node ra rk rc rl rr) (Frame.R a k c l :: it.path)
      IterOutcome.done { current := s.1, path := s.2, tree := it.tree }

/-- `operator--` on an iterator of the tree `t`: when `current` is null,
`current = tree->root_` followed by the descent to the rightmost node, which
reads through the member `tree`; with a left child, the rightmost node of the
left subtree; otherwise the climb. -/
def Iterator.decr (t : RedBlackTree α) (it : Iterator α) : IterOutcome (Iterator α) :=
  match it.current with
  | Node.nil =>
      if it.tree then
        let s := treeMaximum t.root_ []
        IterOutcome.done { current := s.1, path := s.2, tree := it.tree }
      else IterOutcome.nullDeref
  | Node.node a k c Node.nil r =>
      let s := climbFromLeft (Node.node a k c Node.nil r) it.path
      IterOutcome.done { current := s.1, path := s.2, tree := it.tree }
  | Node.node a k c (Node.node la lk lc ll lr) r =>
      let s := treeMaximum (Node.node la lk lc ll lr) (Frame.L a k c r :: it.path)
      IterOutcome.done { current := s.1, path := s.2, tree := it.tree }

/-- `begin()`: `min = root_; while (min->left) min = min->left;
return Iterator(min);`.  The constructor leaves `tree` null; on the empty tree
`min->left` reads through a null pointer. -/
def begin (t : RedBlackTree α) : IterOutcome (Iterator α) :=
  match t.root_ with
  | Node.nil => IterOutcome.nullDeref
  | Node.node a k c l r =>
      let s := treeMinimum (Node.node a k c l r) []
      IterOutcome.done { current := s.1, path := s.2, tree := false }

/-- `end()`: `Iterator(nullptr, this)`. -/
def end_ (_t : RedBlackTree α) : Iterator α :=
  { current := Node.nil, path := [], tree := true }

/-- `cbegin()`: as `begin()` with the guard `min && min->left`, so the empty
tree gives a null `current`. -/
def cbegin (t : RedBlackTree α) : Iterator α :=
  let s := treeMinimum t.root_ []
  { current := s.1, path := s.2, tree := false }

/-- `cend()`: `ConstIterator(nullptr, this)`. -/
def cend (_t : RedBlackTree α) : Iterator α :=
  { current := Node.nil, path := [], tree := true }

/-- The loop `for (; it != end(); ++it) visit(*it)`: the keys visited, in the
order of the visits. -/
def traverse : Nat → Iterator α → IterOutcome (List α)
  | 0, it =>
    match it.current with
    | Node.nil => IterOutcome.done []
    | Node.node _ _ _ _ _ => IterOutcome.outOfFuel
  | fuel + 1, it =>
    match it.current with
    | Node.nil => IterOutcome.done []
    | Node.node _ k _ _ _ =>
      match it.incr with
      | IterOutcome.done it1 =>
        match traverse fuel it1 with
        | IterOutcome.done l => IterOutcome.done (k :: l)
        | IterOutcome.runtimeError => IterOutcome.runtimeError
        | IterOutcome.nullDeref => IterOutcome.nullDeref
        | IterOutcome.outOfFuel => IterOutcome.outOfFuel
      | IterOutcome.runtimeError => IterOutcome.runtimeError
      | IterOutcome.nullDeref => IterOutcome.nullDeref
      | IterOutcome.outOfFuel => IterOutcome.outOfFuel

/-- The keys visited by `for (auto it = begin(); it != end(); ++it)`. -/
def keysByIteration (t : RedBlackTree α) : IterOutcome (List α) :=
  match begin t with
  | IterOutcome.done it => traverse (count t.root_) it
  | IterOutcome.runtimeError => IterOutcome.runtimeError
  | IterOutcome.nullDeref => IterOutcome.nullDeref
  | IterOutcome.outOfFuel => IterOutcome.outOfFuel

/-- `operator--` applied `n` times. -/
def decrN (t : RedBlackTree α) : Nat → Iterator α → IterOutcome (Iterator α)
  | 0, it => IterOutcome.done it
  | n + 1, it =>
    match it.decr t with
    | IterOutcome.done it1 => decrN t n it1
    | IterOutcome.runtimeError => IterOutcome.runtimeError
    | IterOutcome.nullDeref => IterOutcome.nullDeref
    | IterOutcome.outOfFuel => IterOutcome.outOfFuel

/-- `operator++` applied `n` times. -/
def incrN : Nat → Iterator α → IterOutcome (Iterator α)
  | 0, it => IterOutcome.done it
  | n + 1, it =>
    match it.incr with
    | IterOutcome.done it1 => incrN n it1
    | IterOutcome.runtimeError => IterOutcome.runtimeError
    | IterOutcome.nullDeref => IterOutcome.nullDeref
    | IterOutcome.outOfFuel => IterOutcome.outOfFuel

/-! ## Trees built by a sequence of insertions -/

/-- `Built comp ks t`: `t` results from the empty tree by `insert` of the keys
`ks` in order, each call being given a fresh address. -/
inductive Built (comp : α → α → Bool) : List α → RedBlackTree α → Prop where
  | nil : Built comp [] RedBlackTree.empty
  | snoc (key : α) (addr : Nat) {ks : List α} {t : RedBlackTree α} :
      Built comp ks t → FreshAddr addr t.root_ →
        Built comp (ks ++ [key]) (insert comp key addr t).1

/-- `BuiltMult comp ks t`: `t` results from the empty tree by `insert_mult` of
the keys `ks` in order, each call being given a fresh address. -/
inductive BuiltMult (comp : α → α → Bool) : List α → RedBlackTree α → Prop where
  | nil : BuiltMult comp [] RedBlackTree.empty
  | snoc (key : α) (addr : Nat) {ks : List α} {t : RedBlackTree α} :
      BuiltMult comp ks t → FreshAddr addr t.root_ →
        BuiltMult comp (ks ++ [key]) (insert_mult comp key addr t).1

/-- `insert_mult` of the keys of a list in order; the `i`-th call is given the
address `next + i`. -/
def insertMultAll (comp : α → α → Bool) : List α → Nat → RedBlackTree α → RedBlackTree α
  | [], _, t => t
  | k :: ks, next, t => insertMultAll comp ks (next + 1) (insert_mult comp k next t).1

/-- Invariant 6 in multi-key mode as the specification words it: at every node
the keys of the left subtree compare strictly less than the key of the node,
and the keys of the right subtree do not compare less than it. -/
def BSTMult (comp : α → α → Bool) : Node α → Prop
  | Node.nil => True
  | Node.node _ k _ l r =>
      (∀ x ∈ keys l, comp x k = true) ∧ (∀ x ∈ keys r, comp x k = false) ∧
        BSTMult comp l ∧ BSTMult comp r

/-- The order that holds in multi-key mode: at every node no key of the left
subtree compares greater than the key of the node, and no key of the right
subtree compares less than it. -/
def BSTNonStrict (comp : α → α → Bool) : Node α → Prop
  | Node.nil => True
  | Node.node _ k _ l r =>
      (∀ x ∈ keys l, comp k x = false) ∧ (∀ x ∈ keys r, comp x k = false) ∧
        BSTNonStrict comp l ∧ BSTNonStrict comp r

/-- The keys from a position to the end of the in-order sequence: the key of
the node at the position, the keys of its right subtree, and the keys that
follow the position among the ancestors; nothing at the null position. -/
def keysFrom : Node α → Path α → List α
  | Node.nil, _ => []
  | Node.node _ k _ _ r, path => k :: (keys r ++ keysAfter path)

/-- The keys from the start of the in-order sequence up to a position, last
key first: the key of the node at the position, the keys of its left subtree
and the keys that precede the position among the ancestors; nothing at the
null position. -/
def keysUpTo : Node α → Path α → List α
  | Node.nil, _ => []
  | Node.node _ k _ l _, path => k :: (keys l).reverse ++ (keysBefore path).reverse

/-! ## Copy, move, swap -/

/-- `copyNodes(node)`: one new node per node of the source, holding the same
key and colour, allocated before the copies of its two subtrees are made.
`alloc i` is the address `std::make_shared` returns for the `i`-th allocation
and `n` the number of allocations made so far; the result is the copy and the
number of allocations afterwards. -/
def copyNodes (alloc : Nat → Nat) : Node α → Nat → Node α × Nat
  | Node.nil, n => (Node.nil, n)
  | Node.node _ k c l r, n =>
      let cl := copyNodes alloc l (n + 1)
      let cr := copyNodes alloc r cl.2
      (Node.node (alloc n) k c cl.1 cr.1, cr.2)

/-- A node with the field `parent` spelled out: the address the weak pointer
designates, `none` when it is empty.  Used to follow the assignments to
`parent` that `copyNodes` makes. -/
inductive PNode (α : Type) where
  | nil : PNode α
  | node (addr : Nat) (key : α) (color : Color) (parent : Option Nat)
      (left right : PNode α) : PNode α
  deriving DecidableEq, Repr

/-- The nodes below a position with their `parent` fields, when every `parent`
field designates the node that holds the link: `p` is the parent of the
position itself. -/
def withParents : Option Nat → Node α → PNode α
  | _, Node.nil => PNode.nil
  | p, Node.node a k c l r =>
      PNode.node a k c p (withParents (some a) l) (withParents (some a) r)

/-- The guarded assignment `if (n) n->parent = p`. -/
def PNode.setParent (p : Option Nat) : PNode α → PNode α
  | PNode.nil => PNode.nil
  | PNode.node a k c _ l r => PNode.node a k c p l r

/-- `copyNodes(node)` with the `parent` fields followed: `Node(*node)` copies
key, colour and the `parent` of the source node; the links to the copied
subtrees are stored, and each copied child that exists gets the new node as
its `parent`. -/
def copyNodesP (alloc : Nat → Nat) : PNode α → Nat → PNode α × Nat
  | PNode.nil, n => (PNode.nil, n)
  | PNode.node _ k c p l r, n =>
      let cl := copyNodesP alloc l (n + 1)
      let cr := copyNodesP alloc r cl.2
      (PNode.node (alloc n) k c p
        (cl.1.setParent (some (alloc n))) (cr.1.setParent (some (alloc n))), cr.2)

/-- A tree without its addresses: shape, keys and colours. -/
def shape : Node α → Node α
  | Node.nil => Node.nil
  | Node.node _ k c l r => Node.node 0 k c (shape l) (shape r)

/-- The copy constructor `RedBlackTree(const RedBlackTree& other)`:
`root_ = copyNodes(other.root_)`.  The member `size_` is not initialised;
`leftover` is the value it happens to hold. -/
def RedBlackTree.copy (alloc : Nat → Nat) (leftover : Nat) (other : RedBlackTree α) :
    RedBlackTree α :=
  { root_ := (copyNodes alloc other.root_ 0).1, size_ := leftover }

/-- The move constructor `RedBlackTree(RedBlackTree&& other)`: the new tree
takes `root_` and `size_` of `other`, whose `root_` becomes null and whose
`size_` becomes zero.  The result is the new tree and `other` afterwards. -/
def RedBlackTree.move (other : RedBlackTree α) : RedBlackTree α × RedBlackTree α :=
  ({ root_ := other.root_, size_ := other.size_ }, { root_ := Node.nil, size_ := 0 })

/-- The move assignment `self = std::move(other)` between two different
objects (the guard `this != &other` holds): as the move constructor, the
former nodes of `self` are released.  The result is `self` and `other`
afterwards. -/
def RedBlackTree.moveAssign (_self other : RedBlackTree α) :
    RedBlackTree α × RedBlackTree α :=
  ({ root_ := other.root_, size_ := other.size_ }, { root_ := Node.nil, size_ := 0 })

/-- `reset()`: `root_ = nullptr; size_ = 0`. -/
def RedBlackTree.reset (_self : RedBlackTree α) : RedBlackTree α :=
  { root_ := Node.nil, size_ := 0 }

/-- `self.swap(other)`: `std::swap` of the two `root_` and of the two `size_`.
The result is `self` and `other` afterwards. -/
def RedBlackTree.swap (self other : RedBlackTree α) : RedBlackTree α × RedBlackTree α :=
  ({ root_ := other.root_, size_ := other.size_ }, { root_ := self.root_, size_ := self.size_ })

/-! ## The wrappers `map` and `set` -/

/-- `map::at(key)`: `tree.find({key, {}})`, then the mapped value of the node
found; `none` stands for the `std::out_of_range` thrown when there is none. -/
def map.at_ {κ ν : Type} [Inhabited ν] (comp : κ → κ → Bool) (key : κ)
    (m : RedBlackTree (κ × ν)) : Option ν :=
  match find (PairCompare comp) (key, default) m with
  | Node.node _ kv _ _ _ => some kv.2
  | Node.nil => none

/-- `map::contains(key)`: `tree.find({key, {}}) != nullptr`. -/
def map.contains {κ ν : Type} [Inhabited ν] (comp : κ → κ → Bool) (key : κ)
    (m : RedBlackTree (κ × ν)) : Bool :=
  match find (PairCompare comp) (key, default) m with
  | Node.node _ _ _ _ _ => true
  | Node.nil => false

/-- `map::insert_or_assign(key, obj)`.  `addr` is the address of the one node
the call allocates: inside `tree.insert` when the key is new, otherwise for
`newNode`.  With the key present, `result.first` is the node the descent stops
at.  When it has no parent, `tree.getRoot() = newNode` assigns to the
temporary that `getRoot()` returns, the tree keeps its root, and
`insertFixup(newNode)` only makes that root BLACK.  Otherwise the link of the
parent that held `result.first` is made to hold `newNode`, a RED node without
children, and `insertFixup(newNode)` runs from there.  `size_` is not touched.
The result is the tree afterwards, the address of the node the returned
iterator designates, and the flag. -/
def map.insert_or_assign {κ ν : Type} (comp : κ → κ → Bool) (key : κ) (obj : ν) (addr : Nat)
    (m : RedBlackTree (κ × ν)) : RedBlackTree (κ × ν) × Nat × Bool :=
  let result := insert (PairCompare comp) (key, obj) addr m
  if result.2.2 then result
  else
    match (descend (PairCompare comp) (key, obj) m.root_ []).2 with
    | [] => ({ root_ := setBlack m.root_, size_ := m.size_ }, addr, false)
    | parent :: up =>
        ({ root_ := insertFixup (Node.node addr (key, obj) Color.RED Node.nil Node.nil)
                      (parent :: up),
           size_ := m.size_ }, addr, false)

/-- The loop `for (const auto& value : other) tree_.insert(value);` of
`set::merge` from the iterator `it` on: every key visited is inserted into
`self`; the `i`-th call of `insert` is given the address `next + i`. -/
def set.mergeLoop (comp : α → α → Bool) :
    Nat → Iterator α → Nat → RedBlackTree α → IterOutcome (RedBlackTree α)
  | 0, it, _, self =>
    match it.current with
    | Node.nil => IterOutcome.done self
    | Node.node _ _ _ _ _ => IterOutcome.outOfFuel
  | fuel + 1, it, next, self =>
    match it.current with
    | Node.nil => IterOutcome.done self
    | Node.node _ k _ _ _ =>
      match it.incr with
      | IterOutcome.done it1 => set.mergeLoop comp fuel it1 (next + 1) (insert comp k next self).1
      | IterOutcome.runtimeError => IterOutcome.runtimeError
      | IterOutcome.nullDeref => IterOutcome.nullDeref
      | IterOutcome.outOfFuel => IterOutcome.outOfFuel

/-- `set::clear()`: `tree_ = RedBlackTree<Key, Compare>()`, the move
assignment from a default-constructed tree. -/
def set.clear (self : RedBlackTree α) : RedBlackTree α :=
  (RedBlackTree.moveAssign self RedBlackTree.empty).1

/-- `self.merge(other)` for two different sets: the loop over
`other.begin() .. other.end()`, then `other.clear()`.  `begin()` is the one of
the tree, which reads `root_->left`.  The result is `self` and `other`
afterwards. -/
def set.merge (comp : α → α → Bool) (next : Nat) (self other : RedBlackTree α) :
    IterOutcome (RedBlackTree α × RedBlackTree α) :=
  match begin other with
  | IterOutcome.done it =>
    match set.mergeLoop comp (count other.root_) it next self with
    | IterOutcome.done s => IterOutcome.done (s, set.clear other)
    | IterOutcome.runtimeError => IterOutcome.runtimeError
    | IterOutcome.nullDeref => IterOutcome.nullDeref
    | IterOutcome.outOfFuel => IterOutcome.outOfFuel
  | IterOutcome.runtimeError => IterOutcome.runtimeError
  | IterOutcome.nullDeref => IterOutcome.nullDeref
  | IterOutcome.outOfFuel => IterOutcome.outOfFuel

/-- `set::find(key)`: `iterator(tree_.find(key))`, an iterator with a null
`tree`. -/
def set.find (comp : α → α → Bool) (key : α) (self : RedBlackTree α) : Iterator α :=
  let s := descend comp key self.root_ []
  { current := s.1, path := s.2, tree := false }

/-- `set::contains(key)`: `find(key) != end()`. -/
def set.contains (comp : α → α → Bool) (key : α) (self : RedBlackTree α) : Bool :=
  !(Iterator.eq (set.find comp key self) (end_ self))

/-- The path the descent of `insert` takes for a key that no key of the tree
is above: down the `right` links to the end. -/
def rightSpine : Node α → Path α → Path α
  | Node.nil, path => path
  | Node.node a k c l r, path => rightSpine r (Frame.R a k c l :: path)

/-- Whether the nearest ancestor of a position is BLACK (true at the root,
which has none). -/
def headBlack : Path α → Bool
  | [] => true
  | f :: _ => f.color == Color.BLACK

/-- The ancestors of a position on the right spine, seen as a tree with a
hole: every ancestor holds the position in its `right` link, its left subtree
has no RED node with a RED child and has `h` BLACK nodes on every path down,
where `h` is that number for the subtree at the hole below it, and a RED
ancestor has neither a RED left child nor a RED parent. -/
def RightCtx : Nat → Path α → Prop
  | _, [] => True
  | h, Frame.R _ _ c l :: up =>
      noRedRed l = true ∧ blackHeight l = some h ∧
      (c = Color.RED → isRed l = false ∧ headBlack up = true) ∧
      RightCtx (h + (if c = Color.BLACK then 1 else 0)) up
  | _, Frame.L _ _ _ _ :: _ => False

/-! ## The doubly linked list of `s21_list.h` and the adapters `queue`, `stack`

The nodes of a list live in a heap: a map from addresses to nodes, in which
the address 0 is `nullptr` and a deleted node is absent.  `next` and `prev`
are addresses. -/

/-- `struct NodeStruct`: the fields `data`, `next`, `prev`. -/
structure NodeStruct (τ : Type) where
  data : τ
  next : Nat
  prev : Nat
  deriving DecidableEq, Repr

/-- Result of an operation of the list or of an adapter: completion, the
`std::out_of_range` or `std::runtime_error` thrown, or an access through a
pointer that designates no node. -/
inductive ListOutcome (σ : Type) where
  | done (s : σ) : ListOutcome σ
  | outOfRange : ListOutcome σ
  | runtimeError : ListOutcome σ
  | nullDeref : ListOutcome σ
  deriving DecidableEq, Repr

/-- Sequencing: the second computation runs on the result of the first when
the first completes. -/
def ListOutcome.bind {σ ρ : Type} : ListOutcome σ → (σ → ListOutcome ρ) → ListOutcome ρ
  | ListOutcome.done s, f => f s
  | ListOutcome.outOfRange, _ => ListOutcome.outOfRange
  | ListOutcome.runtimeError, _ => ListOutcome.runtimeError
  | ListOutcome.nullDeref, _ => ListOutcome.nullDeref

/-- The class `list<T>`: the nodes allocated, and the fields `head_`, `tail_`
and `size_` (a `size_t`). -/
structure list (τ : Type) where
  heap : Nat → Option (NodeStruct τ)
  head_ : Nat
  tail_ : Nat
  size_ : Nat

/-- The class `ListIteratorBase<T>`: the fields `node_` and `tail_`. -/
structure ListIteratorBase where
  node_ : Nat
  tail_ : Nat
  deriving DecidableEq, Repr

/-- An access `p->...`: the node the pointer `p` designates. -/
def readNode {τ : Type} (heap : Nat → Option (NodeStruct τ)) (p : Nat) :
    ListOutcome (NodeStruct τ) :=
  if p = 0 then ListOutcome.nullDeref
  else
    match heap p with
    | some n => ListOutcome.done n
    | none => ListOutcome.nullDeref

/-- The constructor `list()`: no node, `head_` and `tail_` null, `size_` 0. -/
def list.init {τ : Type} : list τ :=
  { heap := fun _ => none, head_ := 0, tail_ := 0, size_ := 0 }

/-- `list::empty()`: `head_ == nullptr`. -/
def list.empty {τ : Type} (l : list τ) : Bool := decide (l.head_ = 0)

/-- `list::size()`. -/
def list.size {τ : Type} (l : list τ) : Nat := l.size_

/-- `list::front()`: throws `std::out_of_range` when `head_` is null, otherwise
`head_->data`. -/
def list.front {τ : Type} (l : list τ) : ListOutcome τ :=
  if l.head_ = 0 then ListOutcome.outOfRange
  else (readNode l.heap l.head_).bind fun n => ListOutcome.done n.data

/-- `list::back()`: throws `std::out_of_range` when `tail_` is null, otherwise
`tail_->data`. -/
def list.back {τ : Type} (l : list τ) : ListOutcome τ :=
  if l.tail_ = 0 then ListOutcome.outOfRange
  else (readNode l.heap l.tail_).bind fun n => ListOutcome.done n.data

/-- `list::begin()`: `iterator(head_, tail_)`. -/
def list.begin {τ : Type} (l : list τ) : ListIteratorBase :=
  { node_ := l.head_, tail_ := l.tail_ }

/-- `list::end()`: `iterator(nullptr, tail_)`. -/
def list.end_ {τ : Type} (l : list τ) : ListIteratorBase :=
  { node_ := 0, tail_ := l.tail_ }

/-- `ListIteratorBase::decrement()`: from the null position to `tail_`; from a
node without `prev` to the null position; otherwise to `node_->prev`. -/
def ListIteratorBase.decrement {τ : Type} (heap : Nat → Option (NodeStruct τ))
    (it : ListIteratorBase) : ListOutcome ListIteratorBase :=
  if it.node_ = 0 then ListOutcome.done { node_ := it.tail_, tail_ := it.tail_ }
  else
    (readNode heap it.node_).bind fun n =>
      if n.prev = 0 then ListOutcome.done { node_ := 0, tail_ := it.tail_ }
      else ListOutcome.done { node_ := n.prev, tail_ := it.tail_ }

/-- `list::push_back(value)`; `addr` is the address `new Node(value)` returns.
On the empty list the new node becomes `head_` and `tail_`; otherwise
`tail_->next = new_node; new_node->prev = tail_; tail_ = new_node`.  Then
`++size_`. -/
def list.push_back {τ : Type} (value : τ) (addr : Nat) (l : list τ) : ListOutcome (list τ) :=
  let h0 := Function.update l.heap addr (some { data := value, next := 0, prev := 0 })
  if l.head_ = 0 then
    ListOutcome.done
      { heap := h0, head_ := addr, tail_ := addr, size_ := (l.size_ + 1) % 2 ^ 64 }
  else
    (readNode h0 l.tail_).bind fun t =>
      let h1 := Function.update h0 l.tail_ (some { t with next := addr })
      (readNode h1 addr).bind fun n =>
        let h2 := Function.update h1 addr (some { n with prev := l.tail_ })
        ListOutcome.done
          { heap := h2, head_ := l.head_, tail_ := addr, size_ := (l.size_ + 1) % 2 ^ 64 }

/-- `list::erase(pos)`: throws `std::out_of_range` at the null position.
Otherwise the neighbours that exist are linked to each other, `head_` and
`tail_` move off the node, `tail_` is made null when `head_` is, the node is
deleted, and `--size_`. -/
def list.erase {τ : Type} (pos : ListIteratorBase) (l : list τ) : ListOutcome (list τ) :=
  let curNode := pos.node_
  if curNode = 0 then ListOutcome.outOfRange
  else
    (readNode l.heap curNode).bind fun c0 =>
    (if c0.prev ≠ 0 then
        (readNode l.heap c0.prev).bind fun p =>
          ListOutcome.done (Function.update l.heap c0.prev (some { p with next := c0.next }))
      else ListOutcome.done l.heap).bind fun h1 =>
    (readNode h1 curNode).bind fun c1 =>
    (if c1.next ≠ 0 then
        (readNode h1 c1.next).bind fun n =>
          ListOutcome.done (Function.update h1 c1.next (some { n with prev := c1.prev }))
      else ListOutcome.done h1).bind fun h2 =>
    (readNode h2 curNode).bind fun c2 =>
      let head1 := if curNode = l.head_ then c2.next else l.head_
      let tail1 := if curNode = l.tail_ then c2.prev else l.tail_
      let tail2 := if head1 = 0 then 0 else tail1
      ListOutcome.done
        { heap := Function.update h2 curNode none, head_ := head1, tail_ := tail2,
          size_ := (l.size_ + 2 ^ 64 - 1) % 2 ^ 64 }

/-- `list::pop_back()`: nothing on the list without `tail_`; otherwise
`erase(--end())`. -/
def list.pop_back {τ : Type} (l : list τ) : ListOutcome (list τ) :=
  if l.tail_ = 0 then ListOutcome.done l
  else (l.end_.decrement l.heap).bind fun it => l.erase it

/-- `list::pop_front()`: nothing on the list without `head_`; otherwise
`erase(begin())`. -/
def list.pop_front {τ : Type} (l : list τ) : ListOutcome (list τ) :=
  if l.head_ = 0 then ListOutcome.done l
  else l.erase l.begin

/-- `queue::front()`. -/
def queue.front {τ : Type} (q : list τ) : ListOutcome τ := q.front

/-- `queue::back()`. -/
def queue.back {τ : Type} (q : list τ) : ListOutcome τ := q.back

/-- `queue::size()`. -/
def queue.size {τ : Type} (q : list τ) : Nat := q.size

/-- `queue::push(value)`: `push_back` of the container. -/
def queue.push {τ : Type} (value : τ) (addr : Nat) (q : list τ) : ListOutcome (list τ) :=
  q.push_back value addr

/-- `queue::pop()`: throws `std::out_of_range` on the empty queue, otherwise
`pop_front` of the container. -/
def queue.pop {τ : Type} (q : list τ) : ListOutcome (list τ) :=
  if q.empty then ListOutcome.outOfRange else q.pop_front

/-- `stack::top()`: `back()` of the container. -/
def stack.top {τ : Type} (s : list τ) : ListOutcome τ := s.back

/-- `stack::size()`. -/
def stack.size {τ : Type} (s : list τ) : Nat := s.size

/-- `stack::push(value)`: `push_back` of the container. -/
def stack.push {τ : Type} (value : τ) (addr : Nat) (s : list τ) : ListOutcome (list τ) :=
  s.push_back value addr

/-- `stack::pop()`: throws `std::out_of_range` on the empty stack, otherwise
`pop_back` of the container. -/
def stack.pop {τ : Type} (s : list τ) : ListOutcome (list τ) :=
  if s.empty then ListOutcome.outOfRange else s.pop_back

/-- `stack::insert_many_front(args...)`: the fold `(push_back(args), ...)`,
left to right; the `i`-th allocation is given the address `next + i`. -/
def stack.insert_many_front {τ : Type} : List τ → Nat → list τ → ListOutcome (list τ)
  | [], _, s => ListOutcome.done s
  | a :: args, next, s =>
      (s.push_back a next).bind fun s1 => stack.insert_many_front args (next + 1) s1

/-- The calls `push(x1); ...; push(xn)` in this order on a queue or a stack;
the `i`-th allocation is given the address `next + i`. -/
def pushAll {τ : Type} : List τ → Nat → list τ → ListOutcome (list τ)
  | [], _, q => ListOutcome.done q
  | x :: xs, next, q => (queue.push x next q).bind fun q1 => pushAll xs (next + 1) q1

/-- `pop()` of a queue, `k` times. -/
def popN {τ : Type} : Nat → list τ → ListOutcome (list τ)
  | 0, q => ListOutcome.done q
  | k + 1, q => (queue.pop q).bind fun q1 => popN k q1

/-- Address of the first node of a sequence of nodes, null for the empty
sequence. -/
def firstAddr {τ : Type} : List (Nat × τ) → Nat
  | [] => 0
  | (a, _) :: _ => a

/-- Address of the last node of a sequence of nodes, null for the empty
sequence. -/
def lastAddr {τ : Type} : List (Nat × τ) → Nat
  | [] => 0
  | [(a, _)] => a
  | _ :: e :: es => lastAddr (e :: es)

/-- The heap holds the nodes `es` as a chain: each node has its datum, `next`
designates the node after it (null at the end) and `prev` the node before it
(`prev` for the first one). -/
def Linked {τ : Type} (heap : Nat → Option (NodeStruct τ)) : Nat → List (Nat × τ) → Prop
  | _, [] => True
  | prev, (a, x) :: es =>
      heap a = some { data := x, next := firstAddr es, prev := prev } ∧ Linked heap a es

/-- The list `l` holds the elements `es` (addresses and data, front first):
the nodes are chained from `head_` to `tail_`, their addresses are distinct
non-null 64-bit addresses, no other node is allocated, and `size_` is their
number. -/
def ListRepr {τ : Type} (l : list τ) (es : List (Nat × τ)) : Prop :=
  Linked l.heap 0 es ∧ l.head_ = firstAddr es ∧ l.tail_ = lastAddr es ∧
    l.size_ = es.length ∧ (es.map Prod.fst).Nodup ∧
    (∀ a ∈ es.map Prod.fst, 0 < a ∧ a < 2 ^ 64) ∧
    ∀ a, a ∉ es.map Prod.fst → l.heap a = none

/-- An address `new` can return while the nodes of `l` are alive. -/
def FreshNode {τ : Type} (addr : Nat) (l : list τ) : Prop :=
  0 < addr ∧ addr < 2 ^ 64 ∧ l.heap addr = none

/-- The calls `push(a1); ...; push(am)` in this order on a stack; the `i`-th
allocation is given the address `next + i`. -/
def stack.pushAll {τ : Type} : List τ → Nat → list τ → ListOutcome (list τ)
  | [], _, s => ListOutcome.done s
  | x :: xs, next, s => (stack.push x next s).bind fun s1 => stack.pushAll xs (next + 1) s1

/-- The data `xs` paired with the consecutive addresses `next`, `next + 1`,
... of the nodes that hold them. -/
def withAddrs {τ : Type} : Nat → List τ → List (Nat × τ)
  | _, [] => []
  | next, x :: xs => (next, x) :: withAddrs (next + 1) xs

/-- The nodes in in-order, each as the pair of its address and colour. -/
def colours : Node α → List (Nat × Color)
  | Node.nil => []
  | Node.node a _ c l r => colours l ++ (a, c) :: colours r

/-- `rotateLeft(x)` as a step on the tree: `x` is the node at the position
whose ancestors are `path`.  The rotated subtree is stored in the link that
held `x`: `root_` when `x` has no parent, otherwise the `left` or `right` link
of the parent.  `size_` is not touched. -/
def rotateLeftAt (x : Node α) (path : Path α) (t : RedBlackTree α) : Outcome (RedBlackTree α) :=
  match rotateLeft x with
  | Outcome.done s => Outcome.done { root_ := zipUp s path, size_ := t.size_ }
  | Outcome.nullDeref => Outcome.nullDeref
  | Outcome.outOfFuel => Outcome.outOfFuel

/-- `rotateRight(y)` as a step on the tree: mirror image of `rotateLeftAt`. -/
def rotateRightAt (y : Node α) (path : Path α) (t : RedBlackTree α) : Outcome (RedBlackTree α) :=
  match rotateRight y with
  | Outcome.done s => Outcome.done { root_ := zipUp s path, size_ := t.size_ }
  | Outcome.nullDeref => Outcome.nullDeref
  | Outcome.outOfFuel => Outcome.outOfFuel

/-- Colours of the ancestors that precede the position in in-order. -/
def coloursBefore : Path α → List (Nat × Color)
  | [] => []
  | Frame.L _ _ _ _ :: up => coloursBefore up
  | Frame.R a _ c l :: up => coloursBefore up ++ (colours l ++ [(a, c)])

/-- Colours of the ancestors that follow the position in in-order. -/
def coloursAfter : Path α → List (Nat × Color)
  | [] => []
  | Frame.L a _ c r :: up => (a, c) :: colours r ++ coloursAfter up
  | Frame.R _ _ _ _ :: up => coloursAfter up

/-- One iteration of the loop of `insertFixup(z)` with the rotations as calls:
`none` when the loop ends (no parent, a BLACK parent, or no grandparent),
otherwise the next `z` with its ancestors.  In the rotation cases the variable
`parent` keeps designating the node it designated at the start of the
iteration, which after `z = parent; rotate(z)` is `z` itself. -/
def insertFixupStep (z : Node α) : Path α → Outcome (Option (Node α × Path α))
  | [] => Outcome.done none
  | [_] => Outcome.done none
  | p :: g :: up =>
    match p.color with
    | Color.BLACK => Outcome.done none
    | Color.RED =>
      match g with
      | Frame.L ga gk _ y =>
        if isRed y then
          -- parent BLACK, uncle BLACK, grandParent RED, z = grandParent
          match p with
          | Frame.L pa pk _ pr =>
              Outcome.done (some
                (Node.node ga gk Color.RED (Node.node pa pk Color.BLACK z pr) (setBlack y), up))
          | Frame.R pa pk _ pl =>
              Outcome.done (some
                (Node.node ga gk Color.RED (Node.node pa pk Color.BLACK pl z) (setBlack y), up))
        else
          match p with
          | Frame.R pa pk pc pl =>
            -- z = parent; rotateLeft(z)
            match rotateLeft (Node.node pa pk pc pl z) with
            | Outcome.done (Node.node sa sk sc (Node.node qa qk _ ql qr) sr) =>
              -- parent (the left child of what was z) BLACK, grandParent RED,
              -- rotateRight(grandParent)
              match rotateRight (Node.node ga gk Color.RED
                      (Node.node sa sk sc (Node.node qa qk Color.BLACK ql qr) sr) y) with
              | Outcome.done (Node.node ta tk tc tl tr) =>
                  Outcome.done (some (tl, Frame.L ta tk tc tr :: up))
              | Outcome.done Node.nil => Outcome.nullDeref
              | Outcome.nullDeref => Outcome.nullDeref
              | Outcome.outOfFuel => Outcome.outOfFuel
            | Outcome.done _ => Outcome.nullDeref
            | Outcome.nullDeref => Outcome.nullDeref
            | Outcome.outOfFuel => Outcome.outOfFuel
          | Frame.L pa pk _ pr =>
            -- parent BLACK, grandParent RED, rotateRight(grandParent)
            match rotateRight (Node.node ga gk Color.RED (Node.node pa pk Color.BLACK z pr) y) with
            | Outcome.done (Node.node ta tk tc tl tr) =>
                Outcome.done (some (tl, Frame.L ta tk tc tr :: up))
            | Outcome.done Node.nil => Outcome.nullDeref
            | Outcome.nullDeref => Outcome.nullDeref
            | Outcome.outOfFuel => Outcome.outOfFuel
      | Frame.R ga gk _ y =>
        if isRed y then
          match p with
          | Frame.L pa pk _ pr =>
              Outcome.done (some
                (Node.node ga gk Color.RED (setBlack y) (Node.node pa pk Color.BLACK z pr), up))
          | Frame.R pa pk _ pl =>
              Outcome.done (some
                (Node.node ga gk Color.RED (setBlack y) (Node.node pa pk Color.BLACK pl z), up))
        else
          match p with
          | Frame.L pa pk pc pr =>
            -- z = parent; rotateRight(z)
            match rotateRight (Node.node pa pk pc z pr) with
            | Outcome.done (Node.node sa sk sc sl (Node.node qa qk _ ql qr)) =>
              match rotateLeft (Node.node ga gk Color.RED y
                      (Node.node sa sk sc sl (Node.node qa qk Color.BLACK ql qr))) with
              | Outcome.done (Node.node ta tk tc tl tr) =>
                  Outcome.done (some (tr, Frame.R ta tk tc tl :: up))
              | Outcome.done Node.nil => Outcome.nullDeref
              | Outcome.nullDeref => Outcome.nullDeref
              | Outcome.outOfFuel => Outcome.outOfFuel
            | Outcome.done _ => Outcome.nullDeref
            | Outcome.nullDeref => Outcome.nullDeref
            | Outcome.outOfFuel => Outcome.outOfFuel
          | Frame.R pa pk _ pl =>
            match rotateLeft (Node.node ga gk Color.RED y (Node.node pa pk Color.BLACK pl z)) with
            | Outcome.done (Node.node ta tk tc tl tr) =>
                Outcome.done (some (tr, Frame.R ta tk tc tl :: up))
            | Outcome.done Node.nil => Outcome.nullDeref
            | Outcome.nullDeref => Outcome.nullDeref
            | Outcome.outOfFuel => Outcome.outOfFuel

/-! ## The tree as nodes in a heap

The same class with its pointers spelled out: every node is a record at an
address, `left`, `right` and `parent` are addresses, and 0 is the null
pointer. -/

/-- `struct Node`: the fields `key`, `color`, `left`, `right`, `parent`. -/
structure HNode (α : Type) where
  key : α
  color : Color
  left : Nat
  right : Nat
  parent : Nat
  deriving DecidableEq, Repr

/-- The object `RedBlackTree`: the nodes allocated, `root_` and `size_`. -/
structure HTree (α : Type) where
  heap : Nat → Option (HNode α)
  root_ : Nat
  size_ : Nat

/-- Sequencing of steps that may fail. -/
def Outcome.bind {σ ρ : Type} : Outcome σ → (σ → Outcome ρ) → Outcome ρ
  | Outcome.done s, f => f s
  | Outcome.nullDeref, _ => Outcome.nullDeref
  | Outcome.outOfFuel, _ => Outcome.outOfFuel

/-- An access `p->...`: the node that the pointer `p` designates. -/
def HTree.node (H : HTree α) (p : Nat) : Outcome (HNode α) :=
  if p = 0 then Outcome.nullDeref
  else
    match H.heap p with
    | some n => Outcome.done n
    | none => Outcome.nullDeref

/-- The node at `p` after an assignment to one of its fields. -/
def HTree.setNode (H : HTree α) (p : Nat) (n : HNode α) : HTree α :=
  { H with heap := Function.update H.heap p (some n) }

/-- `rotateLeft(x)`, statement by statement. -/
def hrotateLeft (x : Nat) (H : HTree α) : Outcome (HTree α) :=
  -- NodePtr y = x->right;
  (H.node x).bind fun xn =>
  let y := xn.right
  -- x->right = y->left;
  (H.node y).bind fun yn =>
  let H1 := H.setNode x { xn with right := yn.left }
  -- if (y->left != nullptr) y->left->parent = x;
  (H1.node y).bind fun yn1 =>
  (if yn1.left ≠ 0 then
      (H1.node yn1.left).bind fun ln =>
        Outcome.done (H1.setNode yn1.left { ln with parent := x })
    else Outcome.done H1).bind fun H2 =>
  -- y->parent = x->parent.lock();
  (H2.node x).bind fun xn2 =>
  (H2.node y).bind fun yn2 =>
  let H3 := H2.setNode y { yn2 with parent := xn2.parent }
  -- if (x->parent.lock() == nullptr) root_ = y;
  -- else if (x == x->parent.lock()->left) x->parent.lock()->left = y;
  -- else x->parent.lock()->right = y;
  (H3.node x).bind fun xn3 =>
  (if xn3.parent = 0 then Outcome.done { H3 with root_ := y }
    else
      (H3.node xn3.parent).bind fun pn =>
        if pn.left = x then Outcome.done (H3.setNode xn3.parent { pn with left := y })
        else Outcome.done (H3.setNode xn3.parent { pn with right := y })).bind fun H4 =>
  -- y->left = x;
  (H4.node y).bind fun yn4 =>
  let H5 := H4.setNode y { yn4 with left := x }
  -- x->parent = y;
  (H5.node x).bind fun xn5 =>
  Outcome.done (H5.setNode x { xn5 with parent := y })

/-- `rotateRight(y)`, statement by statement. -/
def hrotateRight (y : Nat) (H : HTree α) : Outcome (HTree α) :=
  -- NodePtr x = y->left;
  (H.node y).bind fun yn =>
  let x := yn.left
  -- y->left = x->right;
  (H.node x).bind fun xn =>
  let H1 := H.setNode y { yn with left := xn.right }
  -- if (x->right != nullptr) x->right->parent = y;
  (H1.node x).bind fun xn1 =>
  (if xn1.right ≠ 0 then
      (H1.node xn1.right).bind fun rn =>
        Outcome.done (H1.setNode xn1.right { rn with parent := y })
    else Outcome.done H1).bind fun H2 =>
  -- x->parent = y->parent.lock();
  (H2.node y).bind fun yn2 =>
  (H2.node x).bind fun xn2 =>
  let H3 := H2.setNode x { xn2 with parent := yn2.parent }
  -- if (y->parent.lock() == nullptr) root_ = x;
  -- else if (y == y->parent.lock()->left) y->parent.lock()->left = x;
  -- else y->parent.lock()->right = x;
  (H3.node y).bind fun yn3 =>
  (if yn3.parent = 0 then Outcome.done { H3 with root_ := x }
    else
      (H3.node yn3.parent).bind fun pn =>
        if pn.left = y then Outcome.done (H3.setNode yn3.parent { pn with left := x })
        else Outcome.done (H3.setNode yn3.parent { pn with right := x })).bind fun H4 =>
  -- x->right = y;
  (H4.node x).bind fun xn4 =>
  let H5 := H4.setNode x { xn4 with right := y }
  -- y->parent = x;
  (H5.node y).bind fun yn5 =>
  Outcome.done (H5.setNode y { yn5 with parent := x })

/-- The address held by a `NodePtr`, 0 for `nullptr`. -/
def addrOf : Node α → Nat
  | Node.nil => 0
  | Node.node a _ _ _ _ => a

/-- The address of the nearest ancestor of a position, 0 at the root. -/
def parentOf : Path α → Nat
  | [] => 0
  | Frame.L a _ _ _ :: _ => a
  | Frame.R a _ _ _ :: _ => a

/-- The heap holds the nodes below a position as the tree `t` describes them:
each node has its key and colour, `left` and `right` designate its children,
and `parent` designates the node that holds it (`par` for the topmost
one). -/
def Cells (h : Nat → Option (HNode α)) : Nat → Node α → Prop
  | _, Node.nil => True
  | par, Node.node a k c l r =>
      h a = some { key := k, color := c, left := addrOf l, right := addrOf r, parent := par } ∧
        Cells h a l ∧ Cells h a r

/-- The heap holds the ancestors of a position, and the subtrees hanging off
them, as the path describes them; `child` is the address stored in the link
that leads to the position. -/
def PathCells (h : Nat → Option (HNode α)) : Nat → Path α → Prop
  | _, [] => True
  | child, Frame.L a k c r :: up =>
      h a = some { key := k, color := c, left := child, right := addrOf r,
                   parent := parentOf up } ∧
        Cells h a r ∧ PathCells h a up
  | child, Frame.R a k c l :: up =>
      h a = some { key := k, color := c, left := addrOf l, right := child,
                   parent := parentOf up } ∧
        Cells h a l ∧ PathCells h a up

/-- Addresses of the ancestors of a position and of the nodes in the subtrees
hanging off them. -/
def pathAddrs : Path α → List Nat
  | [] => []
  | Frame.L a _ _ r :: up => a :: (addrs r ++ pathAddrs up)
  | Frame.R a _ _ l :: up => a :: (addrs l ++ pathAddrs up)

/-- The address of the root, given the address `a` stored at a position and
the ancestors of the position. -/
def rootAddr : Nat → Path α → Nat
  | a, [] => a
  | _, f :: up => rootAddr (parentOf [f]) up

/-- The assignment `p->color = c`. -/
def HTree.setColor (p : Nat) (c : Color) (H : HTree α) : Outcome (HTree α) :=
  (H.node p).bind fun n => Outcome.done (H.setNode p { n with color := c })

/-- The assignment `p->left = v`. -/
def HTree.setLeft (p : Nat) (v : Nat) (H : HTree α) : Outcome (HTree α) :=
  (H.node p).bind fun n => Outcome.done (H.setNode p { n with left := v })

/-- The assignment `p->right = v`. -/
def HTree.setRight (p : Nat) (v : Nat) (H : HTree α) : Outcome (HTree α) :=
  (H.node p).bind fun n => Outcome.done (H.setNode p { n with right := v })

/-- The assignment `p->parent = v`. -/
def HTree.setParent (p : Nat) (v : Nat) (H : HTree α) : Outcome (HTree α) :=
  (H.node p).bind fun n => Outcome.done (H.setNode p { n with parent := v })

/-- The assignment `p->key = k`. -/
def HTree.setKey (p : Nat) (k : α) (H : HTree α) : Outcome (HTree α) :=
  (H.node p).bind fun n => Outcome.done (H.setNode p { n with key := k })

/-- The test `y && y->color == Color::RED`. -/
def HTree.isRed (H : HTree α) (y : Nat) : Outcome Bool :=
  if y = 0 then Outcome.done false
  else (H.node y).bind fun yn => Outcome.done (decide (yn.color = Color.RED))

/-- The test `!y || y->color == Color::BLACK`. -/
def HTree.isBlackOrNil (H : HTree α) (y : Nat) : Outcome Bool :=
  if y = 0 then Outcome.done true
  else (H.node y).bind fun yn => Outcome.done (decide (yn.color = Color.BLACK))

/-- The descent loop of `find` and `insert` on the heap, from the node `x`
with `y` the node visited before it: the node at which the loop stops (null
when it falls off the tree) and the last node visited. -/
def hdescend (comp : α → α → Bool) (key : α) (H : HTree α) :
    Nat → Nat → Nat → Outcome (Nat × Nat)
  | 0, x, y => if x = 0 then Outcome.done (0, y) else Outcome.outOfFuel
  | fuel + 1, x, y =>
    if x = 0 then Outcome.done (0, y)
    else
      (H.node x).bind fun xn =>
        if comp key xn.key then hdescend comp key H fuel xn.left x
        else if comp xn.key key then hdescend comp key H fuel xn.right x
        else Outcome.done (x, x)

/-- The descent loop of `insert_mult` on the heap: the last node visited. -/
def hdescendMult (comp : α → α → Bool) (key : α) (H : HTree α) : Nat → Nat → Nat → Outcome Nat
  | 0, x, y => if x = 0 then Outcome.done y else Outcome.outOfFuel
  | fuel + 1, x, y =>
    if x = 0 then Outcome.done y
    else
      (H.node x).bind fun xn =>
        if comp key xn.key then hdescendMult comp key H fuel xn.left x
        else hdescendMult comp key H fuel xn.right x

/-- One iteration of the loop of `insertFixup(z)` on the heap: `none` when the
loop ends, otherwise the next `z`. -/
def hinsertFixupStep (z : Nat) (H : HTree α) : Outcome (Option Nat × HTree α) :=
  -- while (z->parent.lock() && z->parent.lock()->color == Color::RED)
  (H.node z).bind fun zn =>
  if zn.parent = 0 then Outcome.done (none, H)
  else
    (H.node zn.parent).bind fun pn =>
    if pn.color ≠ Color.RED then Outcome.done (none, H)
    else
      let parent := zn.parent
      let grandParent := pn.parent
      -- if (!grandParent) break;
      if grandParent = 0 then Outcome.done (none, H)
      else
        (H.node grandParent).bind fun gn =>
        if parent = gn.left then
          let y := gn.right
          (H.isRed y).bind fun yred =>
          if yred then
            (H.setColor parent Color.BLACK).bind fun H1 =>
            (H1.setColor y Color.BLACK).bind fun H2 =>
            (H2.setColor grandParent Color.RED).bind fun H3 =>
            Outcome.done (some grandParent, H3)
          else
            (H.node parent).bind fun pn1 =>
            (if z = pn1.right then
                (hrotateLeft parent H).bind fun H1 => Outcome.done (parent, H1)
              else Outcome.done (z, H)).bind fun s =>
            (s.2.setColor parent Color.BLACK).bind fun H2 =>
            (H2.setColor grandParent Color.RED).bind fun H3 =>
            (hrotateRight grandParent H3).bind fun H4 =>
            Outcome.done (some s.1, H4)
        else
          let y := gn.left
          (H.isRed y).bind fun yred =>
          if yred then
            (H.setColor parent Color.BLACK).bind fun H1 =>
            (H1.setColor y Color.BLACK).bind fun H2 =>
            (H2.setColor grandParent Color.RED).bind fun H3 =>
            Outcome.done (some grandParent, H3)
          else
            (H.node parent).bind fun pn1 =>
            (if z = pn1.left then
                (hrotateRight parent H).bind fun H1 => Outcome.done (parent, H1)
              else Outcome.done (z, H)).bind fun s =>
            (s.2.setColor parent Color.BLACK).bind fun H2 =>
            (H2.setColor grandParent Color.RED).bind fun H3 =>
            (hrotateLeft grandParent H3).bind fun H4 =>
            Outcome.done (some s.1, H4)

/-- The loop of `insertFixup(z)` on the heap, bounded by `fuel` iterations. -/
def hinsertFixupLoop : Nat → Nat → HTree α → Outcome (HTree α)
  | 0, z, H =>
    (hinsertFixupStep z H).bind fun s =>
      match s.1 with
      | none => Outcome.done s.2
      | some _ => Outcome.outOfFuel
  | fuel + 1, z, H =>
    (hinsertFixupStep z H).bind fun s =>
      match s.1 with
      | none => Outcome.done s.2
      | some z1 => hinsertFixupLoop fuel z1 s.2

/-- `insertFixup(z)` on the heap: the loop, then `root_->color = BLACK`. -/
def hinsertFixup (fuel : Nat) (z : Nat) (H : HTree α) : Outcome (HTree α) :=
  (hinsertFixupLoop fuel z H).bind fun H1 => H1.setColor H1.root_ Color.BLACK

/-- The part of `insert` and `insert_mult` after the descent: the new node is
allocated at `addr`, linked below `y` (or made the root), `++size_`, and
`insertFixup(newNode)`. -/
def hlink (comp : α → α → Bool) (key : α) (addr : Nat) (fuel : Nat) (y : Nat) (H : HTree α) :
    Outcome (HTree α) :=
  -- NodePtr newNode = std::make_shared<Node>(key, Color::RED);
  let H1 := H.setNode addr ⟨key, Color.RED, 0, 0, 0⟩
  -- newNode->parent = y;
  (H1.setParent addr y).bind fun H2 =>
  (if y = 0 then Outcome.done { H2 with root_ := addr }
    else
      (H2.node y).bind fun yn =>
        if comp key yn.key then H2.setLeft y addr else H2.setRight y addr).bind fun H3 =>
  -- ++size_;
  hinsertFixup fuel addr { H3 with size_ := (H3.size_ + 1) % 2 ^ 64 }

/-- `insert(key)` on the heap.  `addr` is the address of the node it may
allocate and `fuel` bounds the iterations of each of its loops. -/
def hinsert (comp : α → α → Bool) (key : α) (addr : Nat) (fuel : Nat) (H : HTree α) :
    Outcome (HTree α × Nat × Bool) :=
  (hdescend comp key H fuel H.root_ 0).bind fun s =>
    if s.1 ≠ 0 then Outcome.done (H, s.1, false)
    else (hlink comp key addr fuel s.2 H).bind fun H1 => Outcome.done (H1, addr, true)

/-- `insert_mult(key)` on the heap. -/
def hinsert_mult (comp : α → α → Bool) (key : α) (addr : Nat) (fuel : Nat) (H : HTree α) :
    Outcome (HTree α × Nat × Bool) :=
  (hdescendMult comp key H fuel H.root_ 0).bind fun y =>
    (hlink comp key addr fuel y H).bind fun H1 => Outcome.done (H1, addr, true)

/-- `treeMinimum(x)` on the heap: `while (x->left) x = x->left`. -/
def htreeMinimum (H : HTree α) : Nat → Nat → Outcome Nat
  | 0, x => (H.node x).bind fun xn => if xn.left = 0 then Outcome.done x else Outcome.outOfFuel
  | fuel + 1, x =>
    (H.node x).bind fun xn =>
      if xn.left = 0 then Outcome.done x else htreeMinimum H fuel xn.left

/-- The sibling cases of `eraseFixup` for `x == x->parent->left` on the heap,
from the test of the children of `w` on: the next `x`. -/
def heraseFixupLeft (x w : Nat) (H : HTree α) : Outcome (Nat × HTree α) :=
  (H.node w).bind fun wn =>
  (H.isBlackOrNil wn.left).bind fun lb =>
  (H.isBlackOrNil wn.right).bind fun rb =>
  if lb && rb then
    -- w->color = RED; x = x->parent
    (H.setColor w Color.RED).bind fun H1 =>
    (H1.node x).bind fun xn => Outcome.done (xn.parent, H1)
  else
    (if rb then
        -- w->left->color = BLACK; w->color = RED; rotateRight(w); w = x->parent->right
        (H.setColor wn.left Color.BLACK).bind fun H1 =>
        (H1.setColor w Color.RED).bind fun H2 =>
        (hrotateRight w H2).bind fun H3 =>
        (H3.node x).bind fun xn =>
        (H3.node xn.parent).bind fun pn => Outcome.done (pn.right, H3)
      else Outcome.done (w, H)).bind fun s =>
    -- w->color = parent colour; parent BLACK; if (w->right) w->right BLACK;
    -- rotateLeft(parent); x = root_
    let w1 := s.1
    let H4 := s.2
    (H4.node x).bind fun xn =>
    (H4.node xn.parent).bind fun pn =>
    (H4.setColor w1 pn.color).bind fun H5 =>
    (H5.setColor xn.parent Color.BLACK).bind fun H6 =>
    (H6.node w1).bind fun wn1 =>
    (if wn1.right ≠ 0 then H6.setColor wn1.right Color.BLACK else Outcome.done H6).bind fun H7 =>
    (H7.node x).bind fun xn7 =>
    (hrotateLeft xn7.parent H7).bind fun H8 => Outcome.done (H8.root_, H8)

/-- The sibling cases of `eraseFixup` for `x == x->parent->right` on the
heap: mirror image. -/
def heraseFixupRight (x w : Nat) (H : HTree α) : Outcome (Nat × HTree α) :=
  (H.node w).bind fun wn =>
  (H.isBlackOrNil wn.right).bind fun rb =>
  (H.isBlackOrNil wn.left).bind fun lb =>
  if rb && lb then
    (H.setColor w Color.RED).bind fun H1 =>
    (H1.node x).bind fun xn => Outcome.done (xn.parent, H1)
  else
    (if lb then
        (H.setColor wn.right Color.BLACK).bind fun H1 =>
        (H1.setColor w Color.RED).bind fun H2 =>
        (hrotateLeft w H2).bind fun H3 =>
        (H3.node x).bind fun xn =>
        (H3.node xn.parent).bind fun pn => Outcome.done (pn.left, H3)
      else Outcome.done (w, H)).bind fun s =>
    let w1 := s.1
    let H4 := s.2
    (H4.node x).bind fun xn =>
    (H4.node xn.parent).bind fun pn =>
    (H4.setColor w1 pn.color).bind fun H5 =>
    (H5.setColor xn.parent Color.BLACK).bind fun H6 =>
    (H6.node w1).bind fun wn1 =>
    (if wn1.left ≠ 0 then H6.setColor wn1.left Color.BLACK else Outcome.done H6).bind fun H7 =>
    (H7.node x).bind fun xn7 =>
    (hrotateRight xn7.parent H7).bind fun H8 => Outcome.done (H8.root_, H8)

/-- One iteration of the loop of `eraseFixup(x)` on the heap for a real node
`x` that passed the loop condition. -/
def heraseFixupBody (x : Nat) (H : HTree α) : Outcome (Nat × HTree α) :=
  (H.node x).bind fun xn =>
  (H.node xn.parent).bind fun pn =>
  if x = pn.left then
    -- NodePtr w = x->parent->right; if (w->color == RED) { ... }
    let w := pn.right
    (H.node w).bind fun wn =>
    (if wn.color = Color.RED then
        (H.setColor w Color.BLACK).bind fun H1 =>
        (H1.setColor xn.parent Color.RED).bind fun H2 =>
        (hrotateLeft xn.parent H2).bind fun H3 =>
        (H3.node x).bind fun xn3 =>
        (H3.node xn3.parent).bind fun pn3 => Outcome.done (pn3.right, H3)
      else Outcome.done (w, H)).bind fun s =>
    heraseFixupLeft x s.1 s.2
  else
    let w := pn.left
    (H.node w).bind fun wn =>
    (if wn.color = Color.RED then
        (H.setColor w Color.BLACK).bind fun H1 =>
        (H1.setColor xn.parent Color.RED).bind fun H2 =>
        (hrotateRight xn.parent H2).bind fun H3 =>
        (H3.node x).bind fun xn3 =>
        (H3.node xn3.parent).bind fun pn3 => Outcome.done (pn3.left, H3)
      else Outcome.done (w, H)).bind fun s =>
    heraseFixupRight x s.1 s.2

/-- The loop of `eraseFixup(x)` on the heap:
`while (x != root_ && (!x || x->color == Color::BLACK))`, bounded by `fuel`
iterations through the sibling cases.  The result is the final `x`. -/
def heraseFixupLoop : Nat → Nat → HTree α → Outcome (Nat × HTree α)
  | fuel, x, H =>
    if x = H.root_ then Outcome.done (x, H)
    else if x = 0 then
      -- x = root_, after which the loop condition is false
      Outcome.done (H.root_, H)
    else
      (H.node x).bind fun xn =>
        if xn.color ≠ Color.BLACK then Outcome.done (x, H)
        else
          match fuel with
          | 0 => Outcome.outOfFuel
          | fuel1 + 1 =>
            (heraseFixupBody x H).bind fun s => heraseFixupLoop fuel1 s.1 s.2

/-- `eraseFixup(x)` on the heap: the loop, then `if (x) x->color = BLACK`. -/
def heraseFixup (fuel : Nat) (x : Nat) (H : HTree α) : Outcome (HTree α) :=
  (heraseFixupLoop fuel x H).bind fun s =>
    if s.1 ≠ 0 then s.2.setColor s.1 Color.BLACK else Outcome.done s.2

/-- `erase(key)` on the heap; the node unlinked is deleted at the end, when
the last pointer to it goes out of scope. -/
def herase (comp : α → α → Bool) (key : α) (fuel : Nat) (H : HTree α) : Outcome (HTree α) :=
  -- NodePtr z = find(key); if (z == nullptr) return;
  (hdescend comp key H fuel H.root_ 0).bind fun s =>
  let z := s.1
  if z = 0 then Outcome.done H
  else
    (H.node z).bind fun zn =>
    -- NodePtr y = (z->left && z->right) ? treeMinimum(z->right) : z;
    (if zn.left ≠ 0 ∧ zn.right ≠ 0 then htreeMinimum H fuel zn.right
      else Outcome.done z).bind fun y =>
    (H.node y).bind fun yn =>
    -- NodePtr x = y->left ? y->left : y->right;
    let x := if yn.left ≠ 0 then yn.left else yn.right
    -- if (x) x->parent = y->parent;
    (if x ≠ 0 then H.setParent x yn.parent else Outcome.done H).bind fun H1 =>
    -- if (!y->parent.lock()) root_ = x; else if (y == parent->left) ... else ...
    (H1.node y).bind fun yn1 =>
    (if yn1.parent = 0 then Outcome.done { H1 with root_ := x }
      else
        (H1.node yn1.parent).bind fun pn =>
          if y = pn.left then H1.setLeft yn1.parent x else H1.setRight yn1.parent x).bind fun H2 =>
    -- if (y != z) z->key = y->key;
    (H2.node y).bind fun yn2 =>
    (if y ≠ z then H2.setKey z yn2.key else Outcome.done H2).bind fun H3 =>
    -- if (y->color == Color::BLACK) eraseFixup(x);
    (H3.node y).bind fun yn3 =>
    (if yn3.color = Color.BLACK then heraseFixup fuel x H3 else Outcome.done H3).bind fun H4 =>
    -- --size_;  and the node y is released
    Outcome.done { heap := Function.update H4.heap y none, root_ := H4.root_,
                   size_ := (H4.size_ + 2 ^ 64 - 1) % 2 ^ 64 }

/-- The default constructor on the heap. -/
def HTree.empty : HTree α := { heap := fun _ => none, root_ := 0, size_ := 0 }

/-- The heap lays out the tree `W`: every node of `W` is at its address with
its key, colour, child links and the `parent` field that designates the node
holding it, `root_` designates the root, and the addresses are distinct and
non-null. -/
def Lay (H : HTree α) (W : Node α) : Prop :=
  Cells H.heap 0 W ∧ H.root_ = addrOf W ∧ (addrs W).Nodup ∧ ∀ a ∈ addrs W, 0 < a

/-- The nearest ancestor of a position is laid out with `child` in the link
that leads to the position. -/
def HeadCell (h : Nat → Option (HNode α)) (child : Nat) : Path α → Prop
  | [] => True
  | Frame.L a k c r :: up => h a = some ⟨k, c, child, addrOf r, parentOf up⟩
  | Frame.R a k c l :: up => h a = some ⟨k, c, addrOf l, child, parentOf up⟩

/-- The tree laid out in the heap has the nodes `S`, and `H` agrees with
`H0` on every other address. -/
def Held (S : List Nat) (H0 H : HTree α) : Prop :=
  ∃ W, Lay H W ∧ (∀ a, a ∈ addrs W ↔ a ∈ S) ∧ ∀ b, b ∉ S → H.heap b = H0.heap b

/-- The heap holds a tree with consistent links and nothing else: some tree
is laid out in it, and no other address is allocated. -/
def Lays (H : HTree α) : Prop :=
  ∃ W, Lay H W ∧ ∀ b, b ∉ addrs W → H.heap b = none

/-- The parent back-references of a heap tree are consistent: the root has
no parent, and each existing child of a node has that node as its
`parent`. -/
def ParentsConsistent (H : HTree α) : Prop :=
  (∀ r, H.heap H.root_ = some r → r.parent = 0) ∧
    ∀ a n, H.heap a = some n →
      (n.left ≠ 0 → ∃ c, H.heap n.left = some c ∧ c.parent = a) ∧
        (n.right ≠ 0 → ∃ c, H.heap n.right = some c ∧ c.parent = a)

/-- The node reached from the node at `a` by following `parent` links `n`
times. -/
def climb (H : HTree α) : Nat → Nat → Option Nat
  | 0, a => some a
  | n + 1, a =>
    match H.heap a with
    | none => none
    | some x => climb H n x.parent

/-- Heap trees reachable from the empty tree by `insert`, `insert_mult` and
`erase` calls that complete.  An insertion is given the address of the node
that `make_shared` returns: it is not null, and nothing is allocated there. -/
inductive HReachable (comp : α → α → Bool) : HTree α → Prop where
  | empty : HReachable comp HTree.empty
  | insert (key : α) (addr fuel : Nat) {H : HTree α} {res : HTree α × Nat × Bool} :
      HReachable comp H → 0 < addr → H.heap addr = none →
        hinsert comp key addr fuel H = Outcome.done res → HReachable comp res.1
  | insert_mult (key : α) (addr fuel : Nat) {H : HTree α} {res : HTree α × Nat × Bool} :
      HReachable comp H → 0 < addr → H.heap addr = none →
        hinsert_mult comp key addr fuel H = Outcome.done res → HReachable comp res.1
  | erase (key : α) (fuel : Nat) {H H1 : HTree α} :
      HReachable comp H → herase comp key fuel H = Outcome.done H1 → HReachable comp H1

/-- The result of a step that completed, `d` otherwise. -/
def Outcome.getD {σ : Type} (d : σ) : Outcome σ → σ
  | Outcome.done s => s
  | _ => d

/-- The calls `insert_mult(40)`, `insert(1)`, `insert(2)` (which goes through
the rotations of the triangle case) and `erase(40)` on the empty tree, with
the nodes allocated at 1, 2 and 3: the result of each call. -/
def afterInsertMult40 : HTree Nat × Nat × Bool :=
  (hinsert_mult natLess 40 1 8 HTree.empty).getD (HTree.empty, 0, false)

def afterInsert1 : HTree Nat × Nat × Bool :=
  (hinsert natLess 1 2 8 afterInsertMult40.1).getD (HTree.empty, 0, false)

def afterInsert2 : HTree Nat × Nat × Bool :=
  (hinsert natLess 2 3 8 afterInsert1.1).getD (HTree.empty, 0, false)

def afterErase40 : HTree Nat :=
  (herase natLess 40 8 afterInsert2.1).getD HTree.empty

/-! # Properties -/

theorem entries_zipUp (t : Node α) (p : Path α) :
    entries (zipUp t p) = pathBefore p ++ entries t ++ pathAfter p := by
  induction p generalizing t with
  | nil => simp [zipUp, pathBefore, pathAfter]
  | cons f up ih =>
    cases f <;> simp [zipUp, Frame.plug, ih, entries, pathBefore, pathAfter]

theorem entries_setBlack (t : Node α) : entries (setBlack t) = entries t := by
  cases t <;> simp [setBlack, entries]

theorem insertFixupLoop_entries (n : Nat) (z : Node α) (p : Path α) :
    pathBefore (insertFixupLoop n z p).2 ++ entries (insertFixupLoop n z p).1
        ++ pathAfter (insertFixupLoop n z p).2
      = pathBefore p ++ entries z ++ pathAfter p := by
  induction n generalizing z p with
  | zero => simp [insertFixupLoop]
  | succ n ih =>
    match p with
    | [] => simp [insertFixupLoop]
    | [q] => simp [insertFixupLoop]
    | q :: g :: up =>
      unfold insertFixupLoop
      split
      · rfl
      · split <;> split <;> split <;> (try cases z) <;>
          simp_all [entries, pathBefore, pathAfter, entries_setBlack, Frame.color]

theorem entries_insertFixup (z : Node α) (p : Path α) :
    entries (insertFixup z p) = pathBefore p ++ entries z ++ pathAfter p := by
  simp only [insertFixup, entries_setBlack, entries_zipUp, insertFixupLoop_entries]

theorem eraseFixupLeft_entries {x : Node α} {pa : Nat} {pk : α} {pc : Color} {w : Node α}
    {up : Path α} {s : Node α × Path α} (h : eraseFixupLeft x pa pk pc w up = Outcome.done s) :
    pathBefore s.2 ++ entries s.1 ++ pathAfter s.2
      = pathBefore up ++ (entries x ++ (pa, pk) :: entries w) ++ pathAfter up := by
  unfold eraseFixupLeft at h
  split at h
  · cases h
  · split at h
    · cases h; simp [entries]
    · split at h
      · split at h
        · cases h
        · cases h; simp [entries, entries_zipUp, pathBefore, pathAfter]
      · cases h; simp [entries, entries_zipUp, pathBefore, pathAfter, entries_setBlack]

theorem eraseFixupRight_entries {x : Node α} {pa : Nat} {pk : α} {pc : Color} {w : Node α}
    {up : Path α} {s : Node α × Path α} (h : eraseFixupRight x pa pk pc w up = Outcome.done s) :
    pathBefore s.2 ++ entries s.1 ++ pathAfter s.2
      = pathBefore up ++ (entries w ++ (pa, pk) :: entries x) ++ pathAfter up := by
  unfold eraseFixupRight at h
  split at h
  · cases h
  · split at h
    · cases h; simp [entries]
    · split at h
      · split at h
        · cases h
        · cases h; simp [entries, entries_zipUp, pathBefore, pathAfter]
      · cases h; simp [entries, entries_zipUp, pathBefore, pathAfter, entries_setBlack]

theorem eraseFixupBody_entries {x : Node α} {f : Frame α} {up : Path α} {s : Node α × Path α}
    (h : eraseFixupBody x f up = Outcome.done s) :
    pathBefore s.2 ++ entries s.1 ++ pathAfter s.2
      = pathBefore (f :: up) ++ entries x ++ pathAfter (f :: up) := by
  unfold eraseFixupBody at h
  split at h
  · split at h
    · cases h
    · rw [eraseFixupLeft_entries h]; simp [entries, pathBefore, pathAfter]
    · rw [eraseFixupLeft_entries h]; simp [entries, pathBefore, pathAfter]
  · split at h
    · cases h
    · rw [eraseFixupRight_entries h]; simp [entries, pathBefore, pathAfter]
    · rw [eraseFixupRight_entries h]; simp [entries, pathBefore, pathAfter]

theorem eraseFixupLoop_entries {n : Nat} {x : Node α} {p : Path α} {s : Node α × Path α}
    (h : eraseFixupLoop n x p = Outcome.done s) :
    pathBefore s.2 ++ entries s.1 ++ pathAfter s.2
      = pathBefore p ++ entries x ++ pathAfter p := by
  induction n generalizing x p with
  | zero =>
    cases p with
    | nil => simp [eraseFixupLoop] at h; subst h; rfl
    | cons f up =>
      cases x with
      | nil =>
        simp [eraseFixupLoop] at h; subst h
        simp [entries_zipUp, pathBefore, pathAfter]
      | node a k c l r =>
        cases c <;> simp [eraseFixupLoop] at h
        subst h; rfl
  | succ n ih =>
    cases p with
    | nil => simp [eraseFixupLoop] at h; subst h; rfl
    | cons f up =>
      cases x with
      | nil =>
        simp [eraseFixupLoop] at h; subst h
        simp [entries_zipUp, pathBefore, pathAfter]
      | node a k c l r =>
        cases c with
        | RED => simp [eraseFixupLoop] at h; subst h; rfl
        | BLACK =>
          simp only [eraseFixupLoop] at h
          split at h
          · rename_i s1 hb
            rw [ih h, eraseFixupBody_entries hb]
          · cases h
          · cases h

theorem entries_eraseFixup {x : Node α} {p : Path α} {r : Node α}
    (h : eraseFixup x p = Outcome.done r) :
    entries r = pathBefore p ++ entries x ++ pathAfter p := by
  unfold eraseFixup at h
  split at h
  · rename_i s hs
    cases h
    rw [entries_zipUp, entries_setBlack, eraseFixupLoop_entries hs]
  · cases h
  · cases h

/-! ## Key lists and search-tree order -/

theorem keys_nil : keys (Node.nil : Node α) = [] := rfl

theorem keys_node (a : Nat) (k : α) (c : Color) (l r : Node α) :
    keys (Node.node a k c l r) = keys l ++ k :: keys r := by
  simp [keys, entries]

theorem keysBefore_nil : keysBefore ([] : Path α) = [] := rfl

theorem keysAfter_nil : keysAfter ([] : Path α) = [] := rfl

theorem keysBefore_L (a : Nat) (k : α) (c : Color) (r : Node α) (up : Path α) :
    keysBefore (Frame.L a k c r :: up) = keysBefore up := rfl

theorem keysBefore_R (a : Nat) (k : α) (c : Color) (l : Node α) (up : Path α) :
    keysBefore (Frame.R a k c l :: up) = keysBefore up ++ (keys l ++ [k]) := by
  simp [keysBefore, pathBefore, keys]

theorem keysAfter_L (a : Nat) (k : α) (c : Color) (r : Node α) (up : Path α) :
    keysAfter (Frame.L a k c r :: up) = k :: (keys r ++ keysAfter up) := by
  simp [keysAfter, pathAfter, keys]

theorem keysAfter_R (a : Nat) (k : α) (c : Color) (l : Node α) (up : Path α) :
    keysAfter (Frame.R a k c l :: up) = keysAfter up := rfl

theorem keys_zipUp (t : Node α) (p : Path α) :
    keys (zipUp t p) = keysBefore p ++ keys t ++ keysAfter p := by
  simp [keys, keysBefore, keysAfter, entries_zipUp]

theorem count_eq_length (t : Node α) : count t = (entries t).length := by
  induction t with
  | nil => rfl
  | node a k c l r ihl ihr => simp [count, entries, ihl, ihr]; omega

theorem count_eq_keys_length (t : Node α) : count t = (keys t).length := by
  simp [keys, count_eq_length]

theorem BST_iff_pairwise {comp : α → α → Bool}
    (htrans : ∀ a b c, comp a b = true → comp b c = true → comp a c = true) (t : Node α) :
    BST comp t ↔ (keys t).Pairwise (fun a b => comp a b = true) := by
  induction t with
  | nil => simp [BST, keys_nil]
  | node a k c l r ihl ihr =>
    rw [BST, keys_node, List.pairwise_append, List.pairwise_cons, ihl, ihr]
    constructor
    · rintro ⟨h1, h2, h3, h4⟩
      refine ⟨h3, ⟨h2, h4⟩, ?_⟩
      intro x hx y hy
      rcases List.mem_cons.1 hy with rfl | hy
      · exact h1 x hx
      · exact htrans _ _ _ (h1 x hx) (h2 y hy)
    · rintro ⟨h1, ⟨h2, h3⟩, h4⟩
      exact ⟨fun x hx => h4 x hx k (List.mem_cons_self _ _), h2, h1, h3⟩

theorem descend_zipUp (comp : α → α → Bool) (key : α) (t : Node α) (p : Path α) :
    zipUp (descend comp key t p).1 (descend comp key t p).2 = zipUp t p := by
  induction t generalizing p with
  | nil => rfl
  | node a k c l r ihl ihr =>
    unfold descend
    split
    · rw [ihl]; rfl
    · split
      · rw [ihr]; rfl
      · rfl

/-- What the descent loop establishes on a search-ordered subtree: every key
that precedes the final position is below `key`, every key that follows is
above it, and a node at which the loop stops holds `key`. -/
theorem descend_bounds {comp : α → α → Bool} (hc : StrictTotal comp) (key : α) (t : Node α)
    (p : Path α) (ht : (keys t).Pairwise (fun a b => comp a b = true))
    (hb : ∀ x ∈ keysBefore p, comp x key = true)
    (ha : ∀ x ∈ keysAfter p, comp key x = true) :
    (∀ x ∈ keysBefore (descend comp key t p).2, comp x key = true) ∧
    (∀ x ∈ keysAfter (descend comp key t p).2, comp key x = true) ∧
    (∀ a k c l r, (descend comp key t p).1 = Node.node a k c l r → k = key) := by
  induction t generalizing p with
  | nil => exact ⟨hb, ha, fun _ _ _ _ _ h => by simp [descend] at h⟩
  | node a k c l r ihl ihr =>
    rw [keys_node, List.pairwise_append, List.pairwise_cons] at ht
    obtain ⟨hl, ⟨hkr, hr⟩, hlr⟩ := ht
    unfold descend
    split
    · rename_i hlt
      refine ihl _ hl hb ?_
      intro x hx
      rw [keysAfter_L, List.mem_cons, List.mem_append] at hx
      rcases hx with rfl | hx | hx
      · exact hlt
      · exact hc.trans _ _ _ hlt (hkr x hx)
      · exact ha x hx
    · split
      · rename_i hnlt hgt
        refine ihr _ hr ?_ ha
        intro x hx
        rw [keysBefore_R, List.mem_append, List.mem_append, List.mem_singleton] at hx
        rcases hx with hx | hx | rfl
        · exact hb x hx
        · exact hc.trans _ _ _ (hlr x hx k (List.mem_cons_self _ _)) hgt
        · exact hgt
      · rename_i h1 h2
        refine ⟨hb, ha, ?_⟩
        intro a' k' c' l' r' h
        cases h
        exact (hc.total _ _ (by simpa using h1) (by simpa using h2)).symm

theorem zipUp_append (t : Node α) (p q : Path α) :
    zipUp t (p ++ q) = zipUp (zipUp t p) q := by
  induction p generalizing t with
  | nil => rfl
  | cons f up ih => simp [zipUp, ih]

theorem pathBefore_append (p q : Path α) :
    pathBefore (p ++ q) = pathBefore q ++ pathBefore p := by
  induction p with
  | nil => simp [pathBefore]
  | cons f up ih => cases f <;> simp [pathBefore, ih]

theorem pathAfter_append (p q : Path α) :
    pathAfter (p ++ q) = pathAfter p ++ pathAfter q := by
  induction p with
  | nil => simp [pathAfter]
  | cons f up ih => cases f <;> simp [pathAfter, ih]

theorem keysBefore_append (p q : Path α) :
    keysBefore (p ++ q) = keysBefore q ++ keysBefore p := by
  simp [keysBefore, pathBefore_append]

theorem keysAfter_append (p q : Path α) :
    keysAfter (p ++ q) = keysAfter p ++ keysAfter q := by
  simp [keysAfter, pathAfter_append]

/-- The descent from the root on a search-ordered tree. -/
theorem descend_root {comp : α → α → Bool} (hc : StrictTotal comp) (key : α) (t : Node α)
    (ht : (keys t).Pairwise (fun a b => comp a b = true)) :
    keys t = keysBefore (descend comp key t []).2 ++ keys (descend comp key t []).1
        ++ keysAfter (descend comp key t []).2 ∧
    (∀ x ∈ keysBefore (descend comp key t []).2, comp x key = true) ∧
    (∀ x ∈ keysAfter (descend comp key t []).2, comp key x = true) ∧
    (∀ a k c l r, (descend comp key t []).1 = Node.node a k c l r → k = key) := by
  have hz := descend_zipUp comp key t []
  have hb := descend_bounds hc key t [] ht (by simp [keysBefore_nil]) (by simp [keysAfter_nil])
  refine ⟨?_, hb⟩
  have := congrArg keys hz
  rw [keys_zipUp] at this
  simpa [zipUp] using this.symm

theorem descend_nil_iff {comp : α → α → Bool} (hc : StrictTotal comp) (key : α) (t : Node α)
    (ht : (keys t).Pairwise (fun a b => comp a b = true)) :
    (descend comp key t []).1 = Node.nil ↔ key ∉ keys t := by
  obtain ⟨h1, h2, h3, h4⟩ := descend_root hc key t ht
  constructor
  · intro hnil hmem
    rw [h1, hnil, keys_nil, List.append_nil, List.mem_append] at hmem
    rcases hmem with hm | hm
    · have := h2 key hm; rw [hc.irrefl] at this; cases this
    · have := h3 key hm; rw [hc.irrefl] at this; cases this
  · intro hnot
    cases hx : (descend comp key t []).1 with
    | nil => rfl
    | node a k c l r =>
      exfalso; apply hnot
      have hk := h4 a k c l r hx
      rw [h1, hx, keys_node, hk]
      simp

theorem insert_of_descend_node {comp : α → α → Bool} {key : α} {addr : Nat} {t : RedBlackTree α}
    {a : Nat} {k : α} {c : Color} {l r : Node α} {y : Path α}
    (h : descend comp key t.root_ [] = (Node.node a k c l r, y)) :
    insert comp key addr t = (t, a, false) := by
  simp [insert, h]

theorem insert_of_descend_nil {comp : α → α → Bool} {key : α} {addr : Nat} {t : RedBlackTree α}
    {y : Path α} (h : descend comp key t.root_ [] = (Node.nil, y)) :
    insert comp key addr t =
      ({ root_ := insertFixup (Node.node addr key Color.RED Node.nil Node.nil) y,
         size_ := (t.size_ + 1) % 2 ^ 64 }, addr, true) := by
  simp [insert, h]

/-- Effect of `insert` of an absent key on the in-order sequence: the new
entry appears between the entries below and above `key`. -/
theorem insert_absent {comp : α → α → Bool} (hc : StrictTotal comp) (key : α) (addr : Nat)
    (t : RedBlackTree α) (ht : (keys t.root_).Pairwise (fun a b => comp a b = true))
    (hk : key ∉ keys t.root_) :
    ∃ e1 e2, entries t.root_ = e1 ++ e2 ∧
      entries (insert comp key addr t).1.root_ = e1 ++ (addr, key) :: e2 ∧
      (∀ x ∈ e1.map Prod.snd, comp x key = true) ∧
      (∀ x ∈ e2.map Prod.snd, comp key x = true) ∧
      (insert comp key addr t).1.size_ = (t.size_ + 1) % 2 ^ 64 ∧
      (insert comp key addr t).2 = (addr, true) := by
  have hnil := (descend_nil_iff hc key t.root_ ht).2 hk
  obtain ⟨_, h2, h3, _⟩ := descend_root hc key t.root_ ht
  have hz := descend_zipUp comp key t.root_ []
  have hd : descend comp key t.root_ [] = (Node.nil, (descend comp key t.root_ []).2) := by
    rw [← hnil]
  rw [insert_of_descend_nil hd]
  refine ⟨pathBefore (descend comp key t.root_ []).2, pathAfter (descend comp key t.root_ []).2,
    ?_, ?_, h2, h3, rfl, rfl⟩
  · have := congrArg entries hz
    rw [entries_zipUp, hnil] at this
    simpa [zipUp, entries] using this.symm
  · simp [entries_insertFixup, entries]

theorem insert_present {comp : α → α → Bool} (hc : StrictTotal comp) (key : α) (addr : Nat)
    (t : RedBlackTree α) (ht : (keys t.root_).Pairwise (fun a b => comp a b = true))
    (hk : key ∈ keys t.root_) :
    ∃ a c l r, find comp key t = Node.node a key c l r ∧
      insert comp key addr t = (t, a, false) := by
  cases hx : (descend comp key t.root_ []).1 with
  | nil => exact absurd hk ((descend_nil_iff hc key t.root_ ht).1 hx)
  | node a k c l r =>
    obtain ⟨_, _, _, h4⟩ := descend_root hc key t.root_ ht
    have hkk := h4 a k c l r hx
    subst hkk
    refine ⟨a, c, l, r, hx, ?_⟩
    exact insert_of_descend_node (y := (descend comp k t.root_ []).2) (by rw [← hx])

theorem pairwise_insert_mid {comp : α → α → Bool} (key : α)
    (l1 l2 : List α) (h : (l1 ++ l2).Pairwise (fun a b => comp a b = true))
    (h1 : ∀ x ∈ l1, comp x key = true) (h2 : ∀ x ∈ l2, comp key x = true) :
    (l1 ++ key :: l2).Pairwise (fun a b => comp a b = true) := by
  rw [List.pairwise_append] at h ⊢
  obtain ⟨ha, hb, hab⟩ := h
  refine ⟨ha, List.pairwise_cons.2 ⟨h2, hb⟩, ?_⟩
  intro x hx y hy
  rcases List.mem_cons.1 hy with rfl | hy
  · exact h1 x hx
  · exact hab x hx y hy

/-- `insert` keeps the in-order key list strictly ascending. -/
theorem insert_pairwise {comp : α → α → Bool} (hc : StrictTotal comp) (key : α) (addr : Nat)
    (t : RedBlackTree α) (ht : (keys t.root_).Pairwise (fun a b => comp a b = true)) :
    (keys (insert comp key addr t).1.root_).Pairwise (fun a b => comp a b = true) := by
  by_cases hk : key ∈ keys t.root_
  · obtain ⟨a, c, l, r, _, h⟩ := insert_present hc key addr t ht hk
    rw [h]; exact ht
  · obtain ⟨e1, e2, h1, h2, h3, h4, _, _⟩ := insert_absent hc key addr t ht hk
    have : keys (insert comp key addr t).1.root_ = e1.map Prod.snd ++ key :: e2.map Prod.snd := by
      simp [keys, h2]
    rw [this]
    apply pairwise_insert_mid key _ _ _ h3 h4
    have : keys t.root_ = e1.map Prod.snd ++ e2.map Prod.snd := by simp [keys, h1]
    rw [← this]; exact ht

/-! ## `erase` -/

/-- `treeMinimum` of a real node: the result is a node without left child, its
ancestors are left-link frames stacked on the given path, and climbing them
gives back the subtree. -/
theorem treeMinimum_spec (t : Node α) (p : Path α) (ht : t ≠ Node.nil) :
    ∃ ya yk yc yr rel, treeMinimum t p = (Node.node ya yk yc Node.nil yr, rel ++ p) ∧
      zipUp (Node.node ya yk yc Node.nil yr) rel = t ∧
      pathBefore rel = [] := by
  induction t generalizing p with
  | nil => exact absurd rfl ht
  | node a k c l r ihl _ =>
    cases l with
    | nil => exact ⟨a, k, c, r, [], by simp [treeMinimum], rfl, rfl⟩
    | node la lk lc ll lr =>
      obtain ⟨ya, yk, yc, yr, rel, h1, h2, h3⟩ := ihl (Frame.L a k c r :: p) (by simp)
      refine ⟨ya, yk, yc, yr, rel ++ [Frame.L a k c r], ?_, ?_, ?_⟩
      · rw [treeMinimum, h1]; simp
      · rw [zipUp_append, h2]; rfl
      · rw [pathBefore_append, h3]; rfl

/-- The two ways `erase` unlinks a node: `z` itself when it lacks a child, or
the leftmost node `y` of its right subtree, whose key then replaces the key of
`z`. -/
theorem eraseSplice_cases (za : Nat) (zc : Color) (zl zr : Node α) (pz : Path α) :
    ∃ yc x path, eraseSplice za zc zl zr pz = Outcome.done (yc, x, path) ∧
      ((path = pz ∧ yc = zc ∧ entries x = entries zl ++ entries zr ∧
          (zl = Node.nil ∧ x = zr ∨ zr = Node.nil ∧ x = zl)) ∨
       (∃ ya yk rel, zl ≠ Node.nil ∧ zipUp (Node.node ya yk yc Node.nil x) rel = zr ∧
          pathBefore rel = [] ∧ path = rel ++ Frame.R za yk zc zl :: pz)) := by
  cases zl with
  | nil =>
    exact ⟨zc, zr, pz, by simp [eraseSplice, spliceChild],
      Or.inl ⟨rfl, rfl, by simp [entries], Or.inl ⟨rfl, rfl⟩⟩⟩
  | node la lk lc ll lr =>
    cases zr with
    | nil =>
      exact ⟨zc, Node.node la lk lc ll lr, pz, by simp [eraseSplice, spliceChild],
        Or.inl ⟨rfl, rfl, by simp [entries], Or.inr ⟨rfl, rfl⟩⟩⟩
    | node ra rk rc rl rr =>
      obtain ⟨ya, yk, yc, yr, rel, h1, h2, h3⟩ :=
        treeMinimum_spec (Node.node ra rk rc rl rr) [] (by simp)
      rw [List.append_nil] at h1
      exact ⟨yc, yr, rel ++ Frame.R za yk zc (Node.node la lk lc ll lr) :: pz,
        by simp [eraseSplice, h1, spliceChild],
        Or.inr ⟨ya, yk, rel, by simp, h2, h3, rfl⟩⟩

/-- The root a completed `erase` leaves behind has the entries of the tree in
which `x` has taken the place of the unlinked node. -/
theorem erase_root_of_descend_node {comp : α → α → Bool} {key : α} {t t1 : RedBlackTree α}
    {za : Nat} {zk : α} {zc : Color} {zl zr : Node α} {pz : Path α}
    (hd : descend comp key t.root_ [] = (Node.node za zk zc zl zr, pz))
    (h : erase comp key t = Outcome.done t1) {yc : Color} {x : Node α} {path : Path α}
    (hs : eraseSplice za zc zl zr pz = Outcome.done (yc, x, path)) :
    entries t1.root_ = entries (zipUp x path) ∧
      t1.size_ = (t.size_ + 2 ^ 64 - 1) % 2 ^ 64 ∧
      (yc = Color.RED → t1.root_ = zipUp x path) ∧
      (yc = Color.BLACK → eraseFixup x path = Outcome.done t1.root_) := by
  simp only [erase, hd, hs] at h
  cases yc with
  | RED =>
    simp only [Outcome.done.injEq] at h
    subst h
    simp
  | BLACK =>
    simp only at h
    cases hf : eraseFixup x path with
    | done root =>
      rw [hf] at h
      simp only [Outcome.done.injEq] at h
      subst h
      simp [entries_eraseFixup hf, entries_zipUp]
    | nullDeref => rw [hf] at h; cases h
    | outOfFuel => rw [hf] at h; cases h

/-- Effect of a completed `erase` on the in-order entries when the descent
stops at the node `z`: either the entry of `z` disappears, or the entry of its
in-order successor disappears and `z` takes over the successor's key. -/
theorem erase_entries_of_descend_node {comp : α → α → Bool} {key : α} {t t1 : RedBlackTree α}
    {za : Nat} {zk : α} {zc : Color} {zl zr : Node α} {pz : Path α}
    (hd : descend comp key t.root_ [] = (Node.node za zk zc zl zr, pz))
    (h : erase comp key t = Outcome.done t1) :
    ∃ e1 e2, ((entries t.root_ = e1 ++ (za, zk) :: e2 ∧ entries t1.root_ = e1 ++ e2) ∨
      (∃ ya yk, entries t.root_ = e1 ++ (za, zk) :: (ya, yk) :: e2 ∧
        entries t1.root_ = e1 ++ (za, yk) :: e2)) ∧
      t1.size_ = (t.size_ + 2 ^ 64 - 1) % 2 ^ 64 := by
  have hz := descend_zipUp comp key t.root_ []
  rw [hd] at hz
  have he := congrArg entries hz
  simp only [entries_zipUp, zipUp, entries] at he
  obtain ⟨yc, x, path, hs, hcase⟩ := eraseSplice_cases za zc zl zr pz
  obtain ⟨h1, h2, _, _⟩ := erase_root_of_descend_node hd h hs
  rcases hcase with ⟨rfl, _, hx, _⟩ | ⟨ya, yk, rel, _, hy, hrel, rfl⟩
  · refine ⟨pathBefore path ++ entries zl, entries zr ++ pathAfter path, Or.inl ⟨?_, ?_⟩, h2⟩
    · rw [← he]; simp [pathBefore, pathAfter]
    · rw [h1, entries_zipUp, hx]; simp
  · have hy2 := congrArg entries hy
    simp only [entries_zipUp, hrel, entries] at hy2
    refine ⟨pathBefore pz ++ entries zl, entries x ++ pathAfter rel ++ pathAfter pz,
      Or.inr ⟨ya, yk, ?_, ?_⟩, h2⟩
    · rw [← he, ← hy2]; simp [pathBefore, pathAfter]
    · rw [h1, entries_zipUp, pathBefore_append, pathAfter_append, hrel]
      simp [pathBefore, pathAfter]

/-- Effect of a completed `erase` on the in-order key list when the descent
stops at a node: exactly the key of that node is removed. -/
theorem erase_keys_of_descend_node {comp : α → α → Bool} {key : α} {t t1 : RedBlackTree α}
    {za : Nat} {zk : α} {zc : Color} {zl zr : Node α} {pz : Path α}
    (hd : descend comp key t.root_ [] = (Node.node za zk zc zl zr, pz))
    (h : erase comp key t = Outcome.done t1) :
    ∃ l1 l2, keys t.root_ = l1 ++ zk :: l2 ∧ keys t1.root_ = l1 ++ l2 ∧
      t1.size_ = (t.size_ + 2 ^ 64 - 1) % 2 ^ 64 := by
  obtain ⟨e1, e2, hcase, hsize⟩ := erase_entries_of_descend_node hd h
  rcases hcase with ⟨h1, h2⟩ | ⟨ya, yk, h1, h2⟩
  · exact ⟨e1.map Prod.snd, e2.map Prod.snd, by simp [keys, h1], by simp [keys, h2], hsize⟩
  · exact ⟨e1.map Prod.snd, yk :: e2.map Prod.snd, by simp [keys, h1], by simp [keys, h2], hsize⟩

theorem erase_of_descend_nil {comp : α → α → Bool} {key : α} {t : RedBlackTree α}
    {y : Path α} (h : descend comp key t.root_ [] = (Node.nil, y)) :
    erase comp key t = Outcome.done t := by
  simp [erase, h]

/-- A completed `erase` keeps the in-order key list strictly ascending. -/
theorem erase_pairwise {comp : α → α → Bool} (key : α) {t t1 : RedBlackTree α}
    (ht : (keys t.root_).Pairwise (fun a b => comp a b = true))
    (h : erase comp key t = Outcome.done t1) :
    (keys t1.root_).Pairwise (fun a b => comp a b = true) := by
  cases hx : descend comp key t.root_ [] with
  | mk x pz =>
    cases x with
    | nil =>
      rw [erase_of_descend_nil hx] at h
      cases h; exact ht
    | node za zk zc zl zr =>
      obtain ⟨l1, l2, h1, h2, _⟩ := erase_keys_of_descend_node hx h
      rw [h1] at ht; rw [h2]
      rw [List.pairwise_append] at ht ⊢
      obtain ⟨ha, hb, hab⟩ := ht
      exact ⟨ha, (List.pairwise_cons.1 hb).2, fun x hx y hy => hab x hx y (List.mem_cons_of_mem _ hy)⟩

/-! ## Reachable trees are search-ordered -/

theorem natLess_strictTotal : StrictTotal natLess := by
  refine ⟨?_, ?_, ?_⟩
  · intro a; simp [natLess]
  · intro a b c; simp only [natLess, decide_eq_true_eq]; omega
  · intro a b; simp only [natLess, decide_eq_false_iff_not]; omega

theorem reachableU_pairwise {comp : α → α → Bool} (hc : StrictTotal comp) {t : RedBlackTree α}
    (h : ReachableU comp t) : (keys t.root_).Pairwise (fun a b => comp a b = true) := by
  induction h with
  | empty => simp [RedBlackTree.empty, keys_nil]
  | insert key addr _ _ ih => exact insert_pairwise hc key addr _ ih
  | erase key _ he ih => exact erase_pairwise key ih he

/-! ## Node count and `size_` -/

theorem descendMult_zipUp (comp : α → α → Bool) (key : α) (t : Node α) (p : Path α) :
    zipUp Node.nil (descendMult comp key t p) = zipUp t p := by
  induction t generalizing p with
  | nil => rfl
  | node a k c l r ihl ihr =>
    unfold descendMult
    split
    · rw [ihl]; rfl
    · rw [ihr]; rfl

/-- `insert` either finds a node and changes nothing, or adds one entry. -/
theorem insert_cases (comp : α → α → Bool) (key : α) (addr : Nat) (t : RedBlackTree α) :
    (∃ a, insert comp key addr t = (t, a, false)) ∨
    (∃ e1 e2, entries t.root_ = e1 ++ e2 ∧
      entries (insert comp key addr t).1.root_ = e1 ++ (addr, key) :: e2 ∧
      (insert comp key addr t).1.size_ = (t.size_ + 1) % 2 ^ 64 ∧
      (insert comp key addr t).2 = (addr, true)) := by
  cases hx : descend comp key t.root_ [] with
  | mk x y =>
    cases x with
    | node a k c l r => exact Or.inl ⟨a, insert_of_descend_node hx⟩
    | nil =>
      right
      rw [insert_of_descend_nil hx]
      have hz := descend_zipUp comp key t.root_ []
      rw [hx] at hz
      have he := congrArg entries hz
      simp only [entries_zipUp, zipUp, entries] at he
      exact ⟨pathBefore y, pathAfter y, by rw [← he]; simp, by simp [entries_insertFixup, entries],
        rfl, rfl⟩

/-- `insert_mult` adds one entry. -/
theorem insert_mult_entries (comp : α → α → Bool) (key : α) (addr : Nat) (t : RedBlackTree α) :
    ∃ e1 e2, entries t.root_ = e1 ++ e2 ∧
      entries (insert_mult comp key addr t).1.root_ = e1 ++ (addr, key) :: e2 ∧
      (insert_mult comp key addr t).1.size_ = (t.size_ + 1) % 2 ^ 64 := by
  have hz := descendMult_zipUp comp key t.root_ []
  have he := congrArg entries hz
  simp only [entries_zipUp, zipUp, entries] at he
  exact ⟨pathBefore (descendMult comp key t.root_ []), pathAfter (descendMult comp key t.root_ []),
    by rw [← he]; simp, by simp [insert_mult, entries_insertFixup, entries], rfl⟩

/-- `erase` either finds nothing and changes nothing, or removes one address
from the in-order address list and decrements `size_`. -/
theorem erase_cases {comp : α → α → Bool} {key : α} {t t1 : RedBlackTree α}
    (h : erase comp key t = Outcome.done t1) :
    t1 = t ∨
    (∃ a1 a2 a, addrs t.root_ = a1 ++ a :: a2 ∧ addrs t1.root_ = a1 ++ a2 ∧
      t1.size_ = (t.size_ + 2 ^ 64 - 1) % 2 ^ 64) := by
  cases hx : descend comp key t.root_ [] with
  | mk x pz =>
    cases x with
    | nil =>
      rw [erase_of_descend_nil hx] at h
      cases h; exact Or.inl rfl
    | node za zk zc zl zr =>
      right
      obtain ⟨e1, e2, hcase, hsize⟩ := erase_entries_of_descend_node hx h
      rcases hcase with ⟨h1, h2⟩ | ⟨ya, yk, h1, h2⟩
      · exact ⟨e1.map Prod.fst, e2.map Prod.fst, za, by simp [addrs, h1], by simp [addrs, h2],
          hsize⟩
      · exact ⟨e1.map Prod.fst ++ [za], e2.map Prod.fst, ya, by simp [addrs, h1],
          by simp [addrs, h2], hsize⟩

theorem length_lt_of_nodup_range (l : List Nat) (n : Nat) (h0 : 0 < n) (hn : l.Nodup)
    (hr : ∀ a ∈ l, 0 < a ∧ a < n) : l.length < n := by
  have hsub : l.toFinset ⊆ Finset.Ico 1 n := by
    intro a ha
    rw [List.mem_toFinset] at ha
    rw [Finset.mem_Ico]
    exact ⟨(hr a ha).1, (hr a ha).2⟩
  have hcard := Finset.card_le_card hsub
  rw [List.toFinset_card_of_nodup hn, Nat.card_Ico] at hcard
  omega

theorem count_eq_addrs_length (t : Node α) : count t = (addrs t).length := by
  simp [addrs, count_eq_length]

theorem sized_add {t t1 : RedBlackTree α} {addr : Nat} {key : α} {e1 e2 : List (Nat × α)}
    (ht : Sized t) (hf : FreshAddr addr t.root_) (h1 : entries t.root_ = e1 ++ e2)
    (h2 : entries t1.root_ = e1 ++ (addr, key) :: e2)
    (h3 : t1.size_ = (t.size_ + 1) % 2 ^ 64) : Sized t1 := by
  obtain ⟨hn, hr, hs⟩ := ht
  obtain ⟨f0, f1, f2⟩ := hf
  have ha : addrs t.root_ = e1.map Prod.fst ++ e2.map Prod.fst := by simp [addrs, h1]
  have ha1 : addrs t1.root_ = e1.map Prod.fst ++ addr :: e2.map Prod.fst := by simp [addrs, h2]
  have hn1 : (addrs t1.root_).Nodup := by
    rw [ha1, List.nodup_middle, List.nodup_cons, ← ha]
    exact ⟨f2, hn⟩
  have hr1 : ∀ a ∈ addrs t1.root_, 0 < a ∧ a < 2 ^ 64 := by
    intro a hmem
    rw [ha1, List.mem_append, List.mem_cons] at hmem
    rcases hmem with hm | rfl | hm
    · exact hr a (by rw [ha]; exact List.mem_append_left _ hm)
    · exact ⟨f0, f1⟩
    · exact hr a (by rw [ha]; exact List.mem_append_right _ hm)
  refine ⟨hn1, hr1, ?_⟩
  have hlen := length_lt_of_nodup_range _ (2 ^ 64) (by norm_num) hn1 hr1
  have hc1 : count t1.root_ = count t.root_ + 1 := by
    rw [count_eq_length, count_eq_length, h1, h2]; simp; omega
  rw [← count_eq_addrs_length, hc1] at hlen
  rw [h3, hs, hc1]
  exact Nat.mod_eq_of_lt hlen

theorem sized_remove {t t1 : RedBlackTree α} {a : Nat} {a1 a2 : List Nat}
    (ht : Sized t) (h1 : addrs t.root_ = a1 ++ a :: a2) (h2 : addrs t1.root_ = a1 ++ a2)
    (h3 : t1.size_ = (t.size_ + 2 ^ 64 - 1) % 2 ^ 64) : Sized t1 := by
  obtain ⟨hn, hr, hs⟩ := ht
  have hsub : (a1 ++ a2).Sublist (a1 ++ a :: a2) :=
    List.Sublist.append (List.Sublist.refl a1) (List.sublist_cons_self a a2)
  have hn1 : (addrs t1.root_).Nodup := by
    rw [h2]; rw [h1] at hn; exact hn.sublist hsub
  have hr1 : ∀ b ∈ addrs t1.root_, 0 < b ∧ b < 2 ^ 64 := by
    intro b hb
    rw [h2] at hb
    exact hr b (by rw [h1]; exact hsub.subset hb)
  refine ⟨hn1, hr1, ?_⟩
  have hlen := length_lt_of_nodup_range _ (2 ^ 64) (by norm_num) hn hr
  have hc : count t.root_ = count t1.root_ + 1 := by
    rw [count_eq_addrs_length, count_eq_addrs_length, h1, h2]; simp; omega
  rw [← count_eq_addrs_length, hc] at hlen
  rw [h3, hs, hc]
  have : count t1.root_ + 1 + 2 ^ 64 - 1 = count t1.root_ + 2 ^ 64 := by omega
  rw [this, Nat.add_mod_right]
  exact Nat.mod_eq_of_lt (by omega)

theorem sized_empty : Sized (RedBlackTree.empty : RedBlackTree α) := by
  simp [Sized, RedBlackTree.empty, addrs, entries, count]

theorem sized_insert {comp : α → α → Bool} {key : α} {addr : Nat} {t : RedBlackTree α}
    (ht : Sized t) (hf : FreshAddr addr t.root_) : Sized (insert comp key addr t).1 := by
  rcases insert_cases comp key addr t with ⟨a, h⟩ | ⟨e1, e2, h1, h2, h3, _⟩
  · rw [h]; exact ht
  · exact sized_add ht hf h1 h2 h3

theorem sized_insert_mult {comp : α → α → Bool} {key : α} {addr : Nat} {t : RedBlackTree α}
    (ht : Sized t) (hf : FreshAddr addr t.root_) : Sized (insert_mult comp key addr t).1 := by
  obtain ⟨e1, e2, h1, h2, h3⟩ := insert_mult_entries comp key addr t
  exact sized_add ht hf h1 h2 h3

theorem sized_erase {comp : α → α → Bool} {key : α} {t t1 : RedBlackTree α}
    (ht : Sized t) (h : erase comp key t = Outcome.done t1) : Sized t1 := by
  rcases erase_cases h with rfl | ⟨a1, a2, a, h1, h2, h3⟩
  · exact ht
  · exact sized_remove ht h1 h2 h3

theorem reachable_sized {comp : α → α → Bool} {t : RedBlackTree α} (h : Reachable comp t) :
    Sized t := by
  induction h with
  | empty => exact sized_empty
  | insert key addr _ hf ih => exact sized_insert ih hf
  | insert_mult key addr _ hf ih => exact sized_insert_mult ih hf
  | erase key _ he ih => exact sized_erase ih he

theorem reachableU_reachable {comp : α → α → Bool} {t : RedBlackTree α}
    (h : ReachableU comp t) : Reachable comp t := by
  induction h with
  | empty => exact Reachable.empty
  | insert key addr _ hf ih => exact Reachable.insert key addr ih hf
  | erase key _ he ih => exact Reachable.erase key ih he

/-! ## Colour of the root -/

theorem rootBlack_setBlack (t : Node α) : rootBlack (setBlack t) = true := by
  cases t <;> rfl

theorem rootBlack_zipUp_cons (t : Node α) (f : Frame α) (up : Path α) :
    rootBlack (zipUp t (f :: up)) = pathRootBlack (f :: up) := by
  induction up generalizing t f with
  | nil => cases f <;> rename_i a k c s <;> cases c <;> rfl
  | cons g up ih =>
    rw [zipUp, ih]; rfl

theorem pathRootBlack_tail (f : Frame α) (up : Path α) (h : pathRootBlack (f :: up) = true) :
    pathRootBlack up = true := by
  cases up with
  | nil => rfl
  | cons g up => exact h

theorem pathRootBlack_push_black (f g : Frame α) (up : Path α) (hg : g.color = Color.BLACK)
    (h : pathRootBlack (f :: up) = true) : pathRootBlack (g :: up) = true := by
  cases up with
  | nil => simp [pathRootBlack, hg]
  | cons g2 up => exact h

theorem pathRootBlack_append (p : Path α) (f : Frame α) (q : Path α) :
    pathRootBlack (p ++ f :: q) = pathRootBlack (f :: q) := by
  induction p with
  | nil => rfl
  | cons g p ih =>
    cases p with
    | nil => rfl
    | cons g2 p => rw [← ih]; rfl

theorem rootBlack_zipUp_of_path (t : Node α) (p : Path α) (hp : pathRootBlack p = true)
    (ht : p = [] → rootBlack t = true) : rootBlack (zipUp t p) = true := by
  cases p with
  | nil => exact ht rfl
  | cons f up => rw [rootBlack_zipUp_cons]; exact hp

theorem eraseFixupLeft_rootBlack {x : Node α} {pa : Nat} {pk : α} {pc : Color} {w : Node α}
    {up : Path α} {s : Node α × Path α} (h : eraseFixupLeft x pa pk pc w up = Outcome.done s)
    (hp : pathRootBlack up = true) : pathRootBlack s.2 = true := by
  unfold eraseFixupLeft at h
  split at h
  · cases h
  · split at h
    · cases h; exact hp
    · split at h
      · split at h
        · cases h
        · cases h; rfl
      · cases h; rfl

theorem eraseFixupRight_rootBlack {x : Node α} {pa : Nat} {pk : α} {pc : Color} {w : Node α}
    {up : Path α} {s : Node α × Path α} (h : eraseFixupRight x pa pk pc w up = Outcome.done s)
    (hp : pathRootBlack up = true) : pathRootBlack s.2 = true := by
  unfold eraseFixupRight at h
  split at h
  · cases h
  · split at h
    · cases h; exact hp
    · split at h
      · split at h
        · cases h
        · cases h; rfl
      · cases h; rfl

theorem eraseFixupBody_rootBlack {x : Node α} {f : Frame α} {up : Path α} {s : Node α × Path α}
    (h : eraseFixupBody x f up = Outcome.done s) (hp : pathRootBlack (f :: up) = true) :
    pathRootBlack s.2 = true := by
  unfold eraseFixupBody at h
  split at h
  · split at h
    · cases h
    · exact eraseFixupLeft_rootBlack h (pathRootBlack_push_black _ _ _ rfl hp)
    · exact eraseFixupLeft_rootBlack h (pathRootBlack_tail _ _ hp)
  · split at h
    · cases h
    · exact eraseFixupRight_rootBlack h (pathRootBlack_push_black _ _ _ rfl hp)
    · exact eraseFixupRight_rootBlack h (pathRootBlack_tail _ _ hp)

theorem eraseFixupLoop_rootBlack {n : Nat} {x : Node α} {p : Path α} {s : Node α × Path α}
    (h : eraseFixupLoop n x p = Outcome.done s) (hp : pathRootBlack p = true) :
    pathRootBlack s.2 = true := by
  induction n generalizing x p with
  | zero =>
    cases p with
    | nil => simp [eraseFixupLoop] at h; subst h; rfl
    | cons f up =>
      cases x with
      | nil => simp [eraseFixupLoop] at h; subst h; rfl
      | node a k c l r =>
        cases c <;> simp [eraseFixupLoop] at h
        subst h; exact hp
  | succ n ih =>
    cases p with
    | nil => simp [eraseFixupLoop] at h; subst h; rfl
    | cons f up =>
      cases x with
      | nil => simp [eraseFixupLoop] at h; subst h; rfl
      | node a k c l r =>
        cases c with
        | RED => simp [eraseFixupLoop] at h; subst h; exact hp
        | BLACK =>
          simp only [eraseFixupLoop] at h
          split at h
          · rename_i s1 hb
            exact ih h (eraseFixupBody_rootBlack hb hp)
          · cases h
          · cases h

theorem rootBlack_eraseFixup {x : Node α} {p : Path α} {r : Node α}
    (h : eraseFixup x p = Outcome.done r) (hp : pathRootBlack p = true) :
    rootBlack r = true := by
  unfold eraseFixup at h
  split at h
  · rename_i s hs
    cases h
    exact rootBlack_zipUp_of_path _ _ (eraseFixupLoop_rootBlack hs hp)
      (fun _ => rootBlack_setBlack _)
  · cases h
  · cases h

theorem rootBlack_insert (comp : α → α → Bool) (key : α) (addr : Nat) (t : RedBlackTree α)
    (ht : rootBlack t.root_ = true) : rootBlack (insert comp key addr t).1.root_ = true := by
  cases hx : descend comp key t.root_ [] with
  | mk x y =>
    cases x with
    | node a k c l r => rw [insert_of_descend_node hx]; exact ht
    | nil => rw [insert_of_descend_nil hx]; exact rootBlack_setBlack _

theorem rootBlack_insert_mult (comp : α → α → Bool) (key : α) (addr : Nat)
    (t : RedBlackTree α) : rootBlack (insert_mult comp key addr t).1.root_ = true :=
  rootBlack_setBlack _

theorem rootBlack_erase {comp : α → α → Bool} {key : α} {t t1 : RedBlackTree α}
    (ht : rootBlack t.root_ = true) (h : erase comp key t = Outcome.done t1) :
    rootBlack t1.root_ = true := by
  cases hx : descend comp key t.root_ [] with
  | mk z pz =>
    cases z with
    | nil =>
      rw [erase_of_descend_nil hx] at h
      cases h; exact ht
    | node za zk zc zl zr =>
      have hz := descend_zipUp comp key t.root_ []
      rw [hx] at hz
      simp only [zipUp] at hz
      rw [← hz] at ht
      -- the frame of `z` with any key and children has a BLACK root above it
      have hframe : ∀ (k : α) (l : Node α), pathRootBlack (Frame.R za k zc l :: pz) = true := by
        intro k l
        cases pz with
        | nil => cases zc with
          | RED => simp [zipUp, rootBlack] at ht
          | BLACK => rfl
        | cons g up => rw [rootBlack_zipUp_cons] at ht; exact ht
      have hpz : pathRootBlack pz = true := pathRootBlack_tail _ _ (hframe zk zl)
      obtain ⟨yc, x, path, hs, hcase⟩ := eraseSplice_cases za zc zl zr pz
      obtain ⟨_, _, hred, hblack⟩ := erase_root_of_descend_node hx h hs
      have hpath : pathRootBlack path = true := by
        rcases hcase with ⟨rfl, _, _, _⟩ | ⟨ya, yk, rel, _, _, _, rfl⟩
        · exact hpz
        · rw [pathRootBlack_append]; exact hframe _ _
      cases yc with
      | BLACK => exact rootBlack_eraseFixup (hblack rfl) hpath
      | RED =>
        rw [hred rfl]
        apply rootBlack_zipUp_of_path _ _ hpath
        intro hnil
        rcases hcase with ⟨rfl, hyc, _, _⟩ | ⟨ya, yk, rel, _, _, _, hp⟩
        · subst hnil; subst hyc
          simp [zipUp, rootBlack] at ht
        · rw [hnil] at hp
          exact absurd hp (by simp)

theorem reachable_rootBlack {comp : α → α → Bool} {t : RedBlackTree α}
    (h : Reachable comp t) : rootBlack t.root_ = true := by
  induction h with
  | empty => rfl
  | insert key addr _ _ ih => exact rootBlack_insert comp key addr _ ih
  | insert_mult key addr _ _ _ => exact rootBlack_insert_mult comp key addr _
  | erase key _ he ih => exact rootBlack_erase ih he

/-! ## `erase` completes on black-balanced trees -/

theorem blackHeight_node_some {a : Nat} {k : α} {c : Color} {l r : Node α} {n : Nat}
    (h : blackHeight (Node.node a k c l r) = some n) :
    ∃ m, blackHeight l = some m ∧ blackHeight r = some m := by
  unfold blackHeight at h
  split at h
  · rename_i n1 m1 h1 h2
    split at h
    · rename_i heq
      subst heq
      exact ⟨n1, h1, h2⟩
    · cases h
  · cases h

theorem blackHeight_zipUp_some (t : Node α) (p : Path α)
    (h : (blackHeight (zipUp t p)).isSome = true) : (blackHeight t).isSome = true := by
  induction p generalizing t with
  | nil => exact h
  | cons f up ih =>
    have h1 := ih _ h
    obtain ⟨n, hn⟩ := Option.isSome_iff_exists.1 h1
    cases f with
    | L a k c r =>
      obtain ⟨m, hl, _⟩ := blackHeight_node_some hn
      rw [hl]; rfl
    | R a k c l =>
      obtain ⟨m, _, hr⟩ := blackHeight_node_some hn
      rw [hr]; rfl

theorem blackHeight_zero {t : Node α} (h : blackHeight t = some 0) :
    t = Node.nil ∨ isRed t = true := by
  cases t with
  | nil => exact Or.inl rfl
  | node a k c l r =>
    right
    cases c with
    | RED => rfl
    | BLACK =>
      unfold blackHeight at h
      split at h
      · split at h
        · simp at h
        · cases h
      · cases h

/-- Below a node that has an absent child and a well-defined black height, the
other child is absent or RED. -/
theorem sibling_of_nil_nil_or_red {a : Nat} {k : α} {c : Color} {l r : Node α}
    (h : (blackHeight (Node.node a k c l r)).isSome = true) :
    (l = Node.nil → r = Node.nil ∨ isRed r = true) ∧
    (r = Node.nil → l = Node.nil ∨ isRed l = true) := by
  obtain ⟨n, hn⟩ := Option.isSome_iff_exists.1 h
  obtain ⟨m, hl, hr⟩ := blackHeight_node_some hn
  constructor
  · intro hnil
    subst hnil
    simp only [blackHeight, Option.some.injEq] at hl
    subst hl
    exact blackHeight_zero hr
  · intro hnil
    subst hnil
    simp only [blackHeight, Option.some.injEq] at hr
    subst hr
    exact blackHeight_zero hl

theorem eraseFixup_done_of_nil_or_red (x : Node α) (p : Path α)
    (h : x = Node.nil ∨ isRed x = true) : ∃ r, eraseFixup x p = Outcome.done r := by
  have hloop : ∃ s, eraseFixupLoop p.length x p = Outcome.done s := by
    cases p with
    | nil => exact ⟨(x, []), by simp [eraseFixupLoop]⟩
    | cons f up =>
      cases x with
      | nil => exact ⟨(zipUp Node.nil (f :: up), []), by simp [eraseFixupLoop]⟩
      | node a k c l r =>
        cases c with
        | RED => exact ⟨(Node.node a k Color.RED l r, f :: up), by simp [eraseFixupLoop]⟩
        | BLACK => rcases h with h | h <;> simp [isRed] at h
  obtain ⟨s, hs⟩ := hloop
  exact ⟨zipUp (setBlack s.1) s.2, by simp [eraseFixup, hs]⟩

/-- On a tree with equal black counts on all paths `erase` runs to completion:
the node handed to `eraseFixup` is absent or RED. -/
theorem erase_done_of_blackBalanced (comp : α → α → Bool) (key : α) (t : RedBlackTree α)
    (h4 : blackBalanced t.root_ = true) : ∃ t1, erase comp key t = Outcome.done t1 := by
  cases hx : descend comp key t.root_ [] with
  | mk z pz =>
    cases z with
    | nil => exact ⟨t, erase_of_descend_nil hx⟩
    | node za zk zc zl zr =>
      have hz := descend_zipUp comp key t.root_ []
      rw [hx] at hz
      simp only at hz
      have hbz : (blackHeight (Node.node za zk zc zl zr)).isSome = true := by
        apply blackHeight_zipUp_some _ pz
        rw [hz]; exact h4
      obtain ⟨yc, x, path, hs, hcase⟩ := eraseSplice_cases za zc zl zr pz
      have hx' : yc = Color.BLACK → x = Node.nil ∨ isRed x = true := by
        intro hyc
        rcases hcase with ⟨_, _, _, hc⟩ | ⟨ya, yk, rel, _, hy, _, _⟩
        · rcases hc with ⟨hl, rfl⟩ | ⟨hr, rfl⟩
          · exact (sibling_of_nil_nil_or_red hbz).1 hl
          · exact (sibling_of_nil_nil_or_red hbz).2 hr
        · obtain ⟨n, hn⟩ := Option.isSome_iff_exists.1 hbz
          obtain ⟨m, _, hr⟩ := blackHeight_node_some hn
          have hby : (blackHeight (Node.node ya yk yc Node.nil x)).isSome = true := by
            apply blackHeight_zipUp_some _ rel
            rw [hy, hr]; rfl
          exact (sibling_of_nil_nil_or_red hby).1 rfl
      simp only [erase, hx, hs]
      cases yc with
      | RED => exact ⟨_, rfl⟩
      | BLACK =>
        obtain ⟨r, hr⟩ := eraseFixup_done_of_nil_or_red x path (hx' rfl)
        simp only [hr]
        exact ⟨_, rfl⟩

/-! ## `find` on search-ordered trees -/

theorem find_eq_nil_iff {comp : α → α → Bool} (hc : StrictTotal comp) (key : α)
    (t : RedBlackTree α) (ht : (keys t.root_).Pairwise (fun a b => comp a b = true)) :
    find comp key t = Node.nil ↔ key ∉ keys t.root_ :=
  descend_nil_iff hc key t.root_ ht

theorem find_node_mem {comp : α → α → Bool} {key : α} {t : RedBlackTree α}
    {a : Nat} {k : α} {c : Color} {l r : Node α}
    (h : find comp key t = Node.node a k c l r) : (a, k) ∈ entries t.root_ := by
  have hz := descend_zipUp comp key t.root_ []
  unfold find at h
  rw [h] at hz
  have he := congrArg entries hz
  simp only [entries_zipUp, zipUp, entries] at he
  rw [← he]
  simp

theorem not_mem_of_pairwise_mid {comp : α → α → Bool} (hc : StrictTotal comp) {k : α}
    {l1 l2 : List α} (h : (l1 ++ k :: l2).Pairwise (fun a b => comp a b = true)) :
    k ∉ l1 ++ l2 := by
  rw [List.pairwise_append, List.pairwise_cons] at h
  obtain ⟨_, ⟨h2, _⟩, h3⟩ := h
  intro hmem
  rcases List.mem_append.1 hmem with hm | hm
  · have := h3 k hm k (List.mem_cons_self _ _)
    rw [hc.irrefl] at this; cases this
  · have := h2 k hm
    rw [hc.irrefl] at this; cases this

/-- A completed `erase` of a stored key on a search-ordered tree removes that
key from the in-order key list. -/
theorem erase_stored {comp : α → α → Bool} (hc : StrictTotal comp) {key : α}
    {t t1 : RedBlackTree α} (ht : (keys t.root_).Pairwise (fun a b => comp a b = true))
    (hk : key ∈ keys t.root_) (h : erase comp key t = Outcome.done t1) :
    ∃ l1 l2, keys t.root_ = l1 ++ key :: l2 ∧ keys t1.root_ = l1 ++ l2 ∧
      t1.size_ = (t.size_ + 2 ^ 64 - 1) % 2 ^ 64 := by
  cases hx : descend comp key t.root_ [] with
  | mk z pz =>
    cases z with
    | nil =>
      have : (descend comp key t.root_ []).1 = Node.nil := by rw [hx]
      exact absurd hk ((descend_nil_iff hc key t.root_ ht).1 this)
    | node za zk zc zl zr =>
      obtain ⟨_, _, _, h4⟩ := descend_root hc key t.root_ ht
      have hkk : zk = key := h4 za zk zc zl zr (by rw [hx])
      subst hkk
      exact erase_keys_of_descend_node hx h

/-- On a search-ordered subtree that stores a key equivalent to `key`, the
descent stops at a node whose key is equivalent to `key`. -/
theorem descend_finds_equivalent {comp : α → α → Bool}
    (htrans : ∀ a b c, comp a b = true → comp b c = true → comp a c = true) (key : α)
    (t : Node α) (p : Path α) (ht : (keys t).Pairwise (fun a b => comp a b = true))
    (hk : ∃ k1 ∈ keys t, comp key k1 = false ∧ comp k1 key = false) :
    ∃ a k c l r, (descend comp key t p).1 = Node.node a k c l r ∧
      comp key k = false ∧ comp k key = false := by
  induction t generalizing p with
  | nil => obtain ⟨k1, hm, _⟩ := hk; simp [keys_nil] at hm
  | node a k c l r ihl ihr =>
    rw [keys_node, List.pairwise_append, List.pairwise_cons] at ht
    obtain ⟨hl, ⟨hkr, hr⟩, hlr⟩ := ht
    obtain ⟨k1, hm, he1, he2⟩ := hk
    rw [keys_node, List.mem_append, List.mem_cons] at hm
    unfold descend
    split
    · rename_i hlt
      apply ihl _ hl
      rcases hm with hm | rfl | hm
      · exact ⟨k1, hm, he1, he2⟩
      · rw [hlt] at he1; cases he1
      · have := htrans _ _ _ hlt (hkr k1 hm)
        rw [this] at he1; cases he1
    · split
      · rename_i hnlt hgt
        apply ihr _ hr
        rcases hm with hm | rfl | hm
        · have := htrans _ _ _ (hlr k1 hm k (List.mem_cons_self _ _)) hgt
          rw [this] at he2; cases he2
        · rw [hgt] at he2; cases he2
        · exact ⟨k1, hm, he1, he2⟩
      · rename_i h1 h2
        exact ⟨a, k, c, l, r, rfl, by simpa using h1, by simpa using h2⟩

theorem natLess_trans (a b c : Nat) (h1 : natLess a b = true) (h2 : natLess b c = true) :
    natLess a c = true := natLess_strictTotal.trans a b c h1 h2

theorem pairCompare_trans {κ ν : Type} {comp : κ → κ → Bool}
    (htrans : ∀ a b c, comp a b = true → comp b c = true → comp a c = true)
    (a b c : κ × ν) (h1 : PairCompare comp a b = true) (h2 : PairCompare comp b c = true) :
    PairCompare comp a c = true := htrans _ _ _ h1 h2

/-! ## The rotations behind the cases of the two fixups

Each case of `insertFixupLoop` and of the sibling cases of `eraseFixup` writes
down the subtree that the recolourings and rotations of the source produce.
These statements recompute those subtrees with `rotateLeft` and `rotateRight`. -/

/-- Line case, parent a left child: `rotateRight(grandParent)` after the
recolouring; `z` stays below the former parent. -/
theorem insertFixup_line_left (ga pa : Nat) (gk pk : α) (z pr y : Node α) :
    rotateRight (Node.node ga gk Color.RED (Node.node pa pk Color.BLACK z pr) y)
      = Outcome.done
          ((Frame.L pa pk Color.BLACK (Node.node ga gk Color.RED pr y)).plug z) := rfl

/-- Line case, parent a right child: `rotateLeft(grandParent)`. -/
theorem insertFixup_line_right (ga pa : Nat) (gk pk : α) (z pl y : Node α) :
    rotateLeft (Node.node ga gk Color.RED y (Node.node pa pk Color.BLACK pl z))
      = Outcome.done
          ((Frame.R pa pk Color.BLACK (Node.node ga gk Color.RED y pl)).plug z) := rfl

/-- Triangle case, parent a left child: `rotateLeft(parent)` puts the old `z`
above the parent; the variable `parent` still designates the old parent, which
is the node made BLACK; `rotateRight(grandParent)` then puts the old `z`, with
its colour unchanged, above both. -/
theorem insertFixup_triangle_left (ga pa za : Nat) (gk pk zk : α) (zc : Color)
    (pl zl zr y : Node α) :
    rotateLeft (Node.node pa pk Color.RED pl (Node.node za zk zc zl zr))
        = Outcome.done (Node.node za zk zc (Node.node pa pk Color.RED pl zl) zr) ∧
      rotateRight (Node.node ga gk Color.RED
          (Node.node za zk zc (Node.node pa pk Color.BLACK pl zl) zr) y)
        = Outcome.done
            ((Frame.L za zk zc (Node.node ga gk Color.RED zr y)).plug
              (Node.node pa pk Color.BLACK pl zl)) :=
  ⟨rfl, rfl⟩

/-- Triangle case, parent a right child: mirror image. -/
theorem insertFixup_triangle_right (ga pa za : Nat) (gk pk zk : α) (zc : Color)
    (pr zl zr y : Node α) :
    rotateRight (Node.node pa pk Color.RED (Node.node za zk zc zl zr) pr)
        = Outcome.done (Node.node za zk zc zl (Node.node pa pk Color.RED zr pr)) ∧
      rotateLeft (Node.node ga gk Color.RED y
          (Node.node za zk zc zl (Node.node pa pk Color.BLACK zr pr)))
        = Outcome.done
            ((Frame.R za zk zc (Node.node ga gk Color.RED y zl)).plug
              (Node.node pa pk Color.BLACK zr pr)) :=
  ⟨rfl, rfl⟩

/-- Red sibling, `x` a left child: after the recolouring `rotateLeft(parent)`
puts the sibling above the parent; `x` keeps its parent, whose right child is
now the former left child of the sibling. -/
theorem eraseFixup_red_sibling_left (pa wa : Nat) (pk wk : α) (x wl wr : Node α) :
    rotateLeft (Node.node pa pk Color.RED x (Node.node wa wk Color.BLACK wl wr))
      = Outcome.done
          ((Frame.L wa wk Color.BLACK wr).plug ((Frame.L pa pk Color.RED wl).plug x)) := rfl

/-- Red sibling, `x` a right child: `rotateRight(parent)`. -/
theorem eraseFixup_red_sibling_right (pa wa : Nat) (pk wk : α) (x wl wr : Node α) :
    rotateRight (Node.node pa pk Color.RED (Node.node wa wk Color.BLACK wl wr) x)
      = Outcome.done
          ((Frame.R wa wk Color.BLACK wl).plug ((Frame.R pa pk Color.RED wr).plug x)) := rfl

/-- Near child RED, far child BLACK, `x` a left child: `rotateRight(w)` after
the recolouring, then `rotateLeft(parent)` after the second recolouring. -/
theorem eraseFixup_near_red_left (pa wa la : Nat) (pk wk lk : α) (pc : Color)
    (x ll lr wr : Node α) :
    rotateRight (Node.node wa wk Color.RED (Node.node la lk Color.BLACK ll lr) wr)
        = Outcome.done (Node.node la lk Color.BLACK ll (Node.node wa wk Color.RED lr wr)) ∧
      rotateLeft (Node.node pa pk Color.BLACK x
          (Node.node la lk pc ll (Node.node wa wk Color.BLACK lr wr)))
        = Outcome.done (Node.node la lk pc (Node.node pa pk Color.BLACK x ll)
            (Node.node wa wk Color.BLACK lr wr)) :=
  ⟨rfl, rfl⟩

/-- Near child RED, far child BLACK, `x` a right child: mirror image. -/
theorem eraseFixup_near_red_right (pa wa ra : Nat) (pk wk rk : α) (pc : Color)
    (x wl rl rr : Node α) :
    rotateLeft (Node.node wa wk Color.RED wl (Node.node ra rk Color.BLACK rl rr))
        = Outcome.done (Node.node ra rk Color.BLACK (Node.node wa wk Color.RED wl rl) rr) ∧
      rotateRight (Node.node pa pk Color.BLACK
          (Node.node ra rk pc (Node.node wa wk Color.BLACK wl rl) rr) x)
        = Outcome.done (Node.node ra rk pc (Node.node wa wk Color.BLACK wl rl)
            (Node.node pa pk Color.BLACK rr x)) :=
  ⟨rfl, rfl⟩

/-- Far child RED, `x` a left child: `rotateLeft(parent)` after the
recolouring. -/
theorem eraseFixup_far_red_left (pa wa : Nat) (pk wk : α) (pc : Color) (x wl wr : Node α) :
    rotateLeft (Node.node pa pk Color.BLACK x (Node.node wa wk pc wl (setBlack wr)))
      = Outcome.done (Node.node wa wk pc (Node.node pa pk Color.BLACK x wl) (setBlack wr)) :=
  rfl

/-- Far child RED, `x` a right child: `rotateRight(parent)`. -/
theorem eraseFixup_far_red_right (pa wa : Nat) (pk wk : α) (pc : Color) (x wl wr : Node α) :
    rotateRight (Node.node pa pk Color.BLACK (Node.node wa wk pc (setBlack wl) wr) x)
      = Outcome.done (Node.node wa wk pc (setBlack wl) (Node.node pa pk Color.BLACK wr x)) :=
  rfl

/-! ## The loop bounds of the model are never reached -/

/-- The loop of `insertFixup` ends within `path.length` iterations: any two
amounts of fuel of at least that size give the same result. -/
theorem insertFixupLoop_fuel (n m : Nat) (z : Node α) (p : Path α)
    (hn : p.length ≤ n) (hm : p.length ≤ m) :
    insertFixupLoop n z p = insertFixupLoop m z p := by
  induction n generalizing m z p with
  | zero =>
    have : p = [] := List.length_eq_zero.1 (Nat.le_zero.1 hn)
    subst this
    cases m <;> simp [insertFixupLoop]
  | succ n ih =>
    cases m with
    | zero =>
      have : p = [] := List.length_eq_zero.1 (Nat.le_zero.1 hm)
      subst this
      simp [insertFixupLoop]
    | succ m =>
      match p with
      | [] => simp [insertFixupLoop]
      | [q] => simp [insertFixupLoop]
      | q :: g :: up =>
        simp only [List.length_cons] at hn hm
        unfold insertFixupLoop
        split
        · rfl
        · split <;> split <;> split <;> (try cases z) <;>
            first
              | rfl
              | exact ih _ _ _ (by omega) (by omega)
              | exact ih _ _ _ (by simp only [List.length_cons]; omega)
                  (by simp only [List.length_cons]; omega)

theorem eraseFuel_le (x : Node α) (p : Path α) : eraseFuel x p ≤ p.length := by
  unfold eraseFuel
  split <;> simp

theorem eraseFuel_red (a : Nat) (k : α) (l r : Node α) (p : Path α) :
    eraseFuel (Node.node a k Color.RED l r) p = 0 := by
  simp [eraseFuel]

theorem eraseFixupLeft_fuel {x : Node α} {pa : Nat} {pk : α} {pc : Color} {w : Node α}
    {up : Path α} {s : Node α × Path α} (h : eraseFixupLeft x pa pk pc w up = Outcome.done s) :
    eraseFuel s.1 s.2 ≤ up.length ∧ (pc = Color.RED → eraseFuel s.1 s.2 = 0) := by
  unfold eraseFixupLeft at h
  split at h
  · cases h
  · split at h
    · cases h
      exact ⟨eraseFuel_le _ _, fun hc => by subst hc; exact eraseFuel_red _ _ _ _ _⟩
    · split at h
      · split at h
        · cases h
        · cases h; simp [eraseFuel]
      · cases h; simp [eraseFuel]

theorem eraseFixupRight_fuel {x : Node α} {pa : Nat} {pk : α} {pc : Color} {w : Node α}
    {up : Path α} {s : Node α × Path α} (h : eraseFixupRight x pa pk pc w up = Outcome.done s) :
    eraseFuel s.1 s.2 ≤ up.length ∧ (pc = Color.RED → eraseFuel s.1 s.2 = 0) := by
  unfold eraseFixupRight at h
  split at h
  · cases h
  · split at h
    · cases h
      exact ⟨eraseFuel_le _ _, fun hc => by subst hc; exact eraseFuel_red _ _ _ _ _⟩
    · split at h
      · split at h
        · cases h
        · cases h; simp [eraseFuel]
      · cases h; simp [eraseFuel]

theorem eraseFixupLeft_ne_outOfFuel (x : Node α) (pa : Nat) (pk : α) (pc : Color) (w : Node α)
    (up : Path α) : eraseFixupLeft x pa pk pc w up ≠ Outcome.outOfFuel := by
  unfold eraseFixupLeft
  split
  · simp
  · split
    · simp
    · split
      · split <;> simp
      · simp

theorem eraseFixupRight_ne_outOfFuel (x : Node α) (pa : Nat) (pk : α) (pc : Color)
    (w : Node α) (up : Path α) : eraseFixupRight x pa pk pc w up ≠ Outcome.outOfFuel := by
  unfold eraseFixupRight
  split
  · simp
  · split
    · simp
    · split
      · split <;> simp
      · simp

theorem eraseFixupBody_ne_outOfFuel (x : Node α) (f : Frame α) (up : Path α) :
    eraseFixupBody x f up ≠ Outcome.outOfFuel := by
  unfold eraseFixupBody
  split
  · split
    · simp
    · exact eraseFixupLeft_ne_outOfFuel _ _ _ _ _ _
    · exact eraseFixupLeft_ne_outOfFuel _ _ _ _ _ _
  · split
    · simp
    · exact eraseFixupRight_ne_outOfFuel _ _ _ _ _ _
    · exact eraseFixupRight_ne_outOfFuel _ _ _ _ _ _

theorem eraseFixupBody_fuel {x : Node α} {f : Frame α} {up : Path α} {s : Node α × Path α}
    (h : eraseFixupBody x f up = Outcome.done s) : eraseFuel s.1 s.2 ≤ up.length := by
  unfold eraseFixupBody at h
  split at h
  · split at h
    · cases h
    · rw [(eraseFixupLeft_fuel h).2 rfl]; exact Nat.zero_le _
    · exact (eraseFixupLeft_fuel h).1
  · split at h
    · cases h
    · rw [(eraseFixupRight_fuel h).2 rfl]; exact Nat.zero_le _
    · exact (eraseFixupRight_fuel h).1

/-- The loop of `eraseFixup` never exhausts the fuel it is given by
`eraseFixup`: it ends by completing or by a null dereference. -/
theorem eraseFixupLoop_ne_outOfFuel (n : Nat) (x : Node α) (p : Path α)
    (h : eraseFuel x p ≤ n) : eraseFixupLoop n x p ≠ Outcome.outOfFuel := by
  induction n generalizing x p with
  | zero =>
    cases p with
    | nil => simp [eraseFixupLoop]
    | cons f up =>
      cases x with
      | nil => simp [eraseFixupLoop]
      | node a k c l r =>
        cases c with
        | RED => simp [eraseFixupLoop]
        | BLACK => simp [eraseFuel] at h
  | succ n ih =>
    cases p with
    | nil => simp [eraseFixupLoop]
    | cons f up =>
      cases x with
      | nil => simp [eraseFixupLoop]
      | node a k c l r =>
        cases c with
        | RED => simp [eraseFixupLoop]
        | BLACK =>
          simp only [eraseFixupLoop]
          have hb := eraseFixupBody_ne_outOfFuel (Node.node a k Color.BLACK l r) f up
          split
          · rename_i s hs
            apply ih
            have := eraseFixupBody_fuel hs
            simp only [eraseFuel, List.length_cons] at h
            omega
          · simp
          · rename_i hs
            exact absurd hs hb

theorem eraseFixup_ne_outOfFuel (x : Node α) (p : Path α) :
    eraseFixup x p ≠ Outcome.outOfFuel := by
  unfold eraseFixup
  have := eraseFixupLoop_ne_outOfFuel p.length x p (eraseFuel_le x p)
  split
  · simp
  · simp
  · rename_i hs
    exact absurd hs this

/-- `erase` never stops for lack of fuel: it completes, or it reads a field of
an absent node. -/
theorem erase_ne_outOfFuel (comp : α → α → Bool) (key : α) (t : RedBlackTree α) :
    erase comp key t ≠ Outcome.outOfFuel := by
  cases hx : descend comp key t.root_ [] with
  | mk z pz =>
    cases z with
    | nil => rw [erase_of_descend_nil hx]; simp
    | node za zk zc zl zr =>
      obtain ⟨yc, x, path, hs, _⟩ := eraseSplice_cases za zc zl zr pz
      simp only [erase, hx, hs]
      cases yc with
      | RED => simp
      | BLACK =>
        have := eraseFixup_ne_outOfFuel x path
        cases hf : eraseFixup x path with
        | done r => simp
        | nullDeref => simp
        | outOfFuel => exact absurd hf this

/-! ## `find` without assumptions on the order of equivalent keys -/

/-- A node at which the descent stops belongs to the subtree, and its key is
equivalent to the key looked for. -/
theorem descend_node_spec (comp : α → α → Bool) (key : α) (t : Node α) (p : Path α)
    {a : Nat} {k : α} {c : Color} {l r : Node α}
    (h : (descend comp key t p).1 = Node.node a k c l r) :
    comp key k = false ∧ comp k key = false ∧ (a, k) ∈ entries t := by
  induction t generalizing p with
  | nil => simp [descend] at h
  | node a1 k1 c1 l1 r1 ihl ihr =>
    unfold descend at h
    split at h
    · obtain ⟨h1, h2, h3⟩ := ihl _ h
      exact ⟨h1, h2, by simp [entries, h3]⟩
    · split at h
      · obtain ⟨h1, h2, h3⟩ := ihr _ h
        exact ⟨h1, h2, by simp [entries, h3]⟩
      · rename_i h1 h2
        cases h
        exact ⟨by simpa using h1, by simpa using h2, by simp [entries]⟩

/-- On a subtree whose in-order key list is non-descending, the descent stops
at a node as soon as the subtree stores a key equivalent to the key looked
for. -/
theorem descend_finds_of_nondescending {comp : α → α → Bool}
    (hcot : ∀ a b c, comp a b = true → comp a c = true ∨ comp c b = true) (key : α)
    (t : Node α) (p : Path α) (ht : (keys t).Pairwise (fun a b => comp b a = false))
    (hk : ∃ k1 ∈ keys t, comp key k1 = false ∧ comp k1 key = false) :
    ∃ a k c l r, (descend comp key t p).1 = Node.node a k c l r := by
  induction t generalizing p with
  | nil => obtain ⟨k1, hm, _⟩ := hk; simp [keys_nil] at hm
  | node a k c l r ihl ihr =>
    rw [keys_node, List.pairwise_append, List.pairwise_cons] at ht
    obtain ⟨hl, ⟨hkr, hr⟩, hlr⟩ := ht
    obtain ⟨k1, hm, he1, he2⟩ := hk
    rw [keys_node, List.mem_append, List.mem_cons] at hm
    unfold descend
    split
    · rename_i hlt
      apply ihl _ hl
      rcases hm with hm | rfl | hm
      · exact ⟨k1, hm, he1, he2⟩
      · rw [hlt] at he1; cases he1
      · rcases hcot _ _ k1 hlt with h | h
        · rw [h] at he1; cases he1
        · rw [hkr k1 hm] at h; cases h
    · split
      · rename_i hnlt hgt
        apply ihr _ hr
        rcases hm with hm | rfl | hm
        · rcases hcot _ _ k1 hgt with h | h
          · rw [hlr k1 hm k (List.mem_cons_self _ _)] at h; cases h
          · rw [h] at he2; cases he2
        · rw [hgt] at he2; cases he2
        · exact ⟨k1, hm, he1, he2⟩
      · exact ⟨a, k, c, l, r, rfl⟩

theorem strictTotal_cotrans {comp : α → α → Bool} (hc : StrictTotal comp) (a b c : α)
    (h : comp a b = true) : comp a c = true ∨ comp c b = true := by
  cases hac : comp a c with
  | true => exact Or.inl rfl
  | false =>
    right
    cases hca : comp c a with
    | true => exact hc.trans _ _ _ hca h
    | false =>
      have := hc.total a c hac hca
      subst this
      exact h

theorem strictTotal_asymm {comp : α → α → Bool} (hc : StrictTotal comp) (a b : α)
    (h : comp a b = true) : comp b a = false := by
  cases hba : comp b a with
  | false => rfl
  | true =>
    have := hc.trans _ _ _ h hba
    rw [hc.irrefl] at this
    cases this

/-! ## Non-descending in-order key lists -/

theorem pairwise_insert_mid_rel {R : α → α → Prop} (key : α) (l1 l2 : List α)
    (h : (l1 ++ l2).Pairwise R) (h1 : ∀ x ∈ l1, R x key) (h2 : ∀ x ∈ l2, R key x) :
    (l1 ++ key :: l2).Pairwise R := by
  rw [List.pairwise_append] at h ⊢
  obtain ⟨ha, hb, hab⟩ := h
  refine ⟨ha, List.pairwise_cons.2 ⟨h2, hb⟩, ?_⟩
  intro x hx y hy
  rcases List.mem_cons.1 hy with rfl | hy
  · exact h1 x hx
  · exact hab x hx y hy

/-- The descent of `insert` on a subtree with non-descending keys: no key
before the final position is above `key`, no key after it below `key`. -/
theorem descend_bounds_nondescending {comp : α → α → Bool} (hc : StrictTotal comp) (key : α)
    (t : Node α) (p : Path α) (ht : (keys t).Pairwise (fun a b => comp b a = false))
    (hb : ∀ x ∈ keysBefore p, comp key x = false)
    (ha : ∀ x ∈ keysAfter p, comp x key = false) :
    (∀ x ∈ keysBefore (descend comp key t p).2, comp key x = false) ∧
    (∀ x ∈ keysAfter (descend comp key t p).2, comp x key = false) := by
  induction t generalizing p with
  | nil => exact ⟨hb, ha⟩
  | node a k c l r ihl ihr =>
    rw [keys_node, List.pairwise_append, List.pairwise_cons] at ht
    obtain ⟨hl, ⟨hkr, hr⟩, hlr⟩ := ht
    unfold descend
    split
    · rename_i hlt
      refine ihl _ hl hb ?_
      intro x hx
      rw [keysAfter_L, List.mem_cons, List.mem_append] at hx
      rcases hx with rfl | hx | hx
      · exact strictTotal_asymm hc _ _ hlt
      · cases hxk : comp x key with
        | false => rfl
        | true =>
          have := hc.trans _ _ _ hxk hlt
          rw [hkr x hx] at this; cases this
      · exact ha x hx
    · split
      · rename_i hnlt hgt
        refine ihr _ hr ?_ ha
        intro x hx
        rw [keysBefore_R, List.mem_append, List.mem_append, List.mem_singleton] at hx
        rcases hx with hx | hx | rfl
        · exact hb x hx
        · cases hxk : comp key x with
          | false => rfl
          | true =>
            have := hc.trans _ _ _ hgt hxk
            rw [hlr x hx k (List.mem_cons_self _ _)] at this; cases this
        · exact strictTotal_asymm hc _ _ hgt
      · exact ⟨hb, ha⟩

/-- The descent of `insert_mult` on a subtree with non-descending keys. -/
theorem descendMult_bounds {comp : α → α → Bool} (hc : StrictTotal comp) (key : α)
    (t : Node α) (p : Path α) (ht : (keys t).Pairwise (fun a b => comp b a = false))
    (hb : ∀ x ∈ keysBefore p, comp key x = false)
    (ha : ∀ x ∈ keysAfter p, comp x key = false) :
    (∀ x ∈ keysBefore (descendMult comp key t p), comp key x = false) ∧
    (∀ x ∈ keysAfter (descendMult comp key t p), comp x key = false) := by
  induction t generalizing p with
  | nil => exact ⟨hb, ha⟩
  | node a k c l r ihl ihr =>
    rw [keys_node, List.pairwise_append, List.pairwise_cons] at ht
    obtain ⟨hl, ⟨hkr, hr⟩, hlr⟩ := ht
    unfold descendMult
    split
    · rename_i hlt
      refine ihl _ hl hb ?_
      intro x hx
      rw [keysAfter_L, List.mem_cons, List.mem_append] at hx
      rcases hx with rfl | hx | hx
      · exact strictTotal_asymm hc _ _ hlt
      · cases hxk : comp x key with
        | false => rfl
        | true =>
          have := hc.trans _ _ _ hxk hlt
          rw [hkr x hx] at this; cases this
      · exact ha x hx
    · rename_i hnlt
      have hnlt1 : comp key k = false := by simpa using hnlt
      refine ihr _ hr ?_ ha
      intro x hx
      rw [keysBefore_R, List.mem_append, List.mem_append, List.mem_singleton] at hx
      rcases hx with hx | hx | rfl
      · exact hb x hx
      · cases hxk : comp key x with
        | false => rfl
        | true =>
          rcases strictTotal_cotrans hc _ _ k hxk with h | h
          · rw [hnlt1] at h; cases h
          · rw [hlr x hx k (List.mem_cons_self _ _)] at h; cases h
      · exact hnlt1

theorem keys_of_entries_split {t : Node α} {e1 e2 : List (Nat × α)}
    (h : entries t = e1 ++ e2) : keys t = e1.map Prod.snd ++ e2.map Prod.snd := by
  simp [keys, h]

/-- `insert` keeps the in-order key list non-descending. -/
theorem insert_nondescending {comp : α → α → Bool} (hc : StrictTotal comp) (key : α)
    (addr : Nat) (t : RedBlackTree α)
    (ht : (keys t.root_).Pairwise (fun a b => comp b a = false)) :
    (keys (insert comp key addr t).1.root_).Pairwise (fun a b => comp b a = false) := by
  cases hx : descend comp key t.root_ [] with
  | mk x y =>
    cases x with
    | node a k c l r => rw [insert_of_descend_node hx]; exact ht
    | nil =>
      rw [insert_of_descend_nil hx]
      have hz := descend_zipUp comp key t.root_ []
      have hb := descend_bounds_nondescending hc key t.root_ [] ht
        (by simp [keysBefore_nil]) (by simp [keysAfter_nil])
      rw [hx] at hz hb
      have hk := congrArg keys hz
      simp only [keys_zipUp, keys_nil, zipUp, List.append_nil] at hk
      have hnew : keys (insertFixup (Node.node addr key Color.RED Node.nil Node.nil) y)
          = keysBefore y ++ key :: keysAfter y := by
        simp [keys, keysBefore, keysAfter, entries_insertFixup, entries]
      simp only [hnew]
      apply pairwise_insert_mid_rel key _ _ (by rw [hk]; exact ht) hb.1 hb.2

/-- `insert_mult` keeps the in-order key list non-descending and adds the key
to it. -/
theorem insert_mult_keys {comp : α → α → Bool} (hc : StrictTotal comp) (key : α)
    (addr : Nat) (t : RedBlackTree α)
    (ht : (keys t.root_).Pairwise (fun a b => comp b a = false)) :
    ∃ l1 l2, keys t.root_ = l1 ++ l2 ∧
      keys (insert_mult comp key addr t).1.root_ = l1 ++ key :: l2 ∧
      (keys (insert_mult comp key addr t).1.root_).Pairwise (fun a b => comp b a = false) := by
  have hz := descendMult_zipUp comp key t.root_ []
  have hb := descendMult_bounds hc key t.root_ [] ht
    (by simp [keysBefore_nil]) (by simp [keysAfter_nil])
  have hk := congrArg keys hz
  simp only [keys_zipUp, keys_nil, zipUp, List.append_nil] at hk
  have hnew : keys (insert_mult comp key addr t).1.root_
      = keysBefore (descendMult comp key t.root_ []) ++
          key :: keysAfter (descendMult comp key t.root_ []) := by
    simp [insert_mult, keys, keysBefore, keysAfter, entries_insertFixup, entries]
  refine ⟨_, _, hk.symm, hnew, ?_⟩
  rw [hnew]
  exact pairwise_insert_mid_rel key _ _ (by rw [hk]; exact ht) hb.1 hb.2

/-- A completed `erase` keeps the in-order key list non-descending. -/
theorem erase_nondescending {comp : α → α → Bool} (key : α) {t t1 : RedBlackTree α}
    (ht : (keys t.root_).Pairwise (fun a b => comp b a = false))
    (h : erase comp key t = Outcome.done t1) :
    (keys t1.root_).Pairwise (fun a b => comp b a = false) := by
  cases hx : descend comp key t.root_ [] with
  | mk x pz =>
    cases x with
    | nil =>
      rw [erase_of_descend_nil hx] at h
      cases h; exact ht
    | node za zk zc zl zr =>
      obtain ⟨l1, l2, h1, h2, _⟩ := erase_keys_of_descend_node hx h
      rw [h1] at ht; rw [h2]
      rw [List.pairwise_append] at ht ⊢
      obtain ⟨ha, hb, hab⟩ := ht
      exact ⟨ha, (List.pairwise_cons.1 hb).2,
        fun x hx y hy => hab x hx y (List.mem_cons_of_mem _ hy)⟩

theorem reachable_nondescending {comp : α → α → Bool} (hc : StrictTotal comp)
    {t : RedBlackTree α} (h : Reachable comp t) :
    (keys t.root_).Pairwise (fun a b => comp b a = false) := by
  induction h with
  | empty => simp [RedBlackTree.empty, keys_nil]
  | insert key addr _ _ ih => exact insert_nondescending hc key addr _ ih
  | insert_mult key addr _ _ ih =>
    obtain ⟨_, _, _, _, h⟩ := insert_mult_keys hc key addr _ ih
    exact h
  | erase key _ he ih => exact erase_nondescending key ih he

/-! ## Forward iteration visits the in-order key list -/

theorem treeMinimum_keysFrom (t : Node α) (p : Path α) (ht : t ≠ Node.nil) :
    keysFrom (treeMinimum t p).1 (treeMinimum t p).2 = keys t ++ keysAfter p ∧
      (treeMinimum t p).1 ≠ Node.nil := by
  obtain ⟨ya, yk, yc, yr, rel, h1, h2, h3⟩ := treeMinimum_spec t p ht
  rw [h1]
  refine ⟨?_, by simp⟩
  have hk := congrArg keys h2
  rw [keys_zipUp, keys_node, keys_nil] at hk
  have hb : keysBefore rel = [] := by simp [keysBefore, h3]
  rw [hb] at hk
  simp only [keysFrom, keysAfter_append]
  rw [← hk]
  simp

theorem climbFromRight_keysFrom (cur : Node α) (p : Path α) :
    keysFrom (climbFromRight cur p).1 (climbFromRight cur p).2 = keysAfter p := by
  induction p generalizing cur with
  | nil => rfl
  | cons f up ih =>
    cases f with
    | L a k c r => simp [climbFromRight, keysFrom, keysAfter_L]
    | R a k c l => rw [climbFromRight, ih, keysAfter_R]

/-- `operator++` on an iterator positioned at a node completes, and the keys
from the old position on are the key of that node followed by the keys from
the new position on. -/
theorem incr_keysFrom (it : Iterator α) {a : Nat} {k : α} {c : Color} {l r : Node α}
    (h : it.current = Node.node a k c l r) :
    ∃ it1, it.incr = IterOutcome.done it1 ∧ it1.tree = it.tree ∧
      keysFrom it.current it.path = k :: keysFrom it1.current it1.path := by
  cases r with
  | nil =>
    refine ⟨{ current := (climbFromRight (Node.node a k c l Node.nil) it.path).1,
              path := (climbFromRight (Node.node a k c l Node.nil) it.path).2,
              tree := it.tree }, by simp only [Iterator.incr, h], rfl, ?_⟩
    rw [h, climbFromRight_keysFrom]
    simp [keysFrom, keys_nil]
  | node ra rk rc rl rr =>
    refine ⟨{ current := (treeMinimum (Node.node ra rk rc rl rr)
                (Frame.R a k c l :: it.path)).1,
              path := (treeMinimum (Node.node ra rk rc rl rr) (Frame.R a k c l :: it.path)).2,
              tree := it.tree }, by simp only [Iterator.incr, h], rfl, ?_⟩
    rw [h, (treeMinimum_keysFrom _ _ (by simp)).1, keysAfter_R]
    simp [keysFrom]

theorem traverse_eq (fuel : Nat) (it : Iterator α)
    (h : (keysFrom it.current it.path).length ≤ fuel) :
    traverse fuel it = IterOutcome.done (keysFrom it.current it.path) := by
  induction fuel generalizing it with
  | zero =>
    cases hc : it.current with
    | nil => simp [traverse, hc, keysFrom]
    | node a k c l r => rw [hc] at h; simp [keysFrom] at h
  | succ n ih =>
    cases hc : it.current with
    | nil => simp [traverse, hc, keysFrom]
    | node a k c l r =>
      obtain ⟨it1, h1, _, h3⟩ := incr_keysFrom it hc
      rw [h3] at h
      have := ih it1 (by simpa using h)
      rw [hc] at h3
      simp only [traverse, hc, h1, this, h3]

theorem begin_keysFrom (t : RedBlackTree α) (ht : t.root_ ≠ Node.nil) :
    ∃ it, begin t = IterOutcome.done it ∧ it.tree = false ∧
      it.current ≠ Node.nil ∧ keysFrom it.current it.path = keys t.root_ := by
  cases hr : t.root_ with
  | nil => exact absurd hr ht
  | node a k c l r =>
    have := treeMinimum_keysFrom (Node.node a k c l r) [] (by simp)
    refine ⟨{ current := (treeMinimum (Node.node a k c l r) []).1,
              path := (treeMinimum (Node.node a k c l r) []).2, tree := false },
      by simp only [begin, hr], rfl, this.2, ?_⟩
    simpa [keysAfter_nil] using this.1

/-- On a non-empty tree the loop from `begin()` to `end()` completes and
visits the in-order key list. -/
theorem keysByIteration_eq (t : RedBlackTree α) (ht : t.root_ ≠ Node.nil) :
    keysByIteration t = IterOutcome.done (keys t.root_) := by
  obtain ⟨it, h1, _, _, h3⟩ := begin_keysFrom t ht
  simp only [keysByIteration, h1]
  rw [traverse_eq _ _ (by rw [h3, count_eq_keys_length]), h3]

/-! ## Trees built by insertions only -/

theorem built_pairwise {comp : α → α → Bool} (hc : StrictTotal comp) {ks : List α}
    {t : RedBlackTree α} (h : Built comp ks t) :
    (keys t.root_).Pairwise (fun a b => comp a b = true) := by
  induction h with
  | nil => simp [RedBlackTree.empty, keys_nil]
  | snoc key addr _ _ ih => exact insert_pairwise hc key addr _ ih

theorem built_sized {comp : α → α → Bool} {ks : List α} {t : RedBlackTree α}
    (h : Built comp ks t) : Sized t := by
  induction h with
  | nil => exact sized_empty
  | snoc key addr _ hf ih => exact sized_insert ih hf

theorem built_mem {comp : α → α → Bool} (hc : StrictTotal comp) {ks : List α}
    {t : RedBlackTree α} (h : Built comp ks t) (k : α) : k ∈ keys t.root_ ↔ k ∈ ks := by
  induction h with
  | nil => simp [RedBlackTree.empty, keys_nil]
  | @snoc key addr ks0 t0 hb _ ih =>
    have ht := built_pairwise hc hb
    by_cases hk : key ∈ keys t0.root_
    · obtain ⟨a, c, l, r, _, hins⟩ := insert_present hc key addr t0 ht hk
      rw [hins, List.mem_append, List.mem_singleton, ih]
      constructor
      · exact Or.inl
      · rintro (h1 | rfl)
        · exact h1
        · exact ih.1 hk
    · obtain ⟨e1, e2, h1, h2, _, _, _, _⟩ := insert_absent hc key addr t0 ht hk
      have hk0 := keys_of_entries_split h1
      have hk1 : keys (insert comp key addr t0).1.root_
          = e1.map Prod.snd ++ key :: e2.map Prod.snd := by simp [keys, h2]
      rw [hk1, List.mem_append, List.mem_cons, List.mem_append, List.mem_singleton, ← ih, hk0,
        List.mem_append]
      tauto

theorem pairwise_lt_nodup {comp : α → α → Bool} (hc : StrictTotal comp) {l : List α}
    (h : l.Pairwise (fun a b => comp a b = true)) : l.Nodup := by
  refine List.Pairwise.imp ?_ h
  intro a b hab heq
  subst heq
  rw [hc.irrefl] at hab
  cases hab

theorem builtMult_sized {comp : α → α → Bool} {ks : List α} {t : RedBlackTree α}
    (h : BuiltMult comp ks t) : Sized t := by
  induction h with
  | nil => exact sized_empty
  | snoc key addr _ hf ih => exact sized_insert_mult ih hf

theorem builtMult_nondescending {comp : α → α → Bool} (hc : StrictTotal comp) {ks : List α}
    {t : RedBlackTree α} (h : BuiltMult comp ks t) :
    (keys t.root_).Pairwise (fun a b => comp b a = false) := by
  induction h with
  | nil => simp [RedBlackTree.empty, keys_nil]
  | snoc key addr _ _ ih =>
    obtain ⟨_, _, _, _, h⟩ := insert_mult_keys hc key addr _ ih
    exact h

theorem builtMult_perm {comp : α → α → Bool} {ks : List α} {t : RedBlackTree α}
    (h : BuiltMult comp ks t) : (keys t.root_).Perm ks := by
  induction h with
  | nil => simp [RedBlackTree.empty, keys_nil]
  | @snoc key addr ks0 t0 hb _ ih =>
    obtain ⟨e1, e2, h1, h2, _⟩ := insert_mult_entries comp key addr t0
    have hk0 := keys_of_entries_split h1
    have hk1 : keys (insert_mult comp key addr t0).1.root_
        = e1.map Prod.snd ++ key :: e2.map Prod.snd := by simp [keys, h2]
    rw [hk1]
    refine List.perm_middle.trans ?_
    refine (List.Perm.cons key ?_).trans (List.perm_append_singleton key ks0).symm
    rw [← hk0]; exact ih

theorem nonStrict_of_nondescending {comp : α → α → Bool} (t : Node α)
    (h : (keys t).Pairwise (fun a b => comp b a = false)) : BSTNonStrict comp t := by
  induction t with
  | nil => trivial
  | node a k c l r ihl ihr =>
    rw [keys_node, List.pairwise_append, List.pairwise_cons] at h
    obtain ⟨hl, ⟨hkr, hr⟩, hlr⟩ := h
    exact ⟨fun x hx => hlr x hx k (List.mem_cons_self _ _), hkr, ihl hl, ihr hr⟩

theorem root_ne_nil_of_keys_ne_nil {t : Node α} (h : keys t ≠ []) : t ≠ Node.nil := by
  intro hn
  rw [hn] at h
  exact h keys_nil

/-! ## Successor and predecessor steps of the iterators -/

/-- `treeMaximum` of a real node: the result is a node without right child, its
ancestors are right-link frames stacked on the given path, and climbing them
gives back the subtree. -/
theorem treeMaximum_spec (t : Node α) (p : Path α) (ht : t ≠ Node.nil) :
    ∃ ya yk yc yl rel, treeMaximum t p = (Node.node ya yk yc yl Node.nil, rel ++ p) ∧
      zipUp (Node.node ya yk yc yl Node.nil) rel = t ∧
      pathAfter rel = [] := by
  induction t generalizing p with
  | nil => exact absurd rfl ht
  | node a k c l r _ ihr =>
    cases r with
    | nil => exact ⟨a, k, c, l, [], by simp [treeMaximum], rfl, rfl⟩
    | node ra rk rc rl rr =>
      obtain ⟨ya, yk, yc, yl, rel, h1, h2, h3⟩ := ihr (Frame.R a k c l :: p) (by simp)
      refine ⟨ya, yk, yc, yl, rel ++ [Frame.R a k c l], ?_, ?_, ?_⟩
      · rw [treeMaximum, h1]; simp
      · rw [zipUp_append, h2]; rfl
      · rw [pathAfter_append, h3]; rfl

theorem allLeft_cons {f : Frame α} {ls : Path α} (h : pathBefore (f :: ls) = []) :
    (∃ a k c r, f = Frame.L a k c r) ∧ pathBefore ls = [] := by
  cases f with
  | L a k c r => exact ⟨⟨a, k, c, r, rfl⟩, h⟩
  | R a k c l => simp [pathBefore] at h

theorem allRight_cons {f : Frame α} {rs : Path α} (h : pathAfter (f :: rs) = []) :
    (∃ a k c l, f = Frame.R a k c l) ∧ pathAfter rs = [] := by
  cases f with
  | L a k c r => simp [pathAfter] at h
  | R a k c l => exact ⟨⟨a, k, c, l, rfl⟩, h⟩

theorem zipUp_ne_nil (x : Node α) (p : Path α) (hx : x ≠ Node.nil) : zipUp x p ≠ Node.nil := by
  induction p generalizing x with
  | nil => exact hx
  | cons f up ih =>
    cases f <;> exact ih _ (by simp [Frame.plug])

theorem treeMinimum_zipUp (x : Node α) (ls q : Path α) (hx : x ≠ Node.nil)
    (hl : pathBefore ls = []) : treeMinimum (zipUp x ls) q = treeMinimum x (ls ++ q) := by
  induction ls generalizing x with
  | nil => rfl
  | cons f ls ih =>
    obtain ⟨⟨a, k, c, r, rfl⟩, hl1⟩ := allLeft_cons hl
    cases x with
    | nil => exact absurd rfl hx
    | node xa xk xc xl xr =>
      rw [zipUp, ih _ (by simp [Frame.plug]) hl1]
      simp [Frame.plug, treeMinimum]

theorem treeMaximum_zipUp (x : Node α) (rs q : Path α) (hx : x ≠ Node.nil)
    (hr : pathAfter rs = []) : treeMaximum (zipUp x rs) q = treeMaximum x (rs ++ q) := by
  induction rs generalizing x with
  | nil => rfl
  | cons f rs ih =>
    obtain ⟨⟨a, k, c, l, rfl⟩, hr1⟩ := allRight_cons hr
    cases x with
    | nil => exact absurd rfl hx
    | node xa xk xc xl xr =>
      rw [zipUp, ih _ (by simp [Frame.plug]) hr1]
      simp [Frame.plug, treeMaximum]

theorem climbFromLeft_append (cur : Node α) (ls : Path α) (a : Nat) (k : α) (c : Color)
    (l : Node α) (up : Path α) (hl : pathBefore ls = []) :
    climbFromLeft cur (ls ++ Frame.R a k c l :: up) = (Node.node a k c l (zipUp cur ls), up) := by
  induction ls generalizing cur with
  | nil => rfl
  | cons f ls ih =>
    obtain ⟨⟨a1, k1, c1, r1, rfl⟩, hl1⟩ := allLeft_cons hl
    rw [List.cons_append, climbFromLeft, ih _ hl1]
    rfl

theorem climbFromRight_append (cur : Node α) (rs : Path α) (a : Nat) (k : α) (c : Color)
    (r : Node α) (up : Path α) (hr : pathAfter rs = []) :
    climbFromRight cur (rs ++ Frame.L a k c r :: up)
      = (Node.node a k c (zipUp cur rs) r, up) := by
  induction rs generalizing cur with
  | nil => rfl
  | cons f rs ih =>
    obtain ⟨⟨a1, k1, c1, l1, rfl⟩, hr1⟩ := allRight_cons hr
    rw [List.cons_append, climbFromRight, ih _ hr1]
    rfl

theorem climbFromRight_allRight (cur : Node α) (rs : Path α) (hr : pathAfter rs = []) :
    climbFromRight cur rs = (Node.nil, []) := by
  induction rs generalizing cur with
  | nil => rfl
  | cons f rs ih =>
    obtain ⟨⟨a1, k1, c1, l1, rfl⟩, hr1⟩ := allRight_cons hr
    rw [climbFromRight, ih _ hr1]

theorem climbFromLeft_allLeft (cur : Node α) (ls : Path α) (hl : pathBefore ls = []) :
    climbFromLeft cur ls = (Node.nil, []) := by
  induction ls generalizing cur with
  | nil => rfl
  | cons f ls ih =>
    obtain ⟨⟨a1, k1, c1, r1, rfl⟩, hl1⟩ := allLeft_cons hl
    rw [climbFromLeft, ih _ hl1]

/-- A path consists of left-link frames only, or it has a first right-link
frame. -/
theorem path_split_left (p : Path α) :
    pathBefore p = [] ∨
      ∃ ls a k c l up, pathBefore ls = [] ∧ p = ls ++ Frame.R a k c l :: up := by
  induction p with
  | nil => exact Or.inl rfl
  | cons f p ih =>
    cases f with
    | R a k c l => exact Or.inr ⟨[], a, k, c, l, p, rfl, rfl⟩
    | L a k c r =>
      rcases ih with h | ⟨ls, a1, k1, c1, l1, up, h1, h2⟩
      · exact Or.inl h
      · exact Or.inr ⟨Frame.L a k c r :: ls, a1, k1, c1, l1, up, h1, by rw [h2]; rfl⟩

/-- A path consists of right-link frames only, or it has a first left-link
frame. -/
theorem path_split_right (p : Path α) :
    pathAfter p = [] ∨
      ∃ rs a k c r up, pathAfter rs = [] ∧ p = rs ++ Frame.L a k c r :: up := by
  induction p with
  | nil => exact Or.inl rfl
  | cons f p ih =>
    cases f with
    | L a k c r => exact Or.inr ⟨[], a, k, c, r, p, rfl, rfl⟩
    | R a k c l =>
      rcases ih with h | ⟨rs, a1, k1, c1, r1, up, h1, h2⟩
      · exact Or.inl h
      · exact Or.inr ⟨Frame.R a k c l :: rs, a1, k1, c1, r1, up, h1, by rw [h2]; rfl⟩

theorem keysAfter_eq_nil_iff (p : Path α) : keysAfter p = [] ↔ pathAfter p = [] := by
  simp [keysAfter]

theorem keysBefore_eq_nil_iff (p : Path α) : keysBefore p = [] ↔ pathBefore p = [] := by
  simp [keysBefore]

theorem keys_eq_nil_iff (t : Node α) : keys t = [] ↔ t = Node.nil := by
  cases t with
  | nil => simp [keys_nil]
  | node a k c l r => simp [keys_node]

/-- `operator++` at a node that some key follows in in-order: it completes at a
node, and `operator--` from there leads back to the same position. -/
theorem incr_step (t : RedBlackTree α) (it : Iterator α) {a : Nat} {k : α} {c : Color}
    {l r : Node α} (h : it.current = Node.node a k c l r)
    (hfol : keys r ++ keysAfter it.path ≠ []) :
    ∃ it1, it.incr = IterOutcome.done it1 ∧ it1.current ≠ Node.nil ∧ it1.tree = it.tree ∧
      it1.decr t = IterOutcome.done it := by
  cases it with
  | mk cur p tr =>
    simp only at h hfol
    subst h
    cases r with
    | node ra rk rc rl rr =>
      obtain ⟨ya, yk, yc, yr, rel, h1, h2, h3⟩ :=
        treeMinimum_spec (Node.node ra rk rc rl rr) (Frame.R a k c l :: p) (by simp)
      refine ⟨{ current := Node.node ya yk yc Node.nil yr,
                path := rel ++ Frame.R a k c l :: p, tree := tr }, ?_, by simp, rfl, ?_⟩
      · simp only [Iterator.incr, h1]
      · have hz : zipUp (Node.node ya yk yc Node.nil yr) rel = Node.node ra rk rc rl rr := h2
        simp only [Iterator.decr]
        rw [climbFromLeft_append _ _ _ _ _ _ _ h3, hz]
    | nil =>
      rw [keys_nil, List.nil_append, Ne, keysAfter_eq_nil_iff] at hfol
      rcases path_split_right p with hp | ⟨rs, a1, k1, c1, r1, up, hrs, rfl⟩
      · exact absurd hp hfol
      · have hne : zipUp (Node.node a k c l Node.nil) rs ≠ Node.nil := zipUp_ne_nil _ _ (by simp)
        have hclimb := climbFromRight_append (Node.node a k c l Node.nil) rs a1 k1 c1 r1 up hrs
        refine ⟨{ current := Node.node a1 k1 c1 (zipUp (Node.node a k c l Node.nil) rs) r1,
                  path := up, tree := tr }, ?_, by simp, rfl, ?_⟩
        · simp only [Iterator.incr, hclimb]
        · have hmax : treeMaximum (zipUp (Node.node a k c l Node.nil) rs)
              (Frame.L a1 k1 c1 r1 :: up)
              = (Node.node a k c l Node.nil, rs ++ Frame.L a1 k1 c1 r1 :: up) := by
            rw [treeMaximum_zipUp _ _ _ (by simp) hrs]
            simp [treeMaximum]
          cases hz : zipUp (Node.node a k c l Node.nil) rs with
          | nil => exact absurd hz hne
          | node za zk zc zl zr =>
            rw [hz] at hmax
            simp only [Iterator.decr, hmax]

/-- `operator--` at a node that some key precedes in in-order: it completes at
a node, `operator++` from there leads back to the same position, and the new
position is one step earlier in the in-order sequence. -/
theorem decr_step (t : RedBlackTree α) (it : Iterator α) {a : Nat} {k : α} {c : Color}
    {l r : Node α} (h : it.current = Node.node a k c l r)
    (hpre : keys l ++ keysBefore it.path ≠ []) :
    ∃ it1, it.decr t = IterOutcome.done it1 ∧ it1.current ≠ Node.nil ∧ it1.tree = it.tree ∧
      it1.incr = IterOutcome.done it ∧
      keysUpTo it.current it.path = k :: keysUpTo it1.current it1.path := by
  cases it with
  | mk cur p tr =>
    simp only at h hpre
    subst h
    cases l with
    | node la lk lc ll lr =>
      obtain ⟨ya, yk, yc, yl, rel, h1, h2, h3⟩ :=
        treeMaximum_spec (Node.node la lk lc ll lr) (Frame.L a k c r :: p) (by simp)
      refine ⟨{ current := Node.node ya yk yc yl Node.nil,
                path := rel ++ Frame.L a k c r :: p, tree := tr }, ?_, by simp, rfl, ?_, ?_⟩
      · simp only [Iterator.decr, h1]
      · simp only [Iterator.incr]
        rw [climbFromRight_append _ _ _ _ _ _ _ h3, h2]
      · have hk := congrArg keys h2
        rw [keys_zipUp, keys_node, keys_nil] at hk
        have ha : keysAfter rel = [] := by simp [keysAfter, h3]
        rw [ha] at hk
        simp only [keysUpTo, keysBefore_append, keysBefore_L]
        rw [← hk]
        simp
    | nil =>
      rw [keys_nil, List.nil_append, Ne, keysBefore_eq_nil_iff] at hpre
      rcases path_split_left p with hp | ⟨ls, a1, k1, c1, l1, up, hls, rfl⟩
      · exact absurd hp hpre
      · have hne : zipUp (Node.node a k c Node.nil r) ls ≠ Node.nil := zipUp_ne_nil _ _ (by simp)
        have hclimb := climbFromLeft_append (Node.node a k c Node.nil r) ls a1 k1 c1 l1 up hls
        refine ⟨{ current := Node.node a1 k1 c1 l1 (zipUp (Node.node a k c Node.nil r) ls),
                  path := up, tree := tr }, ?_, by simp, rfl, ?_, ?_⟩
        · simp only [Iterator.decr, hclimb]
        · have hmin : treeMinimum (zipUp (Node.node a k c Node.nil r) ls)
              (Frame.R a1 k1 c1 l1 :: up)
              = (Node.node a k c Node.nil r, ls ++ Frame.R a1 k1 c1 l1 :: up) := by
            rw [treeMinimum_zipUp _ _ _ (by simp) hls]
            simp [treeMinimum]
          cases hz : zipUp (Node.node a k c Node.nil r) ls with
          | nil => exact absurd hz hne
          | node za zk zc zl zr =>
            rw [hz] at hmin
            simp only [Iterator.incr, hmin]
        · have hb : keysBefore ls = [] := by simp [keysBefore, hls]
          simp [keysUpTo, keysBefore_append, keysBefore_R, hb, keys_nil]

/-- `operator--` on `end()` of a non-empty tree: it completes at the rightmost
node, `operator++` from there gives `end()` again, and every key of the tree
is at or before the new position. -/
theorem decr_end (t : RedBlackTree α) (ht : t.root_ ≠ Node.nil) :
    ∃ ya yk yc yl rel,
      (end_ t).decr t = IterOutcome.done
        { current := Node.node ya yk yc yl Node.nil, path := rel, tree := true } ∧
      zipUp (Node.node ya yk yc yl Node.nil) rel = t.root_ ∧ pathAfter rel = [] ∧
      Iterator.incr { current := Node.node ya yk yc yl Node.nil, path := rel, tree := true }
        = IterOutcome.done (end_ t) ∧
      keysUpTo (Node.node ya yk yc yl Node.nil) rel = (keys t.root_).reverse := by
  obtain ⟨ya, yk, yc, yl, rel, h1, h2, h3⟩ := treeMaximum_spec t.root_ [] ht
  rw [List.append_nil] at h1
  refine ⟨ya, yk, yc, yl, rel, ?_, h2, h3, ?_, ?_⟩
  · simp [Iterator.decr, end_, h1]
  · simp only [Iterator.incr]
    rw [climbFromRight_allRight _ _ h3]
    rfl
  · have hk := congrArg keys h2
    rw [keys_zipUp, keys_node, keys_nil] at hk
    have ha : keysAfter rel = [] := by simp [keysAfter, h3]
    rw [ha] at hk
    rw [← hk]
    simp [keysUpTo]

theorem decrN_succ (t : RedBlackTree α) (n : Nat) (x : Iterator α) :
    decrN t (n + 1) x =
      match decrN t n x with
      | IterOutcome.done y => y.decr t
      | IterOutcome.runtimeError => IterOutcome.runtimeError
      | IterOutcome.nullDeref => IterOutcome.nullDeref
      | IterOutcome.outOfFuel => IterOutcome.outOfFuel := by
  induction n generalizing x with
  | zero =>
    simp only [decrN]
    cases x.decr t <;> rfl
  | succ n ih =>
    rw [decrN]
    cases hx : x.decr t with
    | done y =>
      have := ih y
      simp only [decrN] at this
      simp only [decrN, hx]
      exact this
    | runtimeError => simp only [decrN, hx]
    | nullDeref => simp only [decrN, hx]
    | outOfFuel => simp only [decrN, hx]

/-- The walk of `N` decrements from `end()` on a tree with at least `N` nodes:
it completes at the node holding the `N`-th largest key of the in-order
sequence, and `N` increments from there give `end()` again. -/
theorem decrN_from_end (t : RedBlackTree α) (N : Nat) (h2 : N + 1 ≤ count t.root_) :
    ∃ it, decrN t (N + 1) (end_ t) = IterOutcome.done it ∧ it.current ≠ Node.nil ∧
      incrN (N + 1) it = IterOutcome.done (end_ t) ∧
      keysUpTo it.current it.path = (keys t.root_).reverse.drop N := by
  induction N with
  | zero =>
    have ht : t.root_ ≠ Node.nil := by
      intro h; rw [h] at h2; simp [count] at h2
    obtain ⟨ya, yk, yc, yl, rel, h1, _, _, h4, h5⟩ := decr_end t ht
    refine ⟨{ current := Node.node ya yk yc yl Node.nil, path := rel, tree := true },
      by simp only [decrN, h1], by simp, by simp only [incrN, h4], ?_⟩
    simpa using h5
  | succ N ih =>
    obtain ⟨it, h1, hne, h3, h4⟩ := ih (by omega)
    cases hc : it.current with
    | nil => exact absurd hc hne
    | node a k c l r =>
      have hlen : (keysUpTo it.current it.path).length = count t.root_ - N := by
        rw [h4, List.length_drop, List.length_reverse, count_eq_keys_length]
      have hpre : keys l ++ keysBefore it.path ≠ [] := by
        intro h
        rw [hc] at hlen
        have hl : keys l = [] := (List.append_eq_nil.1 h).1
        have hb : keysBefore it.path = [] := (List.append_eq_nil.1 h).2
        simp [keysUpTo, hl, hb] at hlen
        omega
      obtain ⟨it1, g1, g2, _, g4, g5⟩ := decr_step t it hc hpre
      refine ⟨it1, ?_, g2, ?_, ?_⟩
      · rw [decrN_succ, h1]; exact g1
      · rw [incrN, g4]; exact h3
      · have := congrArg List.tail g5
        rw [h4] at this
        simp only [List.tail_cons, List.tail_drop] at this
        rw [← this]

/-! ## Insertion at the end of the right spine keeps the colour invariants -/

theorem noRedRed_setBlack {t : Node α} (h : noRedRed t = true) :
    noRedRed (setBlack t) = true := by
  cases t with
  | nil => rfl
  | node a k c l r =>
    simp only [noRedRed, Bool.and_eq_true] at h
    simp [setBlack, noRedRed, h.1.2, h.2]

theorem blackBalanced_setBlack {t : Node α} (h : blackBalanced t = true) :
    blackBalanced (setBlack t) = true := by
  cases t with
  | nil => rfl
  | node a k c l r =>
    simp only [blackBalanced, Option.isSome_iff_exists] at h
    obtain ⟨n, hn⟩ := h
    obtain ⟨m, hl, hr⟩ := blackHeight_node_some hn
    simp [blackBalanced, setBlack, blackHeight, hl, hr]

theorem rightCtx_zipUp (p : Path α) : ∀ (h : Nat) (s : Node α), RightCtx h p →
    noRedRed s = true → blackHeight s = some h → (headBlack p = false → isRed s = false) →
    noRedRed (zipUp s p) = true ∧ blackBalanced (zipUp s p) = true := by
  induction p with
  | nil =>
    intro h s _ hs hb _
    exact ⟨hs, by simp [zipUp, blackBalanced, hb]⟩
  | cons f up ih =>
    intro h s hp hs hb hr
    cases f with
    | L a k c r => exact absurd hp (by simp [RightCtx])
    | R a k c l =>
      simp only [RightCtx] at hp
      obtain ⟨hl, hbl, hc, hup⟩ := hp
      simp only [zipUp, Frame.plug]
      cases c with
      | RED =>
        have hc1 := hc rfl
        have hsr : isRed s = false := hr (by simp [headBlack, Frame.color])
        refine ih h _ (by simpa using hup) ?_ ?_ ?_
        · simp [noRedRed, hl, hs, hc1.1, hsr]
        · simp [blackHeight, hbl, hb]
        · intro hh; rw [hc1.2] at hh; exact absurd hh (by simp)
      | BLACK =>
        refine ih (h + 1) _ (by simpa using hup) ?_ ?_ ?_
        · simp [noRedRed, hl, hs]
        · simp [blackHeight, hbl, hb]
        · intro _; rfl

theorem insertFixupLoop_black_parent (n : Nat) (z : Node α) (f : Frame α) (up : Path α)
    (hf : f.color = Color.BLACK) : insertFixupLoop n z (f :: up) = (z, f :: up) := by
  cases n with
  | zero => simp [insertFixupLoop]
  | succ n =>
    cases up with
    | nil => simp [insertFixupLoop]
    | cons g up => simp [insertFixupLoop, hf]

theorem insertFixupLoop_rightCtx (fuel : Nat) : ∀ (p : Path α) (h : Nat) (za : Nat) (zk : α)
    (zl zr : Node α), p.length ≤ fuel → RightCtx h p →
    noRedRed zl = true → noRedRed zr = true → isRed zl = false → isRed zr = false →
    blackHeight zl = some h → blackHeight zr = some h →
    noRedRed (setBlack (zipUp (insertFixupLoop fuel (Node.node za zk Color.RED zl zr) p).1
      (insertFixupLoop fuel (Node.node za zk Color.RED zl zr) p).2)) = true ∧
    blackBalanced (setBlack (zipUp (insertFixupLoop fuel (Node.node za zk Color.RED zl zr) p).1
      (insertFixupLoop fuel (Node.node za zk Color.RED zl zr) p).2)) = true := by
  induction fuel with
  | zero =>
    intro p h za zk zl zr hlen _ hl hr _ _ hbl hbr
    have hp : p = [] := List.length_eq_zero.mp (Nat.le_zero.mp hlen)
    subst hp
    simp [insertFixupLoop, zipUp, setBlack, noRedRed, blackBalanced, blackHeight, hl, hr, hbl, hbr]
  | succ n ih =>
    intro p h za zk zl zr hlen hp hl hr hrl hrr hbl hbr
    have hz : noRedRed (Node.node za zk Color.RED zl zr) = true := by
      simp [noRedRed, hl, hr, hrl, hrr]
    have hzb : blackHeight (Node.node za zk Color.RED zl zr) = some h := by
      simp [blackHeight, hbl, hbr]
    cases p with
    | nil =>
      simp [insertFixupLoop, zipUp, setBlack, noRedRed, blackBalanced, blackHeight, hl, hr,
        hbl, hbr]
    | cons f up =>
      cases f with
      | L pa pk pc pr => exact absurd hp (by simp [RightCtx])
      | R pa pk pc pl =>
        simp only [RightCtx] at hp
        obtain ⟨hpl, hbpl, hpc, hup⟩ := hp
        cases pc with
        | BLACK =>
          rw [insertFixupLoop_black_parent _ _ (Frame.R pa pk Color.BLACK pl) _ rfl]
          have hA := rightCtx_zipUp (Frame.R pa pk Color.BLACK pl :: up) h
            (Node.node za zk Color.RED zl zr) (by simp only [RightCtx]; exact ⟨hpl, hbpl, hpc, hup⟩)
            hz hzb (by simp [headBlack, Frame.color])
          exact ⟨noRedRed_setBlack hA.1, blackBalanced_setBlack hA.2⟩
        | RED =>
          obtain ⟨hrpl, hhead⟩ := hpc rfl
          cases up with
          | nil =>
            simp [insertFixupLoop, zipUp, Frame.plug, setBlack, noRedRed, blackBalanced,
              blackHeight, hl, hr, hbl, hbr, hpl, hbpl, hrl, hrr]
          | cons g up =>
            cases g with
            | L ga gk gc y => exact absurd hup (by simp [RightCtx])
            | R ga gk gc y =>
              have hgc : gc = Color.BLACK := by
                cases gc with
                | RED => simp [headBlack, Frame.color] at hhead
                | BLACK => rfl
              subst hgc
              simp only [RightCtx, if_neg (show ¬ Color.RED = Color.BLACK by decide),
                Nat.add_zero] at hup
              obtain ⟨hy, hby, _, hup2⟩ := hup
              simp only [if_pos] at hup2
              by_cases hyr : isRed y = true
              · -- uncle RED: recolour and continue from the grandparent
                have hstep : insertFixupLoop (n + 1) (Node.node za zk Color.RED zl zr)
                    (Frame.R pa pk Color.RED pl :: Frame.R ga gk Color.BLACK y :: up)
                    = insertFixupLoop n (Node.node ga gk Color.RED (setBlack y)
                        (Node.node pa pk Color.BLACK pl (Node.node za zk Color.RED zl zr))) up := by
                  simp [insertFixupLoop, Frame.color, hyr]
                rw [hstep]
                have hyb : blackHeight (setBlack y) = some (h + 1) := by
                  cases y with
                  | nil => simp [isRed] at hyr
                  | node ya yk yc yl yr =>
                    cases yc with
                    | BLACK => simp [isRed] at hyr
                    | RED =>
                      obtain ⟨m, h1, h2⟩ := blackHeight_node_some hby
                      have hm : m = h := by
                        simp [blackHeight, h1, h2] at hby; exact hby
                      subst hm
                      simp [setBlack, blackHeight, h1, h2]
                have hyk : isRed (setBlack y) = false := by
                  cases y <;> simp [setBlack, isRed]
                refine ih up (h + 1) ga gk _ _ ?_ hup2 (noRedRed_setBlack hy) ?_ hyk ?_ hyb ?_
                · simp only [List.length_cons] at hlen; omega
                · simp [noRedRed, hpl, hl, hr, hrl, hrr]
                · simp [isRed]
                · simp [blackHeight, hbpl, hbl, hbr]
              · -- uncle BLACK or absent: the line case
                have hyr2 : isRed y = false := by simpa using hyr
                have hstep : insertFixupLoop (n + 1) (Node.node za zk Color.RED zl zr)
                    (Frame.R pa pk Color.RED pl :: Frame.R ga gk Color.BLACK y :: up)
                    = insertFixupLoop n (Node.node za zk Color.RED zl zr)
                        (Frame.R pa pk Color.BLACK (Node.node ga gk Color.RED y pl) :: up) := by
                  simp [insertFixupLoop, Frame.color, hyr2]
                rw [hstep, insertFixupLoop_black_parent _ _
                  (Frame.R pa pk Color.BLACK (Node.node ga gk Color.RED y pl)) _ rfl]
                have hA := rightCtx_zipUp up (h + 1)
                  (Node.node pa pk Color.BLACK (Node.node ga gk Color.RED y pl)
                    (Node.node za zk Color.RED zl zr)) hup2
                  (by simp [noRedRed, hy, hpl, hyr2, hrpl, hl, hr, hrl, hrr])
                  (by simp [blackHeight, hby, hbpl, hbl, hbr]) (by intro _; rfl)
                simp only [zipUp, Frame.plug]
                exact ⟨noRedRed_setBlack hA.1, blackBalanced_setBlack hA.2⟩

theorem rightCtx_rightSpine (t : Node α) : ∀ (p : Path α) (h : Nat), RightCtx h p →
    noRedRed t = true → blackHeight t = some h → (isRed t = true → headBlack p = true) →
    RightCtx 0 (rightSpine t p) := by
  induction t with
  | nil =>
    intro p h hp _ hb _
    simp only [blackHeight, Option.some.injEq] at hb
    subst hb
    exact hp
  | node a k c l r _ ihr =>
    intro p h hp ht hb hred
    obtain ⟨m, hl, hr⟩ := blackHeight_node_some hb
    simp only [noRedRed, Bool.and_eq_true] at ht
    simp only [rightSpine]
    have hh : h = m + (if c = Color.BLACK then 1 else 0) := by
      simp [blackHeight, hl, hr] at hb; exact hb.symm
    subst hh
    refine ihr _ m ?_ ht.2 hr ?_
    · simp only [RightCtx]
      refine ⟨ht.1.2, hl, ?_, hp⟩
      intro hc
      subst hc
      refine ⟨?_, hred (by simp [isRed])⟩
      have := ht.1.1
      simp at this
      exact this.1
    · intro hrr
      cases c with
      | BLACK => simp [headBlack, Frame.color]
      | RED =>
        have := ht.1.1
        simp [hrr] at this

theorem descend_rightSpine (key : Nat) (t : Node Nat) : ∀ (p : Path Nat),
    (∀ k ∈ keys t, k ≤ key) →
    (∃ a k c l r y, descend natLess key t p = (Node.node a k c l r, y)) ∨
      descend natLess key t p = (Node.nil, rightSpine t p) := by
  induction t with
  | nil => intro p _; exact Or.inr rfl
  | node a k c l r _ ihr =>
    intro p hk
    have hk1 : k ≤ key := hk k (by simp [keys_node])
    have h1 : natLess key k = false := by simp [natLess]; exact hk1
    by_cases h2 : natLess k key = true
    · have := ihr (Frame.R a k c l :: p) (fun x hx => hk x (by simp [keys_node, hx]))
      simpa [descend, h1, h2, rightSpine] using this
    · exact Or.inl ⟨a, k, c, l, r, p, by simp [descend, h1, h2]⟩

/-- One `insert` of a key that no key of the tree is above keeps the three
colour invariants, and afterwards no key of the tree is above it either. -/
theorem insert_top_key_balanced (key addr : Nat) (t : RedBlackTree Nat)
    (hk : ∀ k ∈ keys t.root_, k ≤ key) (h1 : rootBlack t.root_ = true)
    (h2 : noRedRed t.root_ = true) (h3 : blackBalanced t.root_ = true) :
    rootBlack (insert natLess key addr t).1.root_ = true ∧
    noRedRed (insert natLess key addr t).1.root_ = true ∧
    blackBalanced (insert natLess key addr t).1.root_ = true ∧
    (∀ k ∈ keys (insert natLess key addr t).1.root_, k ≤ key) := by
  have hkeys : ∀ k ∈ keys (insert natLess key addr t).1.root_, k ≤ key := by
    rcases insert_cases natLess key addr t with ⟨a, ha⟩ | ⟨e1, e2, he, he2, _, _⟩
    · rw [ha]; exact hk
    · intro k hkm
      simp only [keys, he2, he, List.map_append, List.map_cons, List.mem_append,
        List.mem_cons] at hkm hk
      rcases hkm with h | h | h
      · exact hk k (Or.inl h)
      · exact le_of_eq h
      · exact hk k (Or.inr h)
  rcases descend_rightSpine key t.root_ [] hk with ⟨a, k, c, l, r, y, hd⟩ | hd
  · rw [insert_of_descend_node hd] at hkeys ⊢
    exact ⟨h1, h2, h3, hkeys⟩
  · refine ⟨?_, ?_, ?_, hkeys⟩
    · rw [insert_of_descend_nil hd]
      exact rootBlack_setBlack _
    all_goals
      rw [insert_of_descend_nil hd]
      simp only [blackBalanced, Option.isSome_iff_exists] at h3
      obtain ⟨H, hH⟩ := h3
      have hctx : RightCtx 0 (rightSpine t.root_ []) :=
        rightCtx_rightSpine t.root_ [] H (by simp [RightCtx]) h2 hH (fun _ => rfl)
      have := insertFixupLoop_rightCtx (rightSpine t.root_ []).length (rightSpine t.root_ []) 0
        addr key Node.nil Node.nil (le_refl _) hctx rfl rfl rfl rfl rfl rfl
      first
        | exact this.1
        | exact this.2

theorem insertAll_nondescending_balanced (ks : List Nat) : ∀ (next : Nat) (t : RedBlackTree Nat),
    ks.Pairwise (fun a b => a ≤ b) → (∀ k ∈ keys t.root_, ∀ x ∈ ks, k ≤ x) →
    rootBlack t.root_ = true → noRedRed t.root_ = true → blackBalanced t.root_ = true →
    rootBlack (insertAll natLess ks next t).root_ = true ∧
    noRedRed (insertAll natLess ks next t).root_ = true ∧
    blackBalanced (insertAll natLess ks next t).root_ = true := by
  induction ks with
  | nil => intro next t _ _ h1 h2 h3; exact ⟨h1, h2, h3⟩
  | cons k ks ih =>
    intro next t hp hk h1 h2 h3
    rw [List.pairwise_cons] at hp
    obtain ⟨g1, g2, g3, g4⟩ := insert_top_key_balanced k next t
      (fun x hx => hk x hx k (List.mem_cons_self _ _)) h1 h2 h3
    simp only [insertAll]
    exact ih (next + 1) _ hp.2
      (fun x hx y hy => le_trans (g4 x hx) (hp.1 y hy)) g1 g2 g3

theorem nondescending_range (n m : Nat) :
    ((List.range n).take m).Pairwise (fun a b => a ≤ b) :=
  ((List.pairwise_lt_range n).imp (fun h => Nat.le_of_lt h)).sublist (List.take_sublist m _)

theorem nondescending_range_half (n m : Nat) :
    (((List.range n).map (fun i => i / 2)).take m).Pairwise (fun a b => a ≤ b) :=
  (((List.pairwise_lt_range n).imp
    (fun h => Nat.div_le_div_right (Nat.le_of_lt h))).map (fun i => i / 2)
    (fun _ _ h => h)).sublist (List.take_sublist m _)

/-! ## The copy made by `copyNodes` -/

theorem shape_copyNodes (alloc : Nat → Nat) (t : Node α) :
    ∀ n, shape (copyNodes alloc t n).1 = shape t := by
  induction t with
  | nil => intro n; rfl
  | node a k c l r ihl ihr =>
    intro n
    simp only [copyNodes, shape, ihl, ihr]

theorem setParent_withParents (p q : Option Nat) (t : Node α) :
    (withParents q t).setParent p = withParents p t := by
  cases t <;> rfl

theorem copyNodesP_withParents (alloc : Nat → Nat) (t : Node α) :
    ∀ (p : Option Nat) (n : Nat),
      copyNodesP alloc (withParents p t) n =
        (withParents p (copyNodes alloc t n).1, (copyNodes alloc t n).2) := by
  induction t with
  | nil => intro p n; rfl
  | node a k c l r ihl ihr =>
    intro p n
    simp only [withParents, copyNodesP, copyNodes, ihl, ihr, setParent_withParents]

theorem keys_shape (t : Node α) : keys (shape t) = keys t := by
  induction t with
  | nil => rfl
  | node a k c l r ihl ihr => simp only [shape, keys_node, ihl, ihr]

theorem shape_descend (comp : α → α → Bool) (key : α) (t : Node α) :
    ∀ p q : Path α, shape (descend comp key t p).1 = (descend comp key (shape t) q).1 := by
  induction t with
  | nil => intro p q; rfl
  | node a k c l r ihl ihr =>
    intro p q
    simp only [shape, descend]
    split
    · exact ihl _ _
    · split
      · exact ihr _ _
      · rfl

theorem shape_find_congr (comp : α → α → Bool) (key : α) {s t : RedBlackTree α}
    (h : shape s.root_ = shape t.root_) :
    shape (find comp key s) = shape (find comp key t) := by
  simp only [find]
  rw [shape_descend comp key s.root_ [] [], shape_descend comp key t.root_ [] [], h]

theorem keysByIteration_congr {s t : RedBlackTree α} (h : shape s.root_ = shape t.root_) :
    keysByIteration s = keysByIteration t := by
  have hk : keys s.root_ = keys t.root_ := by rw [← keys_shape, h, keys_shape]
  by_cases hs : s.root_ = Node.nil
  · have ht : t.root_ = Node.nil := by
      rw [hs] at h
      cases htr : t.root_ with
      | nil => rfl
      | node a k c l r => rw [htr] at h; simp [shape] at h
    simp [keysByIteration, begin, hs, ht]
  · have ht : t.root_ ≠ Node.nil := by
      intro ht
      rw [ht] at h
      cases hsr : s.root_ with
      | nil => exact hs hsr
      | node a k c l r => rw [hsr] at h; simp [shape] at h
    rw [keysByIteration_eq s hs, keysByIteration_eq t ht, hk]

/-! ## `set::merge` from a non-empty source -/

theorem insert_mem_keys {comp : α → α → Bool} (hc : StrictTotal comp) (key : α) (addr : Nat)
    (t : RedBlackTree α) (ht : (keys t.root_).Pairwise (fun a b => comp a b = true)) (k : α) :
    k ∈ keys (insert comp key addr t).1.root_ ↔ k ∈ keys t.root_ ∨ k = key := by
  by_cases hk : key ∈ keys t.root_
  · obtain ⟨a, c, l, r, _, hins⟩ := insert_present hc key addr t ht hk
    rw [hins]
    constructor
    · exact Or.inl
    · rintro (h1 | rfl)
      · exact h1
      · exact hk
  · obtain ⟨e1, e2, h1, h2, _, _, _, _⟩ := insert_absent hc key addr t ht hk
    have hk0 := keys_of_entries_split h1
    have hk1 : keys (insert comp key addr t).1.root_
        = e1.map Prod.snd ++ key :: e2.map Prod.snd := by simp [keys, h2]
    rw [hk1, List.mem_append, List.mem_cons, hk0, List.mem_append]
    tauto

theorem insert_addrs_lt {comp : α → α → Bool} (key : α) (addr : Nat) (t : RedBlackTree α)
    (h : ∀ a ∈ addrs t.root_, a < addr) :
    ∀ a ∈ addrs (insert comp key addr t).1.root_, a < addr + 1 := by
  rcases insert_cases comp key addr t with ⟨a, ha⟩ | ⟨e1, e2, he, he2, _, _⟩
  · rw [ha]
    intro a ha
    exact Nat.lt_succ_of_lt (h a ha)
  · intro a ha
    simp only [addrs, he2, he, List.map_append, List.map_cons, List.mem_append,
      List.mem_cons] at ha h
    rcases ha with h1 | h1 | h1
    · exact Nat.lt_succ_of_lt (h a (Or.inl h1))
    · omega
    · exact Nat.lt_succ_of_lt (h a (Or.inr h1))

theorem insertAll_union {comp : α → α → Bool} (hc : StrictTotal comp) (ks : List α) :
    ∀ (next : Nat) (t : RedBlackTree α),
      (keys t.root_).Pairwise (fun a b => comp a b = true) → Sized t →
      0 < next → next + ks.length ≤ 2 ^ 64 → (∀ a ∈ addrs t.root_, a < next) →
      (∀ k, k ∈ keys (insertAll comp ks next t).root_ ↔ k ∈ keys t.root_ ∨ k ∈ ks) ∧
      (keys (insertAll comp ks next t).root_).Pairwise (fun a b => comp a b = true) ∧
      Sized (insertAll comp ks next t) := by
  induction ks with
  | nil => intro next t ht hs _ _ _; exact ⟨fun k => by simp [insertAll], ht, hs⟩
  | cons key ks ih =>
    intro next t ht hs h0 hlen ha
    simp only [List.length_cons] at hlen
    have hf : FreshAddr next t.root_ :=
      ⟨h0, by omega, fun hmem => Nat.lt_irrefl _ (ha next hmem)⟩
    obtain ⟨g1, g2, g3⟩ := ih (next + 1) (insert comp key next t).1
      (insert_pairwise hc key next t ht) (sized_insert hs hf) (by omega) (by omega)
      (insert_addrs_lt key next t ha)
    refine ⟨fun k => ?_, g2, g3⟩
    simp only [insertAll]
    rw [g1 k, insert_mem_keys hc key next t ht k, List.mem_cons]
    tauto

theorem mergeLoop_eq (comp : α → α → Bool) (fuel : Nat) :
    ∀ (it : Iterator α) (next : Nat) (self : RedBlackTree α),
      (keysFrom it.current it.path).length ≤ fuel →
      set.mergeLoop comp fuel it next self
        = IterOutcome.done (insertAll comp (keysFrom it.current it.path) next self) := by
  induction fuel with
  | zero =>
    intro it next self h
    cases hc : it.current with
    | nil => simp [set.mergeLoop, hc, keysFrom, insertAll]
    | node a k c l r => rw [hc] at h; simp [keysFrom] at h
  | succ n ih =>
    intro it next self h
    cases hc : it.current with
    | nil => simp [set.mergeLoop, hc, keysFrom, insertAll]
    | node a k c l r =>
      obtain ⟨it1, h1, _, h3⟩ := incr_keysFrom it hc
      rw [h3] at h
      have := ih it1 (next + 1) (insert comp k next self).1 (by simpa using h)
      rw [hc] at h3
      have e : insertAll comp (keysFrom (Node.node a k c l r) it.path) next self
          = insertAll comp (keysFrom it1.current it1.path) (next + 1)
              (insert comp k next self).1 := by
        rw [h3]; rfl
      simp only [set.mergeLoop, hc, h1, this]
      exact congrArg IterOutcome.done e.symm

theorem merge_of_nonempty (comp : α → α → Bool) (next : Nat) (self other : RedBlackTree α)
    (ho : other.root_ ≠ Node.nil) :
    set.merge comp next self other
      = IterOutcome.done (insertAll comp (keys other.root_) next self, RedBlackTree.empty) := by
  obtain ⟨it, hb, _, _, hk⟩ := begin_keysFrom other ho
  have hl : (keysFrom it.current it.path).length ≤ count other.root_ := by
    rw [hk, count_eq_keys_length]
  simp only [set.merge, hb, mergeLoop_eq comp _ it next self hl, hk]
  rfl

/-- `a.merge(b)` with a non-empty source `b`: the call completes, `a` then
holds exactly the keys that `a` or `b` held, in search-tree order, with
`size()` equal to the number of its nodes, and `b` is the empty tree. -/
theorem merge_nonempty_source_union {comp : α → α → Bool} (hc : StrictTotal comp) (next : Nat)
    (a b : RedBlackTree α) (hb : b.root_ ≠ Node.nil)
    (ha : (keys a.root_).Pairwise (fun x y => comp x y = true)) (hs : Sized a)
    (h0 : 0 < next) (hlen : next + count b.root_ ≤ 2 ^ 64)
    (hfresh : ∀ x ∈ addrs a.root_, x < next) :
    ∃ a1, set.merge comp next a b = IterOutcome.done (a1, RedBlackTree.empty) ∧
      (∀ k, k ∈ keys a1.root_ ↔ k ∈ keys a.root_ ∨ k ∈ keys b.root_) ∧
      (keys a1.root_).Pairwise (fun x y => comp x y = true) ∧
      a1.size_ = count a1.root_ := by
  obtain ⟨g1, g2, g3⟩ := insertAll_union hc (keys b.root_) next a ha hs h0
    (by rw [← count_eq_keys_length]; exact hlen) hfresh
  exact ⟨_, merge_of_nonempty comp next a b hb, g1, g2, g3.2.2⟩

theorem copyNodes_allocations (alloc : Nat → Nat) (t : Node α) :
    ∀ n, (copyNodes alloc t n).2 = n + count t ∧
      ∀ a ∈ addrs (copyNodes alloc t n).1, ∃ i, n ≤ i ∧ i < n + count t ∧ a = alloc i := by
  induction t with
  | nil => intro n; exact ⟨rfl, fun a ha => by simp [copyNodes, addrs, entries] at ha⟩
  | node a0 k c l r ihl ihr =>
    intro n
    obtain ⟨hl1, hl2⟩ := ihl (n + 1)
    obtain ⟨hr1, hr2⟩ := ihr (copyNodes alloc l (n + 1)).2
    refine ⟨?_, ?_⟩
    · rw [hl1] at hr1
      simp only [copyNodes, hl1, hr1, count]; omega
    · intro a ha
      simp only [copyNodes, addrs, entries, List.map_append, List.map_cons, List.mem_append,
        List.mem_cons] at ha
      rcases ha with h | h | h
      · obtain ⟨i, h1, h2, h3⟩ := hl2 a (by simpa [addrs] using h)
        exact ⟨i, by omega, by simp only [count]; omega, h3⟩
      · exact ⟨n, le_refl _, by simp only [count]; omega, h⟩
      · obtain ⟨i, h1, h2, h3⟩ := hr2 a (by simpa [addrs] using h)
        rw [hl1] at h1 h2
        exact ⟨i, by omega, by simp only [count]; omega, h3⟩

/-! ## The doubly linked list -/

theorem linked_frame {τ : Type} {h : Nat → Option (NodeStruct τ)} (a : Nat)
    (c : Option (NodeStruct τ)) (es : List (Nat × τ)) :
    ∀ prev, Linked h prev es → a ∉ es.map Prod.fst → Linked (Function.update h a c) prev es := by
  induction es with
  | nil => intro _ _ _; trivial
  | cons e es ih =>
    intro prev hl ha
    obtain ⟨b, x⟩ := e
    simp only [List.map_cons, List.mem_cons, not_or] at ha
    simp only [Linked] at hl ⊢
    refine ⟨?_, ih b hl.2 ha.2⟩
    rw [Function.update_noteq (Ne.symm ha.1)]
    exact hl.1

theorem linked_mem {τ : Type} {h : Nat → Option (NodeStruct τ)} (es : List (Nat × τ)) :
    ∀ prev, Linked h prev es → ∀ a ∈ es.map Prod.fst, h a ≠ none := by
  induction es with
  | nil => intro _ _ a ha; simp at ha
  | cons e es ih =>
    intro prev hl a ha
    obtain ⟨b, x⟩ := e
    simp only [Linked] at hl
    simp only [List.map_cons, List.mem_cons] at ha
    rcases ha with rfl | ha
    · rw [hl.1]; simp
    · exact ih b hl.2 a ha

theorem firstAddr_mem {τ : Type} (es : List (Nat × τ)) (h : es ≠ []) :
    firstAddr es ∈ es.map Prod.fst := by
  cases es with
  | nil => exact absurd rfl h
  | cons e es => obtain ⟨a, x⟩ := e; simp [firstAddr]

theorem lastAddr_append_singleton {τ : Type} (es : List (Nat × τ)) (a : Nat) (x : τ) :
    lastAddr (es ++ [(a, x)]) = a := by
  induction es with
  | nil => rfl
  | cons e es ih =>
    cases es with
    | nil => obtain ⟨b, y⟩ := e; rfl
    | cons e2 es =>
      simp only [List.cons_append] at ih ⊢
      simp only [lastAddr]
      exact ih

theorem firstAddr_append {τ : Type} (es fs : List (Nat × τ)) (h : es ≠ []) :
    firstAddr (es ++ fs) = firstAddr es := by
  cases es with
  | nil => exact absurd rfl h
  | cons e es => obtain ⟨a, x⟩ := e; rfl

theorem lastAddr_mem {τ : Type} (es : List (Nat × τ)) (h : es ≠ []) :
    lastAddr es ∈ es.map Prod.fst := by
  induction es with
  | nil => exact absurd rfl h
  | cons e es ih =>
    cases es with
    | nil => obtain ⟨a, x⟩ := e; simp [lastAddr]
    | cons e2 es =>
      simp only [lastAddr]
      exact List.mem_cons_of_mem _ (ih (by simp))

theorem readNode_of_some {τ : Type} {h : Nat → Option (NodeStruct τ)} {p : Nat}
    {n : NodeStruct τ} (hp : 0 < p) (hn : h p = some n) : readNode h p = ListOutcome.done n := by
  simp [readNode, Nat.pos_iff_ne_zero.mp hp, hn]

theorem linked_snoc {τ : Type} {h : Nat → Option (NodeStruct τ)} (addr : Nat) (v : τ)
    (es : List (Nat × τ)) :
    ∀ prev, Linked h prev es → es ≠ [] → (es.map Prod.fst).Nodup → addr ∉ es.map Prod.fst →
      ∀ tc, h (lastAddr es) = some tc →
        Linked (Function.update (Function.update h (lastAddr es) (some { tc with next := addr }))
          addr (some { data := v, next := 0, prev := lastAddr es })) prev
          (es ++ [(addr, v)]) := by
  induction es with
  | nil => intro _ _ h0; exact absurd rfl h0
  | cons e es ih =>
    intro prev hl _ hnd hfresh tc htc
    obtain ⟨a, x⟩ := e
    simp only [List.map_cons, List.nodup_cons, List.mem_cons, not_or] at hnd hfresh
    simp only [Linked] at hl
    cases es with
    | nil =>
      simp only [lastAddr] at htc ⊢
      rw [hl.1] at htc
      cases htc
      show Linked _ prev [(a, x), (addr, v)]
      simp only [Linked, firstAddr, and_true]
      refine ⟨?_, ?_⟩
      · rw [Function.update_noteq (Ne.symm hfresh.1), Function.update_same]
      · rw [Function.update_same]
    | cons e2 es =>
      have hmem := lastAddr_mem (e2 :: es) (by simp)
      have hne : a ≠ lastAddr (e2 :: es) := fun heq => hnd.1 (heq ▸ hmem)
      simp only [lastAddr] at htc ⊢
      simp only [List.cons_append, Linked]
      refine ⟨?_, ?_⟩
      · rw [Function.update_noteq (Ne.symm hfresh.1), Function.update_noteq hne, hl.1]
        obtain ⟨b, y⟩ := e2
        rfl
      · exact ih a hl.2 (by simp) hnd.2 hfresh.2 tc htc

theorem push_back_repr {τ : Type} {l : list τ} {es : List (Nat × τ)} (h : ListRepr l es)
    (v : τ) (addr : Nat) (hf : FreshNode addr l) :
    ∃ l1, l.push_back v addr = ListOutcome.done l1 ∧ ListRepr l1 (es ++ [(addr, v)]) := by
  obtain ⟨hl, hh, ht, hs, hnd, hr, hg⟩ := h
  obtain ⟨f0, f1, f2⟩ := hf
  have hfresh : addr ∉ es.map Prod.fst := fun hm => linked_mem es 0 hl addr hm f2
  have hnd1 : ((es ++ [(addr, v)]).map Prod.fst).Nodup := by
    rw [List.map_append, List.nodup_append]
    refine ⟨hnd, by simp, ?_⟩
    intro a ha hb
    simp only [List.map_cons, List.map_nil, List.mem_singleton] at hb
    subst hb
    exact hfresh ha
  have hr1 : ∀ a ∈ (es ++ [(addr, v)]).map Prod.fst, 0 < a ∧ a < 2 ^ 64 := by
    intro a ha
    simp only [List.map_append, List.map_cons, List.map_nil, List.mem_append,
      List.mem_singleton] at ha
    rcases ha with ha | rfl
    · exact hr a ha
    · exact ⟨f0, f1⟩
  have hlen : es.length + 1 < 2 ^ 64 := by
    have := length_lt_of_nodup_range ((es ++ [(addr, v)]).map Prod.fst) (2 ^ 64) (by decide)
      hnd1 hr1
    simpa using this
  cases es with
  | nil =>
    refine ⟨{ heap := Function.update l.heap addr (some { data := v, next := 0, prev := 0 }),
              head_ := addr, tail_ := addr, size_ := (l.size_ + 1) % 2 ^ 64 },
      by simp [list.push_back, hh, firstAddr], ?_, rfl, rfl, ?_, hnd1, hr1, ?_⟩
    · show Linked _ 0 [(addr, v)]
      simp [Linked, firstAddr]
    · simp [hs]
    · intro a ha
      simp only [List.nil_append, List.map_cons, List.map_nil, List.mem_singleton] at ha
      show Function.update l.heap addr _ a = none
      rw [Function.update_noteq ha]
      exact hg a (by simp)
  | cons e es =>
    have hne : (e :: es) ≠ [] := by simp
    have hfm := firstAddr_mem (e :: es) hne
    have hlm := lastAddr_mem (e :: es) hne
    have ht0 : 0 < l.tail_ := ht ▸ (hr _ hlm).1
    have hh0 : l.head_ ≠ 0 := by
      rw [hh]; exact Nat.pos_iff_ne_zero.mp (hr _ hfm).1
    have hta : l.tail_ ≠ addr := by
      rw [ht]; intro heq; exact hfresh (heq ▸ hlm)
    obtain ⟨tc, htc⟩ := Option.ne_none_iff_exists'.mp (linked_mem _ 0 hl _ hlm)
    have hsn := linked_snoc addr v (e :: es) 0 hl hne hnd hfresh tc htc
    have heq : Function.update (Function.update (Function.update l.heap addr
          (some { data := v, next := 0, prev := 0 })) l.tail_ (some { tc with next := addr }))
          addr (some { data := v, next := 0, prev := l.tail_ })
        = Function.update (Function.update l.heap (lastAddr (e :: es))
            (some { tc with next := addr })) addr
            (some { data := v, next := 0, prev := lastAddr (e :: es) }) := by
      rw [← ht]
      funext z
      by_cases hz : z = addr
      · subst hz; simp
      · by_cases hz2 : z = l.tail_
        · subst hz2; simp [Function.update_noteq hz]
        · simp [Function.update_noteq hz, Function.update_noteq hz2]
    refine ⟨{ heap := Function.update (Function.update l.heap (lastAddr (e :: es))
                  (some { tc with next := addr })) addr
                  (some { data := v, next := 0, prev := lastAddr (e :: es) }),
              head_ := l.head_, tail_ := addr, size_ := (l.size_ + 1) % 2 ^ 64 },
      ?_, ?_, ?_, ?_, ?_, hnd1, hr1, ?_⟩
    · simp only [list.push_back, if_neg hh0]
      rw [readNode_of_some ht0 (by rw [Function.update_noteq hta, ht]; exact htc)]
      simp only [ListOutcome.bind]
      rw [readNode_of_some f0 (by rw [Function.update_noteq (Ne.symm hta),
        Function.update_same])]
      simp only [ListOutcome.bind]
      rw [heq]
    · exact hsn
    · rw [firstAddr_append _ _ hne]; exact hh
    · rw [lastAddr_append_singleton]
    · simp only [hs, List.length_append, List.length_singleton]
      exact Nat.mod_eq_of_lt hlen
    · intro a ha
      simp only [List.map_append, List.map_cons, List.map_nil, List.mem_append,
        List.mem_singleton, not_or] at ha
      show Function.update (Function.update l.heap (lastAddr (e :: es)) _) addr _ a = none
      rw [Function.update_noteq ha.2, Function.update_noteq (by
        intro h1; exact ha.1 (h1 ▸ hlm))]
      exact hg a ha.1

theorem listRepr_init {τ : Type} : ListRepr (list.init : list τ) [] :=
  ⟨trivial, rfl, rfl, rfl, List.nodup_nil, fun a ha => by simp at ha, fun _ _ => rfl⟩

theorem front_repr {τ : Type} {l : list τ} {a : Nat} {x : τ} {es : List (Nat × τ)}
    (h : ListRepr l ((a, x) :: es)) : l.front = ListOutcome.done x := by
  obtain ⟨hl, hh, _, _, _, hr, _⟩ := h
  simp only [Linked] at hl
  have ha : 0 < a := (hr a (by simp)).1
  simp only [firstAddr] at hh
  simp [list.front, hh, Nat.pos_iff_ne_zero.mp ha, readNode, hl.1, ListOutcome.bind]

theorem linked_last {τ : Type} {h : Nat → Option (NodeStruct τ)} (es : List (Nat × τ))
    (a : Nat) (x : τ) : ∀ prev, Linked h prev (es ++ [(a, x)]) →
      ∃ p, h a = some { data := x, next := 0, prev := p } ∧
        (es = [] → p = prev) ∧ (es ≠ [] → p = lastAddr es) := by
  induction es with
  | nil =>
    intro prev hl
    simp only [List.nil_append, Linked, firstAddr] at hl
    exact ⟨prev, hl.1, fun _ => rfl, fun h0 => absurd rfl h0⟩
  | cons e es ih =>
    intro prev hl
    obtain ⟨b, y⟩ := e
    simp only [List.cons_append, Linked] at hl
    obtain ⟨p, h1, h2, h3⟩ := ih b hl.2
    refine ⟨p, h1, fun h0 => by simp at h0, fun _ => ?_⟩
    cases es with
    | nil => simp only [lastAddr]; exact h2 rfl
    | cons e2 es => simp only [lastAddr]; exact h3 (by simp)

theorem back_repr {τ : Type} {l : list τ} {a : Nat} {x : τ} {es : List (Nat × τ)}
    (h : ListRepr l (es ++ [(a, x)])) : l.back = ListOutcome.done x := by
  obtain ⟨hl, _, ht, _, _, hr, _⟩ := h
  have ha : 0 < a := (hr a (by simp)).1
  rw [lastAddr_append_singleton] at ht
  obtain ⟨p, hp, _, _⟩ := linked_last es a x 0 hl
  simp [list.back, ht, Nat.pos_iff_ne_zero.mp ha, readNode, hp, ListOutcome.bind]

theorem empty_repr {τ : Type} {l : list τ} {es : List (Nat × τ)} (h : ListRepr l es) :
    l.empty = es.isEmpty := by
  obtain ⟨_, hh, _, _, _, hr, _⟩ := h
  cases es with
  | nil => simp [list.empty, hh, firstAddr]
  | cons e es =>
    obtain ⟨a, x⟩ := e
    have ha : 0 < a := (hr a (by simp)).1
    simp [list.empty, hh, firstAddr, Nat.pos_iff_ne_zero.mp ha]

theorem pop_front_repr {τ : Type} {l : list τ} {a : Nat} {x : τ} {es : List (Nat × τ)}
    (h : ListRepr l ((a, x) :: es)) :
    ∃ l1, l.pop_front = ListOutcome.done l1 ∧ ListRepr l1 es := by
  obtain ⟨hl, hh, ht, hs, hnd, hr, hg⟩ := h
  simp only [Linked] at hl
  simp only [List.map_cons, List.nodup_cons] at hnd
  have ha : 0 < a := (hr a (by simp)).1
  have ha0 : a ≠ 0 := Nat.pos_iff_ne_zero.mp ha
  simp only [firstAddr] at hh
  have hlen : es.length + 1 < 2 ^ 64 := by
    have := length_lt_of_nodup_range (((a, x) :: es).map Prod.fst) (2 ^ 64) (by decide)
      (by simp only [List.map_cons, List.nodup_cons]; exact hnd) hr
    simpa using this
  have hsz : (l.size_ + 2 ^ 64 - 1) % 2 ^ 64 = es.length := by
    rw [hs, List.length_cons]
    have : es.length + 1 + 2 ^ 64 - 1 = es.length + 2 ^ 64 := by omega
    rw [this, Nat.add_mod_right, Nat.mod_eq_of_lt (by omega)]
  cases es with
  | nil =>
    simp only [lastAddr] at ht
    refine ⟨{ heap := Function.update l.heap a none, head_ := 0, tail_ := 0,
              size_ := (l.size_ + 2 ^ 64 - 1) % 2 ^ 64 }, ?_, trivial, rfl, rfl, hsz,
      List.nodup_nil, fun b hb => by simp at hb, ?_⟩
    · simp [list.pop_front, list.erase, list.begin, hh, ha0, readNode, hl.1, ListOutcome.bind,
        firstAddr, ht]
    · intro b _
      show Function.update l.heap a none b = none
      by_cases hb : b = a
      · subst hb; simp
      · rw [Function.update_noteq hb]; exact hg b (by simpa using hb)
  | cons e es =>
    obtain ⟨b, y⟩ := e
    have hb : 0 < b := (hr b (by simp)).1
    have hb0 : b ≠ 0 := Nat.pos_iff_ne_zero.mp hb
    have hab : a ≠ b := by
      intro heq; exact hnd.1 (by simp [heq])
    simp only [Linked, firstAddr] at hl
    have hlm := lastAddr_mem ((b, y) :: es) (by simp)
    have hal : a ≠ lastAddr ((b, y) :: es) := fun heq => hnd.1 (heq ▸ hlm)
    simp only [lastAddr] at ht
    have hnd2 := hnd.2
    simp only [List.map_cons, List.nodup_cons] at hnd2
    refine ⟨{ heap := Function.update (Function.update l.heap b
                (some { data := y, next := firstAddr es, prev := 0 })) a none,
              head_ := b, tail_ := lastAddr ((b, y) :: es),
              size_ := (l.size_ + 2 ^ 64 - 1) % 2 ^ 64 }, ?_, ?_, rfl, rfl, hsz, hnd.2,
      fun c hc => hr c (List.mem_cons_of_mem _ hc), ?_⟩
    · simp [list.pop_front, list.erase, list.begin, hh, ha0, hb0, readNode, hl.1, hl.2.1,
        ListOutcome.bind, firstAddr, ht, hal, Function.update_noteq hab, hab]
    · simp only [Linked]
      refine ⟨?_, ?_⟩
      · rw [Function.update_noteq (Ne.symm hab), Function.update_same]
      · refine linked_frame a none es b (linked_frame b _ es b hl.2.2 hnd2.1) ?_
        intro hm
        exact hnd.1 (List.mem_cons_of_mem _ hm)
    · intro c hc
      show Function.update (Function.update l.heap b _) a none c = none
      by_cases hca : c = a
      · subst hca; simp
      · have hcb : c ≠ b := by
          intro heq; exact hc (by simp [heq])
        rw [Function.update_noteq hca, Function.update_noteq hcb]
        refine hg c ?_
        simp only [List.map_cons, List.mem_cons, not_or] at hc ⊢
        exact ⟨hca, hc⟩

theorem linked_drop_last {τ : Type} {h : Nat → Option (NodeStruct τ)} (a : Nat) (x : τ)
    (es : List (Nat × τ)) :
    ∀ prev, Linked h prev (es ++ [(a, x)]) → es ≠ [] →
      ((es ++ [(a, x)]).map Prod.fst).Nodup →
      ∀ pc, h (lastAddr es) = some pc →
        Linked (Function.update (Function.update h (lastAddr es) (some { pc with next := 0 }))
          a none) prev es := by
  induction es with
  | nil => intro _ _ h0; exact absurd rfl h0
  | cons e es ih =>
    intro prev hl _ hnd pc hpc
    obtain ⟨b, y⟩ := e
    simp only [List.cons_append, Linked] at hl
    simp only [List.cons_append, List.map_cons, List.nodup_cons, List.map_append, List.map_nil,
      List.mem_append, List.mem_singleton, not_or] at hnd
    have hba : b ≠ a := hnd.1.2
    cases es with
    | nil =>
      simp only [lastAddr] at hpc ⊢
      rw [hl.1] at hpc
      cases hpc
      simp only [Linked, firstAddr, and_true]
      rw [Function.update_noteq hba, Function.update_same]
    | cons e2 es =>
      have hmem := lastAddr_mem (e2 :: es) (by simp)
      have hne : b ≠ lastAddr (e2 :: es) := fun heq => hnd.1.1 (heq ▸ hmem)
      simp only [lastAddr] at hpc ⊢
      simp only [Linked]
      refine ⟨?_, ?_⟩
      · rw [Function.update_noteq hba, Function.update_noteq hne, hl.1]
        obtain ⟨c, z⟩ := e2
        rfl
      · refine ih b hl.2 (by simp) ?_ pc hpc
        simp only [List.map_append, List.map_cons, List.map_nil]
        exact hnd.2

theorem pop_back_repr {τ : Type} {l : list τ} {a : Nat} {x : τ} {es : List (Nat × τ)}
    (h : ListRepr l (es ++ [(a, x)])) :
    ∃ l1, l.pop_back = ListOutcome.done l1 ∧ ListRepr l1 es := by
  obtain ⟨hl, hh, ht, hs, hnd, hr, hg⟩ := h
  have ha : 0 < a := (hr a (by simp)).1
  have ha0 : a ≠ 0 := Nat.pos_iff_ne_zero.mp ha
  rw [lastAddr_append_singleton] at ht
  have hlen : es.length + 1 < 2 ^ 64 := by
    have := length_lt_of_nodup_range ((es ++ [(a, x)]).map Prod.fst) (2 ^ 64) (by decide) hnd hr
    simpa using this
  have hsz : (l.size_ + 2 ^ 64 - 1) % 2 ^ 64 = es.length := by
    rw [hs, List.length_append, List.length_singleton]
    have : es.length + 1 + 2 ^ 64 - 1 = es.length + 2 ^ 64 := by omega
    rw [this, Nat.add_mod_right, Nat.mod_eq_of_lt (by omega)]
  obtain ⟨p, hp, hp1, hp2⟩ := linked_last es a x 0 hl
  have hnd0 := hnd
  simp only [List.map_append, List.map_cons, List.map_nil] at hnd0
  rw [List.nodup_append] at hnd0
  have hnot : a ∉ es.map Prod.fst := fun hm => hnd0.2.2 hm (by simp)
  have hres : ∀ b ∈ es.map Prod.fst, 0 < b ∧ b < 2 ^ 64 := fun b hb =>
    hr b (by simp only [List.map_append, List.mem_append]; exact Or.inl hb)
  cases es with
  | nil =>
    have hp0 : p = 0 := hp1 rfl
    subst hp0
    simp only [List.nil_append, firstAddr] at hh
    refine ⟨{ heap := Function.update l.heap a none, head_ := 0, tail_ := 0,
              size_ := (l.size_ + 2 ^ 64 - 1) % 2 ^ 64 }, ?_, trivial, rfl, rfl, hsz,
      List.nodup_nil, fun b hb => by simp at hb, ?_⟩
    · simp [list.pop_back, list.end_, ListIteratorBase.decrement, list.erase, ht, hh, ha0,
        readNode, hp, ListOutcome.bind]
    · intro b _
      show Function.update l.heap a none b = none
      by_cases hb : b = a
      · subst hb; simp
      · rw [Function.update_noteq hb]; exact hg b (by simpa using hb)
  | cons e es =>
    have hne : (e :: es) ≠ [] := by simp
    have hpe : p = lastAddr (e :: es) := hp2 hne
    subst hpe
    have hlm := lastAddr_mem (e :: es) hne
    have hfm := firstAddr_mem (e :: es) hne
    have hp0 : lastAddr (e :: es) ≠ 0 := Nat.pos_iff_ne_zero.mp (hres _ hlm).1
    have hpa : lastAddr (e :: es) ≠ a := fun heq => hnot (heq ▸ hlm)
    have hfa : a ≠ firstAddr (e :: es) := fun heq => hnot (heq ▸ hfm)
    have hf0 : firstAddr (e :: es) ≠ 0 := Nat.pos_iff_ne_zero.mp (hres _ hfm).1
    rw [firstAddr_append _ _ hne] at hh
    obtain ⟨pc, hpc⟩ := Option.ne_none_iff_exists'.mp
      (linked_mem _ 0 hl (lastAddr (e :: es))
        (by simp only [List.map_append, List.mem_append]; exact Or.inl hlm))
    refine ⟨{ heap := Function.update (Function.update l.heap (lastAddr (e :: es))
                (some { pc with next := 0 })) a none,
              head_ := firstAddr (e :: es), tail_ := lastAddr (e :: es),
              size_ := (l.size_ + 2 ^ 64 - 1) % 2 ^ 64 }, ?_,
      linked_drop_last a x (e :: es) 0 hl hne hnd pc hpc, rfl, rfl, hsz, hnd0.1, hres, ?_⟩
    · simp [list.pop_back, list.end_, ListIteratorBase.decrement, list.erase, ht, hh, ha0,
        readNode, hp, hpc, hp0, ListOutcome.bind, Function.update_noteq (Ne.symm hpa), hfa, hf0]
    · intro c hc
      show Function.update (Function.update l.heap (lastAddr (e :: es)) _) a none c = none
      by_cases hca : c = a
      · subst hca; simp
      · have hcp : c ≠ lastAddr (e :: es) := fun heq => hc (heq ▸ hlm)
        rw [Function.update_noteq hca, Function.update_noteq hcp]
        refine hg c ?_
        simp only [List.map_append, List.map_cons, List.map_nil, List.mem_append,
          List.mem_singleton, not_or]
        exact ⟨hc, hca⟩

theorem withAddrs_snd {τ : Type} (xs : List τ) : ∀ next, (withAddrs next xs).map Prod.snd = xs := by
  induction xs with
  | nil => intro _; rfl
  | cons x xs ih => intro next; simp [withAddrs, ih]

theorem withAddrs_length {τ : Type} (xs : List τ) :
    ∀ next, (withAddrs next xs).length = xs.length := by
  induction xs with
  | nil => intro _; rfl
  | cons x xs ih => intro next; simp [withAddrs, ih]

theorem pushAll_repr {τ : Type} (xs : List τ) :
    ∀ (next : Nat) (q : list τ) (es : List (Nat × τ)), ListRepr q es → 0 < next →
      next + xs.length ≤ 2 ^ 64 → (∀ a ∈ es.map Prod.fst, a < next) →
      ∃ q1, pushAll xs next q = ListOutcome.done q1 ∧ ListRepr q1 (es ++ withAddrs next xs) := by
  induction xs with
  | nil =>
    intro next q es h _ _ _
    exact ⟨q, rfl, by simpa [withAddrs] using h⟩
  | cons x xs ih =>
    intro next q es h h0 hlen hlt
    simp only [List.length_cons] at hlen
    have hfresh : FreshNode next q :=
      ⟨h0, by omega, h.2.2.2.2.2.2 next (fun hm => Nat.lt_irrefl _ (hlt next hm))⟩
    obtain ⟨q1, hq1, hr1⟩ := push_back_repr h x next hfresh
    obtain ⟨q2, hq2, hr2⟩ := ih (next + 1) q1 (es ++ [(next, x)]) hr1 (by omega) (by omega)
      (by
        intro a ha
        simp only [List.map_append, List.map_cons, List.map_nil, List.mem_append,
          List.mem_singleton] at ha
        rcases ha with ha | rfl
        · exact Nat.lt_succ_of_lt (hlt a ha)
        · exact Nat.lt_succ_self _)
    refine ⟨q2, ?_, ?_⟩
    · simp only [pushAll, queue.push, hq1, ListOutcome.bind, hq2]
    · simpa [withAddrs] using hr2

theorem queue_pop_repr {τ : Type} {q : list τ} {a : Nat} {x : τ} {es : List (Nat × τ)}
    (h : ListRepr q ((a, x) :: es)) :
    ∃ q1, queue.pop q = ListOutcome.done q1 ∧ ListRepr q1 es := by
  obtain ⟨q1, h1, h2⟩ := pop_front_repr h
  exact ⟨q1, by simp [queue.pop, empty_repr h, h1], h2⟩

theorem stack_pop_repr {τ : Type} {s : list τ} {a : Nat} {x : τ} {es : List (Nat × τ)}
    (h : ListRepr s (es ++ [(a, x)])) :
    ∃ s1, stack.pop s = ListOutcome.done s1 ∧ ListRepr s1 es := by
  obtain ⟨s1, h1, h2⟩ := pop_back_repr h
  exact ⟨s1, by simp [stack.pop, empty_repr h, h1], h2⟩

theorem popN_repr {τ : Type} (k : Nat) :
    ∀ (q : list τ) (es : List (Nat × τ)), ListRepr q es → k ≤ es.length →
      ∃ q1, popN k q = ListOutcome.done q1 ∧ ListRepr q1 (es.drop k) := by
  induction k with
  | zero => intro q es h _; exact ⟨q, rfl, by simpa using h⟩
  | succ k ih =>
    intro q es h hk
    cases es with
    | nil => simp at hk
    | cons e es =>
      obtain ⟨a, x⟩ := e
      obtain ⟨q1, h1, h2⟩ := queue_pop_repr h
      obtain ⟨q2, h3, h4⟩ := ih q1 es h2 (by simpa using hk)
      exact ⟨q2, by simp only [popN, h1, ListOutcome.bind, h3], by simpa using h4⟩

theorem front_data {τ : Type} {l : list τ} {es : List (Nat × τ)} (h : ListRepr l es) (x : τ)
    (hx : (es.map Prod.snd).head? = some x) : l.front = ListOutcome.done x := by
  cases es with
  | nil => simp at hx
  | cons e es =>
    obtain ⟨a, y⟩ := e
    simp only [List.map_cons, List.head?_cons, Option.some.injEq] at hx
    subst hx
    exact front_repr h

theorem back_data {τ : Type} {l : list τ} {es : List (Nat × τ)} (h : ListRepr l es) (x : τ)
    (hx : (es.map Prod.snd).getLast? = some x) : l.back = ListOutcome.done x := by
  rcases List.eq_nil_or_concat es with rfl | ⟨es0, e, rfl⟩
  · simp at hx
  · obtain ⟨a, y⟩ := e
    rw [List.concat_eq_append] at h hx
    simp at hx
    subst hx
    exact back_repr h

theorem linked_unique {τ : Type} {h1 h2 : Nat → Option (NodeStruct τ)} (es : List (Nat × τ)) :
    ∀ prev, Linked h1 prev es → Linked h2 prev es → ∀ a ∈ es.map Prod.fst, h1 a = h2 a := by
  induction es with
  | nil => intro _ _ _ a ha; simp at ha
  | cons e es ih =>
    intro prev hl1 hl2 a ha
    obtain ⟨b, x⟩ := e
    simp only [Linked] at hl1 hl2
    simp only [List.map_cons, List.mem_cons] at ha
    rcases ha with rfl | ha
    · rw [hl1.1, hl2.1]
    · exact ih b hl1.2 hl2.2 a ha

theorem listRepr_unique {τ : Type} {l1 l2 : list τ} {es : List (Nat × τ)}
    (h1 : ListRepr l1 es) (h2 : ListRepr l2 es) : l1 = l2 := by
  obtain ⟨a1, b1, c1, d1, _, _, g1⟩ := h1
  obtain ⟨a2, b2, c2, d2, _, _, g2⟩ := h2
  have hheap : l1.heap = l2.heap := by
    funext a
    by_cases ha : a ∈ es.map Prod.fst
    · exact linked_unique es 0 a1 a2 a ha
    · rw [g1 a ha, g2 a ha]
  cases l1; cases l2
  simp only [list.mk.injEq]
  exact ⟨hheap, b1.trans b2.symm, c1.trans c2.symm, d1.trans d2.symm⟩

theorem insert_many_front_eq_pushAll {τ : Type} (args : List τ) :
    ∀ (next : Nat) (s : list τ),
      stack.insert_many_front args next s = stack.pushAll args next s := by
  induction args with
  | nil => intro _ _; rfl
  | cons a args ih =>
    intro next s
    simp only [stack.insert_many_front, stack.pushAll, stack.push]
    cases s.push_back a next <;> simp [ListOutcome.bind, ih]

/-! ## Rotations and the loop of `insertFixup`, step by step -/

theorem colours_zipUp (t : Node α) (p : Path α) :
    colours (zipUp t p) = coloursBefore p ++ colours t ++ coloursAfter p := by
  induction p generalizing t with
  | nil => simp [zipUp, coloursBefore, coloursAfter]
  | cons f up ih =>
    cases f <;> simp [zipUp, Frame.plug, ih, colours, coloursBefore, coloursAfter]

theorem insertFixupStep_total (za : Nat) (zk : α) (zc : Color) (zl zr : Node α) (p : Path α) :
    ∃ r, insertFixupStep (Node.node za zk zc zl zr) p = Outcome.done r := by
  cases p with
  | nil => exact ⟨none, rfl⟩
  | cons f up =>
    cases up with
    | nil => exact ⟨none, rfl⟩
    | cons g up =>
      cases f <;> cases g <;> rename_i pa pk pc ps ga gk gc y <;> cases pc <;>
        by_cases hy : isRed y = true <;>
        simp [insertFixupStep, Frame.color, hy, rotateLeft, rotateRight]

theorem insertFixupStep_depth (za : Nat) (zk : α) (zc : Color) (zl zr : Node α) (p : Path α)
    (z1 : Node α) (p1 : Path α)
    (h : insertFixupStep (Node.node za zk zc zl zr) p = Outcome.done (some (z1, p1))) :
    z1 ≠ Node.nil ∧
    ∃ f g up, p = f :: g :: up ∧ f.color = Color.RED ∧
      ((∃ ga gk gc y, (g = Frame.L ga gk gc y ∨ g = Frame.R ga gk gc y) ∧ isRed y = true ∧
          p1 = up) ∨
       (∃ ga gk gc y, (g = Frame.L ga gk gc y ∨ g = Frame.R ga gk gc y) ∧ isRed y = false ∧
          ∃ f1, p1 = f1 :: up)) := by
  cases p with
  | nil => simp [insertFixupStep] at h
  | cons f up =>
    cases up with
    | nil => simp [insertFixupStep] at h
    | cons g up =>
      cases f <;> cases g <;> rename_i pa pk pc ps ga gk gc y <;> cases pc <;>
        by_cases hy : isRed y = true <;>
        simp [insertFixupStep, Frame.color, hy, rotateLeft, rotateRight] at h <;>
        obtain ⟨rfl, rfl⟩ := h <;>
        refine ⟨by simp, _, _, _, rfl, rfl, ?_⟩
      all_goals first
        | exact Or.inl ⟨ga, gk, gc, y, Or.inl rfl, hy, rfl⟩
        | exact Or.inl ⟨ga, gk, gc, y, Or.inr rfl, hy, rfl⟩
        | exact Or.inr ⟨ga, gk, gc, y, Or.inl rfl, by simpa using hy, _, rfl⟩
        | exact Or.inr ⟨ga, gk, gc, y, Or.inr rfl, by simpa using hy, _, rfl⟩

theorem insertFixupLoop_step (n : Nat) (za : Nat) (zk : α) (zc : Color) (zl zr : Node α)
    (p : Path α) :
    insertFixupLoop (n + 1) (Node.node za zk zc zl zr) p =
      match insertFixupStep (Node.node za zk zc zl zr) p with
      | Outcome.done (some s) => insertFixupLoop n s.1 s.2
      | _ => (Node.node za zk zc zl zr, p) := by
  cases p with
  | nil => simp [insertFixupLoop, insertFixupStep]
  | cons f up =>
    cases up with
    | nil => simp [insertFixupLoop, insertFixupStep]
    | cons g up =>
      cases f <;> cases g <;> rename_i pa pk pc ps ga gk gc y <;> cases pc <;>
        by_cases hy : isRed y = true <;>
        simp [insertFixupLoop, insertFixupStep, Frame.color, hy, rotateLeft, rotateRight]

theorem insertFixupStep_shorter (za : Nat) (zk : α) (zc : Color) (zl zr : Node α) (p : Path α)
    (z1 : Node α) (p1 : Path α)
    (h : insertFixupStep (Node.node za zk zc zl zr) p = Outcome.done (some (z1, p1))) :
    z1 ≠ Node.nil ∧ (p1.length + 2 = p.length ∨ p1.length + 1 = p.length) := by
  obtain ⟨h1, f, g, up, rfl, _, h2⟩ := insertFixupStep_depth za zk zc zl zr p z1 p1 h
  refine ⟨h1, ?_⟩
  rcases h2 with ⟨_, _, _, _, _, _, rfl⟩ | ⟨_, _, _, _, _, _, f1, rfl⟩
  · left; simp
  · right; simp

theorem insertFixupLoop_exits (n : Nat) : ∀ (z : Node α) (p : Path α), z ≠ Node.nil →
    p.length ≤ n →
    (insertFixupLoop n z p).1 ≠ Node.nil ∧
    insertFixupStep (insertFixupLoop n z p).1 (insertFixupLoop n z p).2 = Outcome.done none ∧
    (insertFixupLoop n z p).2.length ≤ p.length := by
  induction n with
  | zero =>
    intro z p hz hp
    have hp0 : p = [] := List.length_eq_zero.mp (Nat.le_zero.mp hp)
    subst hp0
    simp [insertFixupLoop, insertFixupStep, hz]
  | succ n ih =>
    intro z p hz hp
    cases z with
    | nil => exact absurd rfl hz
    | node za zk zc zl zr =>
      obtain ⟨r, hr⟩ := insertFixupStep_total za zk zc zl zr p
      rw [insertFixupLoop_step, hr]
      cases r with
      | none => exact ⟨by simp, hr, le_refl _⟩
      | some s =>
        obtain ⟨z1, p1⟩ := s
        obtain ⟨h1, h2⟩ := insertFixupStep_shorter za zk zc zl zr p z1 p1 hr
        obtain ⟨g1, g2, g3⟩ := ih z1 p1 h1 (by omega)
        show (insertFixupLoop n z1 p1).1 ≠ Node.nil ∧
          insertFixupStep (insertFixupLoop n z1 p1).1 (insertFixupLoop n z1 p1).2
            = Outcome.done none ∧
          (insertFixupLoop n z1 p1).2.length ≤ p.length
        exact ⟨g1, g2, by omega⟩

/-! ## The heap layout of a tree -/

theorem addrs_nil : addrs (Node.nil : Node α) = [] := rfl

theorem addrs_node (a : Nat) (k : α) (c : Color) (l r : Node α) :
    addrs (Node.node a k c l r) = addrs l ++ a :: addrs r := by
  simp [addrs, entries]

theorem cells_frame {h : Nat → Option (HNode α)} (a : Nat) (c : Option (HNode α))
    (t : Node α) : ∀ par, Cells h par t → a ∉ addrs t → Cells (Function.update h a c) par t := by
  induction t with
  | nil => intro _ _ _; trivial
  | node b k col l r ihl ihr =>
    intro par hc ha
    simp only [addrs_node, List.mem_append, List.mem_cons, not_or] at ha
    simp only [Cells] at hc ⊢
    refine ⟨?_, ihl b hc.2.1 ha.1, ihr b hc.2.2 ha.2.2⟩
    rw [Function.update_noteq (Ne.symm ha.2.1)]
    exact hc.1

theorem pathCells_frame {h : Nat → Option (HNode α)} (a : Nat) (c : Option (HNode α))
    (p : Path α) : ∀ child, PathCells h child p → a ∉ pathAddrs p →
      PathCells (Function.update h a c) child p := by
  induction p with
  | nil => intro _ _ _; trivial
  | cons f up ih =>
    intro child hc ha
    cases f with
    | L b k col r =>
      simp only [pathAddrs, List.mem_append, List.mem_cons, not_or] at ha
      simp only [PathCells] at hc ⊢
      refine ⟨?_, cells_frame a c r b hc.2.1 ha.2.1, ih b hc.2.2 ha.2.2⟩
      rw [Function.update_noteq (Ne.symm ha.1)]
      exact hc.1
    | R b k col l =>
      simp only [pathAddrs, List.mem_append, List.mem_cons, not_or] at ha
      simp only [PathCells] at hc ⊢
      refine ⟨?_, cells_frame a c l b hc.2.1 ha.2.1, ih b hc.2.2 ha.2.2⟩
      rw [Function.update_noteq (Ne.symm ha.1)]
      exact hc.1

theorem cells_zipUp {h : Nat → Option (HNode α)} (p : Path α) :
    ∀ t : Node α, Cells h 0 (zipUp t p) ↔ Cells h (parentOf p) t ∧ PathCells h (addrOf t) p := by
  induction p with
  | nil => intro t; simp [zipUp, parentOf, PathCells]
  | cons f up ih =>
    intro t
    cases f with
    | L a k c r =>
      simp only [zipUp, Frame.plug, ih, Cells, parentOf, PathCells, addrOf]
      tauto
    | R a k c l =>
      simp only [zipUp, Frame.plug, ih, Cells, parentOf, PathCells, addrOf]
      tauto

theorem addrs_zipUp_perm (p : Path α) :
    ∀ t : Node α, (addrs (zipUp t p)).Perm (addrs t ++ pathAddrs p) := by
  induction p with
  | nil => intro t; simp [zipUp, pathAddrs]
  | cons f up ih =>
    intro t
    cases f with
    | L a k c r =>
      simp only [zipUp, Frame.plug, pathAddrs]
      refine (ih _).trans ?_
      rw [addrs_node]
      simp only [List.append_assoc, List.cons_append]
      exact List.Perm.refl _
    | R a k c l =>
      simp only [zipUp, Frame.plug, pathAddrs]
      refine (ih _).trans ?_
      rw [addrs_node]
      simp only [List.append_assoc, List.cons_append]
      have h1 : (addrs l ++ a :: addrs t).Perm (addrs t ++ a :: addrs l) :=
        List.perm_append_comm.trans List.perm_middle.symm
      have := List.Perm.append_right (pathAddrs up) h1
      simpa [List.append_assoc] using this

theorem addrOf_zipUp (p : Path α) : ∀ t : Node α, addrOf (zipUp t p) = rootAddr (addrOf t) p := by
  induction p with
  | nil => intro t; rfl
  | cons f up ih =>
    intro t
    simp only [zipUp, rootAddr]
    rw [ih]
    cases f <;> rfl

theorem node_of_cell (H : HTree α) {a : Nat} {n : HNode α} (ha : 0 < a)
    (h : H.heap a = some n) : H.node a = Outcome.done n := by
  simp [HTree.node, Nat.pos_iff_ne_zero.mp ha, h]

theorem cells_congr {h h1 : Nat → Option (HNode α)} (t : Node α) :
    ∀ par, Cells h par t → (∀ a ∈ addrs t, h1 a = h a) → Cells h1 par t := by
  induction t with
  | nil => intro _ _ _; trivial
  | node b k col l r ihl ihr =>
    intro par hc ha
    simp only [Cells] at hc ⊢
    refine ⟨?_, ihl b hc.2.1 (fun a hm => ha a (by simp [addrs_node, hm])),
      ihr b hc.2.2 (fun a hm => ha a (by simp [addrs_node, hm]))⟩
    rw [ha b (by simp [addrs_node])]
    exact hc.1

theorem pathCells_congr {h h1 : Nat → Option (HNode α)} (p : Path α) :
    ∀ child, PathCells h child p → (∀ a ∈ pathAddrs p, h1 a = h a) → PathCells h1 child p := by
  induction p with
  | nil => intro _ _ _; trivial
  | cons f up ih =>
    intro child hc ha
    cases f with
    | L b k col r =>
      simp only [PathCells] at hc ⊢
      refine ⟨?_, cells_congr r b hc.2.1 (fun a hm => ha a (by simp [pathAddrs, hm])),
        ih b hc.2.2 (fun a hm => ha a (by simp [pathAddrs, hm]))⟩
      rw [ha b (by simp [pathAddrs])]
      exact hc.1
    | R b k col l =>
      simp only [PathCells] at hc ⊢
      refine ⟨?_, cells_congr l b hc.2.1 (fun a hm => ha a (by simp [pathAddrs, hm])),
        ih b hc.2.2 (fun a hm => ha a (by simp [pathAddrs, hm]))⟩
      rw [ha b (by simp [pathAddrs])]
      exact hc.1

theorem lay_parts {H : HTree α} {X : Node α} {p : Path α} (h : Lay H (zipUp X p)) :
    Cells H.heap (parentOf p) X ∧ PathCells H.heap (addrOf X) p ∧
    H.root_ = rootAddr (addrOf X) p ∧ (addrs X ++ pathAddrs p).Nodup ∧
    ∀ a ∈ addrs X ++ pathAddrs p, 0 < a := by
  obtain ⟨h1, h2, h3, h4⟩ := h
  have hperm := addrs_zipUp_perm p X
  rw [cells_zipUp] at h1
  exact ⟨h1.1, h1.2, by rw [h2, addrOf_zipUp], hperm.nodup_iff.mp h3,
    fun a ha => h4 a (hperm.mem_iff.mpr ha)⟩

theorem lay_of_parts {H : HTree α} {X : Node α} {p : Path α}
    (h1 : Cells H.heap (parentOf p) X) (h2 : PathCells H.heap (addrOf X) p)
    (h3 : H.root_ = rootAddr (addrOf X) p) (h4 : (addrs X ++ pathAddrs p).Nodup)
    (h5 : ∀ a ∈ addrs X ++ pathAddrs p, 0 < a) : Lay H (zipUp X p) := by
  have hperm := addrs_zipUp_perm p X
  exact ⟨(cells_zipUp p X).mpr ⟨h1, h2⟩, by rw [h3, addrOf_zipUp], hperm.nodup_iff.mpr h4,
    fun a ha => h5 a (hperm.mem_iff.mp ha)⟩

theorem lay_node {H : HTree α} {a : Nat} {k : α} {c : Color} {l r : Node α} {p : Path α}
    (h : Lay H (zipUp (Node.node a k c l r) p)) :
    H.node a = Outcome.done ⟨k, c, addrOf l, addrOf r, parentOf p⟩ ∧ 0 < a := by
  obtain ⟨h1, _, _, _, h5⟩ := lay_parts h
  have ha : 0 < a := h5 a (by simp [addrs_node])
  simp only [Cells] at h1
  exact ⟨node_of_cell H ha h1.1, ha⟩

theorem mem_addrs_zipUp {X : Node α} {p : Path α} {a : Nat} :
    a ∈ addrs (zipUp X p) ↔ a ∈ addrs X ∨ a ∈ pathAddrs p := by
  rw [(addrs_zipUp_perm p X).mem_iff, List.mem_append]

/-- Writing the colour or the key of a node. -/
theorem lay_setNode_top {H : HTree α} {a : Nat} {k k1 : α} {c c1 : Color} {l r : Node α}
    {p : Path α} (h : Lay H (zipUp (Node.node a k c l r) p)) :
    Lay (H.setNode a ⟨k1, c1, addrOf l, addrOf r, parentOf p⟩)
      (zipUp (Node.node a k1 c1 l r) p) := by
  obtain ⟨h1, h2, h3, h4, h5⟩ := lay_parts h
  simp only [addrs_node, List.append_assoc, List.cons_append, List.nodup_append,
    List.nodup_cons, List.mem_append, List.mem_cons, not_or, List.disjoint_cons_left,
    List.disjoint_cons_right, List.disjoint_append_left, List.disjoint_append_right] at h4
  simp only [Cells] at h1
  refine lay_of_parts ?_ ?_ h3 ?_ ?_
  · simp only [Cells, HTree.setNode]
    exact ⟨by simp, cells_frame a _ l a h1.2.1 (by tauto), cells_frame a _ r a h1.2.2 (by tauto)⟩
  · exact pathCells_frame a _ p _ h2 (by tauto)
  · simpa [addrs_node] using (lay_parts h).2.2.2.1
  · simpa [addrs_node] using h5

theorem lay_setColor {H : HTree α} {a : Nat} {k : α} {c : Color} {l r : Node α} {p : Path α}
    (c1 : Color) (h : Lay H (zipUp (Node.node a k c l r) p)) :
    ∃ H1, H.setColor a c1 = Outcome.done H1 ∧ Lay H1 (zipUp (Node.node a k c1 l r) p) ∧
      H1.size_ = H.size_ ∧ H1.root_ = H.root_ ∧
      ∀ b, b ∉ addrs (zipUp (Node.node a k c l r) p) → H1.heap b = H.heap b := by
  refine ⟨H.setNode a ⟨k, c1, addrOf l, addrOf r, parentOf p⟩, ?_, lay_setNode_top h, rfl, rfl,
    ?_⟩
  · simp [HTree.setColor, (lay_node h).1, Outcome.bind]
  · intro b hb
    rw [mem_addrs_zipUp] at hb
    simp only [HTree.setNode]
    rw [Function.update_noteq]
    intro hba; subst hba
    exact hb (Or.inl (by simp [addrs_node]))

theorem lay_setKey {H : HTree α} {a : Nat} {k : α} {c : Color} {l r : Node α} {p : Path α}
    (k1 : α) (h : Lay H (zipUp (Node.node a k c l r) p)) :
    ∃ H1, H.setKey a k1 = Outcome.done H1 ∧ Lay H1 (zipUp (Node.node a k1 c l r) p) ∧
      H1.size_ = H.size_ ∧ H1.root_ = H.root_ ∧
      ∀ b, b ∉ addrs (zipUp (Node.node a k c l r) p) → H1.heap b = H.heap b := by
  refine ⟨H.setNode a ⟨k1, c, addrOf l, addrOf r, parentOf p⟩, ?_, lay_setNode_top h, rfl, rfl,
    ?_⟩
  · simp [HTree.setKey, (lay_node h).1, Outcome.bind]
  · intro b hb
    rw [mem_addrs_zipUp] at hb
    simp only [HTree.setNode]
    rw [Function.update_noteq]
    intro hba; subst hba
    exact hb (Or.inl (by simp [addrs_node]))

theorem parentOf_mem {p : Path α} (h : p ≠ []) : parentOf p ∈ pathAddrs p := by
  cases p with
  | nil => exact absurd rfl h
  | cons f up => cases f <;> simp [parentOf, pathAddrs]

/-- A subtree whose nodes the heap did not change, except that its topmost
node may have got another parent. -/
theorem cells_moved {h h1 : Nat → Option (HNode α)} (t : Node α) (par par1 : Nat)
    (hc : Cells h par t) (hnd : (addrs t).Nodup)
    (htop : ∀ a k c l r, t = Node.node a k c l r →
      h1 a = some ⟨k, c, addrOf l, addrOf r, par1⟩)
    (hrest : ∀ a ∈ addrs t, a ≠ addrOf t → h1 a = h a) : Cells h1 par1 t := by
  cases t with
  | nil => trivial
  | node a k c l r =>
    simp only [Cells] at hc ⊢
    simp only [addrs_node, List.nodup_append, List.nodup_cons, List.disjoint_cons_right] at hnd
    refine ⟨htop a k c l r rfl, cells_congr l a hc.2.1 ?_, cells_congr r a hc.2.2 ?_⟩
    · intro b hb
      exact hrest b (by simp [addrs_node, hb]) (by
        simp only [addrOf]; intro hba; subst hba; exact hnd.2.2.1 hb)
    · intro b hb
      exact hrest b (by simp [addrs_node, hb]) (by
        simp only [addrOf]; intro hba; subst hba; exact hnd.2.1.1 hb)

/-- The ancestors of a position when the heap changed none of them, except
that the link of the nearest one that leads to the position may hold another
address. -/
theorem pathCells_moved {h h1 : Nat → Option (HNode α)} (p : Path α) (child child1 : Nat)
    (hc : PathCells h child p) (hnd : (pathAddrs p).Nodup)
    (htop : HeadCell h1 child1 p)
    (hrest : ∀ a ∈ pathAddrs p, a ≠ parentOf p → h1 a = h a) : PathCells h1 child1 p := by
  cases p with
  | nil => trivial
  | cons f up =>
    cases f with
    | L a k c r =>
      simp only [PathCells] at hc ⊢
      simp only [HeadCell] at htop
      simp only [pathAddrs, List.nodup_cons, List.mem_append, not_or] at hnd
      refine ⟨htop, cells_congr r a hc.2.1 ?_, pathCells_congr up a hc.2.2 ?_⟩
      · intro b hb
        exact hrest b (by simp [pathAddrs, hb]) (by
          simp only [parentOf]; intro hba; subst hba; exact hnd.1.1 hb)
      · intro b hb
        exact hrest b (by simp [pathAddrs, hb]) (by
          simp only [parentOf]; intro hba; subst hba; exact hnd.1.2 hb)
    | R a k c l =>
      simp only [PathCells] at hc ⊢
      simp only [HeadCell] at htop
      simp only [pathAddrs, List.nodup_cons, List.mem_append, not_or] at hnd
      refine ⟨htop, cells_congr l a hc.2.1 ?_, pathCells_congr up a hc.2.2 ?_⟩
      · intro b hb
        exact hrest b (by simp [pathAddrs, hb]) (by
          simp only [parentOf]; intro hba; subst hba; exact hnd.1.1 hb)
      · intro b hb
        exact hrest b (by simp [pathAddrs, hb]) (by
          simp only [parentOf]; intro hba; subst hba; exact hnd.1.2 hb)

theorem rotateLeft_layout {h h1 : Nat → Option (HNode α)} {xa ya : Nat} {xk yk : α}
    {xc yc : Color} {A B C : Node α} {p : Path α}
    (hc : Cells h (parentOf p) (Node.node xa xk xc A (Node.node ya yk yc B C)))
    (hp : PathCells h xa p)
    (hnd : (addrs (Node.node xa xk xc A (Node.node ya yk yc B C)) ++ pathAddrs p).Nodup)
    (hpos : ∀ a ∈ addrs (Node.node xa xk xc A (Node.node ya yk yc B C)) ++ pathAddrs p, 0 < a)
    (e1 : h1 xa = some ⟨xk, xc, addrOf A, addrOf B, ya⟩)
    (e2 : h1 ya = some ⟨yk, yc, xa, addrOf C, parentOf p⟩)
    (e3 : ∀ a k c l r, B = Node.node a k c l r → h1 a = some ⟨k, c, addrOf l, addrOf r, xa⟩)
    (e4 : HeadCell h1 ya p)
    (e5 : ∀ a, a ≠ xa → a ≠ ya → a ≠ addrOf B → a ≠ parentOf p → h1 a = h a) :
    Cells h1 (parentOf p) (Node.node ya yk yc (Node.node xa xk xc A B) C) ∧
      PathCells h1 ya p := by
  simp only [Cells] at hc
  obtain ⟨_, hA, _, hB, hC⟩ := hc
  have hd := hnd
  simp only [addrs_node, List.append_assoc, List.cons_append, List.nodup_append,
    List.nodup_cons, List.mem_append, List.mem_cons, not_or, List.disjoint_cons_left,
    List.disjoint_cons_right, List.disjoint_append_left, List.disjoint_append_right] at hd
  have hBin : ∀ a, a = addrOf B → a ∈ addrs B ∨ a = 0 := by
    intro a ha
    cases B with
    | nil => exact Or.inr ha
    | node ba bk bc bl br => exact Or.inl (by simp [ha, addrOf, addrs_node])
  have hPin : ∀ a, a = parentOf p → a ∈ pathAddrs p ∨ a = 0 := by
    intro a ha
    cases p with
    | nil => exact Or.inr ha
    | cons f up => exact Or.inl (ha ▸ parentOf_mem (by simp))
  have posA : ∀ a ∈ addrs A, a ≠ 0 := fun a ha =>
    Nat.pos_iff_ne_zero.mp (hpos a (by simp [addrs_node, ha]))
  have posB : ∀ a ∈ addrs B, a ≠ 0 := fun a ha =>
    Nat.pos_iff_ne_zero.mp (hpos a (by simp [addrs_node, ha]))
  have posC : ∀ a ∈ addrs C, a ≠ 0 := fun a ha =>
    Nat.pos_iff_ne_zero.mp (hpos a (by simp [addrs_node, ha]))
  have posP : ∀ a ∈ pathAddrs p, a ≠ 0 := fun a ha =>
    Nat.pos_iff_ne_zero.mp (hpos a (by simp [ha]))
  obtain ⟨ndA, ⟨⟨xB, xy, xC, xP⟩, ndB, ⟨⟨yC, yP⟩, ndC, ndP, dCP⟩, yB, dBC, dBP⟩, xA, dAB, yA, dAC,
    dAP⟩ := hd
  refine ⟨⟨e2, ⟨e1, ?_, ?_⟩, ?_⟩, ?_⟩
  · refine cells_congr A xa hA (fun a ha => e5 a ?_ ?_ ?_ ?_)
    · intro e; subst e; exact xA ha
    · intro e; subst e; exact yA ha
    · intro e; rcases hBin a e with h | h
      · exact dAB ha h
      · exact posA a ha h
    · intro e; rcases hPin a e with h | h
      · exact dAP ha h
      · exact posA a ha h
  · refine cells_moved B ya xa hB ndB e3 (fun a ha hne => e5 a ?_ ?_ hne ?_)
    · intro e; subst e; exact xB ha
    · intro e; subst e; exact yB ha
    · intro e; rcases hPin a e with h | h
      · exact dBP ha h
      · exact posB a ha h
  · refine cells_congr C ya hC (fun a ha => e5 a ?_ ?_ ?_ ?_)
    · intro e; subst e; exact xC ha
    · intro e; subst e; exact yC ha
    · intro e; rcases hBin a e with h | h
      · exact dBC h ha
      · exact posC a ha h
    · intro e; rcases hPin a e with h | h
      · exact dCP ha h
      · exact posC a ha h
  · refine pathCells_moved p xa ya hp ndP e4 (fun a ha hne => e5 a ?_ ?_ ?_ hne)
    · intro e; subst e; exact xP ha
    · intro e; subst e; exact yP ha
    · intro e; rcases hBin a e with h | h
      · exact dBP h ha
      · exact posP a ha h

theorem rotateRight_layout {h h1 : Nat → Option (HNode α)} {xa ya : Nat} {xk yk : α}
    {xc yc : Color} {A B C : Node α} {p : Path α}
    (hc : Cells h (parentOf p) (Node.node ya yk yc (Node.node xa xk xc A B) C))
    (hp : PathCells h ya p)
    (hnd : (addrs (Node.node ya yk yc (Node.node xa xk xc A B) C) ++ pathAddrs p).Nodup)
    (hpos : ∀ a ∈ addrs (Node.node ya yk yc (Node.node xa xk xc A B) C) ++ pathAddrs p, 0 < a)
    (e1 : h1 ya = some ⟨yk, yc, addrOf B, addrOf C, xa⟩)
    (e2 : h1 xa = some ⟨xk, xc, addrOf A, ya, parentOf p⟩)
    (e3 : ∀ a k c l r, B = Node.node a k c l r → h1 a = some ⟨k, c, addrOf l, addrOf r, ya⟩)
    (e4 : HeadCell h1 xa p)
    (e5 : ∀ a, a ≠ xa → a ≠ ya → a ≠ addrOf B → a ≠ parentOf p → h1 a = h a) :
    Cells h1 (parentOf p) (Node.node xa xk xc A (Node.node ya yk yc B C)) ∧
      PathCells h1 xa p := by
  simp only [Cells] at hc
  obtain ⟨_, ⟨_, hA, hB⟩, hC⟩ := hc
  have hd := hnd
  simp only [addrs_node, List.append_assoc, List.cons_append, List.nodup_append,
    List.nodup_cons, List.mem_append, List.mem_cons, not_or, List.disjoint_cons_left,
    List.disjoint_cons_right, List.disjoint_append_left, List.disjoint_append_right] at hd
  have hBin : ∀ a, a = addrOf B → a ∈ addrs B ∨ a = 0 := by
    intro a ha
    cases B with
    | nil => exact Or.inr ha
    | node ba bk bc bl br => exact Or.inl (by simp [ha, addrOf, addrs_node])
  have hPin : ∀ a, a = parentOf p → a ∈ pathAddrs p ∨ a = 0 := by
    intro a ha
    cases p with
    | nil => exact Or.inr ha
    | cons f up => exact Or.inl (ha ▸ parentOf_mem (by simp))
  have posA : ∀ a ∈ addrs A, a ≠ 0 := fun a ha =>
    Nat.pos_iff_ne_zero.mp (hpos a (by simp [addrs_node, ha]))
  have posB : ∀ a ∈ addrs B, a ≠ 0 := fun a ha =>
    Nat.pos_iff_ne_zero.mp (hpos a (by simp [addrs_node, ha]))
  have posC : ∀ a ∈ addrs C, a ≠ 0 := fun a ha =>
    Nat.pos_iff_ne_zero.mp (hpos a (by simp [addrs_node, ha]))
  have posP : ∀ a ∈ pathAddrs p, a ≠ 0 := fun a ha =>
    Nat.pos_iff_ne_zero.mp (hpos a (by simp [ha]))
  obtain ⟨ndA, ⟨⟨xB, xy, xC, xP⟩, ndB, ⟨⟨yC, yP⟩, ndC, ndP, dCP⟩, yB, dBC, dBP⟩, xA, dAB, yA, dAC,
    dAP⟩ := hd
  refine ⟨⟨e2, ?_, ⟨e1, ?_, ?_⟩⟩, ?_⟩
  · refine cells_congr A xa hA (fun a ha => e5 a ?_ ?_ ?_ ?_)
    · intro e; subst e; exact xA ha
    · intro e; subst e; exact yA ha
    · intro e; rcases hBin a e with h | h
      · exact dAB ha h
      · exact posA a ha h
    · intro e; rcases hPin a e with h | h
      · exact dAP ha h
      · exact posA a ha h
  · refine cells_moved B xa ya hB ndB e3 (fun a ha hne => e5 a ?_ ?_ hne ?_)
    · intro e; subst e; exact xB ha
    · intro e; subst e; exact yB ha
    · intro e; rcases hPin a e with h | h
      · exact dBP ha h
      · exact posB a ha h
  · refine cells_congr C ya hC (fun a ha => e5 a ?_ ?_ ?_ ?_)
    · intro e; subst e; exact xC ha
    · intro e; subst e; exact yC ha
    · intro e; rcases hBin a e with h | h
      · exact dBC h ha
      · exact posC a ha h
    · intro e; rcases hPin a e with h | h
      · exact dCP ha h
      · exact posC a ha h
  · refine pathCells_moved p ya xa hp ndP e4 (fun a ha hne => e5 a ?_ ?_ ?_ hne)
    · intro e; subst e; exact xP ha
    · intro e; subst e; exact yP ha
    · intro e; rcases hBin a e with h | h
      · exact dBP h ha
      · exact posP a ha h

theorem addrOf_ne_of_not_mem {t : Node α} {a : Nat} (h0 : a ≠ 0) (h : a ∉ addrs t) :
    addrOf t ≠ a := by
  cases t with
  | nil => exact fun e => h0 e.symm
  | node b k c l r =>
    intro e
    exact h (by simp [addrs_node, ← e, addrOf])

theorem ne_of_mem_append {l1 l2 : List Nat} {a b : Nat} (h : (l1 ++ l2).Nodup) (ha : a ∈ l1)
    (hb : b ∈ l2) : a ≠ b := by
  intro e
  subst e
  exact List.disjoint_of_nodup_append h ha hb

theorem top_ne_left {a : Nat} {k : α} {c : Color} {l r : Node α} {b : Nat}
    (h : (addrs (Node.node a k c l r)).Nodup) (hb : b ∈ addrs l) : a ≠ b := by
  rw [addrs_node] at h
  exact (ne_of_mem_append h hb (List.mem_cons_self a _)).symm

theorem top_ne_right {a : Nat} {k : α} {c : Color} {l r : Node α} {b : Nat}
    (h : (addrs (Node.node a k c l r)).Nodup) (hb : b ∈ addrs r) : a ≠ b := by
  rw [addrs_node] at h
  have := (List.nodup_cons.mp (List.Nodup.of_append_right h)).1
  intro e
  subst e
  exact this hb

theorem nodup_left_sub {a : Nat} {k : α} {c : Color} {l r : Node α}
    (h : (addrs (Node.node a k c l r)).Nodup) : (addrs l).Nodup := by
  rw [addrs_node] at h
  exact List.Nodup.of_append_left h

theorem nodup_right_sub {a : Nat} {k : α} {c : Color} {l r : Node α}
    (h : (addrs (Node.node a k c l r)).Nodup) : (addrs r).Nodup := by
  rw [addrs_node] at h
  exact (List.nodup_cons.mp (List.Nodup.of_append_right h)).2

theorem hrotateLeft_cells {H : HTree α} {xa ya : Nat} {xk yk : α} {xc yc : Color}
    {A B C : Node α} {p : Path α}
    (hc : Cells H.heap (parentOf p) (Node.node xa xk xc A (Node.node ya yk yc B C)))
    (hp : PathCells H.heap xa p)
    (hnd : (addrs (Node.node xa xk xc A (Node.node ya yk yc B C)) ++ pathAddrs p).Nodup)
    (hpos : ∀ a ∈ addrs (Node.node xa xk xc A (Node.node ya yk yc B C)) ++ pathAddrs p, 0 < a) :
    ∃ H1, hrotateLeft xa H = Outcome.done H1 ∧ H1.size_ = H.size_ ∧
      H1.root_ = (if parentOf p = 0 then ya else H.root_) ∧
      H1.heap xa = some ⟨xk, xc, addrOf A, addrOf B, ya⟩ ∧
      H1.heap ya = some ⟨yk, yc, xa, addrOf C, parentOf p⟩ ∧
      (∀ a k c l r, B = Node.node a k c l r →
        H1.heap a = some ⟨k, c, addrOf l, addrOf r, xa⟩) ∧
      HeadCell H1.heap ya p ∧
      (∀ a, a ≠ xa → a ≠ ya → a ≠ addrOf B → a ≠ parentOf p → H1.heap a = H.heap a) ∧
      (∀ a, a ∉ addrs (Node.node xa xk xc A (Node.node ya yk yc B C)) ++ pathAddrs p → H1.heap a = H.heap a) := by
  have hxpos : xa ≠ 0 := Nat.pos_iff_ne_zero.mp (hpos xa (by simp [addrs_node]))
  have hypos : ya ≠ 0 := Nat.pos_iff_ne_zero.mp (hpos ya (by simp [addrs_node]))
  have hBpos : ∀ a ∈ addrs B, a ≠ 0 := fun a ha =>
    Nat.pos_iff_ne_zero.mp (hpos a (by simp [addrs_node, ha]))
  have hPpos : ∀ a ∈ pathAddrs p, a ≠ 0 := fun a ha =>
    Nat.pos_iff_ne_zero.mp (hpos a (by simp [ha]))
  have hX := List.Nodup.of_append_left hnd
  have hxy : xa ≠ ya := top_ne_right hX (by simp [addrs_node])
  simp only [Cells] at hc
  obtain ⟨hx, _, hy, hB, _⟩ := hc
  rcases B with _ | ⟨ba, bk, bc, bl, br⟩
  · rcases p with _ | ⟨⟨pa, pk, pc, pr⟩ | ⟨pa, pk, pc, pl⟩, up⟩
    · simp only [parentOf, addrOf] at hx hy ⊢
      refine ⟨_, by
        simp [hrotateLeft, HTree.node, HTree.setNode, Outcome.bind, Function.update,
          hx, hy, hxpos, hypos, hxy, hxy.symm]
        rfl, ?_⟩
      simp only [HeadCell]
      refine ⟨trivial, ?_, ?_, ?_, ?_, ?_, ?_, ?_⟩
      · simp [hx, hy, hxpos, hypos, hxy, hxy.symm]
      · simp [Function.update, hx, hy, hxpos, hypos, hxy, hxy.symm]
      · simp [Function.update, hx, hy, hxpos, hypos, hxy, hxy.symm]
      · rintro a k c l r ⟨⟩
      · simp [Function.update, hx, hy, hxpos, hypos, hxy, hxy.symm]
      · intro a h1 h2 _ _
        simp [Function.update, h1, h2]
      · intro a ha
        simp only [addrs_node, pathAddrs, List.mem_append, List.mem_cons, not_or] at ha
        simp [Function.update, ha]
    · simp only [PathCells] at hp
      have hpa := hp.1
      have hp0 : pa ≠ 0 := hPpos pa (by simp [pathAddrs])
      have hpx : pa ≠ xa :=
        (ne_of_mem_append hnd (by simp [addrs_node]) (by simp [pathAddrs])).symm
      have hpy : pa ≠ ya :=
        (ne_of_mem_append hnd (by simp [addrs_node]) (by simp [pathAddrs])).symm
      simp only [parentOf, addrOf] at hx hy ⊢
      refine ⟨_, by
        simp [hrotateLeft, HTree.node, HTree.setNode, Outcome.bind, Function.update,
          hx, hy, hxpos, hypos, hxy, hxy.symm, hpa, hp0, hpx, hpy, hpx.symm, hpy.symm]
        rfl, ?_⟩
      simp only [HeadCell]
      refine ⟨trivial, ?_, ?_, ?_, ?_, ?_, ?_, ?_⟩
      · simp [hx, hy, hxpos, hypos, hxy, hxy.symm, hpa, hp0, hpx, hpy, hpx.symm, hpy.symm]
      · simp [Function.update, hx, hy, hxpos, hypos, hxy, hxy.symm, hpa, hp0, hpx, hpy, hpx.symm, hpy.symm]
      · simp [Function.update, hx, hy, hxpos, hypos, hxy, hxy.symm, hpa, hp0, hpx, hpy, hpx.symm, hpy.symm]
      · rintro a k c l r ⟨⟩
      · simp [Function.update, hx, hy, hxpos, hypos, hxy, hxy.symm, hpa, hp0, hpx, hpy, hpx.symm, hpy.symm]
      · intro a h1 h2 _ h4
        simp [Function.update, h1, h2, h4]
      · intro a ha
        simp only [addrs_node, pathAddrs, List.mem_append, List.mem_cons, not_or] at ha
        simp [Function.update, ha]
    · simp only [PathCells] at hp
      have hpa := hp.1
      have hp0 : pa ≠ 0 := hPpos pa (by simp [pathAddrs])
      have hpx : pa ≠ xa :=
        (ne_of_mem_append hnd (by simp [addrs_node]) (by simp [pathAddrs])).symm
      have hpy : pa ≠ ya :=
        (ne_of_mem_append hnd (by simp [addrs_node]) (by simp [pathAddrs])).symm
      have hlx : addrOf pl ≠ xa := addrOf_ne_of_not_mem hxpos
        (fun h => @ne_of_mem_append _ _ xa xa hnd (by simp [addrs_node])
          (by simp [pathAddrs, h]) rfl)
      simp only [parentOf, addrOf] at hx hy ⊢
      refine ⟨_, by
        simp [hrotateLeft, HTree.node, HTree.setNode, Outcome.bind, Function.update,
          hx, hy, hxpos, hypos, hxy, hxy.symm, hpa, hp0, hpx, hpy, hpx.symm, hpy.symm, hlx]
        rfl, ?_⟩
      simp only [HeadCell]
      refine ⟨trivial, ?_, ?_, ?_, ?_, ?_, ?_, ?_⟩
      · simp [hx, hy, hxpos, hypos, hxy, hxy.symm, hpa, hp0, hpx, hpy, hpx.symm, hpy.symm, hlx]
      · simp [Function.update, hx, hy, hxpos, hypos, hxy, hxy.symm, hpa, hp0, hpx, hpy, hpx.symm, hpy.symm, hlx]
      · simp [Function.update, hx, hy, hxpos, hypos, hxy, hxy.symm, hpa, hp0, hpx, hpy, hpx.symm, hpy.symm, hlx]
      · rintro a k c l r ⟨⟩
      · simp [Function.update, hx, hy, hxpos, hypos, hxy, hxy.symm, hpa, hp0, hpx, hpy, hpx.symm, hpy.symm, hlx]
      · intro a h1 h2 _ h4
        simp [Function.update, h1, h2, h4]
      · intro a ha
        simp only [addrs_node, pathAddrs, List.mem_append, List.mem_cons, not_or] at ha
        simp [Function.update, ha]
  · simp only [Cells] at hB
    have hb := hB.1
    have hb0 : ba ≠ 0 := hBpos ba (by simp [addrs_node])
    have hbx : ba ≠ xa := (top_ne_right hX (by simp [addrs_node])).symm
    have hby : ba ≠ ya := (top_ne_left (nodup_right_sub hX) (by simp [addrs_node])).symm
    rcases p with _ | ⟨⟨pa, pk, pc, pr⟩ | ⟨pa, pk, pc, pl⟩, up⟩
    · simp only [parentOf, addrOf] at hx hy ⊢
      refine ⟨_, by
        simp [hrotateLeft, HTree.node, HTree.setNode, Outcome.bind, Function.update,
          hx, hy, hxpos, hypos, hxy, hxy.symm, hb, hb0, hbx, hby, hbx.symm, hby.symm]
        rfl, ?_⟩
      simp only [HeadCell]
      refine ⟨trivial, ?_, ?_, ?_, ?_, ?_, ?_, ?_⟩
      · simp [hx, hy, hxpos, hypos, hxy, hxy.symm, hb, hb0, hbx, hby, hbx.symm, hby.symm]
      · simp [Function.update, hx, hy, hxpos, hypos, hxy, hxy.symm, hb, hb0, hbx, hby, hbx.symm, hby.symm]
      · simp [Function.update, hx, hy, hxpos, hypos, hxy, hxy.symm, hb, hb0, hbx, hby, hbx.symm, hby.symm]
      · rintro a k c l r ⟨⟩
        simp [Function.update, addrOf, hx, hy, hxpos, hypos, hxy, hxy.symm, hb, hb0, hbx, hby, hbx.symm, hby.symm]
      · simp [Function.update, hx, hy, hxpos, hypos, hxy, hxy.symm, hb, hb0, hbx, hby, hbx.symm, hby.symm]
      · intro a h1 h2 h3 _
        simp [Function.update, h1, h2, h3]
      · intro a ha
        simp only [addrs_node, pathAddrs, List.mem_append, List.mem_cons, not_or] at ha
        simp [Function.update, ha]
    · simp only [PathCells] at hp
      have hpa := hp.1
      have hp0 : pa ≠ 0 := hPpos pa (by simp [pathAddrs])
      have hpx : pa ≠ xa :=
        (ne_of_mem_append hnd (by simp [addrs_node]) (by simp [pathAddrs])).symm
      have hpy : pa ≠ ya :=
        (ne_of_mem_append hnd (by simp [addrs_node]) (by simp [pathAddrs])).symm
      have hpb : pa ≠ ba :=
        (ne_of_mem_append hnd (by simp [addrs_node]) (by simp [pathAddrs])).symm
      simp only [parentOf, addrOf] at hx hy ⊢
      refine ⟨_, by
        simp [hrotateLeft, HTree.node, HTree.setNode, Outcome.bind, Function.update,
          hx, hy, hxpos, hypos, hxy, hxy.symm, hb, hb0, hbx, hby, hbx.symm, hby.symm, hpa, hp0, hpx, hpy, hpx.symm, hpy.symm, hpb, hpb.symm]
        rfl, ?_⟩
      simp only [HeadCell]
      refine ⟨trivial, ?_, ?_, ?_, ?_, ?_, ?_, ?_⟩
      · simp [hx, hy, hxpos, hypos, hxy, hxy.symm, hb, hb0, hbx, hby, hbx.symm, hby.symm, hpa, hp0, hpx, hpy, hpx.symm, hpy.symm, hpb, hpb.symm]
      · simp [Function.update, hx, hy, hxpos, hypos, hxy, hxy.symm, hb, hb0, hbx, hby, hbx.symm, hby.symm, hpa, hp0, hpx, hpy, hpx.symm, hpy.symm, hpb, hpb.symm]
      · simp [Function.update, hx, hy, hxpos, hypos, hxy, hxy.symm, hb, hb0, hbx, hby, hbx.symm, hby.symm, hpa, hp0, hpx, hpy, hpx.symm, hpy.symm, hpb, hpb.symm]
      · rintro a k c l r ⟨⟩
        simp [Function.update, addrOf, hx, hy, hxpos, hypos, hxy, hxy.symm, hb, hb0, hbx, hby, hbx.symm, hby.symm, hpa, hp0, hpx, hpy, hpx.symm, hpy.symm, hpb, hpb.symm]
      · simp [Function.update, hx, hy, hxpos, hypos, hxy, hxy.symm, hb, hb0, hbx, hby, hbx.symm, hby.symm, hpa, hp0, hpx, hpy, hpx.symm, hpy.symm, hpb, hpb.symm]
      · intro a h1 h2 h3 h4
        simp [Function.update, h1, h2, h3, h4]
      · intro a ha
        simp only [addrs_node, pathAddrs, List.mem_append, List.mem_cons, not_or] at ha
        simp [Function.update, ha]
    · simp only [PathCells] at hp
      have hpa := hp.1
      have hp0 : pa ≠ 0 := hPpos pa (by simp [pathAddrs])
      have hpx : pa ≠ xa :=
        (ne_of_mem_append hnd (by simp [addrs_node]) (by simp [pathAddrs])).symm
      have hpy : pa ≠ ya :=
        (ne_of_mem_append hnd (by simp [addrs_node]) (by simp [pathAddrs])).symm
      have hpb : pa ≠ ba :=
        (ne_of_mem_append hnd (by simp [addrs_node]) (by simp [pathAddrs])).symm
      have hlx : addrOf pl ≠ xa := addrOf_ne_of_not_mem hxpos
        (fun h => @ne_of_mem_append _ _ xa xa hnd (by simp [addrs_node])
          (by simp [pathAddrs, h]) rfl)
      simp only [parentOf, addrOf] at hx hy ⊢
      refine ⟨_, by
        simp [hrotateLeft, HTree.node, HTree.setNode, Outcome.bind, Function.update,
          hx, hy, hxpos, hypos, hxy, hxy.symm, hb, hb0, hbx, hby, hbx.symm, hby.symm, hpa, hp0, hpx, hpy, hpx.symm, hpy.symm, hpb, hpb.symm, hlx]
        rfl, ?_⟩
      simp only [HeadCell]
      refine ⟨trivial, ?_, ?_, ?_, ?_, ?_, ?_, ?_⟩
      · simp [hx, hy, hxpos, hypos, hxy, hxy.symm, hb, hb0, hbx, hby, hbx.symm, hby.symm, hpa, hp0, hpx, hpy, hpx.symm, hpy.symm, hpb, hpb.symm, hlx]
      · simp [Function.update, hx, hy, hxpos, hypos, hxy, hxy.symm, hb, hb0, hbx, hby, hbx.symm, hby.symm, hpa, hp0, hpx, hpy, hpx.symm, hpy.symm, hpb, hpb.symm, hlx]
      · simp [Function.update, hx, hy, hxpos, hypos, hxy, hxy.symm, hb, hb0, hbx, hby, hbx.symm, hby.symm, hpa, hp0, hpx, hpy, hpx.symm, hpy.symm, hpb, hpb.symm, hlx]
      · rintro a k c l r ⟨⟩
        simp [Function.update, addrOf, hx, hy, hxpos, hypos, hxy, hxy.symm, hb, hb0, hbx, hby, hbx.symm, hby.symm, hpa, hp0, hpx, hpy, hpx.symm, hpy.symm, hpb, hpb.symm, hlx]
      · simp [Function.update, hx, hy, hxpos, hypos, hxy, hxy.symm, hb, hb0, hbx, hby, hbx.symm, hby.symm, hpa, hp0, hpx, hpy, hpx.symm, hpy.symm, hpb, hpb.symm, hlx]
      · intro a h1 h2 h3 h4
        simp [Function.update, h1, h2, h3, h4]
      · intro a ha
        simp only [addrs_node, pathAddrs, List.mem_append, List.mem_cons, not_or] at ha
        simp [Function.update, ha]

theorem hrotateRight_cells {H : HTree α} {xa ya : Nat} {xk yk : α} {xc yc : Color}
    {A B C : Node α} {p : Path α}
    (hc : Cells H.heap (parentOf p) (Node.node ya yk yc (Node.node xa xk xc A B) C))
    (hp : PathCells H.heap ya p)
    (hnd : (addrs (Node.node ya yk yc (Node.node xa xk xc A B) C) ++ pathAddrs p).Nodup)
    (hpos : ∀ a ∈ addrs (Node.node ya yk yc (Node.node xa xk xc A B) C) ++ pathAddrs p, 0 < a) :
    ∃ H1, hrotateRight ya H = Outcome.done H1 ∧ H1.size_ = H.size_ ∧
      H1.root_ = (if parentOf p = 0 then xa else H.root_) ∧
      H1.heap ya = some ⟨yk, yc, addrOf B, addrOf C, xa⟩ ∧
      H1.heap xa = some ⟨xk, xc, addrOf A, ya, parentOf p⟩ ∧
      (∀ a k c l r, B = Node.node a k c l r →
        H1.heap a = some ⟨k, c, addrOf l, addrOf r, ya⟩) ∧
      HeadCell H1.heap xa p ∧
      (∀ a, a ≠ xa → a ≠ ya → a ≠ addrOf B → a ≠ parentOf p → H1.heap a = H.heap a) ∧
      (∀ a, a ∉ addrs (Node.node ya yk yc (Node.node xa xk xc A B) C) ++ pathAddrs p → H1.heap a = H.heap a) := by
  have hxpos : xa ≠ 0 := Nat.pos_iff_ne_zero.mp (hpos xa (by simp [addrs_node]))
  have hypos : ya ≠ 0 := Nat.pos_iff_ne_zero.mp (hpos ya (by simp [addrs_node]))
  have hBpos : ∀ a ∈ addrs B, a ≠ 0 := fun a ha =>
    Nat.pos_iff_ne_zero.mp (hpos a (by simp [addrs_node, ha]))
  have hPpos : ∀ a ∈ pathAddrs p, a ≠ 0 := fun a ha =>
    Nat.pos_iff_ne_zero.mp (hpos a (by simp [ha]))
  have hX := List.Nodup.of_append_left hnd
  have hxy : xa ≠ ya := (top_ne_left hX (by simp [addrs_node])).symm
  simp only [Cells] at hc
  obtain ⟨hy, ⟨hx, _, hB⟩, _⟩ := hc
  rcases B with _ | ⟨ba, bk, bc, bl, br⟩
  · rcases p with _ | ⟨⟨pa, pk, pc, pr⟩ | ⟨pa, pk, pc, pl⟩, up⟩
    · simp only [parentOf, addrOf] at hx hy ⊢
      refine ⟨_, by
        simp [hrotateRight, HTree.node, HTree.setNode, Outcome.bind, Function.update,
          hx, hy, hxpos, hypos, hxy, hxy.symm]
        rfl, ?_⟩
      simp only [HeadCell]
      refine ⟨trivial, ?_, ?_, ?_, ?_, ?_, ?_, ?_⟩
      · simp [hx, hy, hxpos, hypos, hxy, hxy.symm]
      · simp [Function.update, hx, hy, hxpos, hypos, hxy, hxy.symm]
      · simp [Function.update, hx, hy, hxpos, hypos, hxy, hxy.symm]
      · rintro a k c l r ⟨⟩
      · simp [Function.update, hx, hy, hxpos, hypos, hxy, hxy.symm]
      · intro a h1 h2 _ _
        simp [Function.update, h1, h2]
      · intro a ha
        simp only [addrs_node, pathAddrs, List.mem_append, List.mem_cons, not_or] at ha
        simp [Function.update, ha]
    · simp only [PathCells] at hp
      have hpa := hp.1
      have hp0 : pa ≠ 0 := hPpos pa (by simp [pathAddrs])
      have hpx : pa ≠ xa :=
        (ne_of_mem_append hnd (by simp [addrs_node]) (by simp [pathAddrs])).symm
      have hpy : pa ≠ ya :=
        (ne_of_mem_append hnd (by simp [addrs_node]) (by simp [pathAddrs])).symm
      simp only [parentOf, addrOf] at hx hy ⊢
      refine ⟨_, by
        simp [hrotateRight, HTree.node, HTree.setNode, Outcome.bind, Function.update,
          hx, hy, hxpos, hypos, hxy, hxy.symm, hpa, hp0, hpx, hpy, hpx.symm, hpy.symm]
        rfl, ?_⟩
      simp only [HeadCell]
      refine ⟨trivial, ?_, ?_, ?_, ?_, ?_, ?_, ?_⟩
      · simp [hx, hy, hxpos, hypos, hxy, hxy.symm, hpa, hp0, hpx, hpy, hpx.symm, hpy.symm]
      · simp [Function.update, hx, hy, hxpos, hypos, hxy, hxy.symm, hpa, hp0, hpx, hpy, hpx.symm, hpy.symm]
      · simp [Function.update, hx, hy, hxpos, hypos, hxy, hxy.symm, hpa, hp0, hpx, hpy, hpx.symm, hpy.symm]
      · rintro a k c l r ⟨⟩
      · simp [Function.update, hx, hy, hxpos, hypos, hxy, hxy.symm, hpa, hp0, hpx, hpy, hpx.symm, hpy.symm]
      · intro a h1 h2 _ h4
        simp [Function.update, h1, h2, h4]
      · intro a ha
        simp only [addrs_node, pathAddrs, List.mem_append, List.mem_cons, not_or] at ha
        simp [Function.update, ha]
    · simp only [PathCells] at hp
      have hpa := hp.1
      have hp0 : pa ≠ 0 := hPpos pa (by simp [pathAddrs])
      have hpx : pa ≠ xa :=
        (ne_of_mem_append hnd (by simp [addrs_node]) (by simp [pathAddrs])).symm
      have hpy : pa ≠ ya :=
        (ne_of_mem_append hnd (by simp [addrs_node]) (by simp [pathAddrs])).symm
      have hlx : addrOf pl ≠ ya := addrOf_ne_of_not_mem hypos
        (fun h => @ne_of_mem_append _ _ ya ya hnd (by simp [addrs_node])
          (by simp [pathAddrs, h]) rfl)
      simp only [parentOf, addrOf] at hx hy ⊢
      refine ⟨_, by
        simp [hrotateRight, HTree.node, HTree.setNode, Outcome.bind, Function.update,
          hx, hy, hxpos, hypos, hxy, hxy.symm, hpa, hp0, hpx, hpy, hpx.symm, hpy.symm, hlx]
        rfl, ?_⟩
      simp only [HeadCell]
      refine ⟨trivial, ?_, ?_, ?_, ?_, ?_, ?_, ?_⟩
      · simp [hx, hy, hxpos, hypos, hxy, hxy.symm, hpa, hp0, hpx, hpy, hpx.symm, hpy.symm, hlx]
      · simp [Function.update, hx, hy, hxpos, hypos, hxy, hxy.symm, hpa, hp0, hpx, hpy, hpx.symm, hpy.symm, hlx]
      · simp [Function.update, hx, hy, hxpos, hypos, hxy, hxy.symm, hpa, hp0, hpx, hpy, hpx.symm, hpy.symm, hlx]
      · rintro a k c l r ⟨⟩
      · simp [Function.update, hx, hy, hxpos, hypos, hxy, hxy.symm, hpa, hp0, hpx, hpy, hpx.symm, hpy.symm, hlx]
      · intro a h1 h2 _ h4
        simp [Function.update, h1, h2, h4]
      · intro a ha
        simp only [addrs_node, pathAddrs, List.mem_append, List.mem_cons, not_or] at ha
        simp [Function.update, ha]
  · simp only [Cells] at hB
    have hb := hB.1
    have hb0 : ba ≠ 0 := hBpos ba (by simp [addrs_node])
    have hbx : ba ≠ xa := (top_ne_right (nodup_left_sub hX) (by simp [addrs_node])).symm
    have hby : ba ≠ ya := (top_ne_left hX (by simp [addrs_node])).symm
    rcases p with _ | ⟨⟨pa, pk, pc, pr⟩ | ⟨pa, pk, pc, pl⟩, up⟩
    · simp only [parentOf, addrOf] at hx hy ⊢
      refine ⟨_, by
        simp [hrotateRight, HTree.node, HTree.setNode, Outcome.bind, Function.update,
          hx, hy, hxpos, hypos, hxy, hxy.symm, hb, hb0, hbx, hby, hbx.symm, hby.symm]
        rfl, ?_⟩
      simp only [HeadCell]
      refine ⟨trivial, ?_, ?_, ?_, ?_, ?_, ?_, ?_⟩
      · simp [hx, hy, hxpos, hypos, hxy, hxy.symm, hb, hb0, hbx, hby, hbx.symm, hby.symm]
      · simp [Function.update, hx, hy, hxpos, hypos, hxy, hxy.symm, hb, hb0, hbx, hby, hbx.symm, hby.symm]
      · simp [Function.update, hx, hy, hxpos, hypos, hxy, hxy.symm, hb, hb0, hbx, hby, hbx.symm, hby.symm]
      · rintro a k c l r ⟨⟩
        simp [Function.update, addrOf, hx, hy, hxpos, hypos, hxy, hxy.symm, hb, hb0, hbx, hby, hbx.symm, hby.symm]
      · simp [Function.update, hx, hy, hxpos, hypos, hxy, hxy.symm, hb, hb0, hbx, hby, hbx.symm, hby.symm]
      · intro a h1 h2 h3 _
        simp [Function.update, h1, h2, h3]
      · intro a ha
        simp only [addrs_node, pathAddrs, List.mem_append, List.mem_cons, not_or] at ha
        simp [Function.update, ha]
    · simp only [PathCells] at hp
      have hpa := hp.1
      have hp0 : pa ≠ 0 := hPpos pa (by simp [pathAddrs])
      have hpx : pa ≠ xa :=
        (ne_of_mem_append hnd (by simp [addrs_node]) (by simp [pathAddrs])).symm
      have hpy : pa ≠ ya :=
        (ne_of_mem_append hnd (by simp [addrs_node]) (by simp [pathAddrs])).symm
      have hpb : pa ≠ ba :=
        (ne_of_mem_append hnd (by simp [addrs_node]) (by simp [pathAddrs])).symm
      simp only [parentOf, addrOf] at hx hy ⊢
      refine ⟨_, by
        simp [hrotateRight, HTree.node, HTree.setNode, Outcome.bind, Function.update,
          hx, hy, hxpos, hypos, hxy, hxy.symm, hb, hb0, hbx, hby, hbx.symm, hby.symm, hpa, hp0, hpx, hpy, hpx.symm, hpy.symm, hpb, hpb.symm]
        rfl, ?_⟩
      simp only [HeadCell]
      refine ⟨trivial, ?_, ?_, ?_, ?_, ?_, ?_, ?_⟩
      · simp [hx, hy, hxpos, hypos, hxy, hxy.symm, hb, hb0, hbx, hby, hbx.symm, hby.symm, hpa, hp0, hpx, hpy, hpx.symm, hpy.symm, hpb, hpb.symm]
      · simp [Function.update, hx, hy, hxpos, hypos, hxy, hxy.symm, hb, hb0, hbx, hby, hbx.symm, hby.symm, hpa, hp0, hpx, hpy, hpx.symm, hpy.symm, hpb, hpb.symm]
      · simp [Function.update, hx, hy, hxpos, hypos, hxy, hxy.symm, hb, hb0, hbx, hby, hbx.symm, hby.symm, hpa, hp0, hpx, hpy, hpx.symm, hpy.symm, hpb, hpb.symm]
      · rintro a k c l r ⟨⟩
        simp [Function.update, addrOf, hx, hy, hxpos, hypos, hxy, hxy.symm, hb, hb0, hbx, hby, hbx.symm, hby.symm, hpa, hp0, hpx, hpy, hpx.symm, hpy.symm, hpb, hpb.symm]
      · simp [Function.update, hx, hy, hxpos, hypos, hxy, hxy.symm, hb, hb0, hbx, hby, hbx.symm, hby.symm, hpa, hp0, hpx, hpy, hpx.symm, hpy.symm, hpb, hpb.symm]
      · intro a h1 h2 h3 h4
        simp [Function.update, h1, h2, h3, h4]
      · intro a ha
        simp only [addrs_node, pathAddrs, List.mem_append, List.mem_cons, not_or] at ha
        simp [Function.update, ha]
    · simp only [PathCells] at hp
      have hpa := hp.1
      have hp0 : pa ≠ 0 := hPpos pa (by simp [pathAddrs])
      have hpx : pa ≠ xa :=
        (ne_of_mem_append hnd (by simp [addrs_node]) (by simp [pathAddrs])).symm
      have hpy : pa ≠ ya :=
        (ne_of_mem_append hnd (by simp [addrs_node]) (by simp [pathAddrs])).symm
      have hpb : pa ≠ ba :=
        (ne_of_mem_append hnd (by simp [addrs_node]) (by simp [pathAddrs])).symm
      have hlx : addrOf pl ≠ ya := addrOf_ne_of_not_mem hypos
        (fun h => @ne_of_mem_append _ _ ya ya hnd (by simp [addrs_node])
          (by simp [pathAddrs, h]) rfl)
      simp only [parentOf, addrOf] at hx hy ⊢
      refine ⟨_, by
        simp [hrotateRight, HTree.node, HTree.setNode, Outcome.bind, Function.update,
          hx, hy, hxpos, hypos, hxy, hxy.symm, hb, hb0, hbx, hby, hbx.symm, hby.symm, hpa, hp0, hpx, hpy, hpx.symm, hpy.symm, hpb, hpb.symm, hlx]
        rfl, ?_⟩
      simp only [HeadCell]
      refine ⟨trivial, ?_, ?_, ?_, ?_, ?_, ?_, ?_⟩
      · simp [hx, hy, hxpos, hypos, hxy, hxy.symm, hb, hb0, hbx, hby, hbx.symm, hby.symm, hpa, hp0, hpx, hpy, hpx.symm, hpy.symm, hpb, hpb.symm, hlx]
      · simp [Function.update, hx, hy, hxpos, hypos, hxy, hxy.symm, hb, hb0, hbx, hby, hbx.symm, hby.symm, hpa, hp0, hpx, hpy, hpx.symm, hpy.symm, hpb, hpb.symm, hlx]
      · simp [Function.update, hx, hy, hxpos, hypos, hxy, hxy.symm, hb, hb0, hbx, hby, hbx.symm, hby.symm, hpa, hp0, hpx, hpy, hpx.symm, hpy.symm, hpb, hpb.symm, hlx]
      · rintro a k c l r ⟨⟩
        simp [Function.update, addrOf, hx, hy, hxpos, hypos, hxy, hxy.symm, hb, hb0, hbx, hby, hbx.symm, hby.symm, hpa, hp0, hpx, hpy, hpx.symm, hpy.symm, hpb, hpb.symm, hlx]
      · simp [Function.update, hx, hy, hxpos, hypos, hxy, hxy.symm, hb, hb0, hbx, hby, hbx.symm, hby.symm, hpa, hp0, hpx, hpy, hpx.symm, hpy.symm, hpb, hpb.symm, hlx]
      · intro a h1 h2 h3 h4
        simp [Function.update, h1, h2, h3, h4]
      · intro a ha
        simp only [addrs_node, pathAddrs, List.mem_append, List.mem_cons, not_or] at ha
        simp [Function.update, ha]

/-- `rotateLeft(x)` on a laid-out tree: it completes, and the heap lays out
the rotated tree. -/
theorem lay_rotateLeft {H : HTree α} {xa ya : Nat} {xk yk : α} {xc yc : Color}
    {A B C : Node α} {p : Path α}
    (h : Lay H (zipUp (Node.node xa xk xc A (Node.node ya yk yc B C)) p)) :
    ∃ H1, hrotateLeft xa H = Outcome.done H1 ∧
      Lay H1 (zipUp (Node.node ya yk yc (Node.node xa xk xc A B) C) p) ∧
      H1.size_ = H.size_ ∧
      ∀ b, b ∉ addrs (zipUp (Node.node xa xk xc A (Node.node ya yk yc B C)) p) →
        H1.heap b = H.heap b := by
  obtain ⟨h1, h2, h3, h4, h5⟩ := lay_parts h
  obtain ⟨H1, e, hs, hr, e1, e2, e3, e4, e5, e6⟩ := hrotateLeft_cells h1 h2 h4 h5
  have hlay := rotateLeft_layout h1 h2 h4 h5 e1 e2 e3 e4 e5
  have hadd : addrs (Node.node ya yk yc (Node.node xa xk xc A B) C) =
      addrs (Node.node xa xk xc A (Node.node ya yk yc B C)) := by simp [addrs_node]
  refine ⟨H1, e, lay_of_parts hlay.1 hlay.2 ?_ (by rw [hadd]; exact h4)
    (by rw [hadd]; exact h5), hs, ?_⟩
  · rw [hr]
    cases p with
    | nil => simp [parentOf, rootAddr, addrOf]
    | cons f up =>
      have hp0 : parentOf (f :: up) ≠ 0 :=
        Nat.pos_iff_ne_zero.mp (h5 _ (List.mem_append_right _ (parentOf_mem (by simp))))
      rw [if_neg hp0, h3]
      rfl
  · intro b hb
    exact e6 b (fun hm => hb (mem_addrs_zipUp.mpr (List.mem_append.mp hm)))

/-- `rotateRight(y)` on a laid-out tree: it completes, and the heap lays out
the rotated tree. -/
theorem lay_rotateRight {H : HTree α} {xa ya : Nat} {xk yk : α} {xc yc : Color}
    {A B C : Node α} {p : Path α}
    (h : Lay H (zipUp (Node.node ya yk yc (Node.node xa xk xc A B) C) p)) :
    ∃ H1, hrotateRight ya H = Outcome.done H1 ∧
      Lay H1 (zipUp (Node.node xa xk xc A (Node.node ya yk yc B C)) p) ∧
      H1.size_ = H.size_ ∧
      ∀ b, b ∉ addrs (zipUp (Node.node ya yk yc (Node.node xa xk xc A B) C) p) →
        H1.heap b = H.heap b := by
  obtain ⟨h1, h2, h3, h4, h5⟩ := lay_parts h
  obtain ⟨H1, e, hs, hr, e1, e2, e3, e4, e5, e6⟩ := hrotateRight_cells h1 h2 h4 h5
  have hlay := rotateRight_layout h1 h2 h4 h5 e1 e2 e3 e4 e5
  have hadd : addrs (Node.node xa xk xc A (Node.node ya yk yc B C)) =
      addrs (Node.node ya yk yc (Node.node xa xk xc A B) C) := by simp [addrs_node]
  refine ⟨H1, e, lay_of_parts hlay.1 hlay.2 ?_ (by rw [hadd]; exact h4)
    (by rw [hadd]; exact h5), hs, ?_⟩
  · rw [hr]
    cases p with
    | nil => simp [parentOf, rootAddr, addrOf]
    | cons f up =>
      have hp0 : parentOf (f :: up) ≠ 0 :=
        Nat.pos_iff_ne_zero.mp (h5 _ (List.mem_append_right _ (parentOf_mem (by simp))))
      rw [if_neg hp0, h3]
      rfl
  · intro b hb
    exact e6 b (fun hm => hb (mem_addrs_zipUp.mpr (List.mem_append.mp hm)))

/-- Every node of a tree is the focus of some position in it. -/
theorem exists_focus {a : Nat} : ∀ {W : Node α}, a ∈ addrs W →
    ∃ k c l r p, W = zipUp (Node.node a k c l r) p := by
  intro W
  induction W with
  | nil => intro h; simp [addrs_nil] at h
  | node b k c l r ihl ihr =>
    intro h
    simp only [addrs_node, List.mem_append, List.mem_cons] at h
    rcases h with h | h | h
    · obtain ⟨k1, c1, l1, r1, p, e⟩ := ihl h
      exact ⟨k1, c1, l1, r1, p ++ [Frame.L b k c r], by rw [zipUp_append, ← e]; rfl⟩
    · subst h
      exact ⟨k, c, l, r, [], rfl⟩
    · obtain ⟨k1, c1, l1, r1, p, e⟩ := ihr h
      exact ⟨k1, c1, l1, r1, p ++ [Frame.R b k c l], by rw [zipUp_append, ← e]; rfl⟩

theorem addrOf_null_or_mem (t : Node α) : addrOf t = 0 ∨ addrOf t ∈ addrs t := by
  cases t with
  | nil => exact Or.inl rfl
  | node a k c l r => exact Or.inr (by simp [addrOf, addrs_node])

theorem parentOf_null_or_mem (p : Path α) : parentOf p = 0 ∨ parentOf p ∈ pathAddrs p := by
  cases p with
  | nil => exact Or.inl rfl
  | cons f up => exact Or.inr (parentOf_mem (by simp))

/-- The fields of a node of the tree: reading it succeeds, and each of its
pointers is null or designates a node of the tree. -/
theorem held_node {S : List Nat} {H0 H : HTree α} (h : Held S H0 H) {a : Nat} (ha : a ∈ S) :
    ∃ n, H.node a = Outcome.done n ∧ H.heap a = some n ∧ (n.left = 0 ∨ n.left ∈ S) ∧
      (n.right = 0 ∨ n.right ∈ S) ∧ (n.parent = 0 ∨ n.parent ∈ S) := by
  obtain ⟨W, hl, hm, _⟩ := h
  obtain ⟨k, c, l, r, p, e⟩ := exists_focus ((hm a).mpr ha)
  subst e
  have hn := lay_node hl
  have hc := (lay_parts hl).1
  simp only [Cells] at hc
  refine ⟨_, hn.1, hc.1, ?_, ?_, ?_⟩
  · rcases addrOf_null_or_mem l with h0 | h0
    · exact Or.inl h0
    · exact Or.inr ((hm _).mp (mem_addrs_zipUp.mpr (Or.inl (by simp [addrs_node, h0]))))
  · rcases addrOf_null_or_mem r with h0 | h0
    · exact Or.inl h0
    · exact Or.inr ((hm _).mp (mem_addrs_zipUp.mpr (Or.inl (by simp [addrs_node, h0]))))
  · rcases parentOf_null_or_mem p with h0 | h0
    · exact Or.inl h0
    · exact Or.inr ((hm _).mp (mem_addrs_zipUp.mpr (Or.inr h0)))

theorem held_root {S : List Nat} {H0 H : HTree α} (h : Held S H0 H) :
    H.root_ = 0 ∨ H.root_ ∈ S := by
  obtain ⟨W, hl, hm, _⟩ := h
  rw [hl.2.1]
  rcases addrOf_null_or_mem W with h0 | h0
  · exact Or.inl h0
  · exact Or.inr ((hm _).mp h0)

theorem node_null (H : HTree α) : H.node 0 = Outcome.nullDeref := by
  simp [HTree.node]

theorem bind_eq_done {σ ρ : Type} {o : Outcome σ} {f : σ → Outcome ρ} {r : ρ}
    (h : o.bind f = Outcome.done r) : ∃ s, o = Outcome.done s ∧ f s = Outcome.done r := by
  cases o with
  | done s => exact ⟨s, rfl, h⟩
  | nullDeref => cases h
  | outOfFuel => cases h

theorem null_write_fails {H H1 : HTree α} {f : HNode α → Outcome (HTree α)}
    (e : (H.node 0).bind f = Outcome.done H1) : False := by
  rw [node_null] at e
  cases e

theorem held_setColor {S : List Nat} {H0 H H1 : HTree α} (h : Held S H0 H) {a : Nat}
    {c1 : Color} (ha : a = 0 ∨ a ∈ S) (e : H.setColor a c1 = Outcome.done H1) :
    Held S H0 H1 ∧ H1.root_ = H.root_ := by
  rcases ha with ha | ha
  · subst ha
    exact (null_write_fails e).elim
  · obtain ⟨W, hl, hm, hf⟩ := h
    obtain ⟨k, c, l, r, p, e1⟩ := exists_focus ((hm a).mpr ha)
    subst e1
    obtain ⟨H2, e2, hl2, _, hr2, hf2⟩ := lay_setColor c1 hl
    rw [e2] at e
    cases e
    refine ⟨⟨_, hl2, ?_, ?_⟩, hr2⟩
    · intro b
      rw [← hm b, mem_addrs_zipUp, mem_addrs_zipUp]
      simp [addrs_node]
    · intro b hb
      rw [hf2 b (fun hb1 => hb ((hm b).mp hb1)), hf b hb]

theorem held_setKey {S : List Nat} {H0 H H1 : HTree α} (h : Held S H0 H) {a : Nat}
    {k1 : α} (ha : a = 0 ∨ a ∈ S) (e : H.setKey a k1 = Outcome.done H1) :
    Held S H0 H1 ∧ H1.root_ = H.root_ := by
  rcases ha with ha | ha
  · subst ha
    exact (null_write_fails e).elim
  · obtain ⟨W, hl, hm, hf⟩ := h
    obtain ⟨k, c, l, r, p, e1⟩ := exists_focus ((hm a).mpr ha)
    subst e1
    obtain ⟨H2, e2, hl2, _, hr2, hf2⟩ := lay_setKey k1 hl
    rw [e2] at e
    cases e
    refine ⟨⟨_, hl2, ?_, ?_⟩, hr2⟩
    · intro b
      rw [← hm b, mem_addrs_zipUp, mem_addrs_zipUp]
      simp [addrs_node]
    · intro b hb
      rw [hf2 b (fun hb1 => hb ((hm b).mp hb1)), hf b hb]

theorem held_rotateLeft {S : List Nat} {H0 H H1 : HTree α} (h : Held S H0 H) {a : Nat}
    (ha : a = 0 ∨ a ∈ S) (e : hrotateLeft a H = Outcome.done H1) : Held S H0 H1 := by
  rcases ha with ha | ha
  · subst ha
    exact (null_write_fails e).elim
  · obtain ⟨W, hl, hm, hf⟩ := h
    obtain ⟨k, c, l, r, p, e1⟩ := exists_focus ((hm a).mpr ha)
    subst e1
    cases r with
    | nil =>
      exfalso
      simp [hrotateLeft, (lay_node hl).1, Outcome.bind, addrOf, node_null] at e
    | node ya yk yc B C =>
      obtain ⟨H2, e2, hl2, _, hf2⟩ := lay_rotateLeft hl
      rw [e2] at e
      cases e
      refine ⟨_, hl2, ?_, ?_⟩
      · intro b
        rw [← hm b, mem_addrs_zipUp, mem_addrs_zipUp]
        simp only [addrs_node, List.mem_append, List.mem_cons]
        tauto
      · intro b hb
        rw [hf2 b (fun hb1 => hb ((hm b).mp hb1)), hf b hb]

theorem held_rotateRight {S : List Nat} {H0 H H1 : HTree α} (h : Held S H0 H) {a : Nat}
    (ha : a = 0 ∨ a ∈ S) (e : hrotateRight a H = Outcome.done H1) : Held S H0 H1 := by
  rcases ha with ha | ha
  · subst ha
    exact (null_write_fails e).elim
  · obtain ⟨W, hl, hm, hf⟩ := h
    obtain ⟨k, c, l, r, p, e1⟩ := exists_focus ((hm a).mpr ha)
    subst e1
    cases l with
    | nil =>
      exfalso
      simp [hrotateRight, (lay_node hl).1, Outcome.bind, addrOf, node_null] at e
    | node xa xk xc A B =>
      obtain ⟨H2, e2, hl2, _, hf2⟩ := lay_rotateRight hl
      rw [e2] at e
      cases e
      refine ⟨_, hl2, ?_, ?_⟩
      · intro b
        rw [← hm b, mem_addrs_zipUp, mem_addrs_zipUp]
        simp only [addrs_node, List.mem_append, List.mem_cons]
        tauto
      · intro b hb
        rw [hf2 b (fun hb1 => hb ((hm b).mp hb1)), hf b hb]

theorem held_insertFixupStep {S : List Nat} {H0 H H1 : HTree α} (h : Held S H0 H) {z : Nat}
    (hz : z ∈ S) {o : Option Nat} (e : hinsertFixupStep z H = Outcome.done (o, H1)) :
    Held S H0 H1 ∧ ∀ z1, o = some z1 → z1 ∈ S := by
  unfold hinsertFixupStep at e
  obtain ⟨zn, hzn, -, -, -, hzp⟩ := held_node h hz
  rw [hzn] at e
  simp only [Outcome.bind] at e
  split at e
  · cases e
    exact ⟨h, by simp⟩
  · rename_i hp0
    have hpar : zn.parent ∈ S := hzp.resolve_left hp0
    obtain ⟨pn, hpn, -, -, -, hpp⟩ := held_node h hpar
    rw [hpn] at e
    simp only [Outcome.bind] at e
    split at e
    · cases e
      exact ⟨h, by simp⟩
    · split at e
      · cases e
        exact ⟨h, by simp⟩
      · rename_i hg0
        have hg : pn.parent ∈ S := hpp.resolve_left hg0
        obtain ⟨gn, hgn, -, hgl, hgr, -⟩ := held_node h hg
        rw [hgn] at e
        simp only [Outcome.bind] at e
        split at e
        · obtain ⟨yred, -, e⟩ := bind_eq_done e
          split at e
          · obtain ⟨H2, e2, e⟩ := bind_eq_done e
            obtain ⟨H3, e3, e⟩ := bind_eq_done e
            obtain ⟨H4, e4, e⟩ := bind_eq_done e
            cases e
            have h2 := (held_setColor h (Or.inr hpar) e2).1
            have h3 := (held_setColor h2 hgr e3).1
            have h4 := (held_setColor h3 (Or.inr hg) e4).1
            exact ⟨h4, by intro z1 hz1; cases hz1; exact hg⟩
          · obtain ⟨s, es, e⟩ := bind_eq_done e
            obtain ⟨H2, e2, e⟩ := bind_eq_done e
            obtain ⟨H3, e3, e⟩ := bind_eq_done e
            obtain ⟨H4, e4, e⟩ := bind_eq_done e
            cases e
            have hs : Held S H0 s.2 ∧ s.1 ∈ S := by
              split at es
              · obtain ⟨H5, e5, es⟩ := bind_eq_done es
                cases es
                exact ⟨held_rotateLeft h (Or.inr hpar) e5, hpar⟩
              · cases es
                exact ⟨h, hz⟩
            have h2 := (held_setColor hs.1 (Or.inr hpar) e2).1
            have h3 := (held_setColor h2 (Or.inr hg) e3).1
            have h4 := held_rotateRight h3 (Or.inr hg) e4
            exact ⟨h4, by intro z1 hz1; cases hz1; exact hs.2⟩
        · obtain ⟨yred, -, e⟩ := bind_eq_done e
          split at e
          · obtain ⟨H2, e2, e⟩ := bind_eq_done e
            obtain ⟨H3, e3, e⟩ := bind_eq_done e
            obtain ⟨H4, e4, e⟩ := bind_eq_done e
            cases e
            have h2 := (held_setColor h (Or.inr hpar) e2).1
            have h3 := (held_setColor h2 hgl e3).1
            have h4 := (held_setColor h3 (Or.inr hg) e4).1
            exact ⟨h4, by intro z1 hz1; cases hz1; exact hg⟩
          · obtain ⟨s, es, e⟩ := bind_eq_done e
            obtain ⟨H2, e2, e⟩ := bind_eq_done e
            obtain ⟨H3, e3, e⟩ := bind_eq_done e
            obtain ⟨H4, e4, e⟩ := bind_eq_done e
            cases e
            have hs : Held S H0 s.2 ∧ s.1 ∈ S := by
              split at es
              · obtain ⟨H5, e5, es⟩ := bind_eq_done es
                cases es
                exact ⟨held_rotateRight h (Or.inr hpar) e5, hpar⟩
              · cases es
                exact ⟨h, hz⟩
            have h2 := (held_setColor hs.1 (Or.inr hpar) e2).1
            have h3 := (held_setColor h2 (Or.inr hg) e3).1
            have h4 := held_rotateLeft h3 (Or.inr hg) e4
            exact ⟨h4, by intro z1 hz1; cases hz1; exact hs.2⟩

theorem held_insertFixupLoop {S : List Nat} {H0 : HTree α} : ∀ (fuel : Nat) {H H1 : HTree α}
    {z : Nat}, Held S H0 H → z ∈ S → hinsertFixupLoop fuel z H = Outcome.done H1 →
    Held S H0 H1 := by
  intro fuel
  induction fuel with
  | zero =>
    intro H H1 z h hz e
    simp only [hinsertFixupLoop] at e
    obtain ⟨s, es, e⟩ := bind_eq_done e
    obtain ⟨o, H2⟩ := s
    have := held_insertFixupStep h hz es
    cases o with
    | none => cases e; exact this.1
    | some z1 => cases e
  | succ n ih =>
    intro H H1 z h hz e
    simp only [hinsertFixupLoop] at e
    obtain ⟨s, es, e⟩ := bind_eq_done e
    obtain ⟨o, H2⟩ := s
    have := held_insertFixupStep h hz es
    cases o with
    | none => cases e; exact this.1
    | some z1 => exact ih this.1 (this.2 z1 rfl) e

theorem held_insertFixup {S : List Nat} {H0 H H1 : HTree α} {fuel z : Nat} (h : Held S H0 H)
    (hz : z ∈ S) (e : hinsertFixup fuel z H = Outcome.done H1) : Held S H0 H1 := by
  unfold hinsertFixup at e
  obtain ⟨H2, e2, e⟩ := bind_eq_done e
  have h2 := held_insertFixupLoop fuel h hz e2
  exact (held_setColor h2 (held_root h2) e).1

/-- A read through a pointer that is null or designates a node of the tree:
when it succeeds, the pointer designates a node, and the pointers read are
null or designate nodes. -/
theorem held_read {S : List Nat} {H0 H : HTree α} (h : Held S H0 H) {a : Nat}
    (ha : a = 0 ∨ a ∈ S) {n : HNode α} (e : H.node a = Outcome.done n) :
    a ∈ S ∧ (n.left = 0 ∨ n.left ∈ S) ∧ (n.right = 0 ∨ n.right ∈ S) ∧
      (n.parent = 0 ∨ n.parent ∈ S) := by
  rcases ha with ha | ha
  · subst ha
    rw [node_null] at e
    cases e
  · obtain ⟨n1, hn1, -, h1, h2, h3⟩ := held_node h ha
    rw [hn1] at e
    cases e
    exact ⟨ha, h1, h2, h3⟩

theorem held_eraseFixupLeft {S : List Nat} {H0 H H1 : HTree α} (h : Held S H0 H) {x w x1 : Nat}
    (hx : x ∈ S) (hw : w = 0 ∨ w ∈ S)
    (e : heraseFixupLeft x w H = Outcome.done (x1, H1)) :
    Held S H0 H1 ∧ (x1 = 0 ∨ x1 ∈ S) := by
  unfold heraseFixupLeft at e
  obtain ⟨wn, ewn, e⟩ := bind_eq_done e
  obtain ⟨hwS, hwl, hwr, -⟩ := held_read h hw ewn
  obtain ⟨lb, -, e⟩ := bind_eq_done e
  obtain ⟨rb, -, e⟩ := bind_eq_done e
  split at e
  · obtain ⟨H2, e2, e⟩ := bind_eq_done e
    obtain ⟨xn, exn, e⟩ := bind_eq_done e
    cases e
    have h2 := (held_setColor h hw e2).1
    exact ⟨h2, (held_read h2 (Or.inr hx) exn).2.2.2⟩
  · obtain ⟨s, es, e⟩ := bind_eq_done e
    have hs : Held S H0 s.2 ∧ (s.1 = 0 ∨ s.1 ∈ S) := by
      split at es
      · obtain ⟨H2, e2, es⟩ := bind_eq_done es
        obtain ⟨H3, e3, es⟩ := bind_eq_done es
        obtain ⟨H4, e4, es⟩ := bind_eq_done es
        obtain ⟨xn, exn, es⟩ := bind_eq_done es
        obtain ⟨pn, epn, es⟩ := bind_eq_done es
        cases es
        have h2 := (held_setColor h hwl e2).1
        have h3 := (held_setColor h2 hw e3).1
        have h4 := held_rotateRight h3 hw e4
        have hxp := (held_read h4 (Or.inr hx) exn).2.2.2
        exact ⟨h4, (held_read h4 hxp epn).2.2.1⟩
      · cases es
        exact ⟨h, hw⟩
    simp only at e
    obtain ⟨xn, exn, e⟩ := bind_eq_done e
    obtain ⟨pn, epn, e⟩ := bind_eq_done e
    obtain ⟨H5, e5, e⟩ := bind_eq_done e
    obtain ⟨H6, e6, e⟩ := bind_eq_done e
    obtain ⟨wn1, ewn1, e⟩ := bind_eq_done e
    obtain ⟨H7, e7, e⟩ := bind_eq_done e
    obtain ⟨xn7, exn7, e⟩ := bind_eq_done e
    obtain ⟨H8, e8, e⟩ := bind_eq_done e
    cases e
    have hxp := (held_read hs.1 (Or.inr hx) exn).2.2.2
    have h5 := (held_setColor hs.1 hs.2 e5).1
    have h6 := (held_setColor h5 hxp e6).1
    have hw1 := held_read h6 hs.2 ewn1
    have h7 : Held S H0 H7 := by
      split at e7
      · exact (held_setColor h6 hw1.2.2.1 e7).1
      · cases e7
        exact h6
    have hxp7 := (held_read h7 (Or.inr hx) exn7).2.2.2
    have h8 := held_rotateLeft h7 hxp7 e8
    exact ⟨h8, held_root h8⟩

theorem held_eraseFixupRight {S : List Nat} {H0 H H1 : HTree α} (h : Held S H0 H)
    {x w x1 : Nat} (hx : x ∈ S) (hw : w = 0 ∨ w ∈ S)
    (e : heraseFixupRight x w H = Outcome.done (x1, H1)) :
    Held S H0 H1 ∧ (x1 = 0 ∨ x1 ∈ S) := by
  unfold heraseFixupRight at e
  obtain ⟨wn, ewn, e⟩ := bind_eq_done e
  obtain ⟨hwS, hwl, hwr, -⟩ := held_read h hw ewn
  obtain ⟨rb, -, e⟩ := bind_eq_done e
  obtain ⟨lb, -, e⟩ := bind_eq_done e
  split at e
  · obtain ⟨H2, e2, e⟩ := bind_eq_done e
    obtain ⟨xn, exn, e⟩ := bind_eq_done e
    cases e
    have h2 := (held_setColor h hw e2).1
    exact ⟨h2, (held_read h2 (Or.inr hx) exn).2.2.2⟩
  · obtain ⟨s, es, e⟩ := bind_eq_done e
    have hs : Held S H0 s.2 ∧ (s.1 = 0 ∨ s.1 ∈ S) := by
      split at es
      · obtain ⟨H2, e2, es⟩ := bind_eq_done es
        obtain ⟨H3, e3, es⟩ := bind_eq_done es
        obtain ⟨H4, e4, es⟩ := bind_eq_done es
        obtain ⟨xn, exn, es⟩ := bind_eq_done es
        obtain ⟨pn, epn, es⟩ := bind_eq_done es
        cases es
        have h2 := (held_setColor h hwr e2).1
        have h3 := (held_setColor h2 hw e3).1
        have h4 := held_rotateLeft h3 hw e4
        have hxp := (held_read h4 (Or.inr hx) exn).2.2.2
        exact ⟨h4, (held_read h4 hxp epn).2.1⟩
      · cases es
        exact ⟨h, hw⟩
    simp only at e
    obtain ⟨xn, exn, e⟩ := bind_eq_done e
    obtain ⟨pn, epn, e⟩ := bind_eq_done e
    obtain ⟨H5, e5, e⟩ := bind_eq_done e
    obtain ⟨H6, e6, e⟩ := bind_eq_done e
    obtain ⟨wn1, ewn1, e⟩ := bind_eq_done e
    obtain ⟨H7, e7, e⟩ := bind_eq_done e
    obtain ⟨xn7, exn7, e⟩ := bind_eq_done e
    obtain ⟨H8, e8, e⟩ := bind_eq_done e
    cases e
    have hxp := (held_read hs.1 (Or.inr hx) exn).2.2.2
    have h5 := (held_setColor hs.1 hs.2 e5).1
    have h6 := (held_setColor h5 hxp e6).1
    have hw1 := held_read h6 hs.2 ewn1
    have h7 : Held S H0 H7 := by
      split at e7
      · exact (held_setColor h6 hw1.2.1 e7).1
      · cases e7
        exact h6
    have hxp7 := (held_read h7 (Or.inr hx) exn7).2.2.2
    have h8 := held_rotateRight h7 hxp7 e8
    exact ⟨h8, held_root h8⟩

theorem held_eraseFixupBody {S : List Nat} {H0 H H1 : HTree α} (h : Held S H0 H) {x x1 : Nat}
    (hx : x ∈ S) (e : heraseFixupBody x H = Outcome.done (x1, H1)) :
    Held S H0 H1 ∧ (x1 = 0 ∨ x1 ∈ S) := by
  unfold heraseFixupBody at e
  obtain ⟨xn, exn, e⟩ := bind_eq_done e
  obtain ⟨pn, epn, e⟩ := bind_eq_done e
  have hxp := (held_read h (Or.inr hx) exn).2.2.2
  obtain ⟨hpS, hpl, hpr, -⟩ := held_read h hxp epn
  split at e
  · obtain ⟨wn, ewn, e⟩ := bind_eq_done e
    obtain ⟨s, es, e⟩ := bind_eq_done e
    have hs : Held S H0 s.2 ∧ (s.1 = 0 ∨ s.1 ∈ S) := by
      split at es
      · obtain ⟨H2, e2, es⟩ := bind_eq_done es
        obtain ⟨H3, e3, es⟩ := bind_eq_done es
        obtain ⟨H4, e4, es⟩ := bind_eq_done es
        obtain ⟨xn3, exn3, es⟩ := bind_eq_done es
        obtain ⟨pn3, epn3, es⟩ := bind_eq_done es
        cases es
        have h2 := (held_setColor h hpr e2).1
        have h3 := (held_setColor h2 hxp e3).1
        have h4 := held_rotateLeft h3 hxp e4
        have hxp3 := (held_read h4 (Or.inr hx) exn3).2.2.2
        exact ⟨h4, (held_read h4 hxp3 epn3).2.2.1⟩
      · cases es
        exact ⟨h, hpr⟩
    exact held_eraseFixupLeft hs.1 hx hs.2 e
  · obtain ⟨wn, ewn, e⟩ := bind_eq_done e
    obtain ⟨s, es, e⟩ := bind_eq_done e
    have hs : Held S H0 s.2 ∧ (s.1 = 0 ∨ s.1 ∈ S) := by
      split at es
      · obtain ⟨H2, e2, es⟩ := bind_eq_done es
        obtain ⟨H3, e3, es⟩ := bind_eq_done es
        obtain ⟨H4, e4, es⟩ := bind_eq_done es
        obtain ⟨xn3, exn3, es⟩ := bind_eq_done es
        obtain ⟨pn3, epn3, es⟩ := bind_eq_done es
        cases es
        have h2 := (held_setColor h hpl e2).1
        have h3 := (held_setColor h2 hxp e3).1
        have h4 := held_rotateRight h3 hxp e4
        have hxp3 := (held_read h4 (Or.inr hx) exn3).2.2.2
        exact ⟨h4, (held_read h4 hxp3 epn3).2.1⟩
      · cases es
        exact ⟨h, hpl⟩
    exact held_eraseFixupRight hs.1 hx hs.2 e

theorem held_eraseFixupLoop {S : List Nat} {H0 : HTree α} : ∀ (fuel : Nat) {H H1 : HTree α}
    {x x1 : Nat}, Held S H0 H → (x = 0 ∨ x ∈ S) →
    heraseFixupLoop fuel x H = Outcome.done (x1, H1) →
    Held S H0 H1 ∧ (x1 = 0 ∨ x1 ∈ S) := by
  intro fuel
  induction fuel with
  | zero =>
    intro H H1 x x1 h hx e
    unfold heraseFixupLoop at e
    split at e
    · cases e; exact ⟨h, hx⟩
    · split at e
      · cases e; exact ⟨h, held_root h⟩
      · obtain ⟨xn, exn, e⟩ := bind_eq_done e
        split at e
        · cases e; exact ⟨h, hx⟩
        · cases e
  | succ n ih =>
    intro H H1 x x1 h hx e
    unfold heraseFixupLoop at e
    split at e
    · cases e; exact ⟨h, hx⟩
    · split at e
      · cases e; exact ⟨h, held_root h⟩
      · rename_i hx0
        obtain ⟨xn, exn, e⟩ := bind_eq_done e
        split at e
        · cases e; exact ⟨h, hx⟩
        · obtain ⟨s, es, e⟩ := bind_eq_done e
          obtain ⟨x2, H2⟩ := s
          have h2 := held_eraseFixupBody h (hx.resolve_left hx0) es
          exact ih h2.1 h2.2 e

theorem held_eraseFixup {S : List Nat} {H0 H H1 : HTree α} {fuel x : Nat} (h : Held S H0 H)
    (hx : x = 0 ∨ x ∈ S) (e : heraseFixup fuel x H = Outcome.done H1) : Held S H0 H1 := by
  unfold heraseFixup at e
  obtain ⟨s, es, e⟩ := bind_eq_done e
  obtain ⟨x1, H2⟩ := s
  have h2 := held_eraseFixupLoop fuel h hx es
  split at e
  · exact (held_setColor h2.1 h2.2 e).1
  · cases e
    exact h2.1

/-- Where the descent of `insert` stops: at a node of the tree, or past a
leaf, below the last node visited on the side that the comparison chose. -/
theorem held_descend {S : List Nat} {H0 H : HTree α} (comp : α → α → Bool) (key : α)
    (h : Held S H0 H) : ∀ (fuel x y : Nat) {z y1 : Nat}, (x = 0 ∨ x ∈ S) →
    hdescend comp key H fuel x y = Outcome.done (z, y1) →
    (z = 0 ∨ z ∈ S) ∧
      (z = 0 → (y1 = y ∧ x = 0) ∨
        (y1 ∈ S ∧ ∃ yn, H.heap y1 = some yn ∧
          (if comp key yn.key then yn.left = 0 else yn.right = 0))) := by
  intro fuel
  induction fuel with
  | zero =>
    intro x y z y1 hx e
    simp only [hdescend] at e
    split at e
    · cases e
      rename_i hx0
      exact ⟨Or.inl rfl, fun _ => Or.inl ⟨rfl, hx0⟩⟩
    · cases e
  | succ n ih =>
    intro x y z y1 hx e
    simp only [hdescend] at e
    split at e
    · cases e
      rename_i hx0
      exact ⟨Or.inl rfl, fun _ => Or.inl ⟨rfl, hx0⟩⟩
    · rename_i hx0
      have hxS := hx.resolve_left hx0
      obtain ⟨xn, exn, hcell, hl, hr, -⟩ := held_node h hxS
      rw [exn] at e
      simp only [Outcome.bind] at e
      split at e
      · rename_i hc
        obtain ⟨h1, h2⟩ := ih _ _ hl e
        refine ⟨h1, fun hz => ?_⟩
        rcases h2 hz with ⟨e1, e2⟩ | h3
        · exact Or.inr ⟨e1 ▸ hxS, xn, e1 ▸ hcell, by rw [if_pos hc]; exact e2⟩
        · exact Or.inr h3
      · rename_i hc
        split at e
        · obtain ⟨h1, h2⟩ := ih _ _ hr e
          refine ⟨h1, fun hz => ?_⟩
          rcases h2 hz with ⟨e1, e2⟩ | h3
          · exact Or.inr ⟨e1 ▸ hxS, xn, e1 ▸ hcell, by rw [if_neg hc]; exact e2⟩
          · exact Or.inr h3
        · cases e
          exact ⟨Or.inr hxS, fun hz => absurd hz hx0⟩

/-- Where the descent of `insert_mult` stops. -/
theorem held_descendMult {S : List Nat} {H0 H : HTree α} (comp : α → α → Bool) (key : α)
    (h : Held S H0 H) : ∀ (fuel x y : Nat) {y1 : Nat}, (x = 0 ∨ x ∈ S) →
    hdescendMult comp key H fuel x y = Outcome.done y1 →
    (y1 = y ∧ x = 0) ∨
      (y1 ∈ S ∧ ∃ yn, H.heap y1 = some yn ∧
        (if comp key yn.key then yn.left = 0 else yn.right = 0)) := by
  intro fuel
  induction fuel with
  | zero =>
    intro x y y1 hx e
    simp only [hdescendMult] at e
    split at e
    · cases e
      rename_i hx0
      exact Or.inl ⟨rfl, hx0⟩
    · cases e
  | succ n ih =>
    intro x y y1 hx e
    simp only [hdescendMult] at e
    split at e
    · cases e
      rename_i hx0
      exact Or.inl ⟨rfl, hx0⟩
    · rename_i hx0
      have hxS := hx.resolve_left hx0
      obtain ⟨xn, exn, hcell, hl, hr, -⟩ := held_node h hxS
      rw [exn] at e
      simp only [Outcome.bind] at e
      split at e
      · rename_i hc
        rcases ih _ _ hl e with ⟨e1, e2⟩ | h3
        · exact Or.inr ⟨e1 ▸ hxS, xn, e1 ▸ hcell, by rw [if_pos hc]; exact e2⟩
        · exact Or.inr h3
      · rename_i hc
        rcases ih _ _ hr e with ⟨e1, e2⟩ | h3
        · exact Or.inr ⟨e1 ▸ hxS, xn, e1 ▸ hcell, by rw [if_neg hc]; exact e2⟩
        · exact Or.inr h3

/-- The node that `treeMinimum` returns is a node of the tree without a left
child. -/
theorem held_treeMinimum {S : List Nat} {H0 H : HTree α} (h : Held S H0 H) :
    ∀ (fuel x : Nat) {y : Nat}, (x = 0 ∨ x ∈ S) → htreeMinimum H fuel x = Outcome.done y →
    y ∈ S ∧ ∃ yn, H.heap y = some yn ∧ yn.left = 0 := by
  intro fuel
  induction fuel with
  | zero =>
    intro x y hx e
    simp only [htreeMinimum] at e
    obtain ⟨xn, exn, e⟩ := bind_eq_done e
    have hxS := (held_read h hx exn).1
    obtain ⟨xn1, exn1, hcell, -⟩ := held_node h hxS
    rw [exn] at exn1
    cases exn1
    split at e
    · cases e
      rename_i hl0
      exact ⟨hxS, xn, hcell, hl0⟩
    · cases e
  | succ n ih =>
    intro x y hx e
    simp only [htreeMinimum] at e
    obtain ⟨xn, exn, e⟩ := bind_eq_done e
    obtain ⟨hxS, hl, -⟩ := held_read h hx exn
    obtain ⟨xn1, exn1, hcell, -⟩ := held_node h hxS
    rw [exn] at exn1
    cases exn1
    split at e
    · cases e
      rename_i hl0
      exact ⟨hxS, xn, hcell, hl0⟩
    · exact ih _ hl e

/-- Linking a fresh RED leaf as the left child of a node without one. -/
theorem lay_link_left {H : HTree α} {y : Nat} {k : α} {c : Color} {r : Node α} {p : Path α}
    (h : Lay H (zipUp (Node.node y k c Node.nil r) p)) {addr : Nat} (key : α) (s : Nat)
    (ha0 : 0 < addr) (hfresh : addr ∉ addrs (zipUp (Node.node y k c Node.nil r) p)) :
    Lay { heap := Function.update (Function.update H.heap addr (some ⟨key, Color.RED, 0, 0, y⟩))
            y (some ⟨k, c, addr, addrOf r, parentOf p⟩),
          root_ := H.root_, size_ := s }
      (zipUp (Node.node y k c (Node.node addr key Color.RED Node.nil Node.nil) r) p) := by
  obtain ⟨h1, h2, h3, h4, h5⟩ := lay_parts h
  rw [mem_addrs_zipUp] at hfresh
  simp only [addrs_node, addrs_nil, List.nil_append, List.mem_cons, not_or] at hfresh
  simp only [addrs_node, addrs_nil, List.nil_append, List.cons_append, List.nodup_cons,
    List.mem_append, not_or] at h4
  simp only [Cells] at h1
  have hay : addr ≠ y := hfresh.1.1
  refine lay_of_parts ?_ ?_ h3 ?_ ?_
  · simp only [Cells, addrOf]
    refine ⟨by simp, ⟨by simp [Function.update, hay], trivial, trivial⟩, ?_⟩
    exact cells_frame y _ r y (cells_frame addr _ r y h1.2.2 hfresh.1.2) h4.1.1
  · exact pathCells_frame y _ p _ (pathCells_frame addr _ p _ h2 hfresh.2) h4.1.2
  · simp only [addrs_node, addrs_nil, List.nil_append, List.cons_append, List.nodup_cons,
      List.mem_append, List.mem_cons, not_or]
    exact ⟨⟨hay, hfresh.1.2, hfresh.2⟩, h4⟩
  · intro a ha
    simp only [addrs_node, addrs_nil, List.nil_append, List.cons_append, List.mem_cons,
      List.mem_append] at ha
    rcases ha with ha | ha | ha
    · exact ha ▸ ha0
    · exact h5 a (by simp [addrs_node, ha])
    · exact h5 a (by simp only [addrs_node, List.mem_append, List.mem_cons]; tauto)

/-- Linking a fresh RED leaf as the right child of a node without one. -/
theorem lay_link_right {H : HTree α} {y : Nat} {k : α} {c : Color} {l : Node α} {p : Path α}
    (h : Lay H (zipUp (Node.node y k c l Node.nil) p)) {addr : Nat} (key : α) (s : Nat)
    (ha0 : 0 < addr) (hfresh : addr ∉ addrs (zipUp (Node.node y k c l Node.nil) p)) :
    Lay { heap := Function.update (Function.update H.heap addr (some ⟨key, Color.RED, 0, 0, y⟩))
            y (some ⟨k, c, addrOf l, addr, parentOf p⟩),
          root_ := H.root_, size_ := s }
      (zipUp (Node.node y k c l (Node.node addr key Color.RED Node.nil Node.nil)) p) := by
  obtain ⟨h1, h2, h3, h4, h5⟩ := lay_parts h
  rw [mem_addrs_zipUp] at hfresh
  simp only [addrs_node, addrs_nil, List.append_nil, List.mem_append, List.mem_cons,
    List.mem_singleton, not_or, List.not_mem_nil, not_false_eq_true, and_true] at hfresh
  have hnd := h4
  simp only [addrs_node, addrs_nil, List.append_assoc, List.cons_append, List.nil_append,
    List.nodup_append, List.nodup_cons, List.mem_append, not_or, List.disjoint_cons_right] at h4
  simp only [Cells] at h1
  have hay : addr ≠ y := hfresh.1.2
  refine lay_of_parts ?_ ?_ h3 ?_ ?_
  · simp only [Cells, addrOf]
    refine ⟨by simp, ?_, ⟨by simp [Function.update, hay], trivial, trivial⟩⟩
    exact cells_frame y _ l y (cells_frame addr _ l y h1.2.1 hfresh.1.1) h4.2.2.1
  · exact pathCells_frame y _ p _ (pathCells_frame addr _ p _ h2 hfresh.2) h4.2.1.1
  · have e : addrs (Node.node y k c l (Node.node addr key Color.RED Node.nil Node.nil)) ++
        pathAddrs p = addrs l ++ y :: addr :: pathAddrs p := by
      simp [addrs_node, addrs_nil]
    have e0 : addrs (Node.node y k c l Node.nil) ++ pathAddrs p =
        addrs l ++ y :: pathAddrs p := by
      simp [addrs_node, addrs_nil]
    rw [e]
    rw [e0] at hnd
    have hperm : (addr :: (addrs l ++ y :: pathAddrs p)).Perm
        (addrs l ++ y :: addr :: pathAddrs p) := by
      refine (List.perm_middle.symm).trans ?_
      refine List.Perm.append_left _ ?_
      exact List.Perm.swap _ _ _
    refine hperm.nodup_iff.mp (List.nodup_cons.mpr ⟨?_, hnd⟩)
    simp only [List.mem_append, List.mem_cons, not_or]
    exact ⟨hfresh.1.1, hay, hfresh.2⟩
  · intro a ha
    simp only [addrs_node, addrs_nil, List.nil_append, List.append_assoc, List.cons_append,
      List.mem_cons, List.mem_append] at ha
    rcases ha with ha | ha | ha | ha
    · exact h5 a (by simp [addrs_node, ha])
    · exact h5 a (by simp [addrs_node, ha])
    · exact ha ▸ ha0
    · exact h5 a (by simp [ha])

theorem addrOf_eq_zero {t : Node α} (hpos : ∀ a ∈ addrs t, 0 < a) (h : addrOf t = 0) :
    t = Node.nil := by
  cases t with
  | nil => rfl
  | node a k c l r =>
    have := hpos a (by simp [addrs_node])
    simp only [addrOf] at h
    omega

theorem lay_mem_allocated {H : HTree α} {W : Node α} (h : Lay H W) {a : Nat}
    (ha : a ∈ addrs W) : H.heap a ≠ none := by
  obtain ⟨k, c, l, r, p, e⟩ := exists_focus ha
  subst e
  have hc := (lay_parts h).1
  simp only [Cells] at hc
  rw [hc.1]
  simp

theorem held_of_lay {H : HTree α} {W : Node α} (h : Lay H W) : Held (addrs W) H H :=
  ⟨W, h, fun _ => Iff.rfl, fun _ _ => rfl⟩

theorem lays_of_held {S : List Nat} {H0 H : HTree α} (h : Held S H0 H)
    (h0 : ∀ b, b ∉ S → H0.heap b = none) : Lays H := by
  obtain ⟨W, hl, hm, hf⟩ := h
  exact ⟨W, hl, fun b hb => by
    have hb1 : b ∉ S := fun hb2 => hb ((hm b).mpr hb2)
    rw [hf b hb1, h0 b hb1]⟩

/-- The part of `insert` after the descent keeps the heap a laid-out tree. -/
theorem lays_link (comp : α → α → Bool) (key : α) {addr fuel y : Nat} {H H1 : HTree α}
    {W : Node α} (h : Lay H W) (hout : ∀ b, b ∉ addrs W → H.heap b = none)
    (ha0 : 0 < addr) (hf : H.heap addr = none)
    (hy : (y = 0 ∧ H.root_ = 0) ∨
      (y ∈ addrs W ∧ ∃ yn, H.heap y = some yn ∧
        (if comp key yn.key then yn.left = 0 else yn.right = 0)))
    (e : hlink comp key addr fuel y H = Outcome.done H1) : Lays H1 := by
  have hnot : addr ∉ addrs W := fun hm => lay_mem_allocated h hm hf
  have hane : addr ≠ 0 := Nat.pos_iff_ne_zero.mp ha0
  rcases hy with ⟨hy0, hr0⟩ | ⟨hyW, yn, hyn, hside⟩
  · subst hy0
    have hW : W = Node.nil := addrOf_eq_zero h.2.2.2 (h.2.1 ▸ hr0)
    subst hW
    simp [hlink, HTree.setParent, HTree.node, HTree.setNode, hane, Outcome.bind] at e
    have hl3 : Lay
        ({ heap := Function.update H.heap addr (some ⟨key, Color.RED, 0, 0, 0⟩),
           root_ := addr, size_ := (H.size_ + 1) % 2 ^ 64 } : HTree α)
        (Node.node addr key Color.RED Node.nil Node.nil) := by
      refine ⟨?_, rfl, by simp [addrs_node, addrs_nil], ?_⟩
      · simp [Cells, addrOf]
      · intro a ha
        simp only [addrs_node, addrs_nil, List.nil_append, List.mem_singleton] at ha
        exact ha ▸ ha0
    refine lays_of_held (held_insertFixup (held_of_lay hl3) (by simp [addrs_node]) e) ?_
    intro b hb
    simp only [addrs_node, addrs_nil, List.nil_append, List.mem_singleton] at hb
    simp only [Function.update_noteq hb]
    exact hout b (by simp [addrs_nil])
  · obtain ⟨k, c, l, r, p, eW⟩ := exists_focus hyW
    subst eW
    have hc := (lay_parts h).1
    have hpos := (lay_parts h).2.2.2.2
    simp only [Cells] at hc
    rw [hc.1] at hyn
    cases hyn
    have hy0 : y ≠ 0 := Nat.pos_iff_ne_zero.mp (lay_node h).2
    have hay : addr ≠ y := fun e1 => hnot (e1 ▸ hyW)
    simp only at hside
    by_cases hck : comp key k = true
    · rw [if_pos hck] at hside
      have hl : l = Node.nil :=
        addrOf_eq_zero (fun a ha => hpos a (by simp [addrs_node, ha])) hside
      subst hl
      simp [hlink, HTree.setParent, HTree.setLeft, HTree.node, HTree.setNode, hane,
        Outcome.bind, hy0, hay, hay.symm, Function.update_noteq, hc.1, hck] at e
      have hl3 := lay_link_left h key ((H.size_ + 1) % 2 ^ 64) ha0 hnot
      simp only [addrOf] at hl3
      refine lays_of_held (held_insertFixup (held_of_lay hl3) ?_ e) ?_
      · rw [mem_addrs_zipUp]; simp [addrs_node]
      · intro b hb
        rw [mem_addrs_zipUp] at hb
        simp only [addrs_node, addrs_nil, List.nil_append, List.cons_append, List.mem_cons,
          List.mem_append, not_or] at hb
        simp only [Function.update_noteq hb.1.2.1, Function.update_noteq hb.1.1]
        exact hout b (by
          rw [mem_addrs_zipUp]
          simp only [addrs_node, addrs_nil, List.nil_append, List.mem_cons, not_or]
          exact ⟨⟨hb.1.2.1, hb.1.2.2⟩, hb.2⟩)
    · rw [if_neg hck] at hside
      have hr : r = Node.nil :=
        addrOf_eq_zero (fun a ha => hpos a (by simp [addrs_node, ha])) hside
      subst hr
      simp [hlink, HTree.setParent, HTree.setRight, HTree.node, HTree.setNode, hane,
        Outcome.bind, hy0, hay, hay.symm, Function.update_noteq, hc.1, hck] at e
      have hl3 := lay_link_right h key ((H.size_ + 1) % 2 ^ 64) ha0 hnot
      simp only [addrOf] at hl3
      refine lays_of_held (held_insertFixup (held_of_lay hl3) ?_ e) ?_
      · rw [mem_addrs_zipUp]; simp [addrs_node]
      · intro b hb
        rw [mem_addrs_zipUp] at hb
        simp only [addrs_node, addrs_nil, List.append_nil, List.append_assoc,
          List.cons_append, List.nil_append, List.mem_cons, List.mem_append, not_or,
          List.not_mem_nil, not_false_eq_true, and_true] at hb
        simp only [Function.update_noteq hb.1.2.1, Function.update_noteq hb.1.2.2]
        exact hout b (by
          rw [mem_addrs_zipUp]
          simp only [addrs_node, addrs_nil, List.append_nil, List.mem_append, List.mem_cons,
            List.mem_singleton, not_or, List.not_mem_nil, not_false_eq_true, and_true]
          exact ⟨⟨hb.1.1, hb.1.2.1⟩, hb.2⟩)

/-- The splice of `erase`: the node `y`, whose only subtree is `X`, is
unlinked, and `X` takes its place. -/
theorem splice_cells {H : HTree α} {y yl yr : Nat} {yk : α} {yc : Color} {X : Node α}
    {p : Path α}
    (hcy : H.heap y = some ⟨yk, yc, yl, yr, parentOf p⟩)
    (hcX : Cells H.heap y X) (hp : PathCells H.heap y p)
    (hnd : (y :: (addrs X ++ pathAddrs p)).Nodup)
    (hpos : ∀ a ∈ y :: (addrs X ++ pathAddrs p), 0 < a) :
    ∃ H2,
      ((if addrOf X ≠ 0 then H.setParent (addrOf X) (parentOf p)
          else Outcome.done H).bind fun H1 =>
        (H1.node y).bind fun yn1 =>
          (if yn1.parent = 0 then Outcome.done { H1 with root_ := addrOf X }
            else
              (H1.node yn1.parent).bind fun pn =>
                if y = pn.left then H1.setLeft yn1.parent (addrOf X)
                else H1.setRight yn1.parent (addrOf X))) = Outcome.done H2 ∧
      H2.root_ = (if parentOf p = 0 then addrOf X else H.root_) ∧
      Cells H2.heap (parentOf p) X ∧ PathCells H2.heap (addrOf X) p ∧
      (∀ a, a ∉ addrs X ++ pathAddrs p → H2.heap a = H.heap a) := by
  have hy0 : y ≠ 0 := Nat.pos_iff_ne_zero.mp (hpos y (by simp))
  have hXpos : ∀ a ∈ addrs X, a ≠ 0 := fun a ha =>
    Nat.pos_iff_ne_zero.mp (hpos a (by simp [ha]))
  have hPpos : ∀ a ∈ pathAddrs p, a ≠ 0 := fun a ha =>
    Nat.pos_iff_ne_zero.mp (hpos a (by simp [ha]))
  have hyX : ∀ a ∈ addrs X, a ≠ y := fun a ha e =>
    (List.nodup_cons.mp hnd).1 (by simp [← e, ha])
  have hyP : ∀ a ∈ pathAddrs p, a ≠ y := fun a ha e =>
    (List.nodup_cons.mp hnd).1 (by simp [← e, ha])
  have hXP := (List.nodup_cons.mp hnd).2
  have ndX := List.Nodup.of_append_left hXP
  have ndP := List.Nodup.of_append_right hXP
  rcases X with _ | ⟨xa, xk, xc, xl, xr⟩
  · rcases p with _ | ⟨⟨pa, pk, pc, pr⟩ | ⟨pa, pk, pc, pl⟩, up⟩
    · simp only [parentOf, addrOf] at hcy ⊢
      refine ⟨_, by
        simp [HTree.node, HTree.setNode, Outcome.bind, hcy, hy0]
        rfl, ?_⟩
      simp [Cells, PathCells]
    · simp only [PathCells] at hp
      have hpa := hp.1
      have hp0 : pa ≠ 0 := hPpos pa (by simp [pathAddrs])
      have hpy : pa ≠ y := hyP pa (by simp [pathAddrs])
      simp only [parentOf, addrOf] at hcy ⊢
      refine ⟨_, by
        simp [HTree.node, HTree.setNode, HTree.setLeft, HTree.setRight, Outcome.bind, hcy, hy0,
          hpa, hp0, hpy, hpy.symm]
        rfl, ?_⟩
      refine ⟨by simp [hp0], trivial, ?_, ?_⟩
      · refine pathCells_moved _ y 0 (by simp only [PathCells]; exact hp) ndP ?_ ?_
        · simp [HeadCell, HTree.setNode]
        · intro a ha hne
          simp only [parentOf] at hne
          simp [HTree.setNode, Function.update, hne]
      · intro a ha
        simp only [addrs_nil, pathAddrs, List.nil_append, List.mem_cons, not_or] at ha
        simp [HTree.setNode, Function.update, ha.1]
    · simp only [PathCells] at hp
      have hpa := hp.1
      have hp0 : pa ≠ 0 := hPpos pa (by simp [pathAddrs])
      have hpy : pa ≠ y := hyP pa (by simp [pathAddrs])
      have hly : addrOf pl ≠ y :=
        addrOf_ne_of_not_mem hy0 (fun hm => hyP y (by simp [pathAddrs, hm]) rfl)
      simp only [parentOf, addrOf] at hcy ⊢
      refine ⟨_, by
        simp [HTree.node, HTree.setNode, HTree.setLeft, HTree.setRight, Outcome.bind, hcy, hy0,
          hpa, hp0, hpy, hpy.symm, hly.symm]
        rfl, ?_⟩
      refine ⟨by simp [hp0], trivial, ?_, ?_⟩
      · refine pathCells_moved _ y 0 (by simp only [PathCells]; exact hp) ndP ?_ ?_
        · simp [HeadCell, HTree.setNode]
        · intro a ha hne
          simp only [parentOf] at hne
          simp [HTree.setNode, Function.update, hne]
      · intro a ha
        simp only [addrs_nil, pathAddrs, List.nil_append, List.mem_cons, not_or] at ha
        simp [HTree.setNode, Function.update, ha.1]
  · simp only [Cells] at hcX
    have hx := hcX.1
    have hx0 : xa ≠ 0 := hXpos xa (by simp [addrs_node])
    have hxy : xa ≠ y := hyX xa (by simp [addrs_node])
    rcases p with _ | ⟨⟨pa, pk, pc, pr⟩ | ⟨pa, pk, pc, pl⟩, up⟩
    · simp only [parentOf, addrOf] at hcy ⊢
      refine ⟨_, by
        simp [HTree.node, HTree.setNode, HTree.setParent, HTree.setLeft, HTree.setRight,
          Outcome.bind, Function.update, hcy, hy0, hx, hx0, hxy, hxy.symm]
        rfl, ?_⟩
      refine ⟨by simp, ?_, ?_, ?_⟩
      · refine cells_moved _ y 0 (by simp only [Cells]; exact hcX) ndX ?_ ?_
        · rintro a k c l r ⟨⟩
          simp [HTree.setNode, Function.update, hcy, hy0, hx, hx0, hxy, hxy.symm]
        · intro a ha hne
          simp only [addrOf] at hne
          have hay := hyX a ha
          simp [HTree.setNode, Function.update, hne]
      · trivial
      · intro a ha
        simp only [addrs_node, pathAddrs, List.mem_append, List.mem_cons, not_or] at ha
        simp [HTree.setNode, Function.update, ha]
    · simp only [PathCells] at hp
      have hpa := hp.1
      have hp0 : pa ≠ 0 := hPpos pa (by simp [pathAddrs])
      have hpy : pa ≠ y := hyP pa (by simp [pathAddrs])
      have hpx : pa ≠ xa :=
        (ne_of_mem_append hXP (by simp [addrs_node]) (by simp [pathAddrs])).symm
      simp only [parentOf, addrOf] at hcy ⊢
      refine ⟨_, by
        simp [HTree.node, HTree.setNode, HTree.setParent, HTree.setLeft, HTree.setRight,
          Outcome.bind, Function.update, hcy, hy0, hx, hx0, hxy, hxy.symm, hpa, hp0, hpy, hpy.symm, hpx, hpx.symm]
        rfl, ?_⟩
      refine ⟨by simp [hp0], ?_, ?_, ?_⟩
      · refine cells_moved _ y pa (by simp only [Cells]; exact hcX) ndX ?_ ?_
        · rintro a k c l r ⟨⟩
          simp [HTree.setNode, Function.update, hcy, hy0, hx, hx0, hxy, hxy.symm, hpa, hp0, hpy, hpy.symm, hpx, hpx.symm]
        · intro a ha hne
          simp only [addrOf] at hne
          have hay := hyX a ha
          have hap : a ≠ pa := ne_of_mem_append hXP ha (by simp [pathAddrs])
          simp [HTree.setNode, Function.update, hne, hap]
      · refine pathCells_moved _ y xa (by simp only [PathCells]; exact hp) ndP ?_ ?_
        · simp [HeadCell, HTree.setNode, Function.update, hcy, hy0, hx, hx0, hxy, hxy.symm, hpa, hp0, hpy, hpy.symm, hpx, hpx.symm]
        · intro a ha hne
          simp only [parentOf] at hne
          have hax : a ≠ xa := (ne_of_mem_append hXP (by simp [addrs_node]) ha).symm
          simp [HTree.setNode, Function.update, hne, hax]
      · intro a ha
        simp only [addrs_node, pathAddrs, List.mem_append, List.mem_cons, not_or] at ha
        simp [HTree.setNode, Function.update, ha]
    · simp only [PathCells] at hp
      have hpa := hp.1
      have hp0 : pa ≠ 0 := hPpos pa (by simp [pathAddrs])
      have hpy : pa ≠ y := hyP pa (by simp [pathAddrs])
      have hpx : pa ≠ xa :=
        (ne_of_mem_append hXP (by simp [addrs_node]) (by simp [pathAddrs])).symm
      have hly : addrOf pl ≠ y :=
        addrOf_ne_of_not_mem hy0 (fun hm => hyP y (by simp [pathAddrs, hm]) rfl)
      simp only [parentOf, addrOf] at hcy ⊢
      refine ⟨_, by
        simp [HTree.node, HTree.setNode, HTree.setParent, HTree.setLeft, HTree.setRight,
          Outcome.bind, Function.update, hcy, hy0, hx, hx0, hxy, hxy.symm, hpa, hp0, hpy, hpy.symm, hpx, hpx.symm, hly.symm]
        rfl, ?_⟩
      refine ⟨by simp [hp0], ?_, ?_, ?_⟩
      · refine cells_moved _ y pa (by simp only [Cells]; exact hcX) ndX ?_ ?_
        · rintro a k c l r ⟨⟩
          simp [HTree.setNode, Function.update, hcy, hy0, hx, hx0, hxy, hxy.symm, hpa, hp0, hpy, hpy.symm, hpx, hpx.symm, hly.symm]
        · intro a ha hne
          simp only [addrOf] at hne
          have hay := hyX a ha
          have hap : a ≠ pa := ne_of_mem_append hXP ha (by simp [pathAddrs])
          simp [HTree.setNode, Function.update, hne, hap]
      · refine pathCells_moved _ y xa (by simp only [PathCells]; exact hp) ndP ?_ ?_
        · simp [HeadCell, HTree.setNode, Function.update, hcy, hy0, hx, hx0, hxy, hxy.symm, hpa, hp0, hpy, hpy.symm, hpx, hpx.symm, hly.symm]
        · intro a ha hne
          simp only [parentOf] at hne
          have hax : a ≠ xa := (ne_of_mem_append hXP (by simp [addrs_node]) ha).symm
          simp [HTree.setNode, Function.update, hne, hax]
      · intro a ha
        simp only [addrs_node, pathAddrs, List.mem_append, List.mem_cons, not_or] at ha
        simp [HTree.setNode, Function.update, ha]

theorem lays_splice_aux {H : HTree α} {y : Nat} {yk : α} {yc : Color} {l r : Node α}
    {p : Path α} (h : Lay H (zipUp (Node.node y yk yc l r) p)) (X : Node α)
    (hX : (l = X ∧ r = Node.nil) ∨ (l = Node.nil ∧ r = X)) :
    ∃ H2,
      ((if addrOf X ≠ 0 then H.setParent (addrOf X) (parentOf p)
          else Outcome.done H).bind fun H1 =>
        (H1.node y).bind fun yn1 =>
          (if yn1.parent = 0 then Outcome.done { H1 with root_ := addrOf X }
            else
              (H1.node yn1.parent).bind fun pn =>
                if y = pn.left then H1.setLeft yn1.parent (addrOf X)
                else H1.setRight yn1.parent (addrOf X))) = Outcome.done H2 ∧
      Lay H2 (zipUp X p) ∧
      (∀ a, a ∈ addrs (zipUp X p) ↔ a ∈ addrs (zipUp (Node.node y yk yc l r) p) ∧ a ≠ y) ∧
      (∀ b, b ∉ addrs (zipUp X p) → H2.heap b = H.heap b) := by
  obtain ⟨hc, hp, hroot, hnd, hpos⟩ := lay_parts h
  simp only [Cells] at hc
  have hlist : (addrs (Node.node y yk yc l r) ++ pathAddrs p).Perm
      (y :: (addrs X ++ pathAddrs p)) := by
    rcases hX with ⟨e1, e2⟩ | ⟨e1, e2⟩
    · subst e1 e2
      simp only [addrs_node, addrs_nil, List.append_assoc, List.cons_append, List.nil_append]
      exact List.perm_middle
    · subst e1 e2
      simp [addrs_node, addrs_nil]
  have hcX : Cells H.heap y X := by
    rcases hX with ⟨e1, e2⟩ | ⟨e1, e2⟩
    · exact e1 ▸ hc.2.1
    · exact e2 ▸ hc.2.2
  have hnd1 := hlist.nodup_iff.mp hnd
  have hpos1 : ∀ a ∈ y :: (addrs X ++ pathAddrs p), 0 < a :=
    fun a ha => hpos a (hlist.mem_iff.mpr ha)
  obtain ⟨H2, e, hr2, hc2, hp2, hf2⟩ := splice_cells hc.1 hcX hp hnd1 hpos1
  refine ⟨H2, e, lay_of_parts hc2 hp2 ?_ (List.nodup_cons.mp hnd1).2
    (fun a ha => hpos1 a (List.mem_cons_of_mem _ ha)), ?_, ?_⟩
  · rw [hr2]
    cases p with
    | nil => simp [parentOf, rootAddr]
    | cons f up =>
      have hp0 : parentOf (f :: up) ≠ 0 :=
        Nat.pos_iff_ne_zero.mp (hpos _ (List.mem_append_right _ (parentOf_mem (by simp))))
      rw [if_neg hp0, hroot]
      rfl
  · intro a
    rw [mem_addrs_zipUp, mem_addrs_zipUp, ← List.mem_append, ← List.mem_append,
      hlist.mem_iff, List.mem_cons]
    constructor
    · intro ha
      refine ⟨Or.inr ha, fun e1 => ?_⟩
      subst e1
      exact (List.nodup_cons.mp hnd1).1 ha
    · rintro ⟨ha | ha, hne⟩
      · exact absurd ha hne
      · exact ha
  · intro b hb
    exact hf2 b (fun hm => hb (mem_addrs_zipUp.mpr (List.mem_append.mp hm)))

/-- The splice of `erase` on a laid-out tree: it completes, the heap lays
out the tree without the node `y`, and the other addresses keep their
content. -/
theorem lays_splice {H : HTree α} {W : Node α} (h : Lay H W) {y : Nat} (hy : y ∈ addrs W)
    {yn : HNode α} (hyn : H.heap y = some yn) (h1 : yn.left = 0 ∨ yn.right = 0) :
    ∃ H2 W2,
      ((if (if yn.left ≠ 0 then yn.left else yn.right) ≠ 0
          then H.setParent (if yn.left ≠ 0 then yn.left else yn.right) yn.parent
          else Outcome.done H).bind fun H1 =>
        (H1.node y).bind fun yn1 =>
          (if yn1.parent = 0
            then Outcome.done { H1 with root_ := if yn.left ≠ 0 then yn.left else yn.right }
            else
              (H1.node yn1.parent).bind fun pn =>
                if y = pn.left
                  then H1.setLeft yn1.parent (if yn.left ≠ 0 then yn.left else yn.right)
                else H1.setRight yn1.parent (if yn.left ≠ 0 then yn.left else yn.right))) =
        Outcome.done H2 ∧
      Lay H2 W2 ∧ (∀ a, a ∈ addrs W2 ↔ a ∈ addrs W ∧ a ≠ y) ∧
      (∀ b, b ∉ addrs W2 → H2.heap b = H.heap b) ∧
      ((if yn.left ≠ 0 then yn.left else yn.right) = 0 ∨
        (if yn.left ≠ 0 then yn.left else yn.right) ∈ addrs W2) := by
  obtain ⟨yk, yc, l, r, p, eW⟩ := exists_focus hy
  subst eW
  obtain ⟨hc, -, -, -, hpos⟩ := lay_parts h
  simp only [Cells] at hc
  rw [hc.1] at hyn
  cases hyn
  simp only at h1 ⊢
  have hmemX : ∀ X : Node α, addrOf X = 0 ∨ addrOf X ∈ addrs (zipUp X p) := fun X =>
    (addrOf_null_or_mem X).imp id (fun hm => mem_addrs_zipUp.mpr (Or.inl hm))
  by_cases hl0 : addrOf l = 0
  · have hl : l = Node.nil :=
      addrOf_eq_zero (fun a ha => hpos a (by simp [addrs_node, ha])) hl0
    subst hl
    obtain ⟨H2, e, hl2, hm2, hf2⟩ := lays_splice_aux h r (Or.inr ⟨rfl, rfl⟩)
    simp only [addrOf, ne_eq, not_true_eq_false, if_false]
    exact ⟨H2, _, e, hl2, hm2, hf2, hmemX r⟩
  · have hr0 : addrOf r = 0 := h1.resolve_left hl0
    have hr : r = Node.nil :=
      addrOf_eq_zero (fun a ha => hpos a (by simp [addrs_node, ha])) hr0
    subst hr
    obtain ⟨H2, e, hl2, hm2, hf2⟩ := lays_splice_aux h l (Or.inl ⟨rfl, rfl⟩)
    rw [if_pos hl0]
    exact ⟨H2, _, e, hl2, hm2, hf2, hmemX l⟩

theorem lays_empty : Lays (HTree.empty : HTree α) :=
  ⟨Node.nil, ⟨trivial, rfl, by simp [addrs_nil], by simp [addrs_nil]⟩, fun _ _ => rfl⟩

/-- `insert` keeps the heap a laid-out tree. -/
theorem lays_insert (comp : α → α → Bool) (key : α) {addr fuel : Nat} {H : HTree α}
    {res : HTree α × Nat × Bool} (hL : Lays H) (ha0 : 0 < addr) (hf : H.heap addr = none)
    (e : hinsert comp key addr fuel H = Outcome.done res) : Lays res.1 := by
  obtain ⟨W, hl, hout⟩ := hL
  unfold hinsert at e
  obtain ⟨s, es, e⟩ := bind_eq_done e
  obtain ⟨z, y⟩ := s
  have hd := held_descend comp key (held_of_lay hl) fuel H.root_ 0
    (held_root (held_of_lay hl)) es
  simp only at e
  split at e
  · cases e
    exact ⟨W, hl, hout⟩
  · rename_i hz
    obtain ⟨H1, e1, e⟩ := bind_eq_done e
    cases e
    have hz0 : z = 0 := not_not.mp hz
    exact lays_link comp key hl hout ha0 hf (hd.2 hz0) e1

/-- `insert_mult` keeps the heap a laid-out tree. -/
theorem lays_insert_mult (comp : α → α → Bool) (key : α) {addr fuel : Nat} {H : HTree α}
    {res : HTree α × Nat × Bool} (hL : Lays H) (ha0 : 0 < addr) (hf : H.heap addr = none)
    (e : hinsert_mult comp key addr fuel H = Outcome.done res) : Lays res.1 := by
  obtain ⟨W, hl, hout⟩ := hL
  unfold hinsert_mult at e
  obtain ⟨y, ey, e⟩ := bind_eq_done e
  have hd := held_descendMult comp key (held_of_lay hl) fuel H.root_ 0
    (held_root (held_of_lay hl)) ey
  obtain ⟨H1, e1, e⟩ := bind_eq_done e
  cases e
  exact lays_link comp key hl hout ha0 hf hd e1

/-- `erase` keeps the heap a laid-out tree. -/
theorem lays_erase (comp : α → α → Bool) (key : α) {fuel : Nat} {H H1 : HTree α}
    (hL : Lays H) (e : herase comp key fuel H = Outcome.done H1) : Lays H1 := by
  obtain ⟨W, hl, hout⟩ := hL
  have hH := held_of_lay hl
  unfold herase at e
  obtain ⟨s, es, e⟩ := bind_eq_done e
  obtain ⟨z, y0⟩ := s
  have hd := held_descend comp key hH fuel H.root_ 0 (held_root hH) es
  simp only at e
  split at e
  · cases e
    exact ⟨W, hl, hout⟩
  · rename_i hz0
    have hzW : z ∈ addrs W := hd.1.resolve_left hz0
    obtain ⟨zn, ezn, e⟩ := bind_eq_done e
    obtain ⟨zn1, ezn1, hzcell, hzl, hzr, -⟩ := held_node hH hzW
    rw [ezn] at ezn1
    cases ezn1
    obtain ⟨y, ey, e⟩ := bind_eq_done e
    have hy : y ∈ addrs W ∧ ∃ yn, H.heap y = some yn ∧ (yn.left = 0 ∨ yn.right = 0) := by
      split at ey
      · obtain ⟨h1, yn, h2, h3⟩ := held_treeMinimum hH fuel zn.right hzr ey
        exact ⟨h1, yn, h2, Or.inl h3⟩
      · rename_i hno
        cases ey
        refine ⟨hzW, zn, hzcell, ?_⟩
        by_cases h0 : zn.left = 0
        · exact Or.inl h0
        · exact Or.inr (not_not.mp (fun h1 => hno ⟨h0, h1⟩))
    obtain ⟨hyW, yn, hycell, hyone⟩ := hy
    obtain ⟨yn1, eyn, e⟩ := bind_eq_done e
    have hy0pos : 0 < y := hl.2.2.2 y hyW
    have : yn1 = yn := by
      have := node_of_cell H hy0pos hycell
      rw [eyn] at this
      cases this
      rfl
    subst this
    obtain ⟨H2, e2, e⟩ := bind_eq_done e
    obtain ⟨yn2, eyn2, e⟩ := bind_eq_done e
    obtain ⟨H3, e3, e⟩ := bind_eq_done e
    obtain ⟨yn3, eyn3, e⟩ := bind_eq_done e
    obtain ⟨H4, e4, e⟩ := bind_eq_done e
    obtain ⟨yn4, eyn4, e⟩ := bind_eq_done e
    obtain ⟨H5, e5, e⟩ := bind_eq_done e
    cases e
    obtain ⟨K2, W2, eK, hl2, hm2, hf2, hx2⟩ := lays_splice hl hyW hycell hyone
    have hK : K2 = H3 := by
      rw [e2] at eK
      change (H2.node y).bind _ = _ at eK
      rw [eyn2] at eK
      exact Outcome.done.inj (eK.symm.trans e3)
    subst hK
    have hH2 := held_of_lay hl2
    have hH4 : Held (addrs W2) K2 H4 := by
      split at e4
      · rename_i hyz
        exact (held_setKey hH2 (Or.inr ((hm2 z).mpr ⟨hzW, fun e1 => hyz e1.symm⟩)) e4).1
      · cases e4
        exact hH2
    have hH5 : Held (addrs W2) K2 H5 := by
      split at e5
      · exact held_eraseFixup hH4 hx2 e5
      · cases e5
        exact hH4
    obtain ⟨W5, hl5, hm5, hf5⟩ := hH5
    have hyW5 : y ∉ addrs W5 := fun hm => ((hm2 y).mp ((hm5 y).mp hm)).2 rfl
    refine ⟨W5, ⟨cells_frame y none W5 0 hl5.1 hyW5, hl5.2.1, hl5.2.2.1, hl5.2.2.2⟩, ?_⟩
    intro b hb
    show Function.update H5.heap y none b = none
    by_cases hby : b = y
    · subst hby
      simp
    · rw [Function.update_noteq hby]
      have hb2 : b ∉ addrs W2 := fun hm => hb ((hm5 b).mpr hm)
      rw [hf5 b hb2, hf2 b hb2]
      exact hout b (fun hm => hb2 ((hm2 b).mpr ⟨hm, hby⟩))

theorem lays_reachable {comp : α → α → Bool} {H : HTree α} (h : HReachable comp H) :
    Lays H := by
  induction h with
  | empty => exact lays_empty
  | insert key addr fuel _ ha0 hf e ih => exact lays_insert comp key ih ha0 hf e
  | insert_mult key addr fuel _ ha0 hf e ih => exact lays_insert_mult comp key ih ha0 hf e
  | erase key fuel _ e ih => exact lays_erase comp key ih e

theorem lays_allocated {H : HTree α} {W : Node α} (hout : ∀ b, b ∉ addrs W → H.heap b = none)
    {a : Nat} {n : HNode α} (h : H.heap a = some n) : a ∈ addrs W := by
  by_contra hn
  rw [hout a hn] at h
  cases h

theorem lays_parentsConsistent {H : HTree α} (hL : Lays H) : ParentsConsistent H := by
  obtain ⟨W, hl, hout⟩ := hL
  refine ⟨?_, ?_⟩
  · intro r hr
    have hm := lays_allocated hout hr
    obtain ⟨h1, h2, -, -⟩ := hl
    cases W with
    | nil => simp [addrs_nil] at hm
    | node a k c l r1 =>
      simp only [Cells] at h1
      rw [h2, addrOf, h1.1] at hr
      cases hr
      rfl
  · intro a n hn
    obtain ⟨k, c, l, r, p, e⟩ := exists_focus (lays_allocated hout hn)
    subst e
    have hc := (lay_parts hl).1
    simp only [Cells] at hc
    rw [hc.1] at hn
    cases hn
    refine ⟨fun h0 => ?_, fun h0 => ?_⟩
    · cases l with
      | nil => exact absurd rfl h0
      | node la lk lc ll lr =>
        have := hc.2.1
        simp only [Cells] at this
        exact ⟨_, this.1, rfl⟩
    · cases r with
      | nil => exact absurd rfl h0
      | node ra rk rc rl rr =>
        have := hc.2.2
        simp only [Cells] at this
        exact ⟨_, this.1, rfl⟩

theorem climb_focus {H : HTree α} : ∀ (p : Path α) (a : Nat) (k : α) (c : Color)
    (l r : Node α), Lay H (zipUp (Node.node a k c l r) p) →
    climb H p.length a = some H.root_ := by
  intro p
  induction p with
  | nil =>
    intro a k c l r h
    simp only [List.length_nil, climb]
    rw [h.2.1]
    rfl
  | cons f up ih =>
    intro a k c l r h
    have hc := (lay_parts h).1
    simp only [Cells] at hc
    simp only [List.length_cons, climb, hc.1]
    cases f with
    | L fa fk fc fr => exact ih fa fk fc _ fr h
    | R fa fk fc fl => exact ih fa fk fc fl _ h

theorem lays_climb {H : HTree α} (hL : Lays H) {a : Nat} {n : HNode α}
    (hn : H.heap a = some n) : ∃ k, climb H k a = some H.root_ := by
  obtain ⟨W, hl, hout⟩ := hL
  obtain ⟨k, c, l, r, p, e⟩ := exists_focus (lays_allocated hout hn)
  subst e
  exact ⟨p.length, climb_focus p a k c l r hl⟩

/-! # The claims -/

/-- C1 (fails on the code): after `insert(40); insert(1); insert(2)` the tree
is the BLACK root 2 with BLACK left child 1 and RED right child 40.  The path
through 1 has two BLACK nodes and the path through 40 has one, so invariant 4
does not hold and `checkRedBlackProperties` returns false. -/
theorem insert_40_1_2_breaks_black_height :
    (insertAll natLess [40, 1, 2] 1 RedBlackTree.empty).root_
        = Node.node 3 2 Color.BLACK (Node.node 2 1 Color.BLACK Node.nil Node.nil)
            (Node.node 1 40 Color.RED Node.nil Node.nil) ∧
      blackBalanced (insertAll natLess [40, 1, 2] 1 RedBlackTree.empty).root_ = false ∧
      (checkRedBlackProperties (insertAll natLess [40, 1, 2] 1 RedBlackTree.empty).root_
        false (-1) 0).1 = false := by
  decide

/-- C2 (fails on the code): the tree built by `insert` of 10, 5, 15, 3 is the
BLACK root 10 with BLACK children 5 and 15 and the RED node 3 below 5; it
satisfies invariants 2, 3, 4 and 6.  `erase(15)` unlinks the BLACK leaf 15,
`eraseFixup` receives the absent position and only sets `x = root_`, and the
resulting tree has two BLACK nodes on the path through 5 and one on the path to
the right of the root: invariant 4 does not hold. -/
theorem erase_black_leaf_breaks_black_height :
    rootBlack (insertAll natLess [10, 5, 15, 3] 1 RedBlackTree.empty).root_ = true ∧
      noRedRed (insertAll natLess [10, 5, 15, 3] 1 RedBlackTree.empty).root_ = true ∧
      blackBalanced (insertAll natLess [10, 5, 15, 3] 1 RedBlackTree.empty).root_ = true ∧
      BST natLess (insertAll natLess [10, 5, 15, 3] 1 RedBlackTree.empty).root_ ∧
      keys (insertAll natLess [10, 5, 15, 3] 1 RedBlackTree.empty).root_ = [3, 5, 10, 15] ∧
      erase natLess 15 (insertAll natLess [10, 5, 15, 3] 1 RedBlackTree.empty)
        = Outcome.done
            { root_ := Node.node 1 10 Color.BLACK
                (Node.node 2 5 Color.BLACK (Node.node 4 3 Color.RED Node.nil Node.nil) Node.nil)
                Node.nil,
              size_ := 3 } ∧
      blackBalanced (Node.node 1 10 Color.BLACK
        (Node.node 2 5 Color.BLACK (Node.node 4 3 Color.RED Node.nil Node.nil) Node.nil)
        (Node.nil : Node Nat)) = false :=
  ⟨by decide, by decide, by decide, (BST_iff_pairwise natLess_trans _).2 (by decide),
    by decide, by decide, by decide⟩

/-- C3 (fails on the code): after `insert` of 2, 8, 4, 0, 6, 7, 1, 5, 3 into
the empty tree the tree has 9 nodes and height 7, and `2^7 = 128` exceeds
`(9+1)^2 = 100`. -/
theorem height_bound_broken_after_nine_inserts :
    count (insertAll natLess [2, 8, 4, 0, 6, 7, 1, 5, 3] 1 RedBlackTree.empty).root_ = 9 ∧
      height (insertAll natLess [2, 8, 4, 0, 6, 7, 1, 5, 3] 1 RedBlackTree.empty).root_ = 7 ∧
      ¬ 2 ^ height (insertAll natLess [2, 8, 4, 0, 6, 7, 1, 5, 3] 1 RedBlackTree.empty).root_
          ≤ (count (insertAll natLess [2, 8, 4, 0, 6, 7, 1, 5, 3] 1
              RedBlackTree.empty).root_ + 1) ^ 2 := by
  decide

/-- C4: every tree reachable from the empty tree by `insert` and `erase` calls
under a strict total order satisfies invariant 6 in unique-key mode: at every
node the keys of the left subtree are strictly below the key of the node and
the keys of the right subtree strictly above it; equivalently the in-order key
list is strictly ascending. -/
theorem reachable_search_tree_order {comp : α → α → Bool} (hc : StrictTotal comp)
    {t : RedBlackTree α} (h : ReachableU comp t) :
    BST comp t.root_ ∧ (keys t.root_).Pairwise (fun a b => comp a b = true) :=
  ⟨(BST_iff_pairwise hc.trans t.root_).2 (reachableU_pairwise hc h), reachableU_pairwise hc h⟩

theorem reachable_search_tree_order_witness :
    BST natLess
        (Node.node 3 2 Color.BLACK (Node.node 2 1 Color.BLACK Node.nil Node.nil) Node.nil) ∧
      (keys (Node.node 3 2 Color.BLACK (Node.node 2 1 Color.BLACK Node.nil Node.nil)
        Node.nil)).Pairwise (fun a b => natLess a b = true) :=
  reachable_search_tree_order natLess_strictTotal
    (ReachableU.erase 40
      (ReachableU.insert 2 3
        (ReachableU.insert 1 2
          (ReachableU.insert 40 1 ReachableU.empty ⟨by decide, by decide, by decide⟩)
          ⟨by decide, by decide, by decide⟩)
        ⟨by decide, by decide, by decide⟩)
      (by decide :
        erase natLess 40
            (insert natLess 2 3 (insert natLess 1 2
              (insert natLess 40 1 RedBlackTree.empty).1).1).1
          = Outcome.done
              { root_ := Node.node 3 2 Color.BLACK
                  (Node.node 2 1 Color.BLACK Node.nil Node.nil) Node.nil,
                size_ := 2 }))

/-- C5: for every tree reachable from the default-constructed empty tree by
`insert`, `insert_mult` and `erase` calls, `size()` equals the number of nodes
reachable from the root. -/
theorem reachable_size_eq_count {comp : α → α → Bool} {t : RedBlackTree α}
    (h : Reachable comp t) : t.size_ = count t.root_ :=
  (reachable_sized h).2.2

theorem reachable_size_eq_count_witness :
    (3 : Nat) = count (Node.node 1 23 Color.BLACK
      (Node.node 4 1 Color.BLACK Node.nil Node.nil)
      (Node.node 3 23 Color.BLACK Node.nil Node.nil)) :=
  reachable_size_eq_count
    (Reachable.erase 7
      (Reachable.insert 1 4
        (Reachable.insert_mult 23 3
          (Reachable.insert 7 2
            (Reachable.insert 23 1 Reachable.empty ⟨by decide, by decide, by decide⟩)
            ⟨by decide, by decide, by decide⟩)
          ⟨by decide, by decide, by decide⟩)
        ⟨by decide, by decide, by decide⟩)
      (by decide :
        erase natLess 7
            (insert natLess 1 4 (insert_mult natLess 23 3 (insert natLess 7 2
              (insert natLess 23 1 RedBlackTree.empty).1).1).1).1
          = Outcome.done
              { root_ := Node.node 1 23 Color.BLACK
                  (Node.node 4 1 Color.BLACK Node.nil Node.nil)
                  (Node.node 3 23 Color.BLACK Node.nil Node.nil),
                size_ := 3 }))

/-- C6: for every tree reachable from the empty tree by `insert`,
`insert_mult` and `erase` calls, the root, if present, is BLACK. -/
theorem reachable_root_black {comp : α → α → Bool} {t : RedBlackTree α}
    (h : Reachable comp t) : rootBlack t.root_ = true :=
  reachable_rootBlack h

theorem reachable_root_black_witness :
    rootBlack (Node.node 1 23 Color.BLACK
      (Node.node 4 1 Color.BLACK Node.nil Node.nil)
      (Node.node 3 23 Color.BLACK Node.nil Node.nil)) = true :=
  reachable_root_black
    (Reachable.erase 7
      (Reachable.insert 1 4
        (Reachable.insert_mult 23 3
          (Reachable.insert 7 2
            (Reachable.insert 23 1 Reachable.empty ⟨by decide, by decide, by decide⟩)
            ⟨by decide, by decide, by decide⟩)
          ⟨by decide, by decide, by decide⟩)
        ⟨by decide, by decide, by decide⟩)
      (by decide :
        erase natLess 7
            (insert natLess 1 4 (insert_mult natLess 23 3 (insert natLess 7 2
              (insert natLess 23 1 RedBlackTree.empty).1).1).1).1
          = Outcome.done
              { root_ := Node.node 1 23 Color.BLACK
                  (Node.node 4 1 Color.BLACK Node.nil Node.nil)
                  (Node.node 3 23 Color.BLACK Node.nil Node.nil),
                size_ := 3 }))

/-- C7: on a search-ordered tree, `insert` of a key equivalent to a stored key
returns the address of the node `find` designates, whose key is equivalent to
the given one, together with `false`, and leaves the tree unchanged: same
structure, keys, colours and size.  The comparator only has to be transitive,
so this covers `PairCompare`, under which two pairs with the same key and
different mapped values are equivalent: the stored pair stays in place. -/
theorem insert_duplicate_unchanged {comp : α → α → Bool}
    (htrans : ∀ a b c, comp a b = true → comp b c = true → comp a c = true)
    (t : RedBlackTree α) (h6 : BST comp t.root_) (key : α) (addr : Nat)
    (hk : ∃ k1 ∈ keys t.root_, comp key k1 = false ∧ comp k1 key = false) :
    ∃ a k c l r, find comp key t = Node.node a k c l r ∧
      comp key k = false ∧ comp k key = false ∧
      insert comp key addr t = (t, a, false) := by
  obtain ⟨a, k, c, l, r, hd, h1, h2⟩ :=
    descend_finds_equivalent htrans key t.root_ [] ((BST_iff_pairwise htrans _).1 h6) hk
  exact ⟨a, k, c, l, r, hd, h1, h2,
    insert_of_descend_node (y := (descend comp key t.root_ []).2) (by rw [← hd])⟩

theorem insert_duplicate_unchanged_witness :
    ∃ a k c l r,
      find (PairCompare natLess) (1, "duplicate")
          { root_ := Node.node 1 (1, "one") Color.BLACK Node.nil Node.nil, size_ := 1 }
        = Node.node a k c l r ∧
      PairCompare natLess (1, "duplicate") k = false ∧
      PairCompare natLess k (1, "duplicate") = false ∧
      insert (PairCompare natLess) (1, "duplicate") 2
          { root_ := Node.node 1 (1, "one") Color.BLACK Node.nil Node.nil, size_ := 1 }
        = ({ root_ := Node.node 1 (1, "one") Color.BLACK Node.nil Node.nil, size_ := 1 },
            a, false) :=
  insert_duplicate_unchanged (pairCompare_trans natLess_trans)
    { root_ := Node.node 1 (1, "one") Color.BLACK Node.nil Node.nil, size_ := 1 }
    (by simp [BST, keys, entries]) (1, "duplicate") 2
    ⟨(1, "one"), by simp [keys, entries], by decide, by decide⟩

/-- C8: for a tree reachable by `insert`/`erase` calls and a key that is not
stored, `insert` returns the address of the new node with `true`; that node
holds the key; `size()` grows by exactly 1; afterwards `find` of the key
returns that node, with the key in it; and every key that `find` located
before is still located. -/
theorem insert_find_round_trip {comp : α → α → Bool} (hc : StrictTotal comp)
    {t : RedBlackTree α} (hr : ReachableU comp t) (key : α) (addr : Nat)
    (hf : FreshAddr addr t.root_) (hk : key ∉ keys t.root_) :
    (insert comp key addr t).2 = (addr, true) ∧
    (addr, key) ∈ entries (insert comp key addr t).1.root_ ∧
    (∀ k1, (addr, k1) ∈ entries (insert comp key addr t).1.root_ → k1 = key) ∧
    (insert comp key addr t).1.size_ = t.size_ + 1 ∧
    (∃ c l r, find comp key (insert comp key addr t).1 = Node.node addr key c l r) ∧
    (∀ k1, find comp k1 t ≠ Node.nil →
      find comp k1 (insert comp key addr t).1 ≠ Node.nil) := by
  have ht := reachableU_pairwise hc hr
  have ht1 := insert_pairwise hc key addr t ht
  obtain ⟨e1, e2, h1, h2, hb, ha, _, hret⟩ := insert_absent hc key addr t ht hk
  have hsz := reachable_sized (reachableU_reachable hr)
  have hsz1 : Sized (insert comp key addr t).1 := sized_insert hsz hf
  have hfresh : addr ∉ e1.map Prod.fst ∧ addr ∉ e2.map Prod.fst := by
    have := hf.2.2
    rw [addrs, h1, List.map_append, List.mem_append, not_or] at this
    exact this
  have hk1 : key ∉ e1.map Prod.snd := by
    intro hm; have := hb key hm; rw [hc.irrefl] at this; cases this
  have hk2 : key ∉ e2.map Prod.snd := by
    intro hm; have := ha key hm; rw [hc.irrefl] at this; cases this
  have hkeys : keys (insert comp key addr t).1.root_
      = e1.map Prod.snd ++ key :: e2.map Prod.snd := by simp [keys, h2]
  have hkeys0 : keys t.root_ = e1.map Prod.snd ++ e2.map Prod.snd := by simp [keys, h1]
  refine ⟨hret, ?_, ?_, ?_, ?_, ?_⟩
  · rw [h2]; simp
  · intro k1 hm
    rw [h2, List.mem_append, List.mem_cons] at hm
    rcases hm with hm | hm | hm
    · exact absurd (List.mem_map_of_mem Prod.fst hm) hfresh.1
    · exact (Prod.mk.inj hm).2
    · exact absurd (List.mem_map_of_mem Prod.fst hm) hfresh.2
  · rw [hsz1.2.2, hsz.2.2, count_eq_length, count_eq_length, h1, h2]
    simp; omega
  · cases hfind : find comp key (insert comp key addr t).1 with
    | nil =>
      have := (find_eq_nil_iff hc key _ ht1).1 hfind
      rw [hkeys] at this
      exact absurd (by simp) this
    | node a k c l r =>
      obtain ⟨_, _, _, h4⟩ := descend_root hc key (insert comp key addr t).1.root_ ht1
      have hkk : k = key := h4 a k c l r hfind
      subst hkk
      have hm := find_node_mem hfind
      rw [h2, List.mem_append, List.mem_cons] at hm
      rcases hm with hm | hm | hm
      · exact absurd (List.mem_map_of_mem Prod.snd hm) hk1
      · rw [(Prod.mk.inj hm).1]; exact ⟨c, l, r, rfl⟩
      · exact absurd (List.mem_map_of_mem Prod.snd hm) hk2
  · intro k1 hne
    have hmem : k1 ∈ keys t.root_ := by
      by_contra hnot
      exact hne ((find_eq_nil_iff hc k1 t ht).2 hnot)
    intro hnil
    have := (find_eq_nil_iff hc k1 _ ht1).1 hnil
    apply this
    rw [hkeys]
    rw [hkeys0, List.mem_append] at hmem
    rcases hmem with hm | hm
    · exact List.mem_append_left _ hm
    · exact List.mem_append_right _ (List.mem_cons_of_mem _ hm)

theorem insert_find_round_trip_witness :
    (insert natLess 2 3 (insert natLess 1 2 (insert natLess 40 1 RedBlackTree.empty).1).1).2
        = (3, true) ∧
    (3, 2) ∈ entries
      (insert natLess 2 3 (insert natLess 1 2
        (insert natLess 40 1 RedBlackTree.empty).1).1).1.root_ ∧
    (∀ k1, (3, k1) ∈ entries
      (insert natLess 2 3 (insert natLess 1 2
        (insert natLess 40 1 RedBlackTree.empty).1).1).1.root_ → k1 = 2) ∧
    (insert natLess 2 3 (insert natLess 1 2
        (insert natLess 40 1 RedBlackTree.empty).1).1).1.size_
      = (insert natLess 1 2 (insert natLess 40 1 RedBlackTree.empty).1).1.size_ + 1 ∧
    (∃ c l r, find natLess 2
      (insert natLess 2 3 (insert natLess 1 2
        (insert natLess 40 1 RedBlackTree.empty).1).1).1 = Node.node 3 2 c l r) ∧
    (∀ k1, find natLess k1 (insert natLess 1 2 (insert natLess 40 1 RedBlackTree.empty).1).1
        ≠ Node.nil →
      find natLess k1 (insert natLess 2 3 (insert natLess 1 2
        (insert natLess 40 1 RedBlackTree.empty).1).1).1 ≠ Node.nil) :=
  insert_find_round_trip natLess_strictTotal
    (ReachableU.insert 1 2
      (ReachableU.insert 40 1 ReachableU.empty ⟨by decide, by decide, by decide⟩)
      ⟨by decide, by decide, by decide⟩)
    2 3 ⟨by decide, by decide, by decide⟩ (by decide)

/-- C9: for a tree that satisfies invariant 4 (equal black counts) and
invariant 6 (search-tree order, unique keys) and a stored key, `erase`
completes and `find` of that key then returns `nullptr`.  Invariants 2 and 3
are not needed. -/
theorem erase_find_round_trip {comp : α → α → Bool} (hc : StrictTotal comp)
    (t : RedBlackTree α) (h6 : BST comp t.root_) (h4 : blackBalanced t.root_ = true)
    (key : α) (hk : key ∈ keys t.root_) :
    ∃ t1, erase comp key t = Outcome.done t1 ∧ find comp key t1 = Node.nil := by
  have ht := (BST_iff_pairwise hc.trans _).1 h6
  obtain ⟨t1, he⟩ := erase_done_of_blackBalanced comp key t h4
  refine ⟨t1, he, ?_⟩
  obtain ⟨l1, l2, h1, h2, _⟩ := erase_stored hc ht hk he
  rw [find_eq_nil_iff hc key t1 (erase_pairwise key ht he), h2]
  rw [h1] at ht
  exact not_mem_of_pairwise_mid hc ht

theorem erase_find_round_trip_witness :
    ∃ t1, erase natLess 5
        { root_ := Node.node 1 5 Color.BLACK Node.nil Node.nil, size_ := 1 }
          = Outcome.done t1 ∧
      find natLess 5 t1 = Node.nil :=
  erase_find_round_trip natLess_strictTotal
    { root_ := Node.node 1 5 Color.BLACK Node.nil Node.nil, size_ := 1 }
    (by simp [BST, keys, entries]) (by decide) 5 (by decide)

/-- C10: for a tree that satisfies invariant 4 and invariant 6 (unique keys)
and a stored key, `erase` completes, the in-order key list afterwards is the
list before with that key taken out (also when the unlinked node is the
in-order successor whose key is copied into the target node), and `size()`
is decremented by exactly 1: in `std::size_t` arithmetic always, and as a
natural number whenever `size()` was a positive 64-bit value. -/
theorem erase_removes_exactly_key {comp : α → α → Bool} (hc : StrictTotal comp)
    (t : RedBlackTree α) (h6 : BST comp t.root_) (h4 : blackBalanced t.root_ = true)
    (key : α) (hk : key ∈ keys t.root_) :
    ∃ t1, erase comp key t = Outcome.done t1 ∧
      (∃ l1 l2, keys t.root_ = l1 ++ key :: l2 ∧ keys t1.root_ = l1 ++ l2) ∧
      (t1.size_ + 1) % 2 ^ 64 = t.size_ % 2 ^ 64 ∧
      (0 < t.size_ → t.size_ < 2 ^ 64 → t1.size_ + 1 = t.size_) := by
  have ht := (BST_iff_pairwise hc.trans _).1 h6
  obtain ⟨t1, he⟩ := erase_done_of_blackBalanced comp key t h4
  obtain ⟨l1, l2, h1, h2, h3⟩ := erase_stored hc ht hk he
  refine ⟨t1, he, ⟨l1, l2, h1, h2⟩, ?_, ?_⟩
  · rw [h3]; omega
  · intro h0 hlt
    rw [h3]; omega

theorem erase_removes_exactly_key_witness :
    ∃ t1, erase natLess 10
        { root_ := Node.node 1 10 Color.BLACK (Node.node 2 5 Color.RED Node.nil Node.nil)
            (Node.node 3 15 Color.RED Node.nil Node.nil), size_ := 3 }
          = Outcome.done t1 ∧
      (∃ l1 l2,
        keys (Node.node 1 10 Color.BLACK (Node.node 2 5 Color.RED Node.nil Node.nil)
            (Node.node 3 15 Color.RED Node.nil Node.nil)) = l1 ++ 10 :: l2 ∧
        keys t1.root_ = l1 ++ l2) ∧
      (t1.size_ + 1) % 2 ^ 64 = 3 % 2 ^ 64 ∧
      (0 < 3 → 3 < 2 ^ 64 → t1.size_ + 1 = 3) :=
  erase_removes_exactly_key natLess_strictTotal
    { root_ := Node.node 1 10 Color.BLACK (Node.node 2 5 Color.RED Node.nil Node.nil)
        (Node.node 3 15 Color.RED Node.nil Node.nil), size_ := 3 }
    (by simp [BST, keys, entries, natLess]) (by decide) 10 (by decide)

/-- C11: `erase` of a key that is not stored returns normally and leaves the
tree unchanged: same structure, keys, colours and size.  This holds for every
tree, the empty one included, and needs of the comparator only that two keys
neither of which is below the other are equal; the search-tree order of the
tree is not used. -/
theorem erase_absent_unchanged {comp : α → α → Bool}
    (htotal : ∀ a b, comp a b = false → comp b a = false → a = b)
    (t : RedBlackTree α) (key : α) (hk : key ∉ keys t.root_) :
    erase comp key t = Outcome.done t := by
  cases hx : descend comp key t.root_ [] with
  | mk x y =>
    cases x with
    | nil => exact erase_of_descend_nil hx
    | node a k c l r =>
      exfalso
      obtain ⟨h1, h2, h3⟩ :=
        descend_node_spec comp key t.root_ [] (a := a) (k := k) (c := c) (l := l) (r := r)
          (by rw [hx])
      have hkk := htotal _ _ h1 h2
      subst hkk
      exact hk (by simpa [keys] using List.mem_map_of_mem Prod.snd h3)

theorem erase_absent_unchanged_witness :
    erase natLess 3 { root_ := Node.node 1 5 Color.BLACK Node.nil Node.nil, size_ := 1 }
      = Outcome.done { root_ := Node.node 1 5 Color.BLACK Node.nil Node.nil, size_ := 1 } :=
  erase_absent_unchanged natLess_strictTotal.total
    { root_ := Node.node 1 5 Color.BLACK Node.nil Node.nil, size_ := 1 } 3 (by decide)

/-- C12: on a tree whose in-order key list is non-descending, `find` returns a
node exactly when some stored key is equivalent to the key looked for; the
node returned is a node of the tree whose key is equivalent to that key; and
`find` returns `nullptr` on the empty tree.  The comparator only has to be
negatively transitive (below `b` implies below `c` or `c` below `b`), which
every strict weak order is.  `find` is a function of the tree and the key
only: it has no access by which it could change the tree. -/
theorem find_membership {comp : α → α → Bool}
    (hcot : ∀ a b c, comp a b = true → comp a c = true ∨ comp c b = true)
    (t : RedBlackTree α) (hs : (keys t.root_).Pairwise (fun a b => comp b a = false))
    (key : α) :
    (find comp key t ≠ Node.nil ↔
      ∃ k1 ∈ keys t.root_, comp key k1 = false ∧ comp k1 key = false) ∧
    (∀ a k c l r, find comp key t = Node.node a k c l r →
      comp key k = false ∧ comp k key = false ∧ (a, k) ∈ entries t.root_) ∧
    find comp key RedBlackTree.empty = Node.nil := by
  refine ⟨⟨?_, ?_⟩, ?_, rfl⟩
  · intro hne
    cases hf : find comp key t with
    | nil => exact absurd hf hne
    | node a k c l r =>
      obtain ⟨h1, h2, h3⟩ := descend_node_spec comp key t.root_ [] hf
      exact ⟨k, by simpa [keys] using List.mem_map_of_mem Prod.snd h3, h1, h2⟩
  · intro hk
    obtain ⟨a, k, c, l, r, h⟩ := descend_finds_of_nondescending hcot key t.root_ [] hs hk
    unfold find
    rw [h]
    simp
  · intro a k c l r hf
    exact descend_node_spec comp key t.root_ [] hf

theorem find_membership_witness :
    (find natLess 23
        { root_ := Node.node 2 23 Color.BLACK (Node.node 1 23 Color.RED Node.nil Node.nil)
            (Node.node 3 23 Color.RED Node.nil Node.nil), size_ := 3 } ≠ Node.nil ↔
      ∃ k1 ∈ keys (Node.node 2 23 Color.BLACK (Node.node 1 23 Color.RED Node.nil Node.nil)
            (Node.node 3 23 Color.RED Node.nil Node.nil)),
        natLess 23 k1 = false ∧ natLess k1 23 = false) ∧
    (∀ a k c l r,
      find natLess 23
        { root_ := Node.node 2 23 Color.BLACK (Node.node 1 23 Color.RED Node.nil Node.nil)
            (Node.node 3 23 Color.RED Node.nil Node.nil), size_ := 3 } = Node.node a k c l r →
      natLess 23 k = false ∧ natLess k 23 = false ∧
        (a, k) ∈ entries (Node.node 2 23 Color.BLACK
          (Node.node 1 23 Color.RED Node.nil Node.nil)
          (Node.node 3 23 Color.RED Node.nil Node.nil))) ∧
    find natLess 23 RedBlackTree.empty = Node.nil :=
  find_membership (strictTotal_cotrans natLess_strictTotal)
    { root_ := Node.node 2 23 Color.BLACK (Node.node 1 23 Color.RED Node.nil Node.nil)
        (Node.node 3 23 Color.RED Node.nil Node.nil), size_ := 3 }
    (by decide) 23

/-- C13: for a non-empty sequence of keys inserted with `insert` into the empty
tree, the loop from `begin()` by `operator++` up to `end()` completes, and the
list of keys it visits is strictly ascending under the comparator, has no
repetition, contains exactly the inserted keys, and has length `size()`. -/
theorem sorted_iteration_unique {comp : α → α → Bool} (hc : StrictTotal comp)
    {ks : List α} {t : RedBlackTree α} (hb : Built comp ks t) (hne : ks ≠ []) :
    ∃ l, keysByIteration t = IterOutcome.done l ∧
      l.Pairwise (fun a b => comp a b = true) ∧ l.Nodup ∧
      (∀ k, k ∈ l ↔ k ∈ ks) ∧ l.length = t.size_ := by
  have hp := built_pairwise hc hb
  have hroot : t.root_ ≠ Node.nil := by
    apply root_ne_nil_of_keys_ne_nil
    obtain ⟨k, hk⟩ := List.exists_mem_of_ne_nil ks hne
    exact List.ne_nil_of_mem ((built_mem hc hb k).2 hk)
  refine ⟨keys t.root_, keysByIteration_eq t hroot, hp, pairwise_lt_nodup hc hp,
    built_mem hc hb, ?_⟩
  rw [(built_sized hb).2.2, count_eq_keys_length]

theorem sorted_iteration_unique_witness :
    ∃ l, keysByIteration
        (insert natLess 1 4 (insert natLess 2 3 (insert natLess 1 2
          (insert natLess 40 1 RedBlackTree.empty).1).1).1).1 = IterOutcome.done l ∧
      l.Pairwise (fun a b => natLess a b = true) ∧ l.Nodup ∧
      (∀ k, k ∈ l ↔ k ∈ [40, 1, 2, 1]) ∧
      l.length = (insert natLess 1 4 (insert natLess 2 3 (insert natLess 1 2
          (insert natLess 40 1 RedBlackTree.empty).1).1).1).1.size_ :=
  sorted_iteration_unique natLess_strictTotal
    (Built.snoc 1 4
      (Built.snoc 2 3
        (Built.snoc 1 2
          (Built.snoc 40 1 Built.nil ⟨by decide, by decide, by decide⟩)
          ⟨by decide, by decide, by decide⟩)
        ⟨by decide, by decide, by decide⟩)
      ⟨by decide, by decide, by decide⟩)
    (by decide)

/-- C14: for a non-empty sequence of keys inserted with `insert_mult` into the
empty tree, every call adds a node, so `size()` is the number of calls; the
loop from `begin()` by `operator++` up to `end()` completes, and the list of
keys it visits is non-descending and is a permutation of the inserted
sequence. -/
theorem sorted_iteration_multi {comp : α → α → Bool} (hc : StrictTotal comp)
    {ks : List α} {t : RedBlackTree α} (hb : BuiltMult comp ks t) (hne : ks ≠ []) :
    t.size_ = ks.length ∧
    ∃ l, keysByIteration t = IterOutcome.done l ∧
      l.Pairwise (fun a b => comp b a = false) ∧ l.Perm ks := by
  have hperm := builtMult_perm hb
  have hroot : t.root_ ≠ Node.nil := by
    apply root_ne_nil_of_keys_ne_nil
    intro h
    rw [h] at hperm
    exact hne (List.Perm.nil_eq hperm).symm
  refine ⟨?_, keys t.root_, keysByIteration_eq t hroot, builtMult_nondescending hc hb, hperm⟩
  rw [(builtMult_sized hb).2.2, count_eq_keys_length, hperm.length_eq]

theorem sorted_iteration_multi_witness :
    (insert_mult natLess 23 3 (insert_mult natLess 23 2
        (insert_mult natLess 23 1 RedBlackTree.empty).1).1).1.size_
      = [23, 23, 23].length ∧
    ∃ l, keysByIteration
        (insert_mult natLess 23 3 (insert_mult natLess 23 2
          (insert_mult natLess 23 1 RedBlackTree.empty).1).1).1 = IterOutcome.done l ∧
      l.Pairwise (fun a b => natLess b a = false) ∧ l.Perm [23, 23, 23] :=
  sorted_iteration_multi natLess_strictTotal
    (BuiltMult.snoc 23 3
      (BuiltMult.snoc 23 2
        (BuiltMult.snoc 23 1 BuiltMult.nil ⟨by decide, by decide, by decide⟩)
        ⟨by decide, by decide, by decide⟩)
      ⟨by decide, by decide, by decide⟩)
    (by decide)

/-- C15 as stated fails: after `insert_mult` of 23, 23, 23 the root holds 23
and so does its left child, which `rotateLeft(grandParent)` moved there, so the
left subtree of the root holds a key that is not strictly less than the key of
the root. -/
theorem insert_mult_equal_key_on_the_left :
    BuiltMult natLess [23, 23, 23] (insertMultAll natLess [23, 23, 23] 1 RedBlackTree.empty) ∧
    (insertMultAll natLess [23, 23, 23] 1 RedBlackTree.empty).root_
      = Node.node 2 23 Color.BLACK (Node.node 1 23 Color.RED Node.nil Node.nil)
          (Node.node 3 23 Color.RED Node.nil Node.nil) ∧
    ¬ BSTMult natLess (insertMultAll natLess [23, 23, 23] 1 RedBlackTree.empty).root_ := by
  refine ⟨?_, by decide, ?_⟩
  · exact BuiltMult.snoc 23 3
      (BuiltMult.snoc 23 2
        (BuiltMult.snoc 23 1 BuiltMult.nil ⟨by decide, by decide, by decide⟩)
        ⟨by decide, by decide, by decide⟩)
      ⟨by decide, by decide, by decide⟩
  · have hroot : (insertMultAll natLess [23, 23, 23] 1 RedBlackTree.empty).root_
        = Node.node 2 23 Color.BLACK (Node.node 1 23 Color.RED Node.nil Node.nil)
            (Node.node 3 23 Color.RED Node.nil Node.nil) := by decide
    rw [hroot]
    intro h
    have h1 := h.1 23 (by decide)
    exact absurd h1 (by decide)

/-- C15, amended: in every tree built by `insert_mult` calls from the empty
tree, at every node no key of the left subtree compares greater than the key
of the node and no key of the right subtree compares less than it (keys equal
to the key of the node may lie on either side); the in-order key list is
non-descending. -/
theorem insert_mult_order {comp : α → α → Bool} (hc : StrictTotal comp)
    {ks : List α} {t : RedBlackTree α} (hb : BuiltMult comp ks t) :
    BSTNonStrict comp t.root_ ∧ (keys t.root_).Pairwise (fun a b => comp b a = false) :=
  ⟨nonStrict_of_nondescending _ (builtMult_nondescending hc hb), builtMult_nondescending hc hb⟩

theorem insert_mult_order_witness :
    BSTNonStrict natLess
        (insert_mult natLess 123 5 (insert_mult natLess 23 4 (insert_mult natLess 23 3
          (insert_mult natLess 23 2 (insert_mult natLess 1 1
            RedBlackTree.empty).1).1).1).1).1.root_ ∧
      (keys (insert_mult natLess 123 5 (insert_mult natLess 23 4 (insert_mult natLess 23 3
          (insert_mult natLess 23 2 (insert_mult natLess 1 1
            RedBlackTree.empty).1).1).1).1).1.root_).Pairwise
        (fun a b => natLess b a = false) :=
  insert_mult_order natLess_strictTotal
    (BuiltMult.snoc 123 5
      (BuiltMult.snoc 23 4
        (BuiltMult.snoc 23 3
          (BuiltMult.snoc 23 2
            (BuiltMult.snoc 1 1 BuiltMult.nil ⟨by decide, by decide, by decide⟩)
            ⟨by decide, by decide, by decide⟩)
          ⟨by decide, by decide, by decide⟩)
        ⟨by decide, by decide, by decide⟩)
      ⟨by decide, by decide, by decide⟩)

/-- C16 (fails on the code): the tree built by `insert_mult` of 0, 2, 1, 0, 0
stores the key 0 three times.  `erase(0)` finds the root, unlinks its in-order
successor (the BLACK node 1, whose only child is the BLACK node 2) and calls
`eraseFixup` on that child; its sibling is RED, and after the rotation the new
sibling `x->parent->left` is absent, so the test `w->right` reads a field of an
absent node. -/
theorem erase_after_insert_mult_null_deref :
    BuiltMult natLess [0, 2, 1, 0, 0]
        (insertMultAll natLess [0, 2, 1, 0, 0] 1 RedBlackTree.empty) ∧
    keys (insertMultAll natLess [0, 2, 1, 0, 0] 1 RedBlackTree.empty).root_
      = [0, 0, 0, 1, 2] ∧
    (insertMultAll natLess [0, 2, 1, 0, 0] 1 RedBlackTree.empty).root_
      = Node.node 5 0 Color.BLACK
          (Node.node 4 0 Color.RED (Node.node 1 0 Color.BLACK Node.nil Node.nil) Node.nil)
          (Node.node 3 1 Color.BLACK Node.nil (Node.node 2 2 Color.BLACK Node.nil Node.nil)) ∧
    erase natLess 0 (insertMultAll natLess [0, 2, 1, 0, 0] 1 RedBlackTree.empty)
      = Outcome.nullDeref := by
  refine ⟨?_, by decide, by decide, by decide⟩
  exact BuiltMult.snoc 0 5
    (BuiltMult.snoc 0 4
      (BuiltMult.snoc 1 3
        (BuiltMult.snoc 2 2
          (BuiltMult.snoc 0 1 BuiltMult.nil ⟨by decide, by decide, by decide⟩)
          ⟨by decide, by decide, by decide⟩)
        ⟨by decide, by decide, by decide⟩)
      ⟨by decide, by decide, by decide⟩)
    ⟨by decide, by decide, by decide⟩

/-- C17: for an iterator positioned at a node `n` of a tree: when some node
follows `n` in in-order (`n` is not the maximum), `operator++` completes at a
node and `operator--` from there gives an iterator positioned at `n` again;
when some node precedes `n` (`n` is not the minimum), `operator--` completes at
a node and `operator++` from there gives an iterator positioned at `n` again.
The shape of the tree plays no part, so this holds in particular on the trees
reachable by `insert` and `erase`. -/
theorem incr_decr_symmetry (t : RedBlackTree α) (it : Iterator α) {a : Nat} {k : α}
    {c : Color} {l r : Node α} (h : it.current = Node.node a k c l r) :
    (keys r ++ keysAfter it.path ≠ [] →
      ∃ it1, it.incr = IterOutcome.done it1 ∧ it1.current ≠ Node.nil ∧
        it1.decr t = IterOutcome.done it) ∧
    (keys l ++ keysBefore it.path ≠ [] →
      ∃ it1, it.decr t = IterOutcome.done it1 ∧ it1.current ≠ Node.nil ∧
        it1.incr = IterOutcome.done it) := by
  constructor
  · intro hfol
    obtain ⟨it1, h1, h2, _, h4⟩ := incr_step t it h hfol
    exact ⟨it1, h1, h2, h4⟩
  · intro hpre
    obtain ⟨it1, h1, h2, _, h4, _⟩ := decr_step t it h hpre
    exact ⟨it1, h1, h2, h4⟩

theorem incr_decr_symmetry_witness :
    (∃ it1,
      Iterator.incr
          { current := Node.node 2 1 Color.BLACK Node.nil Node.nil,
            path := [Frame.L 3 2 Color.BLACK (Node.node 1 40 Color.RED Node.nil Node.nil)],
            tree := false } = IterOutcome.done it1 ∧
        it1.current ≠ Node.nil ∧
        it1.decr
            { root_ := Node.node 3 2 Color.BLACK (Node.node 2 1 Color.BLACK Node.nil Node.nil)
                (Node.node 1 40 Color.RED Node.nil Node.nil), size_ := 3 }
          = IterOutcome.done
              { current := Node.node 2 1 Color.BLACK Node.nil Node.nil,
                path := [Frame.L 3 2 Color.BLACK (Node.node 1 40 Color.RED Node.nil Node.nil)],
                tree := false }) ∧
    (∃ it1,
      Iterator.decr
          { root_ := Node.node 3 2 Color.BLACK (Node.node 2 1 Color.BLACK Node.nil Node.nil)
              (Node.node 1 40 Color.RED Node.nil Node.nil), size_ := 3 }
          { current := Node.node 1 40 Color.RED Node.nil Node.nil,
            path := [Frame.R 3 2 Color.BLACK (Node.node 2 1 Color.BLACK Node.nil Node.nil)],
            tree := false } = IterOutcome.done it1 ∧
        it1.current ≠ Node.nil ∧
        it1.incr
          = IterOutcome.done
              { current := Node.node 1 40 Color.RED Node.nil Node.nil,
                path := [Frame.R 3 2 Color.BLACK (Node.node 2 1 Color.BLACK Node.nil Node.nil)],
                tree := false }) :=
  ⟨(incr_decr_symmetry
      { root_ := Node.node 3 2 Color.BLACK (Node.node 2 1 Color.BLACK Node.nil Node.nil)
          (Node.node 1 40 Color.RED Node.nil Node.nil), size_ := 3 }
      { current := Node.node 2 1 Color.BLACK Node.nil Node.nil,
        path := [Frame.L 3 2 Color.BLACK (Node.node 1 40 Color.RED Node.nil Node.nil)],
        tree := false } rfl).1 (by decide),
   (incr_decr_symmetry
      { root_ := Node.node 3 2 Color.BLACK (Node.node 2 1 Color.BLACK Node.nil Node.nil)
          (Node.node 1 40 Color.RED Node.nil Node.nil), size_ := 3 }
      { current := Node.node 1 40 Color.RED Node.nil Node.nil,
        path := [Frame.R 3 2 Color.BLACK (Node.node 2 1 Color.BLACK Node.nil Node.nil)],
        tree := false } rfl).2 (by decide)⟩

/-- C18: on a tree reachable by `insert` and `erase` with `size() >= 1`, for
every `N` with `1 <= N <= size()`, `N` decrements of `end()` complete at the
node that holds the `N`-th largest key, having visited the `N` largest keys in
descending order, and `N` increments from there give `end()` again. -/
theorem reverse_walk_from_end {comp : α → α → Bool} {t : RedBlackTree α}
    (hr : ReachableU comp t) (N : Nat) (h1 : 1 ≤ N) (h2 : N ≤ t.size_) :
    ∃ it, decrN t N (end_ t) = IterOutcome.done it ∧ it.current ≠ Node.nil ∧
      keysUpTo it.current it.path = (keys t.root_).reverse.drop (N - 1) ∧
      ∃ it2, incrN N it = IterOutcome.done it2 ∧ it2 = end_ t ∧
        Iterator.eq it2 (end_ t) = true := by
  have hs := (reachable_sized (reachableU_reachable hr)).2.2
  obtain ⟨M, rfl⟩ : ∃ M, N = M + 1 := ⟨N - 1, by omega⟩
  obtain ⟨it, g1, g2, g3, g4⟩ := decrN_from_end t M (by omega)
  exact ⟨it, g1, g2, by simpa using g4, end_ t, g3, rfl, rfl⟩

theorem reverse_walk_from_end_witness :
    ∃ it,
      decrN (insert natLess 2 3 (insert natLess 1 2
          (insert natLess 40 1 RedBlackTree.empty).1).1).1 2
        (end_ (insert natLess 2 3 (insert natLess 1 2
          (insert natLess 40 1 RedBlackTree.empty).1).1).1) = IterOutcome.done it ∧
      it.current ≠ Node.nil ∧
      keysUpTo it.current it.path
        = (keys (insert natLess 2 3 (insert natLess 1 2
            (insert natLess 40 1 RedBlackTree.empty).1).1).1.root_).reverse.drop (2 - 1) ∧
      ∃ it2, incrN 2 it = IterOutcome.done it2 ∧
        it2 = end_ (insert natLess 2 3 (insert natLess 1 2
          (insert natLess 40 1 RedBlackTree.empty).1).1).1 ∧
        Iterator.eq it2 (end_ (insert natLess 2 3 (insert natLess 1 2
          (insert natLess 40 1 RedBlackTree.empty).1).1).1) = true :=
  reverse_walk_from_end
    (ReachableU.insert 2 3
      (ReachableU.insert 1 2
        (ReachableU.insert 40 1 ReachableU.empty ⟨by decide, by decide, by decide⟩)
        ⟨by decide, by decide, by decide⟩)
      ⟨by decide, by decide, by decide⟩)
    2 (by decide) (by decide)

/-- C19: on a non-empty tree reachable by `insert`, `insert_mult` and `erase`,
`operator--` on the iterator returned by `end()`, and likewise on the one
returned by `cend()`, completes at the rightmost node (no right child, reached
from the root by right links only), and no stored key is above the key of that
node. -/
theorem decr_end_is_maximum {comp : α → α → Bool} (hc : StrictTotal comp)
    {t : RedBlackTree α} (hr : Reachable comp t) (hne : t.root_ ≠ Node.nil) :
    ∃ a k c l rel,
      (end_ t).decr t = IterOutcome.done
        { current := Node.node a k c l Node.nil, path := rel, tree := true } ∧
      (cend t).decr t = IterOutcome.done
        { current := Node.node a k c l Node.nil, path := rel, tree := true } ∧
      zipUp (Node.node a k c l Node.nil) rel = t.root_ ∧ pathAfter rel = [] ∧
      k ∈ keys t.root_ ∧ ∀ x ∈ keys t.root_, comp k x = false := by
  obtain ⟨a, k, c, l, rel, h1, h2, h3, _, _⟩ := decr_end t hne
  have hs := reachable_nondescending hc hr
  have hk := congrArg keys h2
  rw [keys_zipUp, keys_node, keys_nil] at hk
  have ha : keysAfter rel = [] := by simp [keysAfter, h3]
  rw [ha, List.append_nil] at hk
  refine ⟨a, k, c, l, rel, h1, h1, h2, h3, ?_, ?_⟩
  · rw [← hk]; simp
  · intro x hx
    rw [← hk] at hs hx
    have hs2 : (keysBefore rel ++ keys l ++ [k]).Pairwise (fun a b => comp b a = false) := by
      simpa using hs
    rw [List.pairwise_append] at hs2
    have hx2 : x ∈ keysBefore rel ++ keys l ∨ x = k := by
      simpa [List.mem_append, or_assoc] using hx
    rcases hx2 with hx2 | rfl
    · exact hs2.2.2 x hx2 k (List.mem_singleton_self k)
    · exact hc.irrefl x

theorem decr_end_is_maximum_witness :
    ∃ a k c l rel,
      (end_ (insert_mult natLess 7 3 (insert natLess 9 2
          (insert natLess 7 1 RedBlackTree.empty).1).1).1).decr
        (insert_mult natLess 7 3 (insert natLess 9 2
          (insert natLess 7 1 RedBlackTree.empty).1).1).1
        = IterOutcome.done
            { current := Node.node a k c l Node.nil, path := rel, tree := true } ∧
      (cend (insert_mult natLess 7 3 (insert natLess 9 2
          (insert natLess 7 1 RedBlackTree.empty).1).1).1).decr
        (insert_mult natLess 7 3 (insert natLess 9 2
          (insert natLess 7 1 RedBlackTree.empty).1).1).1
        = IterOutcome.done
            { current := Node.node a k c l Node.nil, path := rel, tree := true } ∧
      zipUp (Node.node a k c l Node.nil) rel
        = (insert_mult natLess 7 3 (insert natLess 9 2
            (insert natLess 7 1 RedBlackTree.empty).1).1).1.root_ ∧
      pathAfter rel = [] ∧
      k ∈ keys (insert_mult natLess 7 3 (insert natLess 9 2
          (insert natLess 7 1 RedBlackTree.empty).1).1).1.root_ ∧
      ∀ x ∈ keys (insert_mult natLess 7 3 (insert natLess 9 2
          (insert natLess 7 1 RedBlackTree.empty).1).1).1.root_, natLess k x = false :=
  decr_end_is_maximum natLess_strictTotal
    (Reachable.insert_mult 7 3
      (Reachable.insert 9 2
        (Reachable.insert 7 1 Reachable.empty ⟨by decide, by decide, by decide⟩)
        ⟨by decide, by decide, by decide⟩)
      ⟨by decide, by decide, by decide⟩)
    (by decide)

/-- C20 (fails on the code): on the tree that holds the single key 5,
`begin()` returns an iterator whose member `tree` is null; after `size() = 1`
increment it compares equal to `end()`; `operator--` then executes
`current = tree->root_` through the null `tree`.  The iterator returned by
`end()` carries the tree and decrements to the node holding 5. -/
theorem decr_after_walk_from_begin_null_deref :
    begin { root_ := Node.node 1 5 Color.BLACK Node.nil Node.nil, size_ := 1 }
      = IterOutcome.done
          { current := Node.node 1 5 Color.BLACK Node.nil Node.nil, path := [],
            tree := false } ∧
    incrN 1 { current := Node.node 1 (5 : Nat) Color.BLACK Node.nil Node.nil, path := [],
              tree := false }
      = IterOutcome.done { current := Node.nil, path := [], tree := false } ∧
    Iterator.eq { current := (Node.nil : Node Nat), path := [], tree := false }
      (end_ { root_ := Node.node 1 5 Color.BLACK Node.nil Node.nil, size_ := 1 }) = true ∧
    Iterator.decr { root_ := Node.node 1 5 Color.BLACK Node.nil Node.nil, size_ := 1 }
        { current := Node.nil, path := [], tree := false }
      = IterOutcome.nullDeref ∧
    (end_ { root_ := Node.node 1 5 Color.BLACK Node.nil Node.nil, size_ := 1 }).decr
        { root_ := Node.node 1 5 Color.BLACK Node.nil Node.nil, size_ := 1 }
      = IterOutcome.done
          { current := Node.node 1 5 Color.BLACK Node.nil Node.nil, path := [],
            tree := true } := by
  decide

/-- C21: on every tree, `operator*` and `operator++` applied to the iterator
or const-iterator that `end()` and `cend()` return, and to any iterator whose
`current` is null, throw `std::runtime_error`; `operator*` applied to an
iterator positioned at a node completes and returns the key of that node. -/
theorem end_sentinel_misuse_raises (t : RedBlackTree α) :
    (end_ t).deref = IterOutcome.runtimeError ∧
    (end_ t).incr = IterOutcome.runtimeError ∧
    (cend t).deref = IterOutcome.runtimeError ∧
    (cend t).incr = IterOutcome.runtimeError ∧
    (∀ (p : Path α) (tr : Bool),
      Iterator.deref { current := Node.nil, path := p, tree := tr }
          = IterOutcome.runtimeError ∧
        Iterator.incr { current := (Node.nil : Node α), path := p, tree := tr }
          = IterOutcome.runtimeError) ∧
    (∀ (a : Nat) (k : α) (c : Color) (l r : Node α) (p : Path α) (tr : Bool),
      Iterator.deref { current := Node.node a k c l r, path := p, tree := tr }
        = IterOutcome.done k) :=
  ⟨rfl, rfl, rfl, rfl, fun _ _ => ⟨rfl, rfl⟩, fun _ _ _ _ _ _ _ => rfl⟩

/-- C22 (as stated, fails): on the tree that holds the single key 5,
`operator--` applied to the iterator `begin()` returns does not throw; it
completes and leaves an iterator whose `current` is null. -/
theorem decr_begin_single_key_no_error :
    begin { root_ := Node.node 1 (5 : Nat) Color.BLACK Node.nil Node.nil, size_ := 1 }
      = IterOutcome.done
          { current := Node.node 1 5 Color.BLACK Node.nil Node.nil, path := [],
            tree := false } ∧
    Iterator.decr { root_ := Node.node 1 (5 : Nat) Color.BLACK Node.nil Node.nil, size_ := 1 }
        { current := Node.node 1 5 Color.BLACK Node.nil Node.nil, path := [], tree := false }
      = IterOutcome.done { current := Node.nil, path := [], tree := false } ∧
    Iterator.decr { root_ := Node.node 1 (5 : Nat) Color.BLACK Node.nil Node.nil, size_ := 1 }
        { current := Node.node 1 5 Color.BLACK Node.nil Node.nil, path := [], tree := false }
      ≠ IterOutcome.runtimeError := by
  decide

/-- C22 (amended): on every non-empty tree, `operator--` applied to the
iterator positioned at the minimum element, the one `begin()` and `cbegin()`
return, raises no error: it completes, and the iterator it leaves has a null
`current`, so that it compares equal to `end()`. -/
theorem decr_begin_yields_null_iterator (t : RedBlackTree α) (ht : t.root_ ≠ Node.nil) :
    ∃ it, begin t = IterOutcome.done it ∧ cbegin t = it ∧
      keysFrom it.current it.path = keys t.root_ ∧
      it.decr t = IterOutcome.done { current := Node.nil, path := [], tree := false } ∧
      Iterator.eq { current := Node.nil, path := [], tree := false } (end_ t) = true := by
  obtain ⟨ya, yk, yc, yr, rel, h1, h2, h3⟩ := treeMinimum_spec t.root_ [] ht
  rw [List.append_nil] at h1
  obtain ⟨it0, hb, _, _, hkf⟩ := begin_keysFrom t ht
  refine ⟨{ current := Node.node ya yk yc Node.nil yr, path := rel, tree := false },
    ?_, ?_, ?_, ?_, rfl⟩
  · cases hr : t.root_ with
    | nil => exact absurd hr ht
    | node a k c l r =>
      rw [hr] at h1
      simp [begin, hr, h1]
  · simp [cbegin, h1]
  · have hb2 : begin t = IterOutcome.done
        { current := Node.node ya yk yc Node.nil yr, path := rel, tree := false } := by
      cases hr : t.root_ with
      | nil => exact absurd hr ht
      | node a k c l r =>
        rw [hr] at h1
        simp [begin, hr, h1]
    rw [hb2] at hb
    cases hb
    exact hkf
  · simp [Iterator.decr, climbFromLeft_allLeft _ rel h3]

theorem decr_begin_yields_null_iterator_witness :
    ∃ it, begin (insertAll natLess [2, 1, 3] 1 RedBlackTree.empty) = IterOutcome.done it ∧
      cbegin (insertAll natLess [2, 1, 3] 1 RedBlackTree.empty) = it ∧
      keysFrom it.current it.path
        = keys (insertAll natLess [2, 1, 3] 1 RedBlackTree.empty).root_ ∧
      it.decr (insertAll natLess [2, 1, 3] 1 RedBlackTree.empty)
        = IterOutcome.done { current := Node.nil, path := [], tree := false } ∧
      Iterator.eq { current := Node.nil, path := [], tree := false }
        (end_ (insertAll natLess [2, 1, 3] 1 RedBlackTree.empty)) = true :=
  decr_begin_yields_null_iterator (insertAll natLess [2, 1, 3] 1 RedBlackTree.empty)
    (by decide)

/-- C23: the tree the copy constructor produces has the shape of the source
with the same key and colour at every position, and each of its nodes is one
of the allocations the call makes; the `parent` fields that `copyNodes` leaves
are those of a tree in which every child designates the node holding it and
the root designates nothing; `find` stops at corresponding nodes in the copy
and in the source, and iteration from `begin()` gives the same result on
both. -/
theorem copy_is_structural_deep_copy (comp : α → α → Bool) (alloc : Nat → Nat)
    (leftover : Nat) (t : RedBlackTree α) :
    shape (RedBlackTree.copy alloc leftover t).root_ = shape t.root_ ∧
    (∀ a ∈ addrs (RedBlackTree.copy alloc leftover t).root_,
      ∃ i, i < count t.root_ ∧ a = alloc i) ∧
    (copyNodesP alloc (withParents none t.root_) 0).1
      = withParents none (RedBlackTree.copy alloc leftover t).root_ ∧
    (∀ key, shape (find comp key (RedBlackTree.copy alloc leftover t))
      = shape (find comp key t)) ∧
    keys (RedBlackTree.copy alloc leftover t).root_ = keys t.root_ ∧
    keysByIteration (RedBlackTree.copy alloc leftover t) = keysByIteration t := by
  have hs : shape (RedBlackTree.copy alloc leftover t).root_ = shape t.root_ :=
    shape_copyNodes alloc t.root_ 0
  refine ⟨hs, ?_, ?_, fun key => shape_find_congr comp key hs, ?_, keysByIteration_congr hs⟩
  · intro a ha
    obtain ⟨i, _, h2, h3⟩ := (copyNodes_allocations alloc t.root_ 0).2 a ha
    exact ⟨i, by omega, h3⟩
  · rw [copyNodesP_withParents]; rfl
  · rw [← keys_shape, hs, keys_shape]

/-- C24 (fails on the code): the copy constructor assigns `root_` only.  For
the tree that holds the single key 1, whose `size()` is 1, the copy has one
node and its `size()` is whatever the uninitialised member holds. -/
theorem copy_leaves_size_uninitialised (leftover : Nat) :
    (insert natLess 1 1 RedBlackTree.empty).1.size_ = 1 ∧
    count (RedBlackTree.copy (fun i => 100 + i) leftover
      (insert natLess 1 1 RedBlackTree.empty).1).root_ = 1 ∧
    (RedBlackTree.copy (fun i => 100 + i) leftover
      (insert natLess 1 1 RedBlackTree.empty).1).size_ = leftover ∧
    (RedBlackTree.copy (fun i => 100 + i) 0
      (insert natLess 1 1 RedBlackTree.empty).1).size_
        ≠ (insert natLess 1 1 RedBlackTree.empty).1.size_ :=
  ⟨by decide, rfl, rfl, by decide⟩

/-- C25: after the move construction of a tree from `t`, and after the move
assignment of `t` to a different tree `d`, the destination has the former
`root_` and `size_` of `t` (so the same nodes, keys and colours), and `t` has
no root and `size()` zero: it is the empty tree. -/
theorem move_leaves_source_empty (d t : RedBlackTree α) :
    (RedBlackTree.move t).1 = t ∧
    (RedBlackTree.move t).2.root_ = Node.nil ∧ (RedBlackTree.move t).2.size_ = 0 ∧
    (RedBlackTree.moveAssign d t).1 = t ∧
    (RedBlackTree.moveAssign d t).2.root_ = Node.nil ∧
    (RedBlackTree.moveAssign d t).2.size_ = 0 ∧
    (RedBlackTree.move t).2 = RedBlackTree.empty ∧
    (RedBlackTree.moveAssign d t).2 = RedBlackTree.empty :=
  ⟨rfl, rfl, rfl, rfl, rfl, rfl, rfl, rfl⟩

/-- C26: after `a.swap(b)` the tree `a` has the former `root_` and `size_` of
`b` and `b` those of `a`; a second `a.swap(b)` restores both. -/
theorem swap_exchanges_contents (a b : RedBlackTree α) :
    (a.swap b).1 = b ∧ (a.swap b).2 = a ∧
    (a.swap b).1.swap (a.swap b).2 = (a, b) :=
  ⟨rfl, rfl, rfl⟩

/-- C27: `insert` of the first `m` keys of 0, 1, ..., n-1 into the empty tree,
and of the first `m` keys of the sequence i/2 for i = 0, ..., n-1, leaves a
tree with a BLACK root, without a RED node that has a RED child, and with the
same number of BLACK nodes on every path from the root to an absent child;
this for every `n` and every number `m` of steps. -/
theorem ascending_insertion_stays_balanced (n m next : Nat) :
    (rootBlack (insertAll natLess ((List.range n).take m) next RedBlackTree.empty).root_ = true ∧
      noRedRed (insertAll natLess ((List.range n).take m) next RedBlackTree.empty).root_ = true ∧
      blackBalanced
        (insertAll natLess ((List.range n).take m) next RedBlackTree.empty).root_ = true) ∧
    (rootBlack (insertAll natLess (((List.range n).map (fun i => i / 2)).take m) next
        RedBlackTree.empty).root_ = true ∧
      noRedRed (insertAll natLess (((List.range n).map (fun i => i / 2)).take m) next
        RedBlackTree.empty).root_ = true ∧
      blackBalanced (insertAll natLess (((List.range n).map (fun i => i / 2)).take m) next
        RedBlackTree.empty).root_ = true) :=
  ⟨insertAll_nondescending_balanced _ next RedBlackTree.empty (nondescending_range n m)
      (fun k hk => by simp [RedBlackTree.empty, keys_nil] at hk) rfl rfl rfl,
    insertAll_nondescending_balanced _ next RedBlackTree.empty (nondescending_range_half n m)
      (fun k hk => by simp [RedBlackTree.empty, keys_nil] at hk) rfl rfl rfl⟩

/-- C28 (fails on the code): in the map that holds the single entry
1 -> "one", the key 1 is at the root.  `insert_or_assign(1, "uno")` returns
the flag `false` and leaves the tree as it was, because the new node is
assigned to the temporary that `getRoot()` returns; `at(1)` still gives
"one". -/
theorem insert_or_assign_at_root_keeps_old_value :
    map.at_ natLess 1 (insert (PairCompare natLess) (1, "one") 1 RedBlackTree.empty).1
      = some "one" ∧
    (map.insert_or_assign natLess 1 "uno" 2
      (insert (PairCompare natLess) (1, "one") 1 RedBlackTree.empty).1).2.2 = false ∧
    (map.insert_or_assign natLess 1 "uno" 2
      (insert (PairCompare natLess) (1, "one") 1 RedBlackTree.empty).1).1
      = (insert (PairCompare natLess) (1, "one") 1 RedBlackTree.empty).1 ∧
    map.at_ natLess 1 (map.insert_or_assign natLess 1 "uno" 2
      (insert (PairCompare natLess) (1, "one") 1 RedBlackTree.empty).1).1 = some "one" := by
  decide

/-- C29 (fails on the code): in the map built by inserting the keys 1, 2, 3, 4
the node of key 3 is the right child of the root and holds the node of key 4.
`insert_or_assign(3, 33)` puts a new node without children in its place: the
key 4 is no longer contained, three nodes remain reachable and `size()` is
still 4. -/
theorem insert_or_assign_drops_subtree :
    map.contains natLess 4
      (insertAll (PairCompare natLess) [(1, 10), (2, 20), (3, 30), (4, 40)] 1
        RedBlackTree.empty) = true ∧
    map.at_ natLess 4
      (insertAll (PairCompare natLess) [(1, 10), (2, 20), (3, 30), (4, 40)] 1
        RedBlackTree.empty) = some 40 ∧
    map.contains natLess 4 (map.insert_or_assign natLess 3 33 5
      (insertAll (PairCompare natLess) [(1, 10), (2, 20), (3, 30), (4, 40)] 1
        RedBlackTree.empty)).1 = false ∧
    map.at_ natLess 4 (map.insert_or_assign natLess 3 33 5
      (insertAll (PairCompare natLess) [(1, 10), (2, 20), (3, 30), (4, 40)] 1
        RedBlackTree.empty)).1 = none ∧
    (map.insert_or_assign natLess 3 33 5
      (insertAll (PairCompare natLess) [(1, 10), (2, 20), (3, 30), (4, 40)] 1
        RedBlackTree.empty)).1.size_ = 4 ∧
    count (map.insert_or_assign natLess 3 33 5
      (insertAll (PairCompare natLess) [(1, 10), (2, 20), (3, 30), (4, 40)] 1
        RedBlackTree.empty)).1.root_ = 3 := by
  decide

/-- C30 (fails on the code): `a.merge(b)` with an empty set `b` starts its loop
with `b.begin()`, which reads `root_->left` through the null `root_`; this for
every set `a`. -/
theorem merge_empty_source_null_deref (comp : α → α → Bool) (next : Nat)
    (a : RedBlackTree α) :
    set.merge comp next a RedBlackTree.empty = IterOutcome.nullDeref := rfl

/-- C31: after `push(x1); ...; push(xn)` on the empty queue and `k < n` calls
of `pop()`, every call completing, `front()` returns the element pushed at
position `k` (counted from 0, so x(k+1)), `back()` returns the last element
pushed and `size()` is `n - k`; and `push(v)` on a queue that holds the
elements `es` completes, makes `back()` return `v`, leaves `front()` as it was
when the queue was not empty, and appends one node to the chain. -/
theorem queue_first_in_first_out {τ : Type} (xs : List τ) (next k : Nat) (h0 : 0 < next)
    (hlen : next + xs.length ≤ 2 ^ 64) (hk : k < xs.length)
    (q : list τ) (es : List (Nat × τ)) (v : τ) (addr : Nat) (hq : ListRepr q es)
    (hf : FreshNode addr q) :
    (∃ q1 q2, pushAll xs next list.init = ListOutcome.done q1 ∧
      popN k q1 = ListOutcome.done q2 ∧
      queue.front q2 = ListOutcome.done (xs.get ⟨k, hk⟩) ∧
      queue.back q2
        = ListOutcome.done (xs.getLast (List.ne_nil_of_length_pos (Nat.zero_lt_of_lt hk))) ∧
      queue.size q2 = xs.length - k) ∧
    (∃ q3, queue.push v addr q = ListOutcome.done q3 ∧
      queue.back q3 = ListOutcome.done v ∧
      (es ≠ [] → queue.front q3 = queue.front q) ∧
      ListRepr q3 (es ++ [(addr, v)])) := by
  constructor
  · obtain ⟨q1, hq1, hr1⟩ := pushAll_repr xs next list.init [] listRepr_init h0 hlen
      (fun a ha => by simp at ha)
    rw [List.nil_append] at hr1
    obtain ⟨q2, hq2, hr2⟩ := popN_repr k q1 _ hr1 (by rw [withAddrs_length]; omega)
    have hdata : ((withAddrs next xs).drop k).map Prod.snd = xs.drop k := by
      rw [List.map_drop, withAddrs_snd]
    refine ⟨q1, q2, hq1, hq2, ?_, ?_, ?_⟩
    · refine front_data hr2 _ ?_
      rw [hdata, List.head?_drop, List.getElem?_eq_getElem hk]
      rfl
    · refine back_data hr2 _ ?_
      rw [hdata, List.getLast?_drop, if_neg (by omega), List.getLast?_eq_getLast]
    · show q2.size_ = _
      rw [hr2.2.2.2.1, List.length_drop, withAddrs_length]
  · obtain ⟨q3, h1, h2⟩ := push_back_repr hq v addr hf
    refine ⟨q3, h1, back_repr h2, ?_, h2⟩
    intro hne
    cases es with
    | nil => exact absurd rfl hne
    | cons e es =>
      obtain ⟨a, x⟩ := e
      show q3.front = q.front
      rw [front_repr hq, front_repr (by simpa using h2)]

theorem queue_first_in_first_out_witness :
    (∃ q1 q2, pushAll [10, 20, 30] 1 list.init = ListOutcome.done q1 ∧
      popN 1 q1 = ListOutcome.done q2 ∧
      queue.front q2 = ListOutcome.done ([10, 20, 30].get ⟨1, by decide⟩) ∧
      queue.back q2
        = ListOutcome.done (([10, 20, 30] : List Nat).getLast
            (List.ne_nil_of_length_pos (Nat.zero_lt_of_lt (by decide : 1 < 3)))) ∧
      queue.size q2 = ([10, 20, 30] : List Nat).length - 1) ∧
    (∃ q3, queue.push 7 2
        { heap := fun a => if a = 1 then some { data := 5, next := 0, prev := 0 } else none,
          head_ := 1, tail_ := 1, size_ := 1 } = ListOutcome.done q3 ∧
      queue.back q3 = ListOutcome.done 7 ∧
      ([(1, 5)] ≠ [] → queue.front q3
        = queue.front
            { heap := fun a => if a = 1 then some { data := 5, next := 0, prev := 0 } else none,
              head_ := 1, tail_ := 1, size_ := 1 }) ∧
      ListRepr q3 ([(1, 5)] ++ [(2, 7)])) :=
  queue_first_in_first_out [10, 20, 30] 1 1 (by decide) (by decide) (by decide)
    { heap := fun a => if a = 1 then some { data := 5, next := 0, prev := 0 } else none,
      head_ := 1, tail_ := 1, size_ := 1 }
    [(1, 5)] 7 2
    ⟨⟨rfl, trivial⟩, rfl, rfl, rfl, by decide, by decide,
      fun a ha => by
        simp only [List.map_cons, List.map_nil, List.mem_singleton] at ha
        show (if a = 1 then _ else none) = none
        rw [if_neg ha]⟩
    ⟨by decide, by decide, rfl⟩

/-- C32: on a stack that holds the elements `es`, `push(v)` completes, after
it `top()` returns `v` and `size()` is one more, and a following `pop()`
completes and gives back the stack as it was before the `push` (the same
nodes, `head_`, `tail_` and `size_`); `insert_many_front(a1, ..., am)` does
what `push(a1); ...; push(am)` does. -/
theorem stack_last_in_first_out {τ : Type} (s : list τ) (es : List (Nat × τ)) (v : τ)
    (addr : Nat) (hs : ListRepr s es) (hf : FreshNode addr s) :
    (∃ s1, stack.push v addr s = ListOutcome.done s1 ∧
      stack.top s1 = ListOutcome.done v ∧
      stack.size s1 = stack.size s + 1 ∧
      stack.pop s1 = ListOutcome.done s) ∧
    (∀ (args : List τ) (next : Nat),
      stack.insert_many_front args next s = stack.pushAll args next s) := by
  refine ⟨?_, fun args next => insert_many_front_eq_pushAll args next s⟩
  obtain ⟨s1, h1, h2⟩ := push_back_repr hs v addr hf
  obtain ⟨s2, h3, h4⟩ := stack_pop_repr h2
  refine ⟨s1, h1, back_repr h2, ?_, ?_⟩
  · show s1.size_ = s.size_ + 1
    rw [h2.2.2.2.1, hs.2.2.2.1, List.length_append, List.length_singleton]
  · rw [h3, listRepr_unique h4 hs]

theorem stack_last_in_first_out_witness :
    (∃ s1, stack.push 7 2
        { heap := fun a => if a = 1 then some { data := 5, next := 0, prev := 0 } else none,
          head_ := 1, tail_ := 1, size_ := 1 } = ListOutcome.done s1 ∧
      stack.top s1 = ListOutcome.done 7 ∧
      stack.size s1 = stack.size
        { heap := fun a => if a = 1 then some { data := (5 : Nat), next := 0, prev := 0 }
            else none,
          head_ := 1, tail_ := 1, size_ := 1 } + 1 ∧
      stack.pop s1 = ListOutcome.done
        { heap := fun a => if a = 1 then some { data := 5, next := 0, prev := 0 } else none,
          head_ := 1, tail_ := 1, size_ := 1 }) ∧
    (∀ (args : List Nat) (next : Nat),
      stack.insert_many_front args next
          { heap := fun a => if a = 1 then some { data := 5, next := 0, prev := 0 } else none,
            head_ := 1, tail_ := 1, size_ := 1 }
        = stack.pushAll args next
          { heap := fun a => if a = 1 then some { data := 5, next := 0, prev := 0 } else none,
            head_ := 1, tail_ := 1, size_ := 1 }) :=
  stack_last_in_first_out
    { heap := fun a => if a = 1 then some { data := 5, next := 0, prev := 0 } else none,
      head_ := 1, tail_ := 1, size_ := 1 }
    [(1, 5)] 7 2
    ⟨⟨rfl, trivial⟩, rfl, rfl, rfl, by decide, by decide,
      fun a ha => by
        simp only [List.map_cons, List.map_nil, List.mem_singleton] at ha
        show (if a = 1 then _ else none) = none
        rw [if_neg ha]⟩
    ⟨by decide, by decide, rfl⟩

/-- C33: on a stack or queue that holds no element, `pop()` and `top()` of the
stack and `pop()` of the queue throw `std::out_of_range`, before anything is
written, so the container still holds no element; on a stack or queue that
holds at least one element, `pop()` and `top()` of the stack and `pop()`,
`front()` and `back()` of the queue complete. -/
theorem empty_adapters_reject_removal {τ : Type} (s t : list τ) (es : List (Nat × τ))
    (hs : ListRepr s []) (ht : ListRepr t es) (hne : es ≠ []) :
    stack.pop s = ListOutcome.outOfRange ∧ stack.top s = ListOutcome.outOfRange ∧
    queue.pop s = ListOutcome.outOfRange ∧ s = list.init ∧
    (∃ t1, stack.pop t = ListOutcome.done t1) ∧ (∃ x, stack.top t = ListOutcome.done x) ∧
    (∃ t1, queue.pop t = ListOutcome.done t1) ∧ (∃ x, queue.front t = ListOutcome.done x) ∧
    (∃ x, queue.back t = ListOutcome.done x) := by
  have hinit : s = list.init := listRepr_unique hs listRepr_init
  subst hinit
  refine ⟨rfl, rfl, rfl, rfl, ?_, ?_, ?_, ?_, ?_⟩
  · rcases List.eq_nil_or_concat es with rfl | ⟨es0, e, rfl⟩
    · exact absurd rfl hne
    · obtain ⟨a, x⟩ := e
      rw [List.concat_eq_append] at ht
      obtain ⟨t1, h1, _⟩ := stack_pop_repr ht
      exact ⟨t1, h1⟩
  · rcases List.eq_nil_or_concat es with rfl | ⟨es0, e, rfl⟩
    · exact absurd rfl hne
    · obtain ⟨a, x⟩ := e
      rw [List.concat_eq_append] at ht
      exact ⟨x, back_repr ht⟩
  · cases es with
    | nil => exact absurd rfl hne
    | cons e es =>
      obtain ⟨a, x⟩ := e
      obtain ⟨t1, h1, _⟩ := queue_pop_repr ht
      exact ⟨t1, h1⟩
  · cases es with
    | nil => exact absurd rfl hne
    | cons e es =>
      obtain ⟨a, x⟩ := e
      exact ⟨x, front_repr ht⟩
  · rcases List.eq_nil_or_concat es with rfl | ⟨es0, e, rfl⟩
    · exact absurd rfl hne
    · obtain ⟨a, x⟩ := e
      rw [List.concat_eq_append] at ht
      exact ⟨x, back_repr ht⟩

theorem empty_adapters_reject_removal_witness :
    stack.pop (list.init : list Nat) = ListOutcome.outOfRange ∧
    stack.top (list.init : list Nat) = ListOutcome.outOfRange ∧
    queue.pop (list.init : list Nat) = ListOutcome.outOfRange ∧
    (list.init : list Nat) = list.init ∧
    (∃ t1, stack.pop
        { heap := fun a => if a = 1 then some { data := (5 : Nat), next := 0, prev := 0 }
            else none,
          head_ := 1, tail_ := 1, size_ := 1 } = ListOutcome.done t1) ∧
    (∃ x, stack.top
        { heap := fun a => if a = 1 then some { data := (5 : Nat), next := 0, prev := 0 }
            else none,
          head_ := 1, tail_ := 1, size_ := 1 } = ListOutcome.done x) ∧
    (∃ t1, queue.pop
        { heap := fun a => if a = 1 then some { data := (5 : Nat), next := 0, prev := 0 }
            else none,
          head_ := 1, tail_ := 1, size_ := 1 } = ListOutcome.done t1) ∧
    (∃ x, queue.front
        { heap := fun a => if a = 1 then some { data := (5 : Nat), next := 0, prev := 0 }
            else none,
          head_ := 1, tail_ := 1, size_ := 1 } = ListOutcome.done x) ∧
    (∃ x, queue.back
        { heap := fun a => if a = 1 then some { data := (5 : Nat), next := 0, prev := 0 }
            else none,
          head_ := 1, tail_ := 1, size_ := 1 } = ListOutcome.done x) :=
  empty_adapters_reject_removal list.init
    { heap := fun a => if a = 1 then some { data := 5, next := 0, prev := 0 } else none,
      head_ := 1, tail_ := 1, size_ := 1 }
    [(1, 5)] listRepr_init
    ⟨⟨rfl, trivial⟩, rfl, rfl, rfl, by decide, by decide,
      fun a ha => by
        simp only [List.map_cons, List.map_nil, List.mem_singleton] at ha
        show (if a = 1 then _ else none) = none
        rw [if_neg ha]⟩
    (by decide)

/-- C34: `rotateLeft(x)` at a node `x` of the tree `t` that has a right child
`y`, and `rotateRight(y)` at a node `y` of the tree `u` that has a left child
`x`, complete; they store the rotated subtree in the link that held the node
(`root_` for the root, otherwise the same child link of its parent), put `x`
below `y` as its left child (`y` below `x` as its right child), and leave the
in-order sequence of nodes and keys, the colour of every node and `size_` as
they were. -/
theorem rotations_preserve_order_and_size (t u : RedBlackTree α) (p q : Path α)
    (xa ya : Nat) (xk yk : α) (xc yc : Color) (a b c : Node α)
    (ht : t.root_ = zipUp (Node.node xa xk xc a (Node.node ya yk yc b c)) p)
    (hu : u.root_ = zipUp (Node.node ya yk yc (Node.node xa xk xc a b) c) q) :
    (∃ t1, rotateLeftAt (Node.node xa xk xc a (Node.node ya yk yc b c)) p t = Outcome.done t1 ∧
      t1.root_ = zipUp (Node.node ya yk yc (Node.node xa xk xc a b) c) p ∧
      (p = [] → t1.root_ = Node.node ya yk yc (Node.node xa xk xc a b) c) ∧
      (∀ f up, p = f :: up →
        t1.root_ = zipUp (f.plug (Node.node ya yk yc (Node.node xa xk xc a b) c)) up) ∧
      entries t1.root_ = entries t.root_ ∧ keys t1.root_ = keys t.root_ ∧
      colours t1.root_ = colours t.root_ ∧ t1.size_ = t.size_) ∧
    (∃ u1, rotateRightAt (Node.node ya yk yc (Node.node xa xk xc a b) c) q u = Outcome.done u1 ∧
      u1.root_ = zipUp (Node.node xa xk xc a (Node.node ya yk yc b c)) q ∧
      (q = [] → u1.root_ = Node.node xa xk xc a (Node.node ya yk yc b c)) ∧
      (∀ f up, q = f :: up →
        u1.root_ = zipUp (f.plug (Node.node xa xk xc a (Node.node ya yk yc b c))) up) ∧
      entries u1.root_ = entries u.root_ ∧ keys u1.root_ = keys u.root_ ∧
      colours u1.root_ = colours u.root_ ∧ u1.size_ = u.size_) := by
  have e1 : entries (zipUp (Node.node ya yk yc (Node.node xa xk xc a b) c) p) = entries t.root_ := by
    rw [ht]; simp [entries_zipUp, entries]
  have e2 : entries (zipUp (Node.node xa xk xc a (Node.node ya yk yc b c)) q) = entries u.root_ := by
    rw [hu]; simp [entries_zipUp, entries]
  refine ⟨⟨_, rfl, rfl, ?_, ?_, e1, ?_, ?_, rfl⟩, ⟨_, rfl, rfl, ?_, ?_, e2, ?_, ?_, rfl⟩⟩
  · intro h; subst h; rfl
  · intro f up h; subst h; rfl
  · simp only [keys]; exact congrArg _ e1
  · show colours (zipUp _ p) = _
    rw [ht]; simp [colours_zipUp, colours]
  · intro h; subst h; rfl
  · intro f up h; subst h; rfl
  · simp only [keys]; exact congrArg _ e2
  · show colours (zipUp _ q) = _
    rw [hu]; simp [colours_zipUp, colours]

theorem rotations_preserve_order_and_size_witness :
    (∃ t1, rotateLeftAt (Node.node 1 10 Color.RED Node.nil
          (Node.node 2 20 Color.RED Node.nil Node.nil))
        [Frame.L 3 30 Color.BLACK Node.nil]
        { root_ := Node.node 3 30 Color.BLACK
            (Node.node 1 10 Color.RED Node.nil (Node.node 2 20 Color.RED Node.nil Node.nil))
            Node.nil, size_ := 3 } = Outcome.done t1 ∧
      t1.root_ = zipUp (Node.node 2 20 Color.RED
          (Node.node 1 10 Color.RED Node.nil Node.nil) Node.nil)
        [Frame.L 3 30 Color.BLACK Node.nil] ∧
      ([Frame.L 3 30 Color.BLACK (Node.nil : Node Nat)] = [] → t1.root_
        = Node.node 2 20 Color.RED (Node.node 1 10 Color.RED Node.nil Node.nil) Node.nil) ∧
      (∀ f up, [Frame.L 3 30 Color.BLACK (Node.nil : Node Nat)] = f :: up →
        t1.root_ = zipUp (f.plug (Node.node 2 20 Color.RED
          (Node.node 1 10 Color.RED Node.nil Node.nil) Node.nil)) up) ∧
      entries t1.root_ = entries (Node.node 3 30 Color.BLACK
            (Node.node 1 10 Color.RED Node.nil (Node.node 2 20 Color.RED Node.nil Node.nil))
            Node.nil) ∧
      keys t1.root_ = keys (Node.node 3 30 Color.BLACK
            (Node.node 1 10 Color.RED Node.nil (Node.node 2 20 Color.RED Node.nil Node.nil))
            Node.nil) ∧
      colours t1.root_ = colours (Node.node 3 30 Color.BLACK
            (Node.node 1 10 Color.RED Node.nil (Node.node 2 20 Color.RED Node.nil Node.nil))
            Node.nil) ∧
      t1.size_ = 3) ∧
    (∃ u1, rotateRightAt (Node.node 2 20 Color.RED
          (Node.node 1 10 Color.RED Node.nil Node.nil) Node.nil) []
        { root_ := Node.node 2 20 Color.RED
            (Node.node 1 10 Color.RED Node.nil Node.nil) Node.nil, size_ := 2 }
          = Outcome.done u1 ∧
      u1.root_ = zipUp (Node.node 1 10 Color.RED Node.nil
          (Node.node 2 20 Color.RED Node.nil Node.nil)) [] ∧
      (([] : Path Nat) = [] → u1.root_
        = Node.node 1 10 Color.RED Node.nil (Node.node 2 20 Color.RED Node.nil Node.nil)) ∧
      (∀ f up, ([] : Path Nat) = f :: up →
        u1.root_ = zipUp (f.plug (Node.node 1 10 Color.RED Node.nil
          (Node.node 2 20 Color.RED Node.nil Node.nil))) up) ∧
      entries u1.root_ = entries (Node.node 2 20 Color.RED
            (Node.node 1 10 Color.RED Node.nil Node.nil) Node.nil) ∧
      keys u1.root_ = keys (Node.node 2 20 Color.RED
            (Node.node 1 10 Color.RED Node.nil Node.nil) Node.nil) ∧
      colours u1.root_ = colours (Node.node 2 20 Color.RED
            (Node.node 1 10 Color.RED Node.nil Node.nil) Node.nil) ∧
      u1.size_ = 2) :=
  rotations_preserve_order_and_size
    { root_ := Node.node 3 30 Color.BLACK
        (Node.node 1 10 Color.RED Node.nil (Node.node 2 20 Color.RED Node.nil Node.nil))
        Node.nil, size_ := 3 }
    { root_ := Node.node 2 20 Color.RED
        (Node.node 1 10 Color.RED Node.nil Node.nil) Node.nil, size_ := 2 }
    [Frame.L 3 30 Color.BLACK Node.nil] [] 1 2 10 20 Color.RED Color.RED Node.nil Node.nil
    Node.nil rfl rfl

/-- C35 (fails on the code): `insert` of 40, 1, 2 runs the triangle case with
`z` = 2, `parent` = 1, `grandParent` = 40.  After `z = parent; rotateLeft(z)`
the variable `parent` still designates the node 1, which is made BLACK;
`rotateRight(grandParent)` then leaves the node 2 above the BLACK node 1 and
the RED node 40, and only the final `root_->color = BLACK` makes the node 2
BLACK.  The tree is not the BLACK root 2 with RED children 1 and 40. -/
theorem triangle_case_recolours_stale_parent :
    insertFixupStep (Node.node 3 2 Color.RED Node.nil Node.nil)
        [Frame.R 2 1 Color.RED Node.nil, Frame.L 1 40 Color.BLACK Node.nil]
      = Outcome.done (some (Node.node 2 1 Color.BLACK Node.nil Node.nil,
          [Frame.L 3 2 Color.RED (Node.node 1 40 Color.RED Node.nil Node.nil)])) ∧
    (insertAll natLess [40, 1, 2] 1 RedBlackTree.empty).root_
      = Node.node 3 2 Color.BLACK (Node.node 2 1 Color.BLACK Node.nil Node.nil)
          (Node.node 1 40 Color.RED Node.nil Node.nil) ∧
    (insertAll natLess [40, 1, 2] 1 RedBlackTree.empty).root_
      ≠ Node.node 3 2 Color.BLACK (Node.node 2 1 Color.RED Node.nil Node.nil)
          (Node.node 1 40 Color.RED Node.nil Node.nil) := by
  decide

/-- C37: on a tree with the same number of BLACK nodes on every path
(invariant 4; invariants 2 and 3 are not needed), when `erase(key)` finds a
node, the node `x` that takes the place of the unlinked node is absent or RED.
The loop of `eraseFixup(x)` then ends without entering the sibling cases:
with `x` absent it sets `x = root_`, otherwise it leaves `x` where it is; the
fixup makes that one node BLACK; and `erase` completes with the tree in which
`x` has taken the place of the unlinked node, changed by nothing but that
recolouring. -/
theorem erase_fixup_never_rebalances (comp : α → α → Bool) (key : α) (t : RedBlackTree α)
    (h4 : blackBalanced t.root_ = true) {za : Nat} {zk : α} {zc : Color} {zl zr : Node α}
    {pz : Path α} (hd : descend comp key t.root_ [] = (Node.node za zk zc zl zr, pz)) :
    ∃ yc x path, eraseSplice za zc zl zr pz = Outcome.done (yc, x, path) ∧
      (x = Node.nil ∨ isRed x = true) ∧
      (x = Node.nil →
        eraseFixupLoop path.length x path = Outcome.done (zipUp Node.nil path, []) ∧
        eraseFixup x path = Outcome.done (setBlack (zipUp Node.nil path))) ∧
      (isRed x = true →
        eraseFixupLoop path.length x path = Outcome.done (x, path) ∧
        eraseFixup x path = Outcome.done (zipUp (setBlack x) path)) ∧
      (yc = Color.RED → erase comp key t
        = Outcome.done { root_ := zipUp x path, size_ := (t.size_ + 2 ^ 64 - 1) % 2 ^ 64 }) ∧
      (yc = Color.BLACK → x = Node.nil → erase comp key t
        = Outcome.done { root_ := setBlack (zipUp Node.nil path),
                         size_ := (t.size_ + 2 ^ 64 - 1) % 2 ^ 64 }) ∧
      (yc = Color.BLACK → isRed x = true → erase comp key t
        = Outcome.done { root_ := zipUp (setBlack x) path,
                         size_ := (t.size_ + 2 ^ 64 - 1) % 2 ^ 64 }) := by
  have hz := descend_zipUp comp key t.root_ []
  rw [hd] at hz
  simp only at hz
  have hbz : (blackHeight (Node.node za zk zc zl zr)).isSome = true := by
    apply blackHeight_zipUp_some _ pz
    rw [hz]; exact h4
  obtain ⟨yc, x, path, hs, hcase⟩ := eraseSplice_cases za zc zl zr pz
  have hx : x = Node.nil ∨ isRed x = true := by
    rcases hcase with ⟨_, _, _, hc⟩ | ⟨ya, yk, rel, _, hy, _, _⟩
    · rcases hc with ⟨hl, rfl⟩ | ⟨hr, rfl⟩
      · exact (sibling_of_nil_nil_or_red hbz).1 hl
      · exact (sibling_of_nil_nil_or_red hbz).2 hr
    · obtain ⟨n, hn⟩ := Option.isSome_iff_exists.1 hbz
      obtain ⟨m, _, hr⟩ := blackHeight_node_some hn
      have hby : (blackHeight (Node.node ya yk yc Node.nil x)).isSome = true := by
        apply blackHeight_zipUp_some _ rel
        rw [hy, hr]; rfl
      exact (sibling_of_nil_nil_or_red hby).1 rfl
  have hnil : x = Node.nil →
      eraseFixupLoop path.length x path = Outcome.done (zipUp Node.nil path, []) ∧
      eraseFixup x path = Outcome.done (setBlack (zipUp Node.nil path)) := by
    intro h
    subst h
    have h1 : eraseFixupLoop path.length Node.nil path
        = Outcome.done (zipUp Node.nil path, []) := by
      cases path <;> simp [eraseFixupLoop, zipUp]
    exact ⟨h1, by simp [eraseFixup, h1, zipUp]⟩
  have hred : isRed x = true →
      eraseFixupLoop path.length x path = Outcome.done (x, path) ∧
      eraseFixup x path = Outcome.done (zipUp (setBlack x) path) := by
    intro h
    cases x with
    | nil => simp [isRed] at h
    | node a k c l r =>
      cases c with
      | BLACK => simp [isRed] at h
      | RED =>
        have h1 : eraseFixupLoop path.length (Node.node a k Color.RED l r) path
            = Outcome.done (Node.node a k Color.RED l r, path) := by
          cases path <;> simp [eraseFixupLoop]
        exact ⟨h1, by simp [eraseFixup, h1]⟩
  refine ⟨yc, x, path, hs, hx, hnil, hred, ?_, ?_, ?_⟩
  · intro hyc; subst hyc
    simp only [erase, hd, hs]
  · intro hyc h; subst hyc
    simp only [erase, hd, hs, (hnil h).2]
  · intro hyc h; subst hyc
    simp only [erase, hd, hs, (hred h).2]

theorem erase_fixup_never_rebalances_witness :
    ∃ yc x path, eraseSplice 3 Color.BLACK
        (Node.nil : Node Nat) (Node.node 4 20 Color.RED Node.nil Node.nil)
        [Frame.R 1 10 Color.BLACK (Node.node 2 5 Color.BLACK Node.nil Node.nil)]
        = Outcome.done (yc, x, path) ∧
      (x = Node.nil ∨ isRed x = true) ∧
      (x = Node.nil →
        eraseFixupLoop path.length x path = Outcome.done (zipUp Node.nil path, []) ∧
        eraseFixup x path = Outcome.done (setBlack (zipUp Node.nil path))) ∧
      (isRed x = true →
        eraseFixupLoop path.length x path = Outcome.done (x, path) ∧
        eraseFixup x path = Outcome.done (zipUp (setBlack x) path)) ∧
      (yc = Color.RED → erase natLess 15
          { root_ := Node.node 1 10 Color.BLACK (Node.node 2 5 Color.BLACK Node.nil Node.nil)
              (Node.node 3 15 Color.BLACK Node.nil
                (Node.node 4 20 Color.RED Node.nil Node.nil)), size_ := 4 }
        = Outcome.done { root_ := zipUp x path, size_ := (4 + 2 ^ 64 - 1) % 2 ^ 64 }) ∧
      (yc = Color.BLACK → x = Node.nil → erase natLess 15
          { root_ := Node.node 1 10 Color.BLACK (Node.node 2 5 Color.BLACK Node.nil Node.nil)
              (Node.node 3 15 Color.BLACK Node.nil
                (Node.node 4 20 Color.RED Node.nil Node.nil)), size_ := 4 }
        = Outcome.done { root_ := setBlack (zipUp Node.nil path),
                         size_ := (4 + 2 ^ 64 - 1) % 2 ^ 64 }) ∧
      (yc = Color.BLACK → isRed x = true → erase natLess 15
          { root_ := Node.node 1 10 Color.BLACK (Node.node 2 5 Color.BLACK Node.nil Node.nil)
              (Node.node 3 15 Color.BLACK Node.nil
                (Node.node 4 20 Color.RED Node.nil Node.nil)), size_ := 4 }
        = Outcome.done { root_ := zipUp (setBlack x) path,
                         size_ := (4 + 2 ^ 64 - 1) % 2 ^ 64 }) :=
  @erase_fixup_never_rebalances Nat natLess 15
    { root_ := Node.node 1 10 Color.BLACK (Node.node 2 5 Color.BLACK Node.nil Node.nil)
        (Node.node 3 15 Color.BLACK Node.nil
          (Node.node 4 20 Color.RED Node.nil Node.nil)), size_ := 4 }
    (by decide) 3 15 Color.BLACK Node.nil (Node.node 4 20 Color.RED Node.nil Node.nil)
    [Frame.R 1 10 Color.BLACK (Node.node 2 5 Color.BLACK Node.nil Node.nil)] (by decide)

/-- C38 (fails on the code): the calls insert 3, 1, 5, 0; erase 5; insert 5, 6,
7; erase 7; erase 6 complete and build a tree in which the BLACK node 1 is the
only child of the node 3, itself the left child of the root 5, whose right
link is null.  `erase(3)` hands the BLACK node 1 to `eraseFixup`; it is the
left child of the root, the sibling `w = x->parent->right` is null, and
`w->color` reads through it. -/
theorem erase_reachable_tree_null_deref :
    erase natLess 5 (insertAll natLess [3, 1, 5, 0] 1 RedBlackTree.empty)
      = Outcome.done
          { root_ := Node.node 1 3 Color.BLACK
              (Node.node 2 1 Color.BLACK (Node.node 4 0 Color.RED Node.nil Node.nil) Node.nil)
              Node.nil, size_ := 3 } ∧
    erase natLess 7 (insertAll natLess [5, 6, 7] 5
        { root_ := Node.node 1 3 Color.BLACK
            (Node.node 2 1 Color.BLACK (Node.node 4 0 Color.RED Node.nil Node.nil) Node.nil)
            Node.nil, size_ := 3 })
      = Outcome.done
          { root_ := Node.node 5 5 Color.BLACK
              (Node.node 1 3 Color.BLACK
                (Node.node 2 1 Color.BLACK (Node.node 4 0 Color.RED Node.nil Node.nil) Node.nil)
                Node.nil)
              (Node.node 6 6 Color.BLACK Node.nil Node.nil), size_ := 5 } ∧
    erase natLess 6
        { root_ := Node.node 5 5 Color.BLACK
            (Node.node 1 3 Color.BLACK
              (Node.node 2 1 Color.BLACK (Node.node 4 0 Color.RED Node.nil Node.nil) Node.nil)
              Node.nil)
            (Node.node 6 6 Color.BLACK Node.nil Node.nil), size_ := 5 }
      = Outcome.done
          { root_ := Node.node 5 5 Color.BLACK
              (Node.node 1 3 Color.BLACK
                (Node.node 2 1 Color.BLACK (Node.node 4 0 Color.RED Node.nil Node.nil) Node.nil)
                Node.nil)
              Node.nil, size_ := 4 } ∧
    erase natLess 3
        { root_ := Node.node 5 5 Color.BLACK
            (Node.node 1 3 Color.BLACK
              (Node.node 2 1 Color.BLACK (Node.node 4 0 Color.RED Node.nil Node.nil) Node.nil)
              Node.nil)
            Node.nil, size_ := 4 }
      = Outcome.nullDeref := by
  decide

/-- C39: from every position of a real node `z`, one iteration of the loop of
`insertFixup` completes, so every rotation it calls finds the child it pivots
on; when the loop continues, the new `z` is a real node with two ancestors
fewer after a recolouring (RED uncle) and one ancestor fewer after the
rotations (uncle absent or BLACK); the loop has therefore ended after at most
as many iterations as `z` has ancestors; and the tree it ends with has a root,
which `root_->color = BLACK` can colour. -/
theorem insertFixup_terminates_and_is_total (za : Nat) (zk : α) (zc : Color) (zl zr : Node α)
    (p : Path α) :
    (∃ r, insertFixupStep (Node.node za zk zc zl zr) p = Outcome.done r) ∧
    (∀ z1 p1, insertFixupStep (Node.node za zk zc zl zr) p = Outcome.done (some (z1, p1)) →
      z1 ≠ Node.nil ∧
      ∃ f g up, p = f :: g :: up ∧ f.color = Color.RED ∧
        ((∃ ga gk gc y, (g = Frame.L ga gk gc y ∨ g = Frame.R ga gk gc y) ∧ isRed y = true ∧
            p1 = up) ∨
         (∃ ga gk gc y, (g = Frame.L ga gk gc y ∨ g = Frame.R ga gk gc y) ∧ isRed y = false ∧
            ∃ f1, p1 = f1 :: up))) ∧
    (∀ n, insertFixupLoop (n + 1) (Node.node za zk zc zl zr) p =
      match insertFixupStep (Node.node za zk zc zl zr) p with
      | Outcome.done (some s) => insertFixupLoop n s.1 s.2
      | _ => (Node.node za zk zc zl zr, p)) ∧
    insertFixupStep (insertFixupLoop p.length (Node.node za zk zc zl zr) p).1
      (insertFixupLoop p.length (Node.node za zk zc zl zr) p).2 = Outcome.done none ∧
    zipUp (insertFixupLoop p.length (Node.node za zk zc zl zr) p).1
      (insertFixupLoop p.length (Node.node za zk zc zl zr) p).2 ≠ Node.nil ∧
    insertFixup (Node.node za zk zc zl zr) p ≠ Node.nil := by
  obtain ⟨g1, g2, _⟩ := insertFixupLoop_exits p.length (Node.node za zk zc zl zr) p (by simp)
    (le_refl _)
  have hroot := zipUp_ne_nil _ (insertFixupLoop p.length (Node.node za zk zc zl zr) p).2 g1
  refine ⟨insertFixupStep_total za zk zc zl zr p,
    fun z1 p1 h => insertFixupStep_depth za zk zc zl zr p z1 p1 h,
    fun n => insertFixupLoop_step n za zk zc zl zr p, g2, hroot, ?_⟩
  simp only [insertFixup]
  intro h
  cases hz : zipUp (insertFixupLoop p.length (Node.node za zk zc zl zr) p).1
      (insertFixupLoop p.length (Node.node za zk zc zl zr) p).2 with
  | nil => exact hroot hz
  | node a k c l r => rw [hz] at h; simp [setBlack] at h

/-- C40 (fails on the code): on the empty tree `begin()` starts with
`min = root_` and evaluates `min->left` through the null pointer, while
`cbegin()`, whose loop tests `min` first, returns the null position, which
compares equal to `end()`. -/
theorem begin_empty_tree_null_deref :
    begin (RedBlackTree.empty : RedBlackTree α) = IterOutcome.nullDeref ∧
    cbegin (RedBlackTree.empty : RedBlackTree α)
      = { current := Node.nil, path := [], tree := false } ∧
    Iterator.eq (cbegin (RedBlackTree.empty : RedBlackTree α))
      (end_ (RedBlackTree.empty : RedBlackTree α)) = true :=
  ⟨rfl, rfl, rfl⟩

/-- C36: on every heap tree reachable from the empty tree by `insert`,
`insert_mult` and `erase` calls that complete, the root has no parent, each
existing child of a node has that node as its `parent`, and climbing the
`parent` links from any node reaches the root. -/
theorem parent_links_stay_consistent (comp : α → α → Bool) (H : HTree α)
    (h : HReachable comp H) :
    ParentsConsistent H ∧ ∀ a n, H.heap a = some n → ∃ k, climb H k a = some H.root_ :=
  ⟨lays_parentsConsistent (lays_reachable h), fun _ _ hn => lays_climb (lays_reachable h) hn⟩

theorem parent_links_stay_consistent_witness :
    ParentsConsistent afterErase40 ∧
      ∀ a n, afterErase40.heap a = some n →
        ∃ k, climb afterErase40 k a = some afterErase40.root_ :=
  parent_links_stay_consistent natLess afterErase40
    (@HReachable.erase Nat natLess 40 8 afterInsert2.1 afterErase40
      (@HReachable.insert Nat natLess 2 3 8 afterInsert1.1 afterInsert2
        (@HReachable.insert Nat natLess 1 2 8 afterInsertMult40.1 afterInsert1
          (@HReachable.insert_mult Nat natLess 40 1 8 HTree.empty afterInsertMult40
            HReachable.empty (by decide) rfl rfl)
          (by decide) rfl rfl)
        (by decide) rfl rfl)
      rfl)

end s21
